import Mathlib

/-!
# NovaLang front end: lexer, parser

A shallow embedding of `src/nova_lang` (lexer.cpp, Parser.cpp, token.hpp, ast.hpp)
together with theorems about it.

Modelling conventions
* a `std::string` is a `List Char`; one `Char` stands for one C++ `char`.  The
  `<cctype>` predicates are the ones of the "C" locale (ASCII letters and digits);
* the `int` counters `line` and `col` are natural numbers (signed overflow is
  undefined behaviour in C++, so the model is about texts shorter than `2^31` chars);
* a C++ exception is the `error` outcome; every `while` loop and every recursive
  descent function carries a recursion bound, and `outOfFuel` is the outcome of a
  run that reached the bound.  `outOfFuel` is never the outcome of a `throw`.
-/

namespace NovaLang

/-! ## Outcomes -/

/-- Outcome of a modelled function: a returned value, a thrown exception, or no
outcome: the recursion bound of the model was reached (or, in `declare_var`, the C++
code has undefined behaviour). -/
inductive Outcome (ε α : Type) where
  | ok : α → Outcome ε α
  | error : ε → Outcome ε α
  | outOfFuel : Outcome ε α
  deriving DecidableEq, Repr

/-- Sequencing of outcomes: exceptions and bound exhaustion propagate. -/
def Outcome.bind {ε α β : Type} (x : Outcome ε α) (f : α → Outcome ε β) : Outcome ε β :=
  match x with
  | .ok a => f a
  | .error e => .error e
  | .outOfFuel => .outOfFuel

instance {ε : Type} : Monad (Outcome ε) where
  pure := Outcome.ok
  bind := Outcome.bind

/-- Whether an outcome is a given exception is decidable when equality of exceptions
is, whatever the type of the values. -/
instance Outcome.decEqError {ε α : Type} [DecidableEq ε] (x : Outcome ε α) (e : ε) :
    Decidable (x = .error e) :=
  match x with
  | .error e2 =>
    if h : e2 = e then isTrue (by rw [h]) else isFalse (fun h2 => h (Outcome.error.inj h2))
  | .ok _ => isFalse (fun h => by cases h)
  | .outOfFuel => isFalse (fun h => by cases h)

/-! ## Tokens (token.hpp) -/

/-- The enumeration `TokenType` of token.hpp, in declaration order. -/
inductive TokenType where
  | EOF_T | IDENT | NUMBER | STRING | BOOL
  | START | END | SHOW | TAKE | WHEN | ELSEWHEN | ELSE | LOOP | BREAK | FUNC | BACK
  | NUM | TEXT | FLAG | TRUE_T | FALSE_T
  | PLUS | MINUS | STAR | SLASH
  | EQ | EQEQ | NOTEQ | GT | LT | GTEQ | LTEQ
  | ASSIGN | COMMA | LPAREN | RPAREN | LBRACE | RBRACE | TO
  deriving DecidableEq, Repr

/-- The struct `Token` of token.hpp. -/
structure Token where
  type : TokenType
  value : List Char
  line : Nat
  col : Nat
  deriving DecidableEq, Repr

/-! ## Lexer (lexer.cpp) -/

/-- The two exceptions `Lexer::tokenize` throws; each is a `std::runtime_error`
whose only payload is its message, see `LexError.what`. -/
inductive LexError where
  | unterminatedString
  | unexpectedCharacter (c : Char)
  deriving DecidableEq, Repr

/-- The message of a lexical error: `"Unterminated string"`, or
`"Unexpected character: "` with the character pushed at its end. -/
def LexError.what : LexError → List Char
  | .unterminatedString => "Unterminated string".toList
  | .unexpectedCharacter c => "Unexpected character: ".toList ++ [c]

/-- The data members of class `Lexer`. -/
structure Lexer where
  text : List Char
  pos : Nat
  line : Nat
  col : Nat
  deriving DecidableEq, Repr

/-- The initial state set up by the constructor `Lexer::Lexer`. -/
def Lexer.new (s : List Char) : Lexer := ⟨s, 0, 1, 1⟩

/-- `Lexer::peek`: the character under the cursor, NUL at or past the end. -/
def Lexer.peek (lx : Lexer) : Char :=
  if h : lx.pos < lx.text.length then lx.text[lx.pos] else '\x00'

/-- `Lexer::advanceChar`: returns the character under the cursor and moves on,
counting lines and columns. -/
def Lexer.advanceChar (lx : Lexer) : Char × Lexer :=
  let c := lx.peek
  if c = '\n' then (c, { lx with pos := lx.pos + 1, line := lx.line + 1, col := 1 })
  else (c, { lx with pos := lx.pos + 1, col := lx.col + 1 })

/-- `Lexer::startsWith`. -/
def Lexer.startsWith (lx : Lexer) (s : List Char) : Bool :=
  if lx.pos + s.length > lx.text.length then false
  else decide ((lx.text.drop lx.pos).take s.length = s)

/-- The keyword table `kw` of `Lexer::tokenize`. -/
def kw : List (List Char × TokenType) :=
  [ ("start".toList, .START), ("end".toList, .END), ("show".toList, .SHOW),
    ("take".toList, .TAKE), ("when".toList, .WHEN), ("elsewhen".toList, .ELSEWHEN),
    ("else".toList, .ELSE), ("loop".toList, .LOOP), ("break".toList, .BREAK),
    ("func".toList, .FUNC), ("back".toList, .BACK), ("num".toList, .NUM),
    ("text".toList, .TEXT), ("flag".toList, .FLAG), ("to".toList, .TO),
    ("true".toList, .BOOL), ("false".toList, .BOOL) ]

/-- The lookup `kw.find(lower)` in a table without duplicate keys. -/
def kwFind (key : List Char) : List (List Char × TokenType) → Option TokenType
  | [] => none
  | (k, t) :: rest => if k = key then some t else kwFind key rest

/-- The comment loop `while (peek() != '\n' && peek() != '\0') advanceChar();`. -/
def skipComment : Nat → Lexer → Outcome LexError Lexer
  | 0, _ => .outOfFuel
  | n + 1, lx =>
    if lx.peek ≠ '\n' ∧ lx.peek ≠ '\x00' then skipComment n lx.advanceChar.2
    else .ok lx

/-- The number loop `while (std::isdigit(peek())) num.push_back(advanceChar());`. -/
def scanNumber : Nat → Lexer → List Char → Outcome LexError (Lexer × List Char)
  | 0, _, _ => .outOfFuel
  | n + 1, lx, num =>
    if lx.peek.isDigit then scanNumber n lx.advanceChar.2 (num ++ [lx.advanceChar.1])
    else .ok (lx, num)

/-- The identifier loop
`while (std::isalnum(peek()) || peek() == '_') id.push_back(advanceChar());`. -/
def scanIdent : Nat → Lexer → List Char → Outcome LexError (Lexer × List Char)
  | 0, _, _ => .outOfFuel
  | n + 1, lx, id =>
    if lx.peek.isAlphanum ∨ lx.peek = '_' then
      scanIdent n lx.advanceChar.2 (id ++ [lx.advanceChar.1])
    else .ok (lx, id)

/-- The string loop `while (peek() != '"' && peek() != '\0') ...` with its escape
decoding. -/
def scanString : Nat → Lexer → List Char → Outcome LexError (Lexer × List Char)
  | 0, _, _ => .outOfFuel
  | n + 1, lx, s =>
    if lx.peek ≠ '"' ∧ lx.peek ≠ '\x00' then
      let ch := lx.advanceChar.1
      let lx1 := lx.advanceChar.2
      if ch = '\\' ∧ lx1.peek ≠ '\x00' then
        let esc := lx1.advanceChar.1
        let lx2 := lx1.advanceChar.2
        if esc = 'n' then scanString n lx2 (s ++ ['\n'])
        else if esc = '"' then scanString n lx2 (s ++ ['"'])
        else scanString n lx2 (s ++ [esc])
      else scanString n lx1 (s ++ [ch])
    else .ok (lx, s)

/-- The token emitted for a scanned word `id`: the keyword or boolean token with
the case-folded spelling when the folded word is in `kw`, an identifier with the
original spelling otherwise. -/
def wordToken (id : List Char) (start_line start_col : Nat) : Token :=
  let lower := id.map Char.toLower
  match kwFind lower kw with
  | some tt =>
    if tt = .BOOL then ⟨.BOOL, lower, start_line, start_col⟩
    else ⟨tt, lower, start_line, start_col⟩
  | none => ⟨.IDENT, id, start_line, start_col⟩

/-- The `switch (c)` over the single-character operators and punctuation: the
token kind of `c`, or `none` for the `default:` label. -/
def singleCharKind (c : Char) : Option TokenType :=
  if c = '+' then some .PLUS
  else if c = '-' then some .MINUS
  else if c = '*' then some .STAR
  else if c = '/' then some .SLASH
  else if c = '=' then some .ASSIGN
  else if c = '>' then some .GT
  else if c = '<' then some .LT
  else if c = ',' then some .COMMA
  else if c = '(' then some .LPAREN
  else if c = ')' then some .RPAREN
  else if c = '{' then some .LBRACE
  else if c = '}' then some .RBRACE
  else none

/-- One iteration of the main loop of `Lexer::tokenize`, entered with
`pos < text.size()`: the new lexer state and the token emitted, if any.  The inner
loops get the bound `text.size() + 1`. -/
def scanToken (lx : Lexer) : Outcome LexError (Lexer × Option Token) :=
  let fuel := lx.text.length + 1
  let c := lx.peek
  if c = ' ' ∨ c = '\t' ∨ c = '\r' then .ok (lx.advanceChar.2, none)
  else if c = '\n' then .ok (lx.advanceChar.2, none)
  else if c = '#' then
    (skipComment fuel lx).bind fun lx1 => .ok (lx1, none)
  else
    let start_line := lx.line
    let start_col := lx.col
    if c.isDigit then
      (scanNumber fuel lx []).bind fun r =>
        .ok (r.1, some ⟨.NUMBER, r.2, start_line, start_col⟩)
    else if c.isAlpha ∨ c = '_' then
      (scanIdent fuel lx []).bind fun r =>
        .ok (r.1, some (wordToken r.2 start_line start_col))
    else if c = '"' then
      (scanString fuel lx.advanceChar.2 []).bind fun r =>
        if r.1.peek ≠ '"' then .error .unterminatedString
        else .ok (r.1.advanceChar.2, some ⟨.STRING, r.2, start_line, start_col⟩)
    else if lx.startsWith ['=', '='] then
      .ok (lx.advanceChar.2.advanceChar.2, some ⟨.EQEQ, ['=', '='], start_line, start_col⟩)
    else if lx.startsWith ['!', '='] then
      .ok (lx.advanceChar.2.advanceChar.2, some ⟨.NOTEQ, ['!', '='], start_line, start_col⟩)
    else if lx.startsWith ['>', '='] then
      .ok (lx.advanceChar.2.advanceChar.2, some ⟨.GTEQ, ['>', '='], start_line, start_col⟩)
    else if lx.startsWith ['<', '='] then
      .ok (lx.advanceChar.2.advanceChar.2, some ⟨.LTEQ, ['<', '='], start_line, start_col⟩)
    else
      match singleCharKind c with
      | some tt => .ok (lx.advanceChar.2, some ⟨tt, [c], start_line, start_col⟩)
      | none => .error (.unexpectedCharacter c)

/-- The main loop `while (pos < text.size())` of `Lexer::tokenize` followed by the
emission of the end-of-input token; `toks` is the vector built so far. -/
def tokenizeLoop : Nat → Lexer → List Token → Outcome LexError (List Token)
  | 0, _, _ => .outOfFuel
  | n + 1, lx, toks =>
    if lx.pos < lx.text.length then
      match scanToken lx with
      | .ok (lx1, some t) => tokenizeLoop n lx1 (toks ++ [t])
      | .ok (lx1, none) => tokenizeLoop n lx1 toks
      | .error e => .error e
      | .outOfFuel => .outOfFuel
    else .ok (toks ++ [⟨.EOF_T, [], lx.line, lx.col⟩])

/-- `Lexer(text).tokenize()`.  Every iteration of the main loop consumes at least
one character, so `text.size() + 1` iterations are enough (`tokenize_total`). -/
def tokenize (text : List Char) : Outcome LexError (List Token) :=
  tokenizeLoop (text.length + 1) (Lexer.new text) []

/-! ## Abstract syntax (ast.hpp) -/

/-- The node variants of ast.hpp; an `ASTNodePtr` child is a node, a `StmtList` is a
list of nodes. -/
inductive ASTNode where
  | Program (statements : List ASTNode)
  | VarDecl (vartype name : List Char) (expr : ASTNode)
  | Assign (name : List Char) (expr : ASTNode)
  | Show (expr : ASTNode)
  | Take (name : List Char)
  | When (cases : List (ASTNode × List ASTNode)) (else_block : List ASTNode)
  | Loop (var : List Char) (start_expr end_expr : ASTNode) (body : List ASTNode)
  | Break
  | FuncDef (name : List Char) (params : List (List Char)) (body : List ASTNode)
      (back_expr : ASTNode)
  | FuncCall (name : List Char) (args : List ASTNode)
  | BinOp (left : ASTNode) (op_type : TokenType) (op_value : List Char) (right : ASTNode)
  | UnaryOp (op_type : TokenType) (op_value : List Char) (expr : ASTNode)
  | Literal (value lit_type : List Char)
  | Identifier (name : List Char)
  deriving Repr

/-! ## Parser (Parser.cpp) -/

/-- The `ParserError` exceptions of Parser.cpp, one constructor per message format;
`line` and `col` are the numbers written into the message. -/
inductive ParserError where
  /-- "Empty token stream" -/
  | emptyTokenStream
  /-- "Expected token(s) at line:col" -/
  | expectedTokens (line col : Nat)
  /-- "Unexpected token at line:col" -/
  | unexpectedToken (line col : Nat)
  /-- "Expected assign or func-call at line:col" -/
  | expectedAssignOrFuncCall (line col : Nat)
  /-- "Internal parser error: expected Program node from block()" -/
  | expectedProgramNode
  /-- "Function must contain a 'back' statement" -/
  | missingBack
  /-- "Expected LBRACE at line:col (after 'value')" -/
  | expectedLBrace (line col : Nat) (value : List Char)
  /-- "Unexpected token in expression at line:col" -/
  | unexpectedTokenInExpression (line col : Nat)
  deriving DecidableEq, Repr

/-- The text `std::ostringstream` writes for an `int` that is not negative. -/
def decimal (k : Nat) : List Char := (Nat.repr k).toList

/-- The message of a parse error, as Parser.cpp builds it. -/
def ParserError.what : ParserError → List Char
  | .emptyTokenStream => "Empty token stream".toList
  | .expectedTokens l c => "Expected token(s) at ".toList ++ decimal l ++ ':' :: decimal c
  | .unexpectedToken l c => "Unexpected token at ".toList ++ decimal l ++ ':' :: decimal c
  | .expectedAssignOrFuncCall l c =>
    "Expected assign or func-call at ".toList ++ decimal l ++ ':' :: decimal c
  | .expectedProgramNode =>
    "Internal parser error: expected Program node from block()".toList
  | .missingBack => "Function must contain a 'back' statement".toList
  | .expectedLBrace l c v =>
    "Expected LBRACE at ".toList ++ decimal l ++ ':' :: decimal c ++ " (after '".toList ++ v ++
      "')".toList
  | .unexpectedTokenInExpression l c =>
    "Unexpected token in expression at ".toList ++ decimal l ++ ':' :: decimal c

/-- `Parser::current`: the token under the cursor, a fresh `EOF_T` token at
position 0:0 past the end. -/
def current (tokens : List Token) (i : Nat) : Token :=
  if h : i < tokens.length then tokens[i] else ⟨.EOF_T, [], 0, 0⟩

/-- `Parser::advance`: returns the token under the cursor and the cursor moved by
one; past the end, an `EOF_T` token at the position of the last token. -/
def advance (tokens : List Token) (i : Nat) : Token × Nat :=
  if h : i < tokens.length then (tokens[i], i + 1)
  else (⟨.EOF_T, [], (tokens.getLastD ⟨.EOF_T, [], 0, 0⟩).line,
          (tokens.getLastD ⟨.EOF_T, [], 0, 0⟩).col⟩, i)

/-- `Parser::match`: consumes the current token when its kind is one of `types`,
throws "Expected token(s)" with the current token's position otherwise.  Here and in
every production below, the `error` outcome is the `ParserError` thrown together with
the value the cursor `i` has at the `throw`: the `Parser` object keeps that value,
nothing moves the cursor while the exception propagates. -/
def match_ (tokens : List Token) (types : List TokenType) (i : Nat) :
    Outcome (ParserError × Nat) (Token × Nat) :=
  if (current tokens i).type ∈ types then .ok (advance tokens i)
  else .error (.expectedTokens (current tokens i).line (current tokens i).col, i)

/-- `Parser::take_stmt`. -/
def take_stmt (tokens : List Token) (i : Nat) : Outcome (ParserError × Nat) (ASTNode × Nat) := do
  let (_, i1) ← match_ tokens [.TAKE] i
  let (id, i2) ← match_ tokens [.IDENT] i1
  pure (.Take id.value, i2)

/-- The loop `while (current().type == COMMA) { match(COMMA);
params.push_back(match(IDENT).value); }` of `Parser::func_def`. -/
def paramsLoop (tokens : List Token) :
    Nat → Nat → List (List Char) → Outcome (ParserError × Nat) (List (List Char) × Nat)
  | 0, _, _ => .outOfFuel
  | n + 1, i, params =>
    if (current tokens i).type = .COMMA then do
      let (_, i1) ← match_ tokens [.COMMA] i
      let (p, i2) ← match_ tokens [.IDENT] i1
      paramsLoop tokens n i2 (params ++ [p.value])
    else .ok (params, i)

mutual

/-- `Parser::statements`; `stmts` is the list built so far. -/
def statements (tokens : List Token) :
    Nat → Nat → List ASTNode → Outcome (ParserError × Nat) (List ASTNode × Nat)
  | 0, _, _ => .outOfFuel
  | n + 1, i, stmts =>
    if (current tokens i).type ≠ .END ∧ (current tokens i).type ≠ .RBRACE ∧
        (current tokens i).type ≠ .EOF_T then do
      let (s, i1) ← statement tokens n i
      statements tokens n i1 (stmts ++ [s])
    else .ok (stmts, i)
termination_by structural n => n

/-- `Parser::statement`. -/
def statement (tokens : List Token) : Nat → Nat → Outcome (ParserError × Nat) (ASTNode × Nat)
  | 0, _ => .outOfFuel
  | n + 1, i =>
    let t := (current tokens i).type
    if t = .NUM ∨ t = .TEXT ∨ t = .FLAG then var_decl tokens n i
    else if t = .IDENT then assign_or_func_call tokens n i
    else if t = .SHOW then show_stmt tokens n i
    else if t = .TAKE then take_stmt tokens i
    else if t = .WHEN then when_stmt tokens n i
    else if t = .LOOP then loop_stmt tokens n i
    else if t = .BREAK then do
      let (_, i1) ← match_ tokens [.BREAK] i
      pure (.Break, i1)
    else if t = .FUNC then func_def tokens n i
    else .error (.unexpectedToken (current tokens i).line (current tokens i).col, i)
termination_by structural n => n

/-- `Parser::var_decl`. -/
def var_decl (tokens : List Token) : Nat → Nat → Outcome (ParserError × Nat) (ASTNode × Nat)
  | 0, _ => .outOfFuel
  | n + 1, i => do
    let (vt, i1) ← match_ tokens [.NUM, .TEXT, .FLAG] i
    let (name, i2) ← match_ tokens [.IDENT] i1
    let (_, i3) ← match_ tokens [.ASSIGN] i2
    let (ex, i4) ← expr tokens n i3
    pure (.VarDecl vt.value name.value ex, i4)

/-- The argument list parsed after `(` in `Parser::assign_or_func_call` and in
`Parser::primary`: `if (current().type != RPAREN) { args.push_back(expr());
while (...) ... }`. -/
def call_args (tokens : List Token) : Nat → Nat → Outcome (ParserError × Nat) (List ASTNode × Nat)
  | 0, _ => .outOfFuel
  | n + 1, i =>
    if (current tokens i).type ≠ .RPAREN then do
      let (a, i1) ← expr tokens n i
      argsLoop tokens n i1 [a]
    else .ok ([], i)
termination_by structural n => n

/-- The loop `while (current().type == COMMA) { match(COMMA); args.push_back(expr()); }`. -/
def argsLoop (tokens : List Token) :
    Nat → Nat → List ASTNode → Outcome (ParserError × Nat) (List ASTNode × Nat)
  | 0, _, _ => .outOfFuel
  | n + 1, i, args =>
    if (current tokens i).type = .COMMA then do
      let (_, i1) ← match_ tokens [.COMMA] i
      let (a, i2) ← expr tokens n i1
      argsLoop tokens n i2 (args ++ [a])
    else .ok (args, i)
termination_by structural n => n

/-- `Parser::assign_or_func_call`. -/
def assign_or_func_call (tokens : List Token) :
    Nat → Nat → Outcome (ParserError × Nat) (ASTNode × Nat)
  | 0, _ => .outOfFuel
  | n + 1, i => do
    let (name, i1) ← match_ tokens [.IDENT] i
    if (current tokens i1).type = .ASSIGN then do
      let (_, i2) ← match_ tokens [.ASSIGN] i1
      let (e, i3) ← expr tokens n i2
      pure (.Assign name.value e, i3)
    else if (current tokens i1).type = .LPAREN then do
      let (_, i2) ← match_ tokens [.LPAREN] i1
      let (args, i3) ← call_args tokens n i2
      let (_, i4) ← match_ tokens [.RPAREN] i3
      pure (.FuncCall name.value args, i4)
    else
      .error (.expectedAssignOrFuncCall (current tokens i1).line (current tokens i1).col, i1)

/-- `Parser::show_stmt`. -/
def show_stmt (tokens : List Token) : Nat → Nat → Outcome (ParserError × Nat) (ASTNode × Nat)
  | 0, _ => .outOfFuel
  | n + 1, i => do
    let (_, i1) ← match_ tokens [.SHOW] i
    let (e, i2) ← expr tokens n i1
    pure (.Show e, i2)

/-- `Parser::when_stmt`. -/
def when_stmt (tokens : List Token) : Nat → Nat → Outcome (ParserError × Nat) (ASTNode × Nat)
  | 0, _ => .outOfFuel
  | n + 1, i => do
    let (when_tok, i1) ← match_ tokens [.WHEN] i
    let (cond, i2) ← expr tokens n i1
    let (block_node, i3) ← block tokens n when_tok i2
    match block_node with
    | .Program body => do
      let (cases, i4) ← elsewhenLoop tokens n i3 [(cond, body)]
      if (current tokens i4).type = .ELSE then do
        let (t, i5) ← match_ tokens [.ELSE] i4
        let (else_node, i6) ← block tokens n t i5
        match else_node with
        | .Program else_block => pure (.When cases else_block, i6)
        | _ => .error (.expectedProgramNode, i6)
      else pure (.When cases [], i4)
    | _ => .error (.expectedProgramNode, i3)
termination_by structural n => n

/-- The loop `while (current().type == ELSEWHEN) ...` of `Parser::when_stmt`. -/
def elsewhenLoop (tokens : List Token) :
    Nat → Nat → List (ASTNode × List ASTNode) →
      Outcome (ParserError × Nat) (List (ASTNode × List ASTNode) × Nat)
  | 0, _, _ => .outOfFuel
  | n + 1, i, cases =>
    if (current tokens i).type = .ELSEWHEN then do
      let (t, i1) ← match_ tokens [.ELSEWHEN] i
      let (cond2, i2) ← expr tokens n i1
      let (block_node2, i3) ← block tokens n t i2
      match block_node2 with
      | .Program b2 => elsewhenLoop tokens n i3 (cases ++ [(cond2, b2)])
      | _ => .error (.expectedProgramNode, i3)
    else .ok (cases, i)
termination_by structural n => n

/-- `Parser::loop_stmt`. -/
def loop_stmt (tokens : List Token) : Nat → Nat → Outcome (ParserError × Nat) (ASTNode × Nat)
  | 0, _ => .outOfFuel
  | n + 1, i => do
    let (loop_t, i1) ← match_ tokens [.LOOP] i
    let (var, i2) ← match_ tokens [.IDENT] i1
    let (_, i3) ← match_ tokens [.ASSIGN] i2
    let (s, i4) ← expr tokens n i3
    let (_, i5) ← match_ tokens [.TO] i4
    let (e, i6) ← expr tokens n i5
    let (block_node, i7) ← block tokens n loop_t i6
    match block_node with
    | .Program body => pure (.Loop var.value s e body, i7)
    | _ => .error (.expectedProgramNode, i7)
termination_by structural n => n

/-- `Parser::func_def`. -/
def func_def (tokens : List Token) : Nat → Nat → Outcome (ParserError × Nat) (ASTNode × Nat)
  | 0, _ => .outOfFuel
  | n + 1, i => do
    let (_, i1) ← match_ tokens [.FUNC] i
    let (name, i2) ← match_ tokens [.IDENT] i1
    let (_, i3) ← match_ tokens [.LPAREN] i2
    let (params, i4) ←
      if (current tokens i3).type ≠ .RPAREN then do
        let (p, j) ← match_ tokens [.IDENT] i3
        paramsLoop tokens (tokens.length + 1) j [p.value]
      else pure ([], i3)
    let (_, i5) ← match_ tokens [.RPAREN] i4
    let (_, i6) ← match_ tokens [.LBRACE] i5
    let (body, i7) ← funcBodyLoop tokens n i6 []
    let (_, i8) ← match_ tokens [.BACK] i7
    let (back_expr, i9) ← expr tokens n i8
    let (_, i10) ← match_ tokens [.RBRACE] i9
    pure (.FuncDef name.value params body back_expr, i10)
termination_by structural n => n

/-- The loop `while (current().type != BACK) ...` of `Parser::func_def`. -/
def funcBodyLoop (tokens : List Token) :
    Nat → Nat → List ASTNode → Outcome (ParserError × Nat) (List ASTNode × Nat)
  | 0, _, _ => .outOfFuel
  | n + 1, i, body =>
    if (current tokens i).type ≠ .BACK then
      if (current tokens i).type = .RBRACE then .error (.missingBack, i)
      else do
        let (s, i1) ← statement tokens n i
        funcBodyLoop tokens n i1 (body ++ [s])
    else .ok (body, i)
termination_by structural n => n

/-- `Parser::block`. -/
def block (tokens : List Token) : Nat → Token → Nat → Outcome (ParserError × Nat) (ASTNode × Nat)
  | 0, _, _ => .outOfFuel
  | n + 1, context_token, i =>
    if (current tokens i).type ≠ .LBRACE then
      .error (.expectedLBrace context_token.line context_token.col context_token.value, i)
    else do
      let (_, i1) ← match_ tokens [.LBRACE] i
      let (stmts, i2) ← statements tokens n i1 []
      let (_, i3) ← match_ tokens [.RBRACE] i2
      pure (.Program stmts, i3)
termination_by structural n => n

/-- `Parser::expr`. -/
def expr (tokens : List Token) : Nat → Nat → Outcome (ParserError × Nat) (ASTNode × Nat)
  | 0, _ => .outOfFuel
  | n + 1, i => equality tokens n i
termination_by structural n => n

/-- `Parser::equality`. -/
def equality (tokens : List Token) : Nat → Nat → Outcome (ParserError × Nat) (ASTNode × Nat)
  | 0, _ => .outOfFuel
  | n + 1, i => do
    let (node, i1) ← comparison tokens n i
    equalityLoop tokens n node i1
termination_by structural n => n

/-- The `while` loop of `Parser::equality`. -/
def equalityLoop (tokens : List Token) :
    Nat → ASTNode → Nat → Outcome (ParserError × Nat) (ASTNode × Nat)
  | 0, _, _ => .outOfFuel
  | n + 1, node, i =>
    if (current tokens i).type = .EQEQ ∨ (current tokens i).type = .NOTEQ then do
      let (op, i1) := advance tokens i
      let (right, i2) ← comparison tokens n i1
      equalityLoop tokens n (.BinOp node op.type op.value right) i2
    else .ok (node, i)
termination_by structural n => n

/-- `Parser::comparison`. -/
def comparison (tokens : List Token) : Nat → Nat → Outcome (ParserError × Nat) (ASTNode × Nat)
  | 0, _ => .outOfFuel
  | n + 1, i => do
    let (node, i1) ← term tokens n i
    comparisonLoop tokens n node i1
termination_by structural n => n

/-- The `while` loop of `Parser::comparison`. -/
def comparisonLoop (tokens : List Token) :
    Nat → ASTNode → Nat → Outcome (ParserError × Nat) (ASTNode × Nat)
  | 0, _, _ => .outOfFuel
  | n + 1, node, i =>
    if (current tokens i).type = .GT ∨ (current tokens i).type = .LT ∨
        (current tokens i).type = .GTEQ ∨ (current tokens i).type = .LTEQ then do
      let (op, i1) := advance tokens i
      let (right, i2) ← term tokens n i1
      comparisonLoop tokens n (.BinOp node op.type op.value right) i2
    else .ok (node, i)
termination_by structural n => n

/-- `Parser::term`. -/
def term (tokens : List Token) : Nat → Nat → Outcome (ParserError × Nat) (ASTNode × Nat)
  | 0, _ => .outOfFuel
  | n + 1, i => do
    let (node, i1) ← factor tokens n i
    termLoop tokens n node i1
termination_by structural n => n

/-- The `while` loop of `Parser::term`. -/
def termLoop (tokens : List Token) :
    Nat → ASTNode → Nat → Outcome (ParserError × Nat) (ASTNode × Nat)
  | 0, _, _ => .outOfFuel
  | n + 1, node, i =>
    if (current tokens i).type = .PLUS ∨ (current tokens i).type = .MINUS then do
      let (op, i1) := advance tokens i
      let (right, i2) ← factor tokens n i1
      termLoop tokens n (.BinOp node op.type op.value right) i2
    else .ok (node, i)
termination_by structural n => n

/-- `Parser::factor`. -/
def factor (tokens : List Token) : Nat → Nat → Outcome (ParserError × Nat) (ASTNode × Nat)
  | 0, _ => .outOfFuel
  | n + 1, i => do
    let (node, i1) ← unary tokens n i
    factorLoop tokens n node i1
termination_by structural n => n

/-- The `while` loop of `Parser::factor`. -/
def factorLoop (tokens : List Token) :
    Nat → ASTNode → Nat → Outcome (ParserError × Nat) (ASTNode × Nat)
  | 0, _, _ => .outOfFuel
  | n + 1, node, i =>
    if (current tokens i).type = .STAR ∨ (current tokens i).type = .SLASH then do
      let (op, i1) := advance tokens i
      let (right, i2) ← unary tokens n i1
      factorLoop tokens n (.BinOp node op.type op.value right) i2
    else .ok (node, i)
termination_by structural n => n

/-- `Parser::unary`. -/
def unary (tokens : List Token) : Nat → Nat → Outcome (ParserError × Nat) (ASTNode × Nat)
  | 0, _ => .outOfFuel
  | n + 1, i =>
    if (current tokens i).type = .MINUS then do
      let (op, i1) := advance tokens i
      let (e, i2) ← unary tokens n i1
      pure (.UnaryOp op.type op.value e, i2)
    else primary tokens n i
termination_by structural n => n

/-- `Parser::primary`. -/
def primary (tokens : List Token) : Nat → Nat → Outcome (ParserError × Nat) (ASTNode × Nat)
  | 0, _ => .outOfFuel
  | n + 1, i =>
    let t := current tokens i
    if t.type = .NUMBER then .ok (.Literal t.value "num".toList, (advance tokens i).2)
    else if t.type = .STRING then .ok (.Literal t.value "text".toList, (advance tokens i).2)
    else if t.type = .BOOL then .ok (.Literal t.value "bool".toList, (advance tokens i).2)
    else if t.type = .IDENT then
      let i1 := (advance tokens i).2
      if (current tokens i1).type = .LPAREN then do
        let (_, i2) ← match_ tokens [.LPAREN] i1
        let (args, i3) ← call_args tokens n i2
        let (_, i4) ← match_ tokens [.RPAREN] i3
        pure (.FuncCall t.value args, i4)
      else .ok (.Identifier t.value, i1)
    else if t.type = .LPAREN then do
      let (_, i1) ← match_ tokens [.LPAREN] i
      let (e, i2) ← expr tokens n i1
      let (_, i3) ← match_ tokens [.RPAREN] i2
      pure (e, i3)
    else .error (.unexpectedTokenInExpression t.line t.col, i)
termination_by structural n => n

end

/-- The recursion bound handed to the productions by `parse`. -/
def parseFuel (tokens : List Token) : Nat := 16 * tokens.length + 16

/-- The constructor `Parser::Parser` followed by `Parser::parse`, returning the
`Program` node together with the final value of the cursor `i`, or the exception thrown
together with the value of the cursor at the `throw`. -/
def parseAt (tokens : List Token) : Outcome (ParserError × Nat) (ASTNode × Nat) :=
  if tokens = [] then .error (.emptyTokenStream, 0)
  else do
    let (_, i1) ← match_ tokens [.START] 0
    let (stmts, i2) ← statements tokens (parseFuel tokens) i1 []
    let (_, i3) ← match_ tokens [.END] i2
    let (_, i4) ← match_ tokens [.EOF_T] i3
    pure (.Program stmts, i4)

/-- `Parser(tokens).parse()`: the `Program` node returned, or the exception thrown. -/
def parse (tokens : List Token) : Outcome ParserError ASTNode :=
  match parseAt tokens with
  | .ok r => .ok r.1
  | .error e => .error e.1
  | .outOfFuel => .outOfFuel

/-- The exceptions of the first two stages of `main`, told apart by the stage
that throws. -/
inductive FrontError where
  | lex (e : LexError)
  | parse (e : ParserError)
  deriving DecidableEq, Repr

/-- The first two stages of the `try` block of `main`: `Lexer lx(source);
auto tokens = lx.tokenize(); Parser p(tokens); auto ast = p.parse();`. -/
def parseSource (source : List Char) : Outcome FrontError ASTNode :=
  match tokenize source with
  | .ok tokens =>
    match parse tokens with
    | .ok ast => .ok ast
    | .error e => .error (.parse e)
    | .outOfFuel => .outOfFuel
  | .error e => .error (.lex e)
  | .outOfFuel => .outOfFuel

/-! ## Semantic analyzer (semantic.hpp, semantic.cpp) -/

/-- The struct `Symbol` of semantic.hpp. -/
structure Symbol where
  name : List Char
  type : List Char
  deriving DecidableEq, Repr

/-- The struct `FunctionSymbol` of semantic.hpp. -/
structure FunctionSymbol where
  name : List Char
  params : List (List Char)
  deriving DecidableEq, Repr

/-- The `SemanticError` exceptions of semantic.cpp, one constructor per message. -/
inductive SemanticError where
  /-- "Redeclaration of variable 'name'" -/
  | redeclaredVariable (name : List Char)
  /-- "Use of undeclared variable 'name'" -/
  | undeclaredVariable (name : List Char)
  /-- "Type mismatch: expected " followed by the declared type -/
  | typeMismatchExpected (declared : List Char)
  /-- "Type mismatch in assignment to " followed by the type of the variable -/
  | typeMismatchAssignment (type : List Char)
  /-- "When condition must be boolean" -/
  | whenCondition
  /-- "Loop bounds must be num" -/
  | loopBounds
  /-- "break outside loop" -/
  | breakOutsideLoop
  /-- "Redeclaration of function 'name'" -/
  | redeclaredFunction (name : List Char)
  /-- "Call to undeclared function 'name'" -/
  | undeclaredFunction (name : List Char)
  /-- "Function 'name' called with incorrect number of arguments" -/
  | wrongArgumentCount (name : List Char)
  /-- "Invalid operands for arithmetic" -/
  | invalidOperands
  /-- "Type mismatch in comparison" -/
  | comparisonMismatch
  /-- "Unknown binary op" -/
  | unknownBinaryOp
  /-- "Unary minus on non-num" -/
  | unaryMinusNonNum
  /-- "Unhandled AST node in semantic analyzer", the last line of `visit` -/
  | unhandledNode
  deriving DecidableEq, Repr

/-- The message of a semantic error, as semantic.cpp builds it. -/
def SemanticError.what : SemanticError → List Char
  | .redeclaredVariable n => "Redeclaration of variable '".toList ++ n ++ "'".toList
  | .undeclaredVariable n => "Use of undeclared variable '".toList ++ n ++ "'".toList
  | .typeMismatchExpected t => "Type mismatch: expected ".toList ++ t
  | .typeMismatchAssignment t => "Type mismatch in assignment to ".toList ++ t
  | .whenCondition => "When condition must be boolean".toList
  | .loopBounds => "Loop bounds must be num".toList
  | .breakOutsideLoop => "break outside loop".toList
  | .redeclaredFunction n => "Redeclaration of function '".toList ++ n ++ "'".toList
  | .undeclaredFunction n => "Call to undeclared function '".toList ++ n ++ "'".toList
  | .wrongArgumentCount n =>
    "Function '".toList ++ n ++ "' called with incorrect number of arguments".toList
  | .invalidOperands => "Invalid operands for arithmetic".toList
  | .comparisonMismatch => "Type mismatch in comparison".toList
  | .unknownBinaryOp => "Unknown binary op".toList
  | .unaryMinusNonNum => "Unary minus on non-num".toList
  | .unhandledNode => "Unhandled AST node in semantic analyzer".toList

/-- The data members of class `SemanticAnalyzer`.  A `std::map` is the list of its
entries, newest last; `scopes` lists the vector from its back, so that the head of the
list is `scopes.back()`, the innermost scope. -/
structure SemanticAnalyzer where
  scopes : List (List (List Char × Symbol))
  functions : List (List Char × FunctionSymbol)
  in_loop : Int
  in_func : Int
  deriving DecidableEq, Repr

/-- The state set up by the constructor `SemanticAnalyzer::SemanticAnalyzer`: one
empty scope, no function, both counters zero. -/
def SemanticAnalyzer.new : SemanticAnalyzer := ⟨[[]], [], 0, 0⟩

/-- The lookup `find(name)` in a `std::map` given by its entries. -/
def mapFind {β : Type} (name : List Char) : List (List Char × β) → Option β
  | [] => none
  | (k, v) :: rest => if k = name then some v else mapFind name rest

/-- `SemanticAnalyzer::enter_scope`. -/
def enter_scope (a : SemanticAnalyzer) : SemanticAnalyzer :=
  { a with scopes := [] :: a.scopes }

/-- `SemanticAnalyzer::exit_scope`. -/
def exit_scope (a : SemanticAnalyzer) : SemanticAnalyzer :=
  { a with scopes := a.scopes.tail }

/-- `SemanticAnalyzer::declare_var`.  On an empty vector `scopes.back()` is undefined
behaviour: the model gives that call no outcome. -/
def declare_var (a : SemanticAnalyzer) (name type : List Char) :
    Outcome SemanticError SemanticAnalyzer :=
  match a.scopes with
  | [] => .outOfFuel
  | top :: rest =>
    if (mapFind name top).isSome then .error (.redeclaredVariable name)
    else .ok { a with scopes := (top ++ [(name, ⟨name, type⟩)]) :: rest }

/-- The search of `SemanticAnalyzer::lookup_var`, from the innermost scope outwards. -/
def lookupScopes (name : List Char) : List (List (List Char × Symbol)) → Option Symbol
  | [] => none
  | scope :: rest =>
    match mapFind name scope with
    | some s => some s
    | none => lookupScopes name rest

/-- `SemanticAnalyzer::lookup_var`. -/
def lookup_var (a : SemanticAnalyzer) (name : List Char) : Outcome SemanticError Symbol :=
  match lookupScopes name a.scopes with
  | some s => .ok s
  | none => .error (.undeclaredVariable name)

/-- The three type checks of `visit_VarDecl`, on the declared type and the type of the
initializer. -/
def checkDeclared (declared expr_t : List Char) : Outcome SemanticError Unit :=
  if declared = "num".toList ∧ expr_t ≠ "num".toList then
    .error (.typeMismatchExpected "num".toList)
  else if declared = "text".toList ∧ expr_t ≠ "text".toList then
    .error (.typeMismatchExpected "text".toList)
  else if declared = "flag".toList ∧ expr_t ≠ "bool".toList then
    .error (.typeMismatchExpected "flag".toList)
  else .ok ()

/-- The three type checks of `visit_Assign`, on the type of the variable and the type
of the assigned expression. -/
def checkAssigned (type expr_t : List Char) : Outcome SemanticError Unit :=
  if type = "num".toList ∧ expr_t ≠ "num".toList then
    .error (.typeMismatchAssignment "num".toList)
  else if type = "text".toList ∧ expr_t ≠ "text".toList then
    .error (.typeMismatchAssignment "text".toList)
  else if type = "flag".toList ∧ expr_t ≠ "bool".toList then
    .error (.typeMismatchAssignment "flag".toList)
  else .ok ()

/-- The part of `visit_BinOp` that follows the visits of the operands: the type of the
node from the operator tag and the types `lt`, `rt` of the operands. -/
def binOpType (op : TokenType) (lt rt : List Char) : Outcome SemanticError (List Char) :=
  if op = .PLUS ∨ op = .MINUS ∨ op = .STAR ∨ op = .SLASH then
    if lt = "num".toList ∧ rt = "num".toList then .ok "num".toList
    else if op = .PLUS ∧ lt = "text".toList ∧ rt = "text".toList then .ok "text".toList
    else .error .invalidOperands
  else if op = .GT ∨ op = .LT ∨ op = .GTEQ ∨ op = .LTEQ ∨ op = .EQEQ ∨ op = .NOTEQ then
    if lt = rt then .ok "bool".toList
    else .error .comparisonMismatch
  else .error .unknownBinaryOp

/-- The part of `visit_UnaryOp` that follows the visit of the operand. -/
def unaryOpType (op : TokenType) (et : List Char) : Outcome SemanticError (List Char) :=
  if op = .MINUS then
    if et = "num".toList then .ok "num".toList
    else .error .unaryMinusNonNum
  else .ok et

/-- The loop `for (auto &p : node->params) declare_var(p, "num");` of `visit_FuncDef`. -/
def declareParams (a : SemanticAnalyzer) : List (List Char) →
    Outcome SemanticError SemanticAnalyzer
  | [] => .ok a
  | p :: rest => (declare_var a p "num".toList).bind fun a1 => declareParams a1 rest

mutual

/-- `SemanticAnalyzer::visit` with the `visit_*` member it dispatches to: the type
string returned and the analyzer after the visit.  A child is never a null pointer and
every node is of one of the fourteen classes of ast.hpp, so the first line of `visit`
has no counterpart and its last line, which throws `unhandledNode`, is the branch of
no node. -/
def visit (a : SemanticAnalyzer) : ASTNode → Outcome SemanticError (List Char × SemanticAnalyzer)
  | .Program statements => do
    let a1 ← visitAll a statements
    pure ([], a1)
  | .VarDecl vartype name expr => do
    let (expr_t, a1) ← visit a expr
    let _ ← checkDeclared vartype expr_t
    let a2 ← declare_var a1 name vartype
    pure (vartype, a2)
  | .Assign name expr => do
    let s ← lookup_var a name
    let (expr_t, a1) ← visit a expr
    let _ ← checkAssigned s.type expr_t
    pure (s.type, a1)
  | .Show expr => visit a expr
  | .Take name => do
    let s ← lookup_var a name
    pure (s.type, a)
  | .When cases else_block => do
    let a1 ← visitCases a cases
    if !else_block.isEmpty then do
      let a2 ← visitAll (enter_scope a1) else_block
      pure ([], exit_scope a2)
    else pure ([], a1)
  | .Loop var start_expr end_expr body => do
    let (s1, a1) ← visit a start_expr
    let (s2, a2) ← visit a1 end_expr
    if s1 ≠ "num".toList ∨ s2 ≠ "num".toList then .error .loopBounds
    else do
      let a3 ← declare_var (enter_scope a2) var "num".toList
      let a4 ← visitAll { a3 with in_loop := a3.in_loop + 1 } body
      pure ([], exit_scope { a4 with in_loop := a4.in_loop - 1 })
  | .Break => if a.in_loop = 0 then .error .breakOutsideLoop else .ok ([], a)
  | .FuncDef name params body back_expr =>
    if (mapFind name a.functions).isSome then .error (.redeclaredFunction name)
    else do
      let a1 ← declareParams
        (enter_scope { a with functions := a.functions ++ [(name, ⟨name, params⟩)] }) params
      let a2 ← visitAll { a1 with in_func := a1.in_func + 1 } body
      let (_, a3) ← visit a2 back_expr
      pure ([], exit_scope { a3 with in_func := a3.in_func - 1 })
  | .FuncCall name args =>
    match mapFind name a.functions with
    | none => .error (.undeclaredFunction name)
    | some fs =>
      if fs.params.length ≠ args.length then .error (.wrongArgumentCount name)
      else do
        let a1 ← visitAll a args
        pure ("num".toList, a1)
  | .BinOp left op_type _ right => do
    let (lt, a1) ← visit a left
    let (rt, a2) ← visit a1 right
    let t ← binOpType op_type lt rt
    pure (t, a2)
  | .UnaryOp op_type _ expr => do
    let (et, a1) ← visit a expr
    let t ← unaryOpType op_type et
    pure (t, a1)
  | .Literal _ lit_type => .ok (lit_type, a)
  | .Identifier name => do
    let s ← lookup_var a name
    pure (s.type, a)

/-- The loops `for (auto &s : ...) visit(s.get());` over a statement list or an
argument list. -/
def visitAll (a : SemanticAnalyzer) : List ASTNode → Outcome SemanticError SemanticAnalyzer
  | [] => .ok a
  | s :: rest => do
    let (_, a1) ← visit a s
    visitAll a1 rest

/-- The loop `for (auto &c : node->cases)` of `visit_When`. -/
def visitCases (a : SemanticAnalyzer) :
    List (ASTNode × List ASTNode) → Outcome SemanticError SemanticAnalyzer
  | [] => .ok a
  | (cond, body) :: rest => do
    let (ct, a1) ← visit a cond
    if ct ≠ "bool".toList then .error .whenCondition
    else do
      let a2 ← visitAll (enter_scope a1) body
      visitCases (exit_scope a2) rest

end

/-- `SemanticAnalyzer::analyze`. -/
def analyze (a : SemanticAnalyzer) (node : ASTNode) : Outcome SemanticError SemanticAnalyzer :=
  (visit a node).bind fun r => .ok r.2

/-- The exceptions of the `try` block of `main`, told apart by the stage that throws. -/
inductive MainError where
  | front (e : FrontError)
  | semantic (e : SemanticError)
  deriving DecidableEq, Repr

/-- The `try` block of `main`: lexing, parsing, then `SemanticAnalyzer sem;
sem.analyze(ast.get());`.  The value is the analyzer after the analysis. -/
def analyzeSource (source : List Char) : Outcome MainError SemanticAnalyzer :=
  match parseSource source with
  | .ok ast =>
    match analyze SemanticAnalyzer.new ast with
    | .ok a => .ok a
    | .error e => .error (.semantic e)
    | .outOfFuel => .outOfFuel
  | .error e => .error (.front e)
  | .outOfFuel => .outOfFuel

/-! ## Definitions used to state the properties -/

/-- The unread part of the text: the characters from the cursor on. -/
def Lexer.rest (lx : Lexer) : List Char := lx.text.drop lx.pos

/-- The line and column reached from line and column `p` once the characters `w`
have been consumed by `Lexer::advanceChar`, one after the other. -/
def endPos (p : Nat × Nat) : List Char → Nat × Nat
  | [] => p
  | c :: cs => endPos (if c = '\n' then (p.1 + 1, 1) else (p.1, p.2 + 1)) cs

/-- The lexer state once the characters `w` have been consumed. -/
def Lexer.move (lx : Lexer) (w : List Char) : Lexer :=
  ⟨lx.text, lx.pos + w.length, (endPos (lx.line, lx.col) w).1, (endPos (lx.line, lx.col) w).2⟩

/-- No two-character operator starts at the cursor. -/
def Lexer.noTwoCharOp (lx : Lexer) : Prop :=
  lx.startsWith ['=', '='] = false ∧ lx.startsWith ['!', '='] = false ∧
  lx.startsWith ['>', '='] = false ∧ lx.startsWith ['<', '='] = false

/-- The characters for which the main loop has no rule. -/
def unexpectedChar (c : Char) : Prop :=
  ¬ (c = ' ' ∨ c = '\t' ∨ c = '\r') ∧ c ≠ '\n' ∧ c ≠ '#' ∧ c.isDigit = false ∧
  ¬ (c.isAlpha = true ∨ c = '_') ∧ c ≠ '"' ∧ singleCharKind c = none

/-- The main loop of `Lexer::tokenize` with one addition: every token is paired with
the value of the cursor `pos` at the start of the iteration that emits it, that is
the offset of the token's first character (for the end-of-input token, the value
of `pos` when the loop is left). -/
def tokenizeLoopAt : Nat → Lexer → List (Nat × Token) → Outcome LexError (List (Nat × Token))
  | 0, _, _ => .outOfFuel
  | n + 1, lx, toks =>
    if lx.pos < lx.text.length then
      match scanToken lx with
      | .ok (lx1, some t) => tokenizeLoopAt n lx1 (toks ++ [(lx.pos, t)])
      | .ok (lx1, none) => tokenizeLoopAt n lx1 toks
      | .error e => .error e
      | .outOfFuel => .outOfFuel
    else .ok (toks ++ [(lx.pos, ⟨.EOF_T, [], lx.line, lx.col⟩)])

/-- The token list of `tokenize`, each token with the offset of its first character. -/
def tokenizeAt (text : List Char) : Outcome LexError (List (Nat × Token)) :=
  tokenizeLoopAt (text.length + 1) (Lexer.new text) []

/-- The states in which the main loop of `tokenize` starts an iteration on `text`,
with the tokens emitted before, each paired with the offset of its first character. -/
inductive Reaches (text : List Char) : Lexer → List (Nat × Token) → Prop where
  | start : Reaches text (Lexer.new text) []
  | skip {lx lx1 : Lexer} {pts : List (Nat × Token)} : Reaches text lx pts →
      lx.pos < lx.text.length → scanToken lx = .ok (lx1, none) → Reaches text lx1 pts
  | emit {lx lx1 : Lexer} {pts : List (Nat × Token)} {t : Token} : Reaches text lx pts →
      lx.pos < lx.text.length → scanToken lx = .ok (lx1, some t) →
      Reaches text lx1 (pts ++ [(lx.pos, t)])

/-- Source positions in reading order: an earlier line, or the same line and an
earlier column. -/
def posLt (a b : Nat × Nat) : Prop := a.1 < b.1 ∨ (a.1 = b.1 ∧ a.2 < b.2)

/-- The lexer state is the one reached from the initial state by consuming a part
`w` of the text, `r` being what is left. -/
def Lexer.Sync (lx : Lexer) (text : List Char) : Prop :=
  ∃ w r, text = w ++ r ∧ lx = (Lexer.new text).move w

/-- The fifteen keywords with their token kinds (the boolean literals `true` and
`false` are not among them). -/
def keywordKinds : List (List Char × TokenType) :=
  [ ("start".toList, .START), ("end".toList, .END), ("show".toList, .SHOW),
    ("take".toList, .TAKE), ("when".toList, .WHEN), ("elsewhen".toList, .ELSEWHEN),
    ("else".toList, .ELSE), ("loop".toList, .LOOP), ("break".toList, .BREAK),
    ("func".toList, .FUNC), ("back".toList, .BACK), ("num".toList, .NUM),
    ("text".toList, .TEXT), ("flag".toList, .FLAG), ("to".toList, .TO) ]

/-- An item of the body of a string literal, as the claim describes it: one ordinary
character, or a backslash followed by one character. -/
inductive StrItem where
  | plain (c : Char)
  | escape (c : Char)
  deriving DecidableEq, Repr

/-- The source characters of an item. -/
def StrItem.source : StrItem → List Char
  | .plain c => [c]
  | .escape c => ['\\', c]

/-- The decoding of an item: an ordinary character is itself, backslash-n is a
newline, backslash-quote a double quote, backslash-c is c for any other c. -/
def StrItem.decode : StrItem → Char
  | .plain c => c
  | .escape c => if c = 'n' then '\n' else if c = '"' then '"' else c

/-- An ordinary character is neither the double quote nor the backslash. -/
def StrItem.ordinary : StrItem → Prop
  | .plain c => c ≠ '"' ∧ c ≠ '\\'
  | .escape _ => True

/-- The character of the item (ordinary or escaped) is not NUL. -/
def StrItem.noNul : StrItem → Prop
  | .plain c => c ≠ '\x00'
  | .escape c => c ≠ '\x00'

/-- The source text of a string literal: a double quote, the items, a double quote. -/
def stringSource (items : List StrItem) : List Char :=
  '"' :: ((items.map StrItem.source).flatten ++ ['"'])

/-- No double quote of `b` is unescaped: reading `b` from the left, a backslash
takes the next character with it, and no other character is a double quote. -/
def noUnescapedQuote : List Char → Bool
  | [] => true
  | [c] => decide (c ≠ '"')
  | c :: d :: rest =>
    if c = '"' then false
    else if c = '\\' then noUnescapedQuote rest
    else noUnescapedQuote (d :: rest)

/-- The characters of claim C6: not whitespace, not a newline, not `#`, not a digit,
not a letter, not an underscore, not a double quote and none of the twelve
single-character operators and punctuation marks. -/
def noRuleChar (c : Char) : Prop :=
  c ≠ ' ' ∧ c ≠ '\t' ∧ c ≠ '\r' ∧ c ≠ '\n' ∧ c ≠ '#' ∧ c.isDigit = false ∧
  c.isAlpha = false ∧ c ≠ '_' ∧ c ≠ '"' ∧
  c ∉ ['+', '-', '*', '/', '=', '>', '<', ',', '(', ')', '{', '}']

/-- The four two-character operators. -/
def twoCharOps : List (List Char) := [['=', '='], ['!', '='], ['>', '='], ['<', '=']]

/-- The source text `start T x = n end`. -/
def varDeclSource (T x n : List Char) : List Char :=
  "start ".toList ++ T ++ " ".toList ++ x ++ " = ".toList ++ n ++ " end".toList

/-! ## Parser: definitions used by the statements -/

/-- The part of `Parser::func_def` that precedes the body loop: `match(FUNC)`, the
name, the parameter list, `match(RPAREN)` and `match(LBRACE)`.  The value is the name,
the parameters and the cursor after the opening brace. -/
def funcHeader (tokens : List Token) (i : Nat) :
    Outcome (ParserError × Nat) (List Char × List (List Char) × Nat) := do
  let (_, i1) ← match_ tokens [.FUNC] i
  let (name, i2) ← match_ tokens [.IDENT] i1
  let (_, i3) ← match_ tokens [.LPAREN] i2
  let (params, i4) ←
    if (current tokens i3).type ≠ .RPAREN then do
      let (p, j) ← match_ tokens [.IDENT] i3
      paramsLoop tokens (tokens.length + 1) j [p.value]
    else pure ([], i3)
  let (_, i5) ← match_ tokens [.RPAREN] i4
  let (_, i6) ← match_ tokens [.LBRACE] i5
  pure (name.value, params, i6)

/-- The line and column written into the message of a parse error, when the message
has them. -/
def ParserError.position : ParserError → Option (Nat × Nat)
  | .emptyTokenStream => none
  | .expectedTokens l c => some (l, c)
  | .unexpectedToken l c => some (l, c)
  | .expectedAssignOrFuncCall l c => some (l, c)
  | .expectedProgramNode => none
  | .missingBack => none
  | .expectedLBrace l c _ => some (l, c)
  | .unexpectedTokenInExpression l c => some (l, c)

/-- The parse error `e` carries the line and column of the token under the cursor `j`. -/
def atCursor (tokens : List Token) (e : ParserError) (j : Nat) : Prop :=
  e.position = some ((current tokens j).line, (current tokens j).col)

/-- The token `ctx` is a `when`, `elsewhen`, `else` or `loop` token of the list, placed
before the cursor `j`. -/
def keywordBefore (tokens : List Token) (ctx : Token) (j : Nat) : Prop :=
  ∃ k, k < j ∧ ctx = current tokens k ∧
    (current tokens k).type ∈ [TokenType.WHEN, .ELSEWHEN, .ELSE, .LOOP]

/-- The parse error `e` is the missing-`{` error of `Parser::block`, written with the
line, column and text of a `when`, `elsewhen`, `else` or `loop` token placed before the
cursor `j`. -/
def atBlockKeyword (tokens : List Token) (e : ParserError) (j : Nat) : Prop :=
  ∃ ctx, keywordBefore tokens ctx j ∧ e = .expectedLBrace ctx.line ctx.col ctx.value

/-- What holds of every exception of the productions: it is the missing-`back` error,
or it carries the position of the token under the cursor, or it is the missing-`{`
error at the keyword of the block. -/
def goodError (tokens : List Token) (p : ParserError × Nat) : Prop :=
  p.1 = .missingBack ∨ atCursor tokens p.1 p.2 ∨ atBlockKeyword tokens p.1 p.2

/-- A postcondition `Q` on the value returned and `P` on the exception thrown. -/
def Outcome.Sat {ε α : Type} (Q : α → Prop) (P : ε → Prop) : Outcome ε α → Prop
  | .ok a => Q a
  | .error e => P e
  | .outOfFuel => True

/-- The invariant of the productions at recursion bound `n`: a production other than a
loop moves the cursor forwards, a loop never moves it backwards, `block` returns a
`Program` node, and every exception satisfies `goodError`. -/
structure ParserInv (tokens : List Token) (n : Nat) : Prop where
  statements : ∀ i stmts, (statements tokens n i stmts).Sat (fun r => i ≤ r.2) (goodError tokens)
  statement : ∀ i, (statement tokens n i).Sat (fun r => i < r.2) (goodError tokens)
  var_decl : ∀ i, (var_decl tokens n i).Sat (fun r => i < r.2) (goodError tokens)
  call_args : ∀ i, (call_args tokens n i).Sat (fun r => i ≤ r.2) (goodError tokens)
  argsLoop : ∀ i args, (argsLoop tokens n i args).Sat (fun r => i ≤ r.2) (goodError tokens)
  assign_or_func_call :
    ∀ i, (assign_or_func_call tokens n i).Sat (fun r => i < r.2) (goodError tokens)
  show_stmt : ∀ i, (show_stmt tokens n i).Sat (fun r => i < r.2) (goodError tokens)
  when_stmt : ∀ i, (when_stmt tokens n i).Sat (fun r => i < r.2) (goodError tokens)
  elsewhenLoop :
    ∀ i cases, (elsewhenLoop tokens n i cases).Sat (fun r => i ≤ r.2) (goodError tokens)
  loop_stmt : ∀ i, (loop_stmt tokens n i).Sat (fun r => i < r.2) (goodError tokens)
  func_def : ∀ i, (func_def tokens n i).Sat (fun r => i < r.2) (goodError tokens)
  funcBodyLoop :
    ∀ i body, (funcBodyLoop tokens n i body).Sat (fun r => i ≤ r.2) (goodError tokens)
  block : ∀ ctx i, keywordBefore tokens ctx i →
    (block tokens n ctx i).Sat (fun r => i < r.2 ∧ ∃ stmts, r.1 = .Program stmts)
      (goodError tokens)
  expr : ∀ i, (expr tokens n i).Sat (fun r => i < r.2) (goodError tokens)
  equality : ∀ i, (equality tokens n i).Sat (fun r => i < r.2) (goodError tokens)
  equalityLoop :
    ∀ node i, (equalityLoop tokens n node i).Sat (fun r => i ≤ r.2) (goodError tokens)
  comparison : ∀ i, (comparison tokens n i).Sat (fun r => i < r.2) (goodError tokens)
  comparisonLoop :
    ∀ node i, (comparisonLoop tokens n node i).Sat (fun r => i ≤ r.2) (goodError tokens)
  term : ∀ i, (term tokens n i).Sat (fun r => i < r.2) (goodError tokens)
  termLoop : ∀ node i, (termLoop tokens n node i).Sat (fun r => i ≤ r.2) (goodError tokens)
  factor : ∀ i, (factor tokens n i).Sat (fun r => i < r.2) (goodError tokens)
  factorLoop : ∀ node i, (factorLoop tokens n node i).Sat (fun r => i ≤ r.2) (goodError tokens)
  unary : ∀ i, (unary tokens n i).Sat (fun r => i < r.2) (goodError tokens)
  primary : ∀ i, (primary tokens n i).Sat (fun r => i < r.2) (goodError tokens)

/-- The precedence class of a binary operator, from the loosest, 1 for `==` and `!=`,
to the tightest, 4 for `*` and `/`; 0 for a token that is not a binary operator. -/
def binPrec : TokenType → Nat
  | .EQEQ => 1
  | .NOTEQ => 1
  | .GT => 2
  | .LT => 2
  | .GTEQ => 2
  | .LTEQ => 2
  | .PLUS => 3
  | .MINUS => 3
  | .STAR => 4
  | .SLASH => 4
  | _ => 0

/-- The production of `Parser` in charge of the operators of precedence class `k`:
`equality`, `comparison`, `term`, `factor`, and `unary` above them. -/
def levelFn (tokens : List Token) (k : Nat) :
    Nat → Nat → Outcome (ParserError × Nat) (ASTNode × Nat) :=
  match k with
  | 1 => equality tokens
  | 2 => comparison tokens
  | 3 => term tokens
  | 4 => factor tokens
  | _ => unary tokens

/-- The `while` loop of the production of precedence class `k`. -/
def loopFn (tokens : List Token) (k : Nat) :
    Nat → ASTNode → Nat → Outcome (ParserError × Nat) (ASTNode × Nat) :=
  match k with
  | 1 => equalityLoop tokens
  | 2 => comparisonLoop tokens
  | 3 => termLoop tokens
  | _ => factorLoop tokens

/-- With every large enough recursion bound, the production `f` started at cursor `i`
returns the node `A` and leaves the cursor at `j`. -/
def parsesTo (f : Nat → Nat → Outcome (ParserError × Nat) (ASTNode × Nat)) (i : Nat)
    (A : ASTNode) (j : Nat) : Prop :=
  ∃ N, ∀ m, N ≤ m → f m i = .ok (A, j)

/-- The `BinOp` node built from a left operand, an operator token and a right operand. -/
def binOpNode (left : ASTNode) (op : Token) (right : ASTNode) : ASTNode :=
  .BinOp left op.type op.value right

/-! ## Semantic analyzer: definitions used by the statements -/

mutual

/-- The nodes `Parser::expr` builds: literals, identifiers, calls, unary and binary
operations on such nodes. -/
def isExpr : ASTNode → Bool
  | .BinOp left _ _ right => isExpr left && isExpr right
  | .UnaryOp _ _ expr => isExpr expr
  | .Literal _ _ => true
  | .Identifier _ => true
  | .FuncCall _ args => allExpr args
  | _ => false

/-- Every node of the list is an expression. -/
def allExpr : List ASTNode → Bool
  | [] => true
  | x :: xs => isExpr x && allExpr xs

end

/-- What a completed visit leaves in place: the scopes below the innermost one, the
number of scopes and the two depth counters. -/
def sameFrame (a b : SemanticAnalyzer) : Prop :=
  b.scopes.tail = a.scopes.tail ∧ b.scopes.length = a.scopes.length ∧
    b.in_loop = a.in_loop ∧ b.in_func = a.in_func

/-- The type of the initializer matches the declared type: `num` with `num`, `text`
with `text`, `flag` with the boolean type `bool`. -/
def initializerMatches (declared t : List Char) : Prop :=
  (declared = "num".toList ∧ t = "num".toList) ∨
    (declared = "text".toList ∧ t = "text".toList) ∨
    (declared = "flag".toList ∧ t = "bool".toList)

/-- The operator tags of `+ - * /`. -/
def arithmeticOps : List TokenType := [.PLUS, .MINUS, .STAR, .SLASH]

/-- The operator tags of `> < >= <= == !=`. -/
def comparisonOps : List TokenType := [.GT, .LT, .GTEQ, .LTEQ, .EQEQ, .NOTEQ]

/-- The reference typing of a binary operation on operands of types `l` and `r`: for
an arithmetic operator, `num` on two `num`, `text` for `+` on two `text`, nothing
otherwise; for a comparison, `bool` on two operands of the same type, nothing
otherwise. -/
def refBinOpType (op : TokenType) (l r : List Char) : Option (List Char) :=
  if op ∈ arithmeticOps then
    if l = "num".toList ∧ r = "num".toList then some "num".toList
    else if op = .PLUS ∧ l = "text".toList ∧ r = "text".toList then some "text".toList
    else none
  else if l = r then some "bool".toList
  else none

mutual

/-- Some `Break` of the node is not inside the body of a `Loop` of the node. -/
def hasBareBreak : ASTNode → Bool
  | .Break => true
  | .Program statements => anyBareBreak statements
  | .VarDecl _ _ expr => hasBareBreak expr
  | .Assign _ expr => hasBareBreak expr
  | .Show expr => hasBareBreak expr
  | .Take _ => false
  | .When cases else_block => casesBareBreak cases || anyBareBreak else_block
  | .Loop _ start_expr end_expr _ => hasBareBreak start_expr || hasBareBreak end_expr
  | .FuncDef _ _ body back_expr => anyBareBreak body || hasBareBreak back_expr
  | .FuncCall _ args => anyBareBreak args
  | .BinOp left _ _ right => hasBareBreak left || hasBareBreak right
  | .UnaryOp _ _ expr => hasBareBreak expr
  | .Literal _ _ => false
  | .Identifier _ => false

/-- Some node of the list has a `Break` outside the `Loop` bodies. -/
def anyBareBreak : List ASTNode → Bool
  | [] => false
  | x :: xs => hasBareBreak x || anyBareBreak xs

/-- Some condition or branch of the cases has a `Break` outside the `Loop` bodies. -/
def casesBareBreak : List (ASTNode × List ASTNode) → Bool
  | [] => false
  | (cond, body) :: rest => hasBareBreak cond || anyBareBreak body || casesBareBreak rest

end

/-- The invariant of the expression productions at recursion bound `n`: the node they
return is an expression node, and so is every argument of a call. -/
structure ExprInv (tokens : List Token) (n : Nat) : Prop where
  expr : ∀ i, (expr tokens n i).Sat (fun r => isExpr r.1 = true) (fun _ => True)
  equality : ∀ i, (equality tokens n i).Sat (fun r => isExpr r.1 = true) (fun _ => True)
  equalityLoop : ∀ node i, isExpr node = true →
    (equalityLoop tokens n node i).Sat (fun r => isExpr r.1 = true) (fun _ => True)
  comparison : ∀ i, (comparison tokens n i).Sat (fun r => isExpr r.1 = true) (fun _ => True)
  comparisonLoop : ∀ node i, isExpr node = true →
    (comparisonLoop tokens n node i).Sat (fun r => isExpr r.1 = true) (fun _ => True)
  term : ∀ i, (term tokens n i).Sat (fun r => isExpr r.1 = true) (fun _ => True)
  termLoop : ∀ node i, isExpr node = true →
    (termLoop tokens n node i).Sat (fun r => isExpr r.1 = true) (fun _ => True)
  factor : ∀ i, (factor tokens n i).Sat (fun r => isExpr r.1 = true) (fun _ => True)
  factorLoop : ∀ node i, isExpr node = true →
    (factorLoop tokens n node i).Sat (fun r => isExpr r.1 = true) (fun _ => True)
  unary : ∀ i, (unary tokens n i).Sat (fun r => isExpr r.1 = true) (fun _ => True)
  primary : ∀ i, (primary tokens n i).Sat (fun r => isExpr r.1 = true) (fun _ => True)
  call_args : ∀ i, (call_args tokens n i).Sat (fun r => allExpr r.1 = true) (fun _ => True)
  argsLoop : ∀ i args, allExpr args = true →
    (argsLoop tokens n i args).Sat (fun r => allExpr r.1 = true) (fun _ => True)

/-- Enough fuel: at recursion bound `n`, a production started at cursor `i` returns or
throws as soon as `n` is at least a constant of the production plus eight times the
number of tokens from the cursor on. -/
structure ParserTotal (tokens : List Token) (n : Nat) : Prop where
  statements : ∀ i stmts, 3 + 8 * (tokens.length - i) ≤ n →
    statements tokens n i stmts ≠ .outOfFuel
  statement : ∀ i, 2 + 8 * (tokens.length - i) ≤ n → statement tokens n i ≠ .outOfFuel
  var_decl : ∀ i, 1 + 8 * (tokens.length - i) ≤ n → var_decl tokens n i ≠ .outOfFuel
  call_args : ∀ i, 8 + 8 * (tokens.length - i) ≤ n → call_args tokens n i ≠ .outOfFuel
  argsLoop : ∀ i args, 1 + 8 * (tokens.length - i) ≤ n →
    argsLoop tokens n i args ≠ .outOfFuel
  assign_or_func_call : ∀ i, 1 + 8 * (tokens.length - i) ≤ n →
    assign_or_func_call tokens n i ≠ .outOfFuel
  show_stmt : ∀ i, 1 + 8 * (tokens.length - i) ≤ n → show_stmt tokens n i ≠ .outOfFuel
  when_stmt : ∀ i, 1 + 8 * (tokens.length - i) ≤ n → when_stmt tokens n i ≠ .outOfFuel
  elsewhenLoop : ∀ i cases, 1 + 8 * (tokens.length - i) ≤ n →
    elsewhenLoop tokens n i cases ≠ .outOfFuel
  loop_stmt : ∀ i, 1 + 8 * (tokens.length - i) ≤ n → loop_stmt tokens n i ≠ .outOfFuel
  func_def : ∀ i, 1 + 8 * (tokens.length - i) ≤ n → func_def tokens n i ≠ .outOfFuel
  funcBodyLoop : ∀ i body, 3 + 8 * (tokens.length - i) ≤ n →
    funcBodyLoop tokens n i body ≠ .outOfFuel
  block : ∀ ctx i, 1 + 8 * (tokens.length - i) ≤ n → block tokens n ctx i ≠ .outOfFuel
  expr : ∀ i, 7 + 8 * (tokens.length - i) ≤ n → expr tokens n i ≠ .outOfFuel
  equality : ∀ i, 6 + 8 * (tokens.length - i) ≤ n → equality tokens n i ≠ .outOfFuel
  equalityLoop : ∀ node i, 1 + 8 * (tokens.length - i) ≤ n →
    equalityLoop tokens n node i ≠ .outOfFuel
  comparison : ∀ i, 5 + 8 * (tokens.length - i) ≤ n → comparison tokens n i ≠ .outOfFuel
  comparisonLoop : ∀ node i, 1 + 8 * (tokens.length - i) ≤ n →
    comparisonLoop tokens n node i ≠ .outOfFuel
  term : ∀ i, 4 + 8 * (tokens.length - i) ≤ n → term tokens n i ≠ .outOfFuel
  termLoop : ∀ node i, 1 + 8 * (tokens.length - i) ≤ n →
    termLoop tokens n node i ≠ .outOfFuel
  factor : ∀ i, 3 + 8 * (tokens.length - i) ≤ n → factor tokens n i ≠ .outOfFuel
  factorLoop : ∀ node i, 1 + 8 * (tokens.length - i) ≤ n →
    factorLoop tokens n node i ≠ .outOfFuel
  unary : ∀ i, 2 + 8 * (tokens.length - i) ≤ n → unary tokens n i ≠ .outOfFuel
  primary : ∀ i, 1 + 8 * (tokens.length - i) ≤ n → primary tokens n i ≠ .outOfFuel

/-! ## Definitions used by the statements on functions, blank texts and tree shapes -/

/-- What a completed visit may add to the analyzer: entries at the end of the function
table and bindings at the end of the innermost scope; the outer scopes stay. -/
def grows (a b : SemanticAnalyzer) : Prop :=
  (∃ moreF, b.functions = a.functions ++ moreF) ∧
    ∀ top rest, a.scopes = top :: rest → ∃ more, b.scopes = (top ++ more) :: rest

/-- The texts made only of spaces, tabs, carriage returns, newlines and line comments,
read from the left; `inComment` tells whether a `#` has been read on the current line. -/
def isBlankFrom : Bool → List Char → Bool
  | _, [] => true
  | true, c :: cs => if c = '\n' then isBlankFrom false cs else isBlankFrom true cs
  | false, c :: cs =>
    if c = ' ' ∨ c = '\t' ∨ c = '\r' ∨ c = '\n' then isBlankFrom false cs
    else if c = '#' then isBlankFrom true cs
    else false

/-- A text made only of white space and line comments. -/
def isBlank (text : List Char) : Bool := isBlankFrom false text

/-- The three type names of the language, the values of the tokens `NUM`, `TEXT` and
`FLAG`. -/
def typeNames : List (List Char) := ["num".toList, "text".toList, "flag".toList]

/-- The type strings of the literals that `Parser::primary` builds. -/
def literalTypes : List (List Char) := ["num".toList, "text".toList, "bool".toList]

/-- A token of kind `NUM`, `TEXT` or `FLAG` has the name of its type as value. -/
def typeWordOk (t : Token) : Prop :=
  t.type = .NUM ∨ t.type = .TEXT ∨ t.type = .FLAG → t.value ∈ typeNames

/-- The ten operator tags of the binary operations. -/
def binaryOps : List TokenType := arithmeticOps ++ comparisonOps

mutual

/-- Every `VarDecl` of the node has one of the three type names as `vartype`, every
`BinOp` one of the ten operator tags, every `UnaryOp` the tag `MINUS`, every `Literal`
one of the three literal types. -/
def wellFormed : ASTNode → Bool
  | .Program statements => allWellFormed statements
  | .VarDecl vartype _ expr => decide (vartype ∈ typeNames) && wellFormed expr
  | .Assign _ expr => wellFormed expr
  | .Show expr => wellFormed expr
  | .Take _ => true
  | .When cases else_block => casesWellFormed cases && allWellFormed else_block
  | .Loop _ start_expr end_expr body =>
    wellFormed start_expr && wellFormed end_expr && allWellFormed body
  | .Break => true
  | .FuncDef _ _ body back_expr => allWellFormed body && wellFormed back_expr
  | .FuncCall _ args => allWellFormed args
  | .BinOp left op_type _ right =>
    decide (op_type ∈ binaryOps) && wellFormed left && wellFormed right
  | .UnaryOp op_type _ expr => decide (op_type = .MINUS) && wellFormed expr
  | .Literal _ lit_type => decide (lit_type ∈ literalTypes)
  | .Identifier _ => true

/-- Every node of the list is well formed. -/
def allWellFormed : List ASTNode → Bool
  | [] => true
  | x :: xs => wellFormed x && allWellFormed xs

/-- Every condition and every branch of the cases is well formed. -/
def casesWellFormed : List (ASTNode × List ASTNode) → Bool
  | [] => true
  | (cond, body) :: rest => wellFormed cond && allWellFormed body && casesWellFormed rest

end

/-- The invariant of the productions at recursion bound `n`: the nodes they return are
well formed. -/
structure WfInv (tokens : List Token) (n : Nat) : Prop where
  statements : ∀ i stmts, allWellFormed stmts = true →
    (statements tokens n i stmts).Sat (fun r => allWellFormed r.1 = true) (fun _ => True)
  statement : ∀ i, (statement tokens n i).Sat (fun r => wellFormed r.1 = true) (fun _ => True)
  var_decl : ∀ i, (var_decl tokens n i).Sat (fun r => wellFormed r.1 = true) (fun _ => True)
  call_args : ∀ i, (call_args tokens n i).Sat (fun r => allWellFormed r.1 = true) (fun _ => True)
  argsLoop : ∀ i args, allWellFormed args = true →
    (argsLoop tokens n i args).Sat (fun r => allWellFormed r.1 = true) (fun _ => True)
  assign_or_func_call :
    ∀ i, (assign_or_func_call tokens n i).Sat (fun r => wellFormed r.1 = true) (fun _ => True)
  show_stmt : ∀ i, (show_stmt tokens n i).Sat (fun r => wellFormed r.1 = true) (fun _ => True)
  when_stmt : ∀ i, (when_stmt tokens n i).Sat (fun r => wellFormed r.1 = true) (fun _ => True)
  elsewhenLoop : ∀ i cases, casesWellFormed cases = true →
    (elsewhenLoop tokens n i cases).Sat (fun r => casesWellFormed r.1 = true) (fun _ => True)
  loop_stmt : ∀ i, (loop_stmt tokens n i).Sat (fun r => wellFormed r.1 = true) (fun _ => True)
  func_def : ∀ i, (func_def tokens n i).Sat (fun r => wellFormed r.1 = true) (fun _ => True)
  funcBodyLoop : ∀ i body, allWellFormed body = true →
    (funcBodyLoop tokens n i body).Sat (fun r => allWellFormed r.1 = true) (fun _ => True)
  block : ∀ ctx i, (block tokens n ctx i).Sat (fun r => wellFormed r.1 = true) (fun _ => True)
  expr : ∀ i, (expr tokens n i).Sat (fun r => wellFormed r.1 = true) (fun _ => True)
  equality : ∀ i, (equality tokens n i).Sat (fun r => wellFormed r.1 = true) (fun _ => True)
  equalityLoop : ∀ node i, wellFormed node = true →
    (equalityLoop tokens n node i).Sat (fun r => wellFormed r.1 = true) (fun _ => True)
  comparison : ∀ i, (comparison tokens n i).Sat (fun r => wellFormed r.1 = true) (fun _ => True)
  comparisonLoop : ∀ node i, wellFormed node = true →
    (comparisonLoop tokens n node i).Sat (fun r => wellFormed r.1 = true) (fun _ => True)
  term : ∀ i, (term tokens n i).Sat (fun r => wellFormed r.1 = true) (fun _ => True)
  termLoop : ∀ node i, wellFormed node = true →
    (termLoop tokens n node i).Sat (fun r => wellFormed r.1 = true) (fun _ => True)
  factor : ∀ i, (factor tokens n i).Sat (fun r => wellFormed r.1 = true) (fun _ => True)
  factorLoop : ∀ node i, wellFormed node = true →
    (factorLoop tokens n node i).Sat (fun r => wellFormed r.1 = true) (fun _ => True)
  unary : ∀ i, (unary tokens n i).Sat (fun r => wellFormed r.1 = true) (fun _ => True)
  primary : ∀ i, (primary tokens n i).Sat (fun r => wellFormed r.1 = true) (fun _ => True)

/-- The errors of the internal-consistency branches of the analyzer. -/
def internalError (e : SemanticError) : Prop := e = .unknownBinaryOp ∨ e = .unhandledNode

/-- Every variable of every scope is bound to one of the three type names. -/
def goodScopes (a : SemanticAnalyzer) : Prop :=
  ∀ scope ∈ a.scopes, ∀ p ∈ scope, p.2.type ∈ typeNames

/-- The type strings of expressions: the three literal types and `flag`, the type of an
identifier bound to a `flag` variable. -/
def exprTypes : List (List Char) :=
  ["num".toList, "text".toList, "bool".toList, "flag".toList]

/-- The node is of one of the five expression classes of ast.hpp. -/
def isExprNode : ASTNode → Bool
  | .FuncCall _ _ => true
  | .BinOp _ _ _ _ => true
  | .UnaryOp _ _ _ => true
  | .Literal _ _ => true
  | .Identifier _ => true
  | _ => false

/-- The loop over a list of nodes started in state `a` visits the node `s` of the list
in state `a1`, after the nodes before it. -/
inductive ListChild : SemanticAnalyzer → List ASTNode → SemanticAnalyzer → ASTNode → Prop where
  | mk {a a1 : SemanticAnalyzer} {pre post : List ASTNode} {s : ASTNode} :
      visitAll a pre = .ok a1 → ListChild a (pre ++ s :: post) a1 s

/-- The calls of `visit` made by the `visit_*` member of a node: `Child a n a1 c` when
the visit of `n` started in state `a` calls `visit` on its child `c` in state `a1`. -/
inductive Child : SemanticAnalyzer → ASTNode → SemanticAnalyzer → ASTNode → Prop where
  | program {a a1 statements s} : ListChild a statements a1 s →
      Child a (.Program statements) a1 s
  | varDecl {a vartype name e} : Child a (.VarDecl vartype name e) a e
  | assign {a name e sym} : lookup_var a name = .ok sym → Child a (.Assign name e) a e
  | show_ {a e} : Child a (.Show e) a e
  | whenCond {a a1 pre post c body els} : visitCases a pre = .ok a1 →
      Child a (.When (pre ++ (c, body) :: post) els) a1 c
  | whenBody {a a1 a2 a3 pre post c ct body els s} : visitCases a pre = .ok a1 →
      visit a1 c = .ok (ct, a2) → ct = "bool".toList →
      ListChild (enter_scope a2) body a3 s →
      Child a (.When (pre ++ (c, body) :: post) els) a3 s
  | whenElse {a a1 a2 cases els s} : visitCases a cases = .ok a1 →
      ListChild (enter_scope a1) els a2 s → Child a (.When cases els) a2 s
  | loopStart {a var s e body} : Child a (.Loop var s e body) a s
  | loopEnd {a a1 var s e body t1} : visit a s = .ok (t1, a1) →
      Child a (.Loop var s e body) a1 e
  | loopBody {a a1 a2 a3 a4 var s e body t1 t2 st} : visit a s = .ok (t1, a1) →
      visit a1 e = .ok (t2, a2) → t1 = "num".toList → t2 = "num".toList →
      declare_var (enter_scope a2) var "num".toList = .ok a3 →
      ListChild { a3 with in_loop := a3.in_loop + 1 } body a4 st →
      Child a (.Loop var s e body) a4 st
  | funcBody {a a1 a2 name params body back_expr s} : mapFind name a.functions = none →
      declareParams (enter_scope { a with functions := a.functions ++ [(name, ⟨name, params⟩)] })
        params = .ok a1 →
      ListChild { a1 with in_func := a1.in_func + 1 } body a2 s →
      Child a (.FuncDef name params body back_expr) a2 s
  | funcBack {a a1 a2 name params body back_expr} : mapFind name a.functions = none →
      declareParams (enter_scope { a with functions := a.functions ++ [(name, ⟨name, params⟩)] })
        params = .ok a1 →
      visitAll { a1 with in_func := a1.in_func + 1 } body = .ok a2 →
      Child a (.FuncDef name params body back_expr) a2 back_expr
  | callArg {a a1 name args fs s} : mapFind name a.functions = some fs →
      fs.params.length = args.length → ListChild a args a1 s →
      Child a (.FuncCall name args) a1 s
  | binLeft {a left op value right} : Child a (.BinOp left op value right) a left
  | binRight {a a1 left op value right lt} : visit a left = .ok (lt, a1) →
      Child a (.BinOp left op value right) a1 right
  | unary {a op value e} : Child a (.UnaryOp op value e) a e

/-- The calls of `visit` made, at any depth, while the node `root` is visited from the
state `a0`: `Visited a0 root a n` when `visit` is called on `n` in state `a`. -/
inductive Visited (a0 : SemanticAnalyzer) (root : ASTNode) :
    SemanticAnalyzer → ASTNode → Prop where
  | root : Visited a0 root a0 root
  | step {a a1 n c} : Visited a0 root a n → Child a n a1 c → Visited a0 root a1 c

/-! ## Lexer: lemmas and theorems -/

@[simp] theorem Outcome.bind_ok {ε α β : Type} (a : α) (f : α → Outcome ε β) :
    (Outcome.ok a).bind f = f a := rfl
@[simp] theorem Outcome.bind_error {ε α β : Type} (e : ε) (f : α → Outcome ε β) :
    (Outcome.error e : Outcome ε α).bind f = .error e := rfl
@[simp] theorem Outcome.bind_outOfFuel {ε α β : Type} (f : α → Outcome ε β) :
    (Outcome.outOfFuel : Outcome ε α).bind f = .outOfFuel := rfl
@[simp] theorem Outcome.pure_eq {ε α : Type} (a : α) : (pure a : Outcome ε α) = .ok a := rfl
@[simp] theorem Outcome.bind_eq {ε α β : Type} (x : Outcome ε α) (f : α → Outcome ε β) :
    (x >>= f) = x.bind f := rfl

theorem Lexer.peek_eq_headD (lx : Lexer) : lx.peek = lx.rest.headD '\x00' := by
  unfold Lexer.peek Lexer.rest
  split
  · rename_i h
    rw [List.drop_eq_getElem_cons h]; rfl
  · rename_i h
    rw [List.drop_eq_nil_of_le (Nat.le_of_not_lt h)]; rfl

theorem Lexer.peek_of_rest_cons {lx : Lexer} {c : Char} {r : List Char}
    (h : lx.rest = c :: r) : lx.peek = c := by
  rw [Lexer.peek_eq_headD, h]; rfl

theorem Lexer.peek_of_rest_nil {lx : Lexer} (h : lx.rest = []) : lx.peek = '\x00' := by
  rw [Lexer.peek_eq_headD, h]; rfl

theorem Lexer.pos_lt_of_rest_cons {lx : Lexer} {c : Char} {r : List Char}
    (h : lx.rest = c :: r) : lx.pos < lx.text.length := by
  by_contra hn
  have : lx.rest = [] := List.drop_eq_nil_of_le (Nat.le_of_not_lt hn)
  rw [this] at h; cases h

theorem Lexer.rest_ne_nil_of_pos_lt {lx : Lexer} (h : lx.pos < lx.text.length) :
    ∃ r, lx.rest = lx.peek :: r := by
  refine ⟨lx.text.drop (lx.pos + 1), ?_⟩
  unfold Lexer.rest Lexer.peek
  rw [dif_pos h]
  exact List.drop_eq_getElem_cons h

theorem Lexer.pos_lt_of_peek_ne {lx : Lexer} (h : lx.peek ≠ '\x00') :
    lx.pos < lx.text.length := by
  by_contra hn
  exact h (by unfold Lexer.peek; rw [dif_neg hn])

@[simp] theorem Lexer.move_nil (lx : Lexer) : lx.move [] = lx := rfl

theorem endPos_append (p : Nat × Nat) (u v : List Char) :
    endPos p (u ++ v) = endPos (endPos p u) v := by
  induction u generalizing p with
  | nil => rfl
  | cons c cs ih => simp [endPos, ih]

theorem Lexer.move_append (lx : Lexer) (u v : List Char) :
    lx.move (u ++ v) = (lx.move u).move v := by
  simp [Lexer.move, endPos_append, Nat.add_assoc]

@[simp] theorem Lexer.move_text (lx : Lexer) (w : List Char) : (lx.move w).text = lx.text := rfl
@[simp] theorem Lexer.move_pos (lx : Lexer) (w : List Char) :
    (lx.move w).pos = lx.pos + w.length := rfl

theorem Lexer.rest_move {lx : Lexer} {w r : List Char} (h : lx.rest = w ++ r) :
    (lx.move w).rest = r := by
  unfold Lexer.rest at *
  simp only [Lexer.move_text, Lexer.move_pos]
  rw [← List.drop_drop, h, List.drop_left]

theorem Lexer.advanceChar_of_rest {lx : Lexer} {c : Char} {r : List Char}
    (h : lx.rest = c :: r) : lx.advanceChar = (c, lx.move [c]) := by
  unfold Lexer.advanceChar
  simp only [Lexer.peek_of_rest_cons h, Lexer.move, endPos]
  split <;> simp_all

theorem Lexer.rest_advance {lx : Lexer} {c : Char} {r : List Char}
    (h : lx.rest = c :: r) : (lx.move [c]).rest = r :=
  Lexer.rest_move (w := [c]) h

theorem scanIdent_run (w : List Char) : ∀ (fuel : Nat) (lx : Lexer) (id r : List Char),
    lx.rest = w ++ r → (∀ c ∈ w, c.isAlphanum = true ∨ c = '_') →
    ¬ ((r.headD '\x00').isAlphanum = true ∨ r.headD '\x00' = '_') → w.length < fuel →
    scanIdent fuel lx id = .ok (lx.move w, id ++ w) := by
  induction w with
  | nil =>
    intro fuel lx id r hr _ hstop hf
    obtain ⟨n, rfl⟩ : ∃ n, fuel = n + 1 := ⟨fuel - 1, by simp at hf; omega⟩
    have hp : lx.peek = r.headD '\x00' := by rw [Lexer.peek_eq_headD, hr]; rfl
    rw [scanIdent, hp, if_neg hstop]; simp
  | cons c cs ih =>
    intro fuel lx id r hr hw hstop hf
    obtain ⟨n, rfl⟩ : ∃ n, fuel = n + 1 := ⟨fuel - 1, by simp at hf; omega⟩
    have hr1 : lx.rest = c :: (cs ++ r) := by simpa using hr
    have hc := hw c (List.mem_cons_self _ _)
    rw [scanIdent, Lexer.peek_of_rest_cons hr1, if_pos hc, Lexer.advanceChar_of_rest hr1]
    rw [ih n (lx.move [c]) (id ++ [c]) r (Lexer.rest_advance hr1)
      (fun d hd => hw d (List.mem_cons_of_mem _ hd)) hstop (by simp at hf; omega)]
    rw [← Lexer.move_append]; simp

theorem scanNumber_run (w : List Char) : ∀ (fuel : Nat) (lx : Lexer) (num r : List Char),
    lx.rest = w ++ r → (∀ c ∈ w, c.isDigit = true) →
    ¬ ((r.headD '\x00').isDigit = true) → w.length < fuel →
    scanNumber fuel lx num = .ok (lx.move w, num ++ w) := by
  induction w with
  | nil =>
    intro fuel lx num r hr _ hstop hf
    obtain ⟨n, rfl⟩ : ∃ n, fuel = n + 1 := ⟨fuel - 1, by simp at hf; omega⟩
    have hp : lx.peek = r.headD '\x00' := by rw [Lexer.peek_eq_headD, hr]; rfl
    rw [scanNumber, hp, if_neg hstop]; simp
  | cons c cs ih =>
    intro fuel lx num r hr hw hstop hf
    obtain ⟨n, rfl⟩ : ∃ n, fuel = n + 1 := ⟨fuel - 1, by simp at hf; omega⟩
    have hr1 : lx.rest = c :: (cs ++ r) := by simpa using hr
    have hc := hw c (List.mem_cons_self _ _)
    rw [scanNumber, Lexer.peek_of_rest_cons hr1, if_pos hc, Lexer.advanceChar_of_rest hr1]
    rw [ih n (lx.move [c]) (num ++ [c]) r (Lexer.rest_advance hr1)
      (fun d hd => hw d (List.mem_cons_of_mem _ hd)) hstop (by simp at hf; omega)]
    rw [← Lexer.move_append]; simp

theorem skipComment_run (w : List Char) : ∀ (fuel : Nat) (lx : Lexer) (r : List Char),
    lx.rest = w ++ r → (∀ c ∈ w, c ≠ '\n' ∧ c ≠ '\x00') →
    ¬ (r.headD '\x00' ≠ '\n' ∧ r.headD '\x00' ≠ '\x00') → w.length < fuel →
    skipComment fuel lx = .ok (lx.move w) := by
  induction w with
  | nil =>
    intro fuel lx r hr _ hstop hf
    obtain ⟨n, rfl⟩ : ∃ n, fuel = n + 1 := ⟨fuel - 1, by simp at hf; omega⟩
    have hp : lx.peek = r.headD '\x00' := by rw [Lexer.peek_eq_headD, hr]; rfl
    rw [skipComment, hp, if_neg hstop]; rfl
  | cons c cs ih =>
    intro fuel lx r hr hw hstop hf
    obtain ⟨n, rfl⟩ : ∃ n, fuel = n + 1 := ⟨fuel - 1, by simp at hf; omega⟩
    have hr1 : lx.rest = c :: (cs ++ r) := by simpa using hr
    have hc := hw c (List.mem_cons_self _ _)
    rw [skipComment, Lexer.peek_of_rest_cons hr1, if_pos hc, Lexer.advanceChar_of_rest hr1]
    rw [ih n (lx.move [c]) r (Lexer.rest_advance hr1)
      (fun d hd => hw d (List.mem_cons_of_mem _ hd)) hstop (by simp at hf; omega)]
    rw [← Lexer.move_append]; simp

theorem headD_dropWhile (p : Char → Bool) (h0 : p '\x00' = false) (l : List Char) :
    p ((l.dropWhile p).headD '\x00') = false := by
  induction l with
  | nil => simpa using h0
  | cons c cs ih =>
    by_cases hc : p c = true
    · rw [List.dropWhile_cons_of_pos hc]; exact ih
    · rw [List.dropWhile_cons_of_neg hc]; simpa using hc

theorem length_takeWhile_le (p : Char → Bool) (l : List Char) :
    (l.takeWhile p).length ≤ l.length := by
  have h := congrArg List.length (List.takeWhile_append_dropWhile p l)
  rw [List.length_append] at h; omega

theorem scanIdent_total (fuel : Nat) (lx : Lexer) (id : List Char)
    (hf : lx.rest.length < fuel) :
    ∃ w r, lx.rest = w ++ r ∧ scanIdent fuel lx id = .ok (lx.move w, id ++ w) ∧
      (∀ c ∈ w, c.isAlphanum = true ∨ c = '_') ∧
      ¬ ((r.headD '\x00').isAlphanum = true ∨ r.headD '\x00' = '_') := by
  let p : Char → Bool := fun c => decide (c.isAlphanum = true ∨ c = '_')
  have hw : ∀ c ∈ lx.rest.takeWhile p, c.isAlphanum = true ∨ c = '_' := fun c hc => by
    have := List.mem_takeWhile_imp hc
    simpa [p] using this
  have hstop : ¬ (((lx.rest.dropWhile p).headD '\x00').isAlphanum = true ∨
      (lx.rest.dropWhile p).headD '\x00' = '_') := by
    have := headD_dropWhile p (by decide) lx.rest
    simpa [p] using this
  have hsplit := (List.takeWhile_append_dropWhile p lx.rest).symm
  exact ⟨_, _, hsplit, scanIdent_run _ fuel lx id _ hsplit hw hstop
    (Nat.lt_of_le_of_lt (length_takeWhile_le p _) hf), hw, hstop⟩

theorem scanNumber_total (fuel : Nat) (lx : Lexer) (num : List Char)
    (hf : lx.rest.length < fuel) :
    ∃ w r, lx.rest = w ++ r ∧ scanNumber fuel lx num = .ok (lx.move w, num ++ w) ∧
      (∀ c ∈ w, c.isDigit = true) ∧ ¬ ((r.headD '\x00').isDigit = true) := by
  have hw : ∀ c ∈ lx.rest.takeWhile Char.isDigit, c.isDigit = true := fun c hc =>
    List.mem_takeWhile_imp hc
  have hstop : ¬ (((lx.rest.dropWhile Char.isDigit).headD '\x00').isDigit = true) := by
    have := headD_dropWhile Char.isDigit (by decide) lx.rest
    simpa using this
  have hsplit := (List.takeWhile_append_dropWhile Char.isDigit lx.rest).symm
  exact ⟨_, _, hsplit, scanNumber_run _ fuel lx num _ hsplit hw hstop
    (Nat.lt_of_le_of_lt (length_takeWhile_le _ _) hf), hw, hstop⟩

theorem skipComment_total (fuel : Nat) (lx : Lexer) (hf : lx.rest.length < fuel) :
    ∃ w r, lx.rest = w ++ r ∧ skipComment fuel lx = .ok (lx.move w) ∧
      (∀ c ∈ w, c ≠ '\n' ∧ c ≠ '\x00') ∧
      ¬ (r.headD '\x00' ≠ '\n' ∧ r.headD '\x00' ≠ '\x00') := by
  let p : Char → Bool := fun c => decide (c ≠ '\n' ∧ c ≠ '\x00')
  have hw : ∀ c ∈ lx.rest.takeWhile p, c ≠ '\n' ∧ c ≠ '\x00' := fun c hc => by
    have := List.mem_takeWhile_imp hc
    simpa [p] using this
  have hstop : ¬ ((lx.rest.dropWhile p).headD '\x00' ≠ '\n' ∧
      (lx.rest.dropWhile p).headD '\x00' ≠ '\x00') := by
    have := headD_dropWhile p (by decide) lx.rest
    simpa [p] using this
  have hsplit := (List.takeWhile_append_dropWhile p lx.rest).symm
  exact ⟨_, _, hsplit, skipComment_run _ fuel lx _ hsplit hw hstop
    (Nat.lt_of_le_of_lt (length_takeWhile_le p _) hf), hw, hstop⟩

theorem scanString_total : ∀ (fuel : Nat) (lx : Lexer) (s : List Char),
    lx.rest.length < fuel →
    ∃ w r s1, lx.rest = w ++ r ∧ scanString fuel lx s = .ok (lx.move w, s1) := by
  intro fuel
  induction fuel with
  | zero => intro lx s hf; omega
  | succ n ih =>
    intro lx s hf
    rw [scanString]
    by_cases h1 : lx.peek ≠ '"' ∧ lx.peek ≠ '\x00'
    · rw [if_pos h1]
      obtain ⟨r1, hr1⟩ := Lexer.rest_ne_nil_of_pos_lt (Lexer.pos_lt_of_peek_ne h1.2)
      rw [Lexer.advanceChar_of_rest hr1]
      have hlen : r1.length + 1 = lx.rest.length := by rw [hr1]; rfl
      have hrest1 := Lexer.rest_advance hr1
      by_cases h2 : lx.peek = '\\' ∧ (lx.move [lx.peek]).peek ≠ '\x00'
      · obtain ⟨r2, hr2⟩ := Lexer.rest_ne_nil_of_pos_lt (Lexer.pos_lt_of_peek_ne h2.2)
        have hr12 : r1 = (lx.move [lx.peek]).peek :: r2 := by rw [← hrest1, hr2]
        have hrest2 := Lexer.rest_advance hr2
        have hmv : (lx.move [lx.peek]).move [(lx.move [lx.peek]).peek] =
            lx.move [lx.peek, (lx.move [lx.peek]).peek] := by
          rw [← Lexer.move_append]; rfl
        have key : ∀ s2, ∃ w r s1, lx.rest = w ++ r ∧
            scanString n ((lx.move [lx.peek]).move [(lx.move [lx.peek]).peek]) s2 =
              .ok (lx.move w, s1) := by
          intro s2
          obtain ⟨w, r, s1, hw, hs⟩ := ih ((lx.move [lx.peek]).move
            [(lx.move [lx.peek]).peek]) s2 (by rw [hrest2]; rw [hr12] at hlen; simp at hlen; omega)
          refine ⟨[lx.peek, (lx.move [lx.peek]).peek] ++ w, r, s1, ?_, ?_⟩
          · rw [hr1, hr12]; rw [hrest2] at hw; rw [hw]; simp
          · rw [hs, hmv, ← Lexer.move_append]
        simp only [if_pos h2, Lexer.advanceChar_of_rest hr2]
        split
        · exact key _
        · split
          · exact key _
          · exact key _
      · simp only [if_neg h2]
        obtain ⟨w, r, s1, hw, hs⟩ := ih (lx.move [lx.peek]) (s ++ [lx.peek])
          (by rw [hrest1]; omega)
        refine ⟨lx.peek :: w, r, s1, ?_, ?_⟩
        · rw [hr1]; rw [hrest1] at hw; rw [hw]; simp
        · rw [hs]; rw [← Lexer.move_append]; rfl
    · rw [if_neg h1]
      exact ⟨[], lx.rest, s, rfl, rfl⟩

theorem isDigit_iff (c : Char) : c.isDigit = true ↔ 48 ≤ c.toNat ∧ c.toNat ≤ 57 := by
  simp only [Char.isDigit, Bool.and_eq_true, decide_eq_true_eq, Char.toNat, UInt32.le_def,
    Fin.le_def]
  rfl

theorem isAlpha_iff (c : Char) : c.isAlpha = true ↔
    (65 ≤ c.toNat ∧ c.toNat ≤ 90) ∨ (97 ≤ c.toNat ∧ c.toNat ≤ 122) := by
  simp only [Char.isAlpha, Char.isUpper, Char.isLower, Bool.or_eq_true, Bool.and_eq_true,
    decide_eq_true_eq, Char.toNat, UInt32.le_def, Fin.le_def]
  rfl

theorem not_isDigit_of_isAlpha {c : Char} (h : c.isAlpha = true ∨ c = '_') :
    ¬ c.isDigit = true := by
  rcases h with h | rfl
  · rw [isAlpha_iff] at h
    intro hd; rw [isDigit_iff] at hd; omega
  · decide

theorem isAlphanum_of_isAlpha {c : Char} (h : c.isAlpha = true ∨ c = '_') :
    c.isAlphanum = true ∨ c = '_' := by
  rcases h with h | h
  · left; simp [Char.isAlphanum, h]
  · right; exact h

theorem not_space_of_isDigit {c : Char} (h : c.isDigit = true) :
    ¬ (c = ' ' ∨ c = '\t' ∨ c = '\r') ∧ c ≠ '\n' ∧ c ≠ '#' := by
  refine ⟨?_, ?_, ?_⟩
  · rintro (rfl | rfl | rfl) <;> revert h <;> decide
  · rintro rfl; revert h; decide
  · rintro rfl; revert h; decide

theorem not_space_of_isAlpha {c : Char} (h : c.isAlpha = true ∨ c = '_') :
    ¬ (c = ' ' ∨ c = '\t' ∨ c = '\r') ∧ c ≠ '\n' ∧ c ≠ '#' := by
  rcases h with h | rfl
  · refine ⟨?_, ?_, ?_⟩
    · rintro (rfl | rfl | rfl) <;> revert h <;> decide
    · rintro rfl; revert h; decide
    · rintro rfl; revert h; decide
  · decide

theorem Lexer.rest_length_le (lx : Lexer) : lx.rest.length ≤ lx.text.length := by
  unfold Lexer.rest; rw [List.length_drop]; omega

theorem length_lt_fuel {lx : Lexer} {w r : List Char} (h : lx.rest = w ++ r) :
    w.length < lx.text.length + 1 := by
  have h1 := lx.rest_length_le
  rw [h, List.length_append] at h1; omega

theorem scanToken_space {lx : Lexer} {c : Char} {r : List Char} (h : lx.rest = c :: r)
    (hc : c = ' ' ∨ c = '\t' ∨ c = '\r' ∨ c = '\n') :
    scanToken lx = .ok (lx.move [c], none) := by
  unfold scanToken
  simp only [Lexer.peek_of_rest_cons h, Lexer.advanceChar_of_rest h]
  rcases hc with rfl | rfl | rfl | rfl <;> simp

theorem scanToken_comment {lx : Lexer} {w r : List Char} (h : lx.rest = '#' :: (w ++ r))
    (hw : ∀ c ∈ w, c ≠ '\n' ∧ c ≠ '\x00')
    (hr : ¬ (r.headD '\x00' ≠ '\n' ∧ r.headD '\x00' ≠ '\x00')) :
    scanToken lx = .ok (lx.move ('#' :: w), none) := by
  have h1 : lx.rest = ('#' :: w) ++ r := by simpa using h
  have hrun := skipComment_run ('#' :: w) (lx.text.length + 1) lx r h1
    (by
      intro c hc
      rcases List.mem_cons.1 hc with rfl | hc
      · decide
      · exact hw c hc) hr (length_lt_fuel h1)
  unfold scanToken
  simp only [Lexer.peek_of_rest_cons h, hrun]
  simp

theorem scanToken_number {lx : Lexer} {c : Char} {w r : List Char}
    (h : lx.rest = (c :: w) ++ r) (hw : ∀ d ∈ c :: w, d.isDigit = true)
    (hr : ¬ ((r.headD '\x00').isDigit = true)) :
    scanToken lx = .ok (lx.move (c :: w), some ⟨.NUMBER, c :: w, lx.line, lx.col⟩) := by
  have hrun := scanNumber_run (c :: w) (lx.text.length + 1) lx [] r h hw hr (length_lt_fuel h)
  have hc := hw c (List.mem_cons_self _ _)
  have hns := not_space_of_isDigit hc
  have h1 : lx.rest = c :: (w ++ r) := by simpa using h
  unfold scanToken
  simp only [Lexer.peek_of_rest_cons h1, hrun, if_neg hns.1, if_neg hns.2.1, if_neg hns.2.2,
    hc]
  simp

theorem scanToken_word {lx : Lexer} {c : Char} {w r : List Char}
    (h : lx.rest = (c :: w) ++ r) (hc : c.isAlpha = true ∨ c = '_')
    (hw : ∀ d ∈ w, d.isAlphanum = true ∨ d = '_')
    (hr : ¬ ((r.headD '\x00').isAlphanum = true ∨ r.headD '\x00' = '_')) :
    scanToken lx = .ok (lx.move (c :: w), some (wordToken (c :: w) lx.line lx.col)) := by
  have hrun := scanIdent_run (c :: w) (lx.text.length + 1) lx [] r h
    (by
      intro d hd
      rcases List.mem_cons.1 hd with rfl | hd
      · exact isAlphanum_of_isAlpha hc
      · exact hw d hd) hr (length_lt_fuel h)
  have hns := not_space_of_isAlpha hc
  have hnd := not_isDigit_of_isAlpha hc
  have h1 : lx.rest = c :: (w ++ r) := by simpa using h
  unfold scanToken
  simp only [Lexer.peek_of_rest_cons h1, hrun, if_neg hns.1, if_neg hns.2.1, if_neg hns.2.2,
    if_neg hnd, if_pos hc]
  simp

theorem Lexer.rest_of_startsWith {lx : Lexer} {s : List Char} (h : lx.startsWith s = true) :
    ∃ r, lx.rest = s ++ r := by
  unfold Lexer.startsWith at h
  split at h
  · cases h
  · refine ⟨lx.rest.drop s.length, ?_⟩
    have h2 : List.take s.length lx.rest = s := by simpa [Lexer.rest] using h
    conv_lhs => rw [← List.take_append_drop s.length lx.rest]
    rw [h2]

theorem Lexer.startsWith_of_rest {lx : Lexer} {s r : List Char} (hs : s ≠ [])
    (hr : lx.rest = s ++ r) : lx.startsWith s = true := by
  unfold Lexer.startsWith
  have hlen : lx.rest.length = lx.text.length - lx.pos := by
    unfold Lexer.rest; rw [List.length_drop]
  have hl2 : lx.rest.length = s.length + r.length := by rw [hr, List.length_append]
  have hs1 : 0 < s.length := List.length_pos.2 hs
  rw [if_neg (by omega)]
  have : List.take s.length (List.drop lx.pos lx.text) = s := by
    change List.take s.length lx.rest = s
    rw [hr, List.take_left]
  simpa using this

theorem Lexer.startsWith_eq_false {lx : Lexer} {a c d : Char} {r : List Char}
    (hr : lx.rest = a :: r) (h : a ≠ c ∨ r.headD '\x00' ≠ d) :
    lx.startsWith [c, d] = false := by
  rw [Bool.eq_false_iff]
  intro hs
  obtain ⟨r1, hr1⟩ := Lexer.rest_of_startsWith hs
  rw [hr] at hr1
  simp at hr1
  obtain ⟨rfl, rfl⟩ := hr1
  simp at h

/-- The two-character operators and their token kinds. -/
theorem scanToken_two {lx : Lexer} {a b : Char} {r : List Char} {tt : TokenType}
    (h : lx.rest = a :: b :: r)
    (hop : (a, b, tt) ∈ [('=', '=', TokenType.EQEQ), ('!', '=', TokenType.NOTEQ),
      ('>', '=', TokenType.GTEQ), ('<', '=', TokenType.LTEQ)]) :
    scanToken lx = .ok (lx.move [a, b], some ⟨tt, [a, b], lx.line, lx.col⟩) := by
  have h2 : (lx.move [a]).rest = b :: r := Lexer.rest_advance h
  have hm : (lx.move [a]).move [b] = lx.move [a, b] := by
    rw [← Lexer.move_append]; rfl
  have hsw : lx.startsWith [a, b] = true :=
    Lexer.startsWith_of_rest (by simp) (r := r) (by simpa using h)
  have hne : ∀ c d : Char, a ≠ c → lx.startsWith [c, d] = false := fun c d hcd =>
    Lexer.startsWith_eq_false h (Or.inl hcd)
  unfold scanToken
  simp only [Lexer.peek_of_rest_cons h, Lexer.advanceChar_of_rest h,
    Lexer.advanceChar_of_rest h2, hm]
  simp only [List.mem_cons, Prod.mk.injEq, List.mem_singleton, List.not_mem_nil, or_false] at hop
  rcases hop with ⟨rfl, rfl, rfl⟩ | ⟨rfl, rfl, rfl⟩ | ⟨rfl, rfl, rfl⟩ | ⟨rfl, rfl, rfl⟩
  · simp [hsw]
  · simp [hsw, hne '=' '=' (by decide)]
  · simp [hsw, hne '=' '=' (by decide), hne '!' '=' (by decide)]
  · simp [hsw, hne '=' '=' (by decide), hne '!' '=' (by decide), hne '>' '=' (by decide)]

theorem singleCharKind_some {c : Char} {tt : TokenType} (hk : singleCharKind c = some tt) :
    (c, tt) ∈ [('+', TokenType.PLUS), ('-', TokenType.MINUS), ('*', TokenType.STAR),
      ('/', TokenType.SLASH), ('=', TokenType.ASSIGN), ('>', TokenType.GT),
      ('<', TokenType.LT), (',', TokenType.COMMA), ('(', TokenType.LPAREN),
      (')', TokenType.RPAREN), ('{', TokenType.LBRACE), ('}', TokenType.RBRACE)] := by
  unfold singleCharKind at hk
  by_cases h0 : c = '+'
  · rw [if_pos h0] at hk; cases hk; simp [h0]
  rw [if_neg h0] at hk
  by_cases h1 : c = '-'
  · rw [if_pos h1] at hk; cases hk; simp [h1]
  rw [if_neg h1] at hk
  by_cases h2 : c = '*'
  · rw [if_pos h2] at hk; cases hk; simp [h2]
  rw [if_neg h2] at hk
  by_cases h3 : c = '/'
  · rw [if_pos h3] at hk; cases hk; simp [h3]
  rw [if_neg h3] at hk
  by_cases h4 : c = '='
  · rw [if_pos h4] at hk; cases hk; simp [h4]
  rw [if_neg h4] at hk
  by_cases h5 : c = '>'
  · rw [if_pos h5] at hk; cases hk; simp [h5]
  rw [if_neg h5] at hk
  by_cases h6 : c = '<'
  · rw [if_pos h6] at hk; cases hk; simp [h6]
  rw [if_neg h6] at hk
  by_cases h7 : c = ','
  · rw [if_pos h7] at hk; cases hk; simp [h7]
  rw [if_neg h7] at hk
  by_cases h8 : c = '('
  · rw [if_pos h8] at hk; cases hk; simp [h8]
  rw [if_neg h8] at hk
  by_cases h9 : c = ')'
  · rw [if_pos h9] at hk; cases hk; simp [h9]
  rw [if_neg h9] at hk
  by_cases h10 : c = '{'
  · rw [if_pos h10] at hk; cases hk; simp [h10]
  rw [if_neg h10] at hk
  by_cases h11 : c = '}'
  · rw [if_pos h11] at hk; cases hk; simp [h11]
  rw [if_neg h11] at hk
  cases hk

theorem scanToken_single {lx : Lexer} {c : Char} {r : List Char} {tt : TokenType}
    (h : lx.rest = c :: r) (hk : singleCharKind c = some tt) (h2 : lx.noTwoCharOp) :
    scanToken lx = .ok (lx.move [c], some ⟨tt, [c], lx.line, lx.col⟩) := by
  obtain ⟨e1, e2, e3, e4⟩ := h2
  have hmem := singleCharKind_some hk
  unfold scanToken
  simp only [Lexer.peek_of_rest_cons h, Lexer.advanceChar_of_rest h, e1, e2, e3, e4, hk]
  simp only [List.mem_cons, Prod.mk.injEq, List.mem_singleton, List.not_mem_nil, or_false]
    at hmem
  rcases hmem with h | h | h | h | h | h | h | h | h | h | h | h <;>
    (obtain ⟨hc, ht⟩ := h; subst hc; subst ht; simp)

theorem scanToken_unexpected {lx : Lexer} {c : Char} {r : List Char}
    (h : lx.rest = c :: r) (hc : unexpectedChar c) (h2 : lx.noTwoCharOp) :
    scanToken lx = .error (.unexpectedCharacter c) := by
  obtain ⟨e1, e2, e3, e4⟩ := h2
  obtain ⟨c1, c2, c3, c4, c5, c6, c7⟩ := hc
  unfold scanToken
  simp only [Lexer.peek_of_rest_cons h, e1, e2, e3, e4, c7, if_neg c1, if_neg c2, if_neg c3,
    c4, if_neg c5, if_neg c6]
  simp

theorem scanToken_string {lx lx2 : Lexer} {r s : List Char} (h : lx.rest = '"' :: r)
    (hs : scanString (lx.text.length + 1) (lx.move ['"']) [] = .ok (lx2, s)) :
    scanToken lx = if lx2.peek ≠ '"' then .error .unterminatedString
      else .ok (lx2.advanceChar.2, some ⟨.STRING, s, lx.line, lx.col⟩) := by
  unfold scanToken
  simp only [Lexer.peek_of_rest_cons h, Lexer.advanceChar_of_rest h, hs]
  simp

theorem kwFind_mem {key : List Char} {tt : TokenType} :
    ∀ {tbl : List (List Char × TokenType)}, kwFind key tbl = some tt →
      tt ∈ tbl.map Prod.snd := by
  intro tbl
  induction tbl with
  | nil => intro h; cases h
  | cons kt rest ih =>
    obtain ⟨k, t⟩ := kt
    intro h
    rw [kwFind] at h
    split at h
    · cases h; exact List.mem_cons_self _ _
    · exact List.mem_cons_of_mem _ (ih h)

theorem wordToken_pos (id : List Char) (l c : Nat) :
    (wordToken id l c).line = l ∧ (wordToken id l c).col = c ∧
      (wordToken id l c).type ≠ .EOF_T := by
  unfold wordToken
  cases h : kwFind (id.map Char.toLower) kw with
  | none => simp [h]
  | some tt =>
    have hne : tt ≠ .EOF_T := by
      have hm := kwFind_mem h
      rintro rfl
      revert hm
      decide
    by_cases hb : tt = .BOOL
    · simp [h, hb]
    · simp [h, hb, hne]

theorem eq_cons_of_append {α : Type} {c : α} {r0 w r : List α} (h : c :: r0 = w ++ r)
    (hw : w ≠ []) : ∃ w1, w = c :: w1 ∧ r0 = w1 ++ r := by
  cases w with
  | nil => exact absurd rfl hw
  | cons a w1 =>
    simp at h
    exact ⟨w1, by rw [h.1], h.2⟩

/-- What one iteration of the main loop does: it throws, or it consumes a non-empty
part `w` of the unread text and emits at most one token, positioned at the line and
column of the start of the iteration and never of kind `EOF_T`. -/
theorem scanToken_shape (lx : Lexer) (h : lx.pos < lx.text.length) :
    (∃ e, scanToken lx = .error e) ∨
    ∃ w r t, w ≠ [] ∧ lx.rest = w ++ r ∧ scanToken lx = .ok (lx.move w, t) ∧
      ∀ tok, t = some tok → tok.line = lx.line ∧ tok.col = lx.col ∧ tok.type ≠ .EOF_T := by
  obtain ⟨r0, hr0⟩ := Lexer.rest_ne_nil_of_pos_lt h
  by_cases hws : lx.peek = ' ' ∨ lx.peek = '\t' ∨ lx.peek = '\r' ∨ lx.peek = '\n'
  · exact Or.inr ⟨[lx.peek], r0, none, by simp, hr0, scanToken_space hr0 hws, by simp⟩
  by_cases hcm : lx.peek = '#'
  · obtain ⟨w, r, hsplit, -, hw, hstop⟩ :=
      skipComment_total (lx.text.length + 1) lx (Nat.lt_succ_of_le lx.rest_length_le)
    have hwne : w ≠ [] := by
      rintro rfl
      apply hstop
      have : r.headD '\x00' = '#' := by
        rw [← hcm, Lexer.peek_eq_headD, hsplit]; rfl
      rw [this]; decide
    rw [hcm] at hr0
    rw [hr0] at hsplit
    obtain ⟨w1, rfl, hr1⟩ := eq_cons_of_append hsplit hwne
    exact Or.inr ⟨'#' :: w1, r, none, by simp, by rw [hr0, hr1]; rfl,
      scanToken_comment (by rw [hr0, hr1])
        (fun c hc => hw c (List.mem_cons_of_mem _ hc)) hstop, by simp⟩
  by_cases hdg : lx.peek.isDigit = true
  · obtain ⟨w, r, hsplit, -, hw, hstop⟩ :=
      scanNumber_total (lx.text.length + 1) lx [] (Nat.lt_succ_of_le lx.rest_length_le)
    have hwne : w ≠ [] := by
      rintro rfl
      apply hstop
      have : r.headD '\x00' = lx.peek := by
        rw [Lexer.peek_eq_headD, hsplit]; rfl
      rw [this]; exact hdg
    rw [hr0] at hsplit
    obtain ⟨w1, rfl, hr1⟩ := eq_cons_of_append hsplit hwne
    refine Or.inr ⟨lx.peek :: w1, r, _, by simp, by rw [hr0, hr1]; rfl,
      scanToken_number (by rw [hr0, hr1]; rfl) hw hstop, ?_⟩
    intro tok ht
    cases ht
    exact ⟨rfl, rfl, by simp⟩
  by_cases hal : lx.peek.isAlpha = true ∨ lx.peek = '_'
  · obtain ⟨w, r, hsplit, -, hw, hstop⟩ :=
      scanIdent_total (lx.text.length + 1) lx [] (Nat.lt_succ_of_le lx.rest_length_le)
    have hwne : w ≠ [] := by
      rintro rfl
      apply hstop
      have : r.headD '\x00' = lx.peek := by
        rw [Lexer.peek_eq_headD, hsplit]; rfl
      rw [this]; exact isAlphanum_of_isAlpha hal
    rw [hr0] at hsplit
    obtain ⟨w1, rfl, hr1⟩ := eq_cons_of_append hsplit hwne
    refine Or.inr ⟨lx.peek :: w1, r, _, by simp, by rw [hr0, hr1]; rfl,
      scanToken_word (by rw [hr0, hr1]; rfl) hal
        (fun d hd => hw d (List.mem_cons_of_mem _ hd)) hstop, ?_⟩
    intro tok ht
    cases ht
    exact wordToken_pos _ _ _
  by_cases hq : lx.peek = '"'
  · rw [hq] at hr0
    have hr1 : (lx.move ['"']).rest = r0 := Lexer.rest_advance hr0
    obtain ⟨w, r, s1, hsplit, hrun⟩ :=
      scanString_total (lx.text.length + 1) (lx.move ['"']) []
        (Nat.lt_succ_of_le (lx.move ['"']).rest_length_le)
    have hst := scanToken_string hr0 hrun
    by_cases hp : ((lx.move ['"']).move w).peek ≠ '"'
    · rw [if_pos hp] at hst
      exact Or.inl ⟨_, hst⟩
    · rw [if_neg hp] at hst
      have hp1 : ((lx.move ['"']).move w).peek = '"' := by simpa using hp
      have hr2 : ((lx.move ['"']).move w).rest = r := Lexer.rest_move hsplit
      obtain ⟨r3, hr3⟩ := Lexer.rest_ne_nil_of_pos_lt
        (@Lexer.pos_lt_of_peek_ne ((lx.move ['"']).move w) (by rw [hp1]; decide))
      rw [hp1] at hr3
      rw [Lexer.advanceChar_of_rest hr3] at hst
      refine Or.inr ⟨'"' :: (w ++ ['"']), r3, some ⟨.STRING, s1, lx.line, lx.col⟩,
        by simp, ?_, ?_, ?_⟩
      · rw [hr0, ← hr1, hsplit, ← hr2, hr3]; simp
      · rw [hst]
        have : ((lx.move ['"']).move w).move ['"'] = lx.move ('"' :: (w ++ ['"'])) := by
          rw [← Lexer.move_append, ← Lexer.move_append]; rfl
        rw [this]
      · intro tok ht
        cases ht
        exact ⟨rfl, rfl, by simp⟩
  by_cases h1 : lx.startsWith ['=', '='] = true
  · obtain ⟨r, hr⟩ := Lexer.rest_of_startsWith h1
    exact Or.inr ⟨_, r, _, by simp, hr, @scanToken_two lx '=' '=' r .EQEQ (by simpa using hr)
      (by simp), by intro tok ht; cases ht; exact ⟨rfl, rfl, by simp⟩⟩
  by_cases h2 : lx.startsWith ['!', '='] = true
  · obtain ⟨r, hr⟩ := Lexer.rest_of_startsWith h2
    exact Or.inr ⟨_, r, _, by simp, hr, @scanToken_two lx '!' '=' r .NOTEQ (by simpa using hr)
      (by simp), by intro tok ht; cases ht; exact ⟨rfl, rfl, by simp⟩⟩
  by_cases h3 : lx.startsWith ['>', '='] = true
  · obtain ⟨r, hr⟩ := Lexer.rest_of_startsWith h3
    exact Or.inr ⟨_, r, _, by simp, hr, @scanToken_two lx '>' '=' r .GTEQ (by simpa using hr)
      (by simp), by intro tok ht; cases ht; exact ⟨rfl, rfl, by simp⟩⟩
  by_cases h4 : lx.startsWith ['<', '='] = true
  · obtain ⟨r, hr⟩ := Lexer.rest_of_startsWith h4
    exact Or.inr ⟨_, r, _, by simp, hr, @scanToken_two lx '<' '=' r .LTEQ (by simpa using hr)
      (by simp), by intro tok ht; cases ht; exact ⟨rfl, rfl, by simp⟩⟩
  have hno : lx.noTwoCharOp := ⟨by simpa using h1, by simpa using h2, by simpa using h3,
    by simpa using h4⟩
  cases hk : singleCharKind lx.peek with
  | some tt =>
    refine Or.inr ⟨[lx.peek], r0, _, by simp, hr0, scanToken_single hr0 hk hno, ?_⟩
    intro tok ht
    cases ht
    refine ⟨rfl, rfl, ?_⟩
    have hm := singleCharKind_some hk
    rintro heq
    simp only [] at heq
    rw [heq] at hm
    simp at hm
  | none =>
    refine Or.inl ⟨_, scanToken_unexpected hr0 ⟨?_, ?_, hcm, by simpa using hdg, hal, hq, hk⟩ hno⟩
    · intro hh; apply hws
      rcases hh with hh | hh | hh
      · exact Or.inl hh
      · exact Or.inr (Or.inl hh)
      · exact Or.inr (Or.inr (Or.inl hh))
    · intro hh; exact hws (Or.inr (Or.inr (Or.inr hh)))

theorem Lexer.sync_new (text : List Char) : (Lexer.new text).Sync text :=
  ⟨[], text, rfl, rfl⟩

theorem Lexer.rest_new (text : List Char) : (Lexer.new text).rest = text := rfl

theorem Lexer.Sync.move {lx : Lexer} {text w r : List Char} (hs : lx.Sync text)
    (h : lx.rest = w ++ r) : (lx.move w).Sync text := by
  obtain ⟨w0, r0, ht, rfl⟩ := hs
  have hr : ((Lexer.new text).move w0).rest = r0 :=
    Lexer.rest_move (by rw [Lexer.rest_new]; exact ht)
  rw [hr] at h
  exact ⟨w0 ++ w, r, by rw [ht, h, List.append_assoc], by rw [Lexer.move_append]⟩

theorem Lexer.Sync.text_eq {lx : Lexer} {text : List Char} (hs : lx.Sync text) :
    lx.text = text := by
  obtain ⟨w0, r0, _, rfl⟩ := hs; rfl

theorem Lexer.Sync.take_eq {lx : Lexer} {text : List Char} (hs : lx.Sync text) :
    lx.pos ≤ text.length ∧
      (lx.line, lx.col) = endPos (1, 1) (text.take lx.pos) := by
  obtain ⟨w0, r0, ht, rfl⟩ := hs
  have hp : ((Lexer.new text).move w0).pos = w0.length := by simp [Lexer.new]
  rw [hp]
  constructor
  · rw [ht, List.length_append]; omega
  · rw [ht, List.take_left]; rfl

theorem Lexer.Sync.at_end {lx : Lexer} {text : List Char} (hs : lx.Sync text)
    (h : ¬ lx.pos < lx.text.length) : (lx.line, lx.col) = endPos (1, 1) text := by
  have h1 := hs.take_eq
  rw [hs.text_eq] at h
  rw [List.take_of_length_le (by omega)] at h1
  exact h1.2

/-- The length of the unread text strictly decreases along `move` by a non-empty part. -/
theorem Lexer.rest_move_length {lx : Lexer} {w r : List Char} (h : lx.rest = w ++ r)
    (hw : w ≠ []) : (lx.move w).rest.length < lx.rest.length := by
  rw [Lexer.rest_move h, h, List.length_append]
  have := List.length_pos.2 hw
  omega

theorem tokenizeLoop_total : ∀ (fuel : Nat) (lx : Lexer) (toks : List Token),
    lx.rest.length < fuel → tokenizeLoop fuel lx toks ≠ .outOfFuel := by
  intro fuel
  induction fuel with
  | zero => intro lx toks h; omega
  | succ n ih =>
    intro lx toks hf
    rw [tokenizeLoop]
    split
    · rename_i hpos
      rcases scanToken_shape lx hpos with ⟨e, he⟩ | ⟨w, r, t, hw, hr, hs, -⟩
      · rw [he]; simp
      · rw [hs]
        have hlt := Lexer.rest_move_length hr hw
        cases t with
        | none => exact ih _ _ (by omega)
        | some tok => exact ih _ _ (by omega)
    · simp

theorem tokenize_total (text : List Char) : tokenize text ≠ .outOfFuel :=
  tokenizeLoop_total _ _ _ (by rw [Lexer.rest_new]; omega)

theorem tokenizeLoop_of_reaches {text : List Char} {lx : Lexer} {pts : List (Nat × Token)}
    (h : Reaches text lx pts) :
    ∃ fuel, lx.rest.length < fuel ∧
      tokenize text = tokenizeLoop fuel lx (pts.map Prod.snd) ∧
      tokenizeAt text = tokenizeLoopAt fuel lx pts := by
  induction h with
  | start => exact ⟨text.length + 1, by rw [Lexer.rest_new]; omega, rfl, rfl⟩
  | @skip lx lx1 pts _ hpos hs ih =>
    obtain ⟨fuel, hf, heq, heq2⟩ := ih
    obtain ⟨n, rfl⟩ : ∃ n, fuel = n + 1 := ⟨fuel - 1, by omega⟩
    rcases scanToken_shape lx hpos with ⟨e, he⟩ | ⟨w, r, t, hw, hr, hs2, -⟩
    · rw [he] at hs; cases hs
    · rw [hs2] at hs
      cases hs
      have hlt := Lexer.rest_move_length hr hw
      refine ⟨n, by omega, ?_, ?_⟩
      · rw [heq, tokenizeLoop, if_pos hpos, hs2]
      · rw [heq2, tokenizeLoopAt, if_pos hpos, hs2]
  | @emit lx lx1 pts t0 _ hpos hs ih =>
    obtain ⟨fuel, hf, heq, heq2⟩ := ih
    obtain ⟨n, rfl⟩ : ∃ n, fuel = n + 1 := ⟨fuel - 1, by omega⟩
    rcases scanToken_shape lx hpos with ⟨e, he⟩ | ⟨w, r, t, hw, hr, hs2, -⟩
    · rw [he] at hs; cases hs
    · rw [hs2] at hs
      cases hs
      have hlt := Lexer.rest_move_length hr hw
      refine ⟨n, by omega, ?_, ?_⟩
      · rw [heq, tokenizeLoop, if_pos hpos, hs2]; simp
      · rw [heq2, tokenizeLoopAt, if_pos hpos, hs2]

theorem tokenize_error_of_reaches {text : List Char} {lx : Lexer} {pts : List (Nat × Token)}
    {e : LexError} (h : Reaches text lx pts) (hpos : lx.pos < lx.text.length)
    (hs : scanToken lx = .error e) : tokenize text = .error e := by
  obtain ⟨fuel, hf, heq, -⟩ := tokenizeLoop_of_reaches h
  obtain ⟨n, rfl⟩ : ∃ n, fuel = n + 1 := ⟨fuel - 1, by omega⟩
  rw [heq, tokenizeLoop, if_pos hpos, hs]

theorem tokenize_of_reaches_end {text : List Char} {lx : Lexer} {pts : List (Nat × Token)}
    (h : Reaches text lx pts) (hpos : ¬ lx.pos < lx.text.length) :
    tokenize text = .ok (pts.map Prod.snd ++ [⟨.EOF_T, [], lx.line, lx.col⟩]) ∧
    tokenizeAt text = .ok (pts ++ [(lx.pos, ⟨.EOF_T, [], lx.line, lx.col⟩)]) := by
  obtain ⟨fuel, hf, heq, heq2⟩ := tokenizeLoop_of_reaches h
  obtain ⟨n, rfl⟩ : ∃ n, fuel = n + 1 := ⟨fuel - 1, by omega⟩
  constructor
  · rw [heq, tokenizeLoop, if_neg hpos]
  · rw [heq2, tokenizeLoopAt, if_neg hpos]

/-- Every run of the main loop that returns ends in a reachable state at the end of
the text. -/
theorem reaches_of_tokenizeLoop {text : List Char} : ∀ (fuel : Nat) (lx : Lexer)
    (pts : List (Nat × Token)) (out : List Token), Reaches text lx pts →
    tokenizeLoop fuel lx (pts.map Prod.snd) = .ok out →
    ∃ lx1 pts1, Reaches text lx1 pts1 ∧ ¬ lx1.pos < lx1.text.length ∧
      out = pts1.map Prod.snd ++ [⟨.EOF_T, [], lx1.line, lx1.col⟩] := by
  intro fuel
  induction fuel with
  | zero => intro lx pts out _ h; rw [tokenizeLoop] at h; cases h
  | succ n ih =>
    intro lx pts out hre h
    rw [tokenizeLoop] at h
    split at h
    · rename_i hpos
      cases hs : scanToken lx with
      | error e => rw [hs] at h; cases h
      | outOfFuel => rw [hs] at h; cases h
      | ok res =>
        obtain ⟨lx1, t⟩ := res
        rw [hs] at h
        cases t with
        | none => exact ih lx1 pts out (Reaches.skip hre hpos hs) h
        | some tok =>
          exact ih lx1 (pts ++ [(lx.pos, tok)]) out (Reaches.emit hre hpos hs)
            (by simpa using h)
    · rename_i hpos
      cases h
      exact ⟨lx, pts, hre, hpos, rfl⟩

theorem reaches_of_tokenize {text : List Char} {out : List Token}
    (h : tokenize text = .ok out) :
    ∃ lx pts, Reaches text lx pts ∧ ¬ lx.pos < lx.text.length ∧
      out = pts.map Prod.snd ++ [⟨.EOF_T, [], lx.line, lx.col⟩] :=
  reaches_of_tokenizeLoop _ _ [] out Reaches.start h

/-! ### Invariants of the reachable states -/

theorem posLt_trans {a b c : Nat × Nat} (h1 : posLt a b) (h2 : posLt b c) : posLt a c := by
  unfold posLt at *; omega

theorem posLe_endPos (w : List Char) : ∀ p : Nat × Nat, endPos p w = p ∨ posLt p (endPos p w) := by
  induction w with
  | nil => intro p; exact Or.inl rfl
  | cons c cs ih =>
    intro p
    right
    rw [endPos]
    have hstep : posLt p (if c = '\n' then (p.1 + 1, 1) else (p.1, p.2 + 1)) := by
      unfold posLt; split <;> simp
    rcases ih (if c = '\n' then (p.1 + 1, 1) else (p.1, p.2 + 1)) with h | h
    · rw [h]; exact hstep
    · exact posLt_trans hstep h

theorem posLt_endPos {w : List Char} (hw : w ≠ []) (p : Nat × Nat) : posLt p (endPos p w) := by
  cases w with
  | nil => exact absurd rfl hw
  | cons c cs =>
    rw [endPos]
    have hstep : posLt p (if c = '\n' then (p.1 + 1, 1) else (p.1, p.2 + 1)) := by
      unfold posLt; split <;> simp
    rcases posLe_endPos cs (if c = '\n' then (p.1 + 1, 1) else (p.1, p.2 + 1)) with h | h
    · rw [h]; exact hstep
    · exact posLt_trans hstep h

/-- What holds of every reachable state: the state is in step with the text, and
every token emitted so far is not of kind `EOF_T`, starts inside the text, carries the
line and column of its first character, and lies before the current position. -/
theorem reaches_inv {text : List Char} {lx : Lexer} {pts : List (Nat × Token)}
    (h : Reaches text lx pts) :
    lx.Sync text ∧ ∀ pt ∈ pts, pt.2.type ≠ .EOF_T ∧ pt.1 < text.length ∧ pt.1 < lx.pos ∧
      (pt.2.line, pt.2.col) = endPos (1, 1) (text.take pt.1) ∧
      posLt (pt.2.line, pt.2.col) (lx.line, lx.col) := by
  induction h with
  | start => exact ⟨Lexer.sync_new text, by simp⟩
  | @skip lx lx1 pts _ hpos hs ih =>
    obtain ⟨hsync, hall⟩ := ih
    rcases scanToken_shape lx hpos with ⟨e, he⟩ | ⟨w, r, t, hw, hr, hs2, -⟩
    · rw [he] at hs; cases hs
    · rw [hs2] at hs
      cases hs
      refine ⟨hsync.move hr, ?_⟩
      intro pt hpt
      obtain ⟨h1, h2, h3, h4, h5⟩ := hall pt hpt
      refine ⟨h1, h2, by simp; omega, h4, posLt_trans h5 (posLt_endPos hw _)⟩
  | @emit lx lx1 pts t0 _ hpos hs ih =>
    obtain ⟨hsync, hall⟩ := ih
    rcases scanToken_shape lx hpos with ⟨e, he⟩ | ⟨w, r, t, hw, hr, hs2, htok⟩
    · rw [he] at hs; cases hs
    · rw [hs2] at hs
      cases hs
      obtain ⟨hl, hc, hty⟩ := htok t0 rfl
      have hwpos := List.length_pos.2 hw
      refine ⟨hsync.move hr, ?_⟩
      intro pt hpt
      rcases List.mem_append.1 hpt with hpt | hpt
      · obtain ⟨h1, h2, h3, h4, h5⟩ := hall pt hpt
        exact ⟨h1, h2, by simp; omega, h4, posLt_trans h5 (posLt_endPos hw _)⟩
      · simp at hpt
        subst hpt
        refine ⟨hty, by rw [← hsync.text_eq]; exact hpos, by simp; omega, ?_, ?_⟩
        · simp only [hl, hc]
          exact hsync.take_eq.2
        · simp only [hl, hc]
          exact posLt_endPos hw _

theorem reaches_sorted {text : List Char} {lx : Lexer} {pts : List (Nat × Token)}
    (h : Reaches text lx pts) :
    pts.Pairwise (fun a b => posLt (a.2.line, a.2.col) (b.2.line, b.2.col)) := by
  induction h with
  | start => exact List.Pairwise.nil
  | skip _ _ _ ih => exact ih
  | @emit lx lx1 pts t0 hre hpos hs ih =>
    rw [List.pairwise_append]
    refine ⟨ih, List.pairwise_singleton _ _, ?_⟩
    intro a ha b hb
    simp at hb
    subst hb
    obtain ⟨-, hall⟩ := reaches_inv hre
    rcases scanToken_shape lx hpos with ⟨e, he⟩ | ⟨w, r, t, hw, hr, hs2, htok⟩
    · rw [he] at hs; cases hs
    · rw [hs2] at hs
      cases hs
      obtain ⟨hl, hc, -⟩ := htok t0 rfl
      simp only [hl, hc]
      exact (hall a ha).2.2.2.2

/-- C2: on every text that `tokenize` accepts, the token list is not empty, its last
token is an `EOF_T` token with the empty value, placed at the line and column the
lexer has reached once all the characters of the text are consumed, and no token
before it is of kind `EOF_T`. -/
theorem tokenize_ends_with_eof (text : List Char) (toks : List Token)
    (h : tokenize text = .ok toks) :
    toks ≠ [] ∧
    ∃ init, toks = init ++ [⟨.EOF_T, [], (endPos (1, 1) text).1, (endPos (1, 1) text).2⟩] ∧
      ∀ t ∈ init, t.type ≠ .EOF_T := by
  obtain ⟨lx, pts, hre, hend, rfl⟩ := reaches_of_tokenize h
  obtain ⟨hsync, hall⟩ := reaches_inv hre
  have hfin := hsync.at_end hend
  refine ⟨by simp, pts.map Prod.snd, ?_, ?_⟩
  · rw [← hfin]
  · intro t ht
    obtain ⟨pt, hpt, rfl⟩ := List.mem_map.1 ht
    exact (hall pt hpt).1

/-- Witness of C2. -/
theorem tokenize_ends_with_eof_witness :
    tokenize "x = 1\n".toList = .ok [⟨.IDENT, "x".toList, 1, 1⟩, ⟨.ASSIGN, "=".toList, 1, 3⟩,
        ⟨.NUMBER, "1".toList, 1, 5⟩, ⟨.EOF_T, [], 2, 1⟩] ∧
      ([⟨.IDENT, "x".toList, 1, 1⟩, ⟨.ASSIGN, "=".toList, 1, 3⟩,
        ⟨.NUMBER, "1".toList, 1, 5⟩, ⟨.EOF_T, [], 2, 1⟩] : List Token) ≠ [] ∧
      ∃ init, ([⟨.IDENT, "x".toList, 1, 1⟩, ⟨.ASSIGN, "=".toList, 1, 3⟩,
          ⟨.NUMBER, "1".toList, 1, 5⟩, ⟨.EOF_T, [], 2, 1⟩] : List Token) =
          init ++ [⟨.EOF_T, [], (endPos (1, 1) "x = 1\n".toList).1,
            (endPos (1, 1) "x = 1\n".toList).2⟩] ∧
        ∀ t ∈ init, t.type ≠ .EOF_T :=
  ⟨by decide, tokenize_ends_with_eof _ _ (by decide)⟩

/-- C8: on every text that `tokenize` accepts, for any two tokens of the output, in
output order, the line of the first is at most the line of the second, and when the
two lines are equal the column of the first is smaller than the column of the second.
In particular this holds of consecutive tokens. -/
theorem tokenize_positions_increase (text : List Char) (toks : List Token)
    (h : tokenize text = .ok toks) :
    toks.Pairwise (fun a b => a.line ≤ b.line ∧ (a.line = b.line → a.col < b.col)) := by
  obtain ⟨lx, pts, hre, hend, rfl⟩ := reaches_of_tokenize h
  obtain ⟨hsync, hall⟩ := reaches_inv hre
  have hs := reaches_sorted hre
  have conv : ∀ a b : Nat × Nat, posLt a b → a.1 ≤ b.1 ∧ (a.1 = b.1 → a.2 < b.2) := by
    intro a b hab; unfold posLt at hab; omega
  rw [List.pairwise_append]
  refine ⟨?_, List.pairwise_singleton _ _, ?_⟩
  · rw [List.pairwise_map]
    exact hs.imp (fun {a b} hab => conv _ _ hab)
  · intro a ha b hb
    obtain ⟨pt, hpt, rfl⟩ := List.mem_map.1 ha
    simp at hb
    subst hb
    exact conv _ _ (hall pt hpt).2.2.2.2

/-- Witness of C8: a string token that spans a newline, then a token on line 2. -/
theorem tokenize_positions_increase_witness :
    tokenize "\"a\nb\" c".toList =
        .ok [⟨.STRING, "a\nb".toList, 1, 1⟩, ⟨.IDENT, "c".toList, 2, 4⟩, ⟨.EOF_T, [], 2, 5⟩] ∧
      ([⟨.STRING, "a\nb".toList, 1, 1⟩, ⟨.IDENT, "c".toList, 2, 4⟩,
        ⟨.EOF_T, [], 2, 5⟩] : List Token).Pairwise
          (fun a b => a.line ≤ b.line ∧ (a.line = b.line → a.col < b.col)) :=
  ⟨by decide, tokenize_positions_increase "\"a\nb\" c".toList _ (by decide)⟩

theorem endPos_no_newline (w : List Char) : ∀ (p : Nat × Nat), (∀ c ∈ w, c ≠ '\n') →
    endPos p w = (p.1, p.2 + w.length) := by
  induction w with
  | nil => intro p _; rfl
  | cons c cs ih =>
    intro p h
    rw [endPos, if_neg (h c (List.mem_cons_self _ _)),
      ih _ (fun d hd => h d (List.mem_cons_of_mem _ hd))]
    simp; omega

theorem ne_newline_of_isAlphanum {c : Char} (h : c.isAlphanum = true ∨ c = '_') :
    c ≠ '\n' := by
  rintro rfl
  revert h
  decide

theorem kwFind_none {key : List Char} : ∀ {tbl : List (List Char × TokenType)},
    (∀ kt ∈ tbl, kt.1 ≠ key) → kwFind key tbl = none := by
  intro tbl
  induction tbl with
  | nil => intro _; rfl
  | cons kt rest ih =>
    obtain ⟨k, t⟩ := kt
    intro h
    rw [kwFind, if_neg (h (k, t) (List.mem_cons_self _ _))]
    exact ih (fun kt hkt => h kt (List.mem_cons_of_mem _ hkt))

theorem wordToken_keyword {id : List Char} {kt : List Char × TokenType}
    (hkt : kt ∈ keywordKinds) (h : id.map Char.toLower = kt.1) (l c : Nat) :
    wordToken id l c = ⟨kt.2, kt.1, l, c⟩ := by
  have key : ∀ kt ∈ keywordKinds, kwFind kt.1 kw = some kt.2 ∧ kt.2 ≠ .BOOL := by decide
  obtain ⟨h1, h2⟩ := key kt hkt
  unfold wordToken
  simp only [h, h1, if_neg h2]

theorem wordToken_bool {id : List Char}
    (h : id.map Char.toLower = "true".toList ∨ id.map Char.toLower = "false".toList)
    (l c : Nat) : wordToken id l c = ⟨.BOOL, id.map Char.toLower, l, c⟩ := by
  unfold wordToken
  rcases h with h | h
  · have : kwFind "true".toList kw = some .BOOL := by decide
    simp only [h, this, if_true]
  · have : kwFind "false".toList kw = some .BOOL := by decide
    simp only [h, this, if_true]

theorem wordToken_ident {id : List Char} (h : kwFind (id.map Char.toLower) kw = none)
    (l c : Nat) : wordToken id l c = ⟨.IDENT, id, l, c⟩ := by
  unfold wordToken
  simp only [h]

theorem kwFind_none_of_not_keyword {key : List Char}
    (h1 : ∀ kt ∈ keywordKinds, key ≠ kt.1) (h2 : key ≠ "true".toList)
    (h3 : key ≠ "false".toList) : kwFind key kw = none := by
  apply kwFind_none
  have key : ∀ kt ∈ kw, kt ∈ keywordKinds ∨ kt.1 = "true".toList ∨ kt.1 = "false".toList := by
    decide
  intro kt hkt heq
  rcases key kt hkt with hk | hk | hk
  · exact h1 kt hk heq.symm
  · exact h2 (heq.symm.trans hk)
  · exact h3 (heq.symm.trans hk)

/-- Lexing a text that is one word: the word token, then the end-of-input token. -/
theorem tokenize_one_word (c : Char) (cs : List Char) (hc : c.isAlpha = true ∨ c = '_')
    (hcs : ∀ d ∈ cs, d.isAlphanum = true ∨ d = '_') :
    tokenize (c :: cs) =
      .ok [wordToken (c :: cs) 1 1, ⟨.EOF_T, [], 1, 1 + (c :: cs).length⟩] := by
  have hre0 : Reaches (c :: cs) (Lexer.new (c :: cs)) [] := Reaches.start
  have hrest : (Lexer.new (c :: cs)).rest = (c :: cs) ++ [] := by simp [Lexer.rest_new]
  have hpos : (Lexer.new (c :: cs)).pos < (Lexer.new (c :: cs)).text.length := by
    simp [Lexer.new]
  have hst := scanToken_word hrest hc hcs (by decide)
  have hre1 := Reaches.emit hre0 hpos hst
  have hend : ¬ ((Lexer.new (c :: cs)).move (c :: cs)).pos <
      ((Lexer.new (c :: cs)).move (c :: cs)).text.length := by
    simp [Lexer.new]
  have hfin := (tokenize_of_reaches_end hre1 hend).1
  rw [hfin]
  have hnl : ∀ d ∈ c :: cs, d ≠ '\n' := by
    intro d hd
    rcases List.mem_cons.1 hd with rfl | hd
    · exact ne_newline_of_isAlphanum (isAlphanum_of_isAlpha hc)
    · exact ne_newline_of_isAlphanum (hcs d hd)
  have hp : endPos (1, 1) (c :: cs) = (1, 1 + (c :: cs).length) :=
    endPos_no_newline _ _ hnl
  simp only [Lexer.move, Lexer.new, hp]
  rfl

/-- C3: a text that is one word (a letter or underscore followed by letters, digits
and underscores) lexes to exactly one token, at line 1 column 1, followed by the
end-of-input token.  When the lower-cased word is one of the fifteen keywords the
token has that keyword's kind and the lower-cased word as value; when it is `true` or
`false` the token is a `BOOL` with the lower-cased word as value; otherwise it is an
`IDENT` whose value is the word as written. -/
theorem tokenize_word (c : Char) (cs : List Char) (hc : c.isAlpha = true ∨ c = '_')
    (hcs : ∀ d ∈ cs, d.isAlphanum = true ∨ d = '_') :
    ∃ tok, tokenize (c :: cs) = .ok [tok, ⟨.EOF_T, [], 1, 1 + (c :: cs).length⟩] ∧
      tok.line = 1 ∧ tok.col = 1 ∧
      (∀ kt ∈ keywordKinds, (c :: cs).map Char.toLower = kt.1 →
        tok.type = kt.2 ∧ tok.value = (c :: cs).map Char.toLower) ∧
      (((c :: cs).map Char.toLower = "true".toList ∨
          (c :: cs).map Char.toLower = "false".toList) →
        tok.type = .BOOL ∧ tok.value = (c :: cs).map Char.toLower) ∧
      ((∀ kt ∈ keywordKinds, (c :: cs).map Char.toLower ≠ kt.1) →
        (c :: cs).map Char.toLower ≠ "true".toList →
        (c :: cs).map Char.toLower ≠ "false".toList →
        tok.type = .IDENT ∧ tok.value = c :: cs) := by
  refine ⟨wordToken (c :: cs) 1 1, tokenize_one_word c cs hc hcs,
    (wordToken_pos _ _ _).1, (wordToken_pos _ _ _).2.1, ?_, ?_, ?_⟩
  · intro kt hkt h
    rw [wordToken_keyword hkt h, h]
    exact ⟨rfl, rfl⟩
  · intro h
    rw [wordToken_bool h]
    exact ⟨rfl, rfl⟩
  · intro h1 h2 h3
    rw [wordToken_ident (kwFind_none_of_not_keyword h1 h2 h3)]
    exact ⟨rfl, rfl⟩

/-- Witness of C3: the word `Start` in mixed case lexes to the keyword token. -/
theorem tokenize_word_witness :
    ∃ tok, tokenize "Start".toList = .ok [tok, ⟨.EOF_T, [], 1, 1 + "Start".toList.length⟩] ∧
      tok.line = 1 ∧ tok.col = 1 ∧
      (∀ kt ∈ keywordKinds, "Start".toList.map Char.toLower = kt.1 →
        tok.type = kt.2 ∧ tok.value = "Start".toList.map Char.toLower) ∧
      (("Start".toList.map Char.toLower = "true".toList ∨
          "Start".toList.map Char.toLower = "false".toList) →
        tok.type = .BOOL ∧ tok.value = "Start".toList.map Char.toLower) ∧
      ((∀ kt ∈ keywordKinds, "Start".toList.map Char.toLower ≠ kt.1) →
        "Start".toList.map Char.toLower ≠ "true".toList →
        "Start".toList.map Char.toLower ≠ "false".toList →
        tok.type = .IDENT ∧ tok.value = "Start".toList) :=
  tokenize_word 'S' "tart".toList (by decide) (by decide)

theorem scanString_items (items : List StrItem) : ∀ (fuel : Nat) (lx : Lexer)
    (s r : List Char), lx.rest = (items.map StrItem.source).flatten ++ '"' :: r →
    (∀ it ∈ items, it.ordinary ∧ it.noNul) →
    (items.map StrItem.source).flatten.length < fuel →
    scanString fuel lx s =
      .ok (lx.move (items.map StrItem.source).flatten, s ++ items.map StrItem.decode) := by
  induction items with
  | nil =>
    intro fuel lx s r hr _ hf
    obtain ⟨n, rfl⟩ : ∃ n, fuel = n + 1 := ⟨fuel - 1, by simp at hf; omega⟩
    have hp : lx.peek = '"' := Lexer.peek_of_rest_cons (by simpa using hr)
    rw [scanString, hp]
    simp
  | cons it items ih =>
    intro fuel lx s r hr hall hf
    obtain ⟨n, rfl⟩ : ∃ n, fuel = n + 1 := ⟨fuel - 1, by omega⟩
    have hit := hall it (List.mem_cons_self _ _)
    have hrest := fun it2 h2 => hall it2 (List.mem_cons_of_mem _ h2)
    cases it with
    | plain c =>
      obtain ⟨⟨h1, h2⟩, h3⟩ := hit
      have hr1 : lx.rest = c :: ((items.map StrItem.source).flatten ++ '"' :: r) := by
        simpa [StrItem.source] using hr
      rw [scanString, Lexer.peek_of_rest_cons hr1, if_pos ⟨h1, h3⟩,
        Lexer.advanceChar_of_rest hr1]
      simp only [h2, false_and, if_false]
      rw [ih n (lx.move [c]) (s ++ [c]) r (Lexer.rest_advance hr1) hrest
        (by simp only [List.map_cons, List.flatten_cons, List.length_append, StrItem.source, List.length_cons, List.length_nil] at hf; omega)]
      simp only [List.map_cons, List.flatten_cons, StrItem.source, StrItem.decode]
      rw [← Lexer.move_append]
      simp
    | escape c =>
      have h3 : c ≠ '\x00' := hit.2
      have hr1 : lx.rest = '\\' :: c :: ((items.map StrItem.source).flatten ++ '"' :: r) := by
        simpa [StrItem.source] using hr
      have hr2 : (lx.move ['\\']).rest = c :: ((items.map StrItem.source).flatten ++ '"' :: r) :=
        Lexer.rest_advance hr1
      have hm : (lx.move ['\\']).move [c] = lx.move ['\\', c] := by
        rw [← Lexer.move_append]; rfl
      have hrec := fun s2 => ih n (lx.move ['\\', c]) s2 r
        (by rw [← hm]; exact Lexer.rest_advance hr2) hrest
        (by simp only [List.map_cons, List.flatten_cons, List.length_append, StrItem.source, List.length_cons, List.length_nil] at hf; omega)
      have hmv : (lx.move ['\\', c]).move (items.map StrItem.source).flatten =
          lx.move ((StrItem.escape c :: items).map StrItem.source).flatten := by
        rw [← Lexer.move_append]; rfl
      rw [scanString, Lexer.peek_of_rest_cons hr1, if_pos (by decide),
        Lexer.advanceChar_of_rest hr1]
      simp only [Lexer.peek_of_rest_cons hr2, Lexer.advanceChar_of_rest hr2, hm, h3, ne_eq,
        not_false_eq_true, and_self, if_true]
      by_cases hn : c = 'n'
      · rw [if_pos hn, hrec, hmv]
        simp [StrItem.decode, hn]
      · rw [if_neg hn]
        by_cases hq : c = '"'
        · rw [if_pos hq, hrec, hmv]
          simp [StrItem.decode, hq]
        · rw [if_neg hq, hrec, hmv]
          simp [StrItem.decode, hn, hq]

theorem tokenize_string_items (items : List StrItem)
    (h : ∀ it ∈ items, it.ordinary ∧ it.noNul) :
    tokenize (stringSource items) =
      .ok [⟨.STRING, items.map StrItem.decode, 1, 1⟩,
        ⟨.EOF_T, [], (endPos (1, 1) (stringSource items)).1,
          (endPos (1, 1) (stringSource items)).2⟩] := by
  let body := (items.map StrItem.source).flatten
  let lx0 := Lexer.new (stringSource items)
  have hre0 : Reaches (stringSource items) lx0 [] := Reaches.start
  have hrest : lx0.rest = '"' :: (body ++ ['"']) := rfl
  have hpos : lx0.pos < lx0.text.length := by simp [lx0, Lexer.new, stringSource]
  have hr1 : (lx0.move ['"']).rest = body ++ '"' :: [] := Lexer.rest_advance hrest
  have hrun := scanString_items items (lx0.text.length + 1) (lx0.move ['"']) [] [] hr1 h
    (by simp [lx0, Lexer.new, stringSource]; omega)
  have hr2 : ((lx0.move ['"']).move body).rest = ['"'] := Lexer.rest_move hr1
  have hst := scanToken_string hrest hrun
  rw [if_neg (by rw [Lexer.peek_of_rest_cons hr2]; simp), Lexer.advanceChar_of_rest hr2] at hst
  have hre1 := Reaches.emit hre0 hpos hst
  have hend : ¬ (((lx0.move ['"']).move body).move ['"']).pos <
      (((lx0.move ['"']).move body).move ['"']).text.length := by
    simp [lx0, Lexer.new, stringSource, body]; omega
  have hfin := (tokenize_of_reaches_end hre1 hend).1
  have hsync := (reaches_inv hre1).1.at_end hend
  rw [hfin]
  simp only [List.map_append, List.map_nil, List.map_cons, List.nil_append,
    List.singleton_append, ← hsync]
  rfl

/-- C4, amended: for every sequence of items none of which holds a NUL character, each
item being one ordinary character (not the double quote, not the backslash) or a
backslash followed by one character, the text made of a double quote, the items and a
closing double quote lexes to exactly one `STRING` token followed by the end-of-input
token, and the value of the `STRING` token is the list of the decodings of the items.
The 9-character source of the double-quoted literal a, backslash, n, b, backslash,
quote, c lexes to one `STRING` token of value a, newline, b, quote, c. -/
theorem tokenize_string_literal :
    (∀ items : List StrItem, (∀ it ∈ items, it.ordinary ∧ it.noNul) →
      tokenize (stringSource items) =
        .ok [⟨.STRING, items.map StrItem.decode, 1, 1⟩,
          ⟨.EOF_T, [], (endPos (1, 1) (stringSource items)).1,
            (endPos (1, 1) (stringSource items)).2⟩]) ∧
    "\"a\\nb\\\"c\"".toList.length = 9 ∧
    tokenize "\"a\\nb\\\"c\"".toList =
      .ok [⟨.STRING, ['a', '\n', 'b', '"', 'c'], 1, 1⟩, ⟨.EOF_T, [], 1, 10⟩] :=
  ⟨tokenize_string_items, by decide, by decide⟩

/-- Witness of C4: the items of the literal of the claim. -/
theorem tokenize_string_literal_witness :
    (∀ it ∈ [StrItem.plain 'a', .escape 'n', .plain 'b', .escape '"', .plain 'c'],
      it.ordinary ∧ it.noNul) ∧
    tokenize (stringSource [.plain 'a', .escape 'n', .plain 'b', .escape '"', .plain 'c']) =
      .ok [⟨.STRING, ['a', '\n', 'b', '"', 'c'], 1, 1⟩, ⟨.EOF_T, [], 1, 10⟩] :=
  ⟨by simp [StrItem.ordinary, StrItem.noNul],
    tokenize_string_literal.1 [.plain 'a', .escape 'n', .plain 'b', .escape '"', .plain 'c']
      (by simp [StrItem.ordinary, StrItem.noNul])⟩

/-- Counterexample to C4 as stated: NUL is an ordinary character in the sense of the
claim (it is neither the double quote nor the backslash), and a backslash followed by
NUL is an item, yet each of the two literals is rejected as unterminated. -/
theorem tokenize_string_nul_counterexample :
    (∀ it ∈ [StrItem.plain '\x00'], it.ordinary) ∧
    tokenize (stringSource [.plain '\x00']) = .error .unterminatedString ∧
    (∀ it ∈ [StrItem.escape '\x00'], it.ordinary) ∧
    tokenize (stringSource [.escape '\x00']) = .error .unterminatedString :=
  ⟨by simp [StrItem.ordinary], by decide, by simp [StrItem.ordinary], by decide⟩

theorem scanString_unterminated : ∀ (fuel : Nat) (b : List Char) (lx : Lexer) (s : List Char),
    lx.rest = b → (noUnescapedQuote b = true ∨ b.headD '\x00' = '\x00') → b.length < fuel →
    ∃ lx1 s1, scanString fuel lx s = .ok (lx1, s1) ∧ lx1.peek ≠ '"' := by
  intro fuel
  induction fuel with
  | zero => intro b lx s _ _ hf; omega
  | succ n ih =>
    intro b lx s hr hb hf
    rw [scanString]
    by_cases h1 : lx.peek ≠ '"' ∧ lx.peek ≠ '\x00'
    · rw [if_pos h1]
      simp only []
      obtain ⟨hq, h0⟩ := h1
      cases b with
      | nil => rw [Lexer.peek_of_rest_nil hr] at h0; exact absurd rfl h0
      | cons c rest =>
        have hp := Lexer.peek_of_rest_cons hr
        rw [hp] at hq h0
        have hb1 : noUnescapedQuote (c :: rest) = true := by
          rcases hb with hb | hb
          · exact hb
          · exact absurd hb h0
        rw [Lexer.advanceChar_of_rest hr]
        simp only []
        have hr1 : (lx.move [c]).rest = rest := Lexer.rest_advance hr
        cases rest with
        | nil =>
          rw [Lexer.peek_of_rest_nil hr1]
          simp only [ne_eq, not_true_eq_false, and_false, if_false]
          exact ih [] _ _ hr1 (Or.inl rfl) (by simp at hf ⊢; omega)
        | cons d rest2 =>
          rw [Lexer.peek_of_rest_cons hr1]
          rw [noUnescapedQuote, if_neg hq] at hb1
          by_cases hbs : c = '\\'
          · rw [if_pos hbs] at hb1
            by_cases hd : d ≠ '\x00'
            · rw [if_pos ⟨hbs, hd⟩, Lexer.advanceChar_of_rest hr1]
              simp only []
              have hr2 : ((lx.move [c]).move [d]).rest = rest2 := Lexer.rest_advance hr1
              have hlen : rest2.length < n := by simp at hf; omega
              split
              · exact ih rest2 _ _ hr2 (Or.inl hb1) hlen
              · split
                · exact ih rest2 _ _ hr2 (Or.inl hb1) hlen
                · exact ih rest2 _ _ hr2 (Or.inl hb1) hlen
            · rw [if_neg (fun h => hd h.2)]
              have hd0 : d = '\x00' := by simpa using hd
              exact ih (d :: rest2) _ _ hr1 (Or.inr (by simp [hd0])) (by simp at hf ⊢; omega)
          · rw [if_neg hbs] at hb1
            rw [if_neg (fun h => hbs h.1)]
            exact ih (d :: rest2) _ _ hr1 (Or.inl hb1) (by simp at hf ⊢; omega)
    · rw [if_neg h1]
      refine ⟨lx, s, rfl, ?_⟩
      intro hq
      cases b with
      | nil => rw [Lexer.peek_of_rest_nil hr] at hq; revert hq; decide
      | cons c rest =>
        rw [Lexer.peek_of_rest_cons hr] at hq
        subst hq
        rcases hb with hb | hb
        · cases rest with
          | nil => revert hb; decide
          | cons d rest2 => rw [noUnescapedQuote, if_pos rfl] at hb; cases hb
        · have h2 : ('"' :: rest).headD '\x00' = '"' := rfl
          rw [h2] at hb
          revert hb; decide

/-- C5: when no double quote of `b` is unescaped, the text made of a double quote
followed by `b` is rejected with the "Unterminated string" error; no token list is
returned. -/
theorem tokenize_unterminated_string (b : List Char) (h : noUnescapedQuote b = true) :
    tokenize ('"' :: b) = .error .unterminatedString ∧
    LexError.unterminatedString.what = "Unterminated string".toList := by
  refine ⟨?_, rfl⟩
  let lx0 := Lexer.new ('"' :: b)
  have hrest : lx0.rest = '"' :: b := rfl
  have hpos : lx0.pos < lx0.text.length := by simp [lx0, Lexer.new]
  have hr1 : (lx0.move ['"']).rest = b := Lexer.rest_advance hrest
  obtain ⟨lx1, s1, hrun, hpk⟩ := scanString_unterminated (lx0.text.length + 1) b
    (lx0.move ['"']) [] hr1 (Or.inl h) (by simp [lx0, Lexer.new]; omega)
  have hst := scanToken_string hrest hrun
  rw [if_pos hpk] at hst
  exact tokenize_error_of_reaches Reaches.start hpos hst

/-- Witness of C5: an escaped quote does not close the literal. -/
theorem tokenize_unterminated_string_witness :
    noUnescapedQuote "ab\\\"".toList = true ∧
    tokenize ('"' :: "ab\\\"".toList) = .error .unterminatedString :=
  ⟨by decide, (tokenize_unterminated_string "ab\\\"".toList (by decide)).1⟩

theorem singleCharKind_none {c : Char}
    (h : c ∉ ['+', '-', '*', '/', '=', '>', '<', ',', '(', ')', '{', '}']) :
    singleCharKind c = none := by
  cases hk : singleCharKind c with
  | none => rfl
  | some tt =>
    exfalso
    apply h
    have hm := singleCharKind_some hk
    simp only [List.mem_cons, Prod.mk.injEq, List.mem_singleton, List.not_mem_nil, or_false]
      at hm ⊢
    rcases hm with h | h | h | h | h | h | h | h | h | h | h | h <;> simp [h.1]

theorem unexpectedChar_of_noRuleChar {c : Char} (h : noRuleChar c) : unexpectedChar c := by
  obtain ⟨h1, h2, h3, h4, h5, h6, h7, h8, h9, h10⟩ := h
  refine ⟨?_, h4, h5, h6, ?_, h9, singleCharKind_none h10⟩
  · rintro (h | h | h)
    · exact h1 h
    · exact h2 h
    · exact h3 h
  · rintro (h | h)
    · rw [h7] at h; cases h
    · exact h8 h

theorem noTwoCharOp_of_take {lx : Lexer} (h : lx.rest.take 2 ∉ twoCharOps) :
    lx.noTwoCharOp := by
  have key : ∀ s ∈ twoCharOps, lx.startsWith s = false := by
    intro s hs
    rw [Bool.eq_false_iff]
    intro hsw
    obtain ⟨r, hr⟩ := Lexer.rest_of_startsWith hsw
    apply h
    have hall : ∀ s ∈ twoCharOps, s.length = 2 := by decide
    have hlen : s.length = 2 := hall s hs
    rw [hr, ← hlen, List.take_left]
    exact hs
  exact ⟨key _ (by simp [twoCharOps]), key _ (by simp [twoCharOps]),
    key _ (by simp [twoCharOps]), key _ (by simp [twoCharOps])⟩

/-- C6, amended: when the main loop of `tokenize` starts an iteration at a character
for which it has no rule (and which does not start a two-character operator),
`tokenize` throws the lexical error whose message is "Unexpected character: "
followed by that character.  The error carries the character and nothing else. -/
theorem tokenize_unexpected_character (text : List Char) (lx : Lexer)
    (pts : List (Nat × Token)) (hre : Reaches text lx pts)
    (hpos : lx.pos < lx.text.length) (hc : noRuleChar lx.peek)
    (h2 : lx.rest.take 2 ∉ twoCharOps) :
    tokenize text = .error (.unexpectedCharacter lx.peek) ∧
    (LexError.unexpectedCharacter lx.peek).what =
      "Unexpected character: ".toList ++ [lx.peek] := by
  refine ⟨?_, rfl⟩
  obtain ⟨r, hr⟩ := Lexer.rest_ne_nil_of_pos_lt hpos
  exact tokenize_error_of_reaches hre hpos
    (scanToken_unexpected hr (unexpectedChar_of_noRuleChar hc) (noTwoCharOp_of_take h2))

theorem reaches_at_sign : Reaches "x @".toList ⟨"x @".toList, 2, 1, 3⟩
    [(0, ⟨.IDENT, ['x'], 1, 1⟩)] := by
  have h0 : Reaches "x @".toList (Lexer.new "x @".toList) [] := Reaches.start
  have h1 : Reaches "x @".toList ⟨"x @".toList, 1, 1, 2⟩ [(0, ⟨.IDENT, ['x'], 1, 1⟩)] :=
    Reaches.emit h0 (by decide) (by decide)
  exact Reaches.skip h1 (by decide) (by decide)

/-- Witness of C6: the text `x @`, whose third character has no rule. -/
theorem tokenize_unexpected_character_witness :
    tokenize "x @".toList = .error (.unexpectedCharacter '@') ∧
    (LexError.unexpectedCharacter '@').what = "Unexpected character: @".toList :=
  tokenize_unexpected_character "x @".toList ⟨"x @".toList, 2, 1, 3⟩ _ reaches_at_sign
    (by decide) (by unfold noRuleChar; decide) (by decide)

/-- Counterexample to C6 as stated: the error does not report the line and column of
the offending character.  No function of the error value gives them back: the texts
`@` and `x @` are rejected with the same error, for a character at column 1 in the
first and at column 3 in the second. -/
theorem lexError_reports_no_position :
    ¬ ∃ report : LexError → Nat × Nat, ∀ (text : List Char) (lx : Lexer)
        (pts : List (Nat × Token)), Reaches text lx pts → lx.pos < lx.text.length →
        noRuleChar lx.peek → lx.rest.take 2 ∉ twoCharOps →
        ∃ e, tokenize text = .error e ∧ report e = (lx.line, lx.col) := by
  rintro ⟨report, h⟩
  obtain ⟨e1, he1, hr1⟩ := h "@".toList (Lexer.new "@".toList) [] Reaches.start
    (by decide) (by unfold noRuleChar; decide) (by decide)
  obtain ⟨e2, he2, hr2⟩ := h "x @".toList ⟨"x @".toList, 2, 1, 3⟩ _ reaches_at_sign
    (by decide) (by unfold noRuleChar; decide) (by decide)
  have t1 : tokenize "@".toList = .error (.unexpectedCharacter '@') := by decide
  have t2 : tokenize "x @".toList = .error (.unexpectedCharacter '@') := by decide
  rw [t1] at he1
  rw [t2] at he2
  cases he1
  cases he2
  rw [hr1] at hr2
  revert hr2
  decide

/-- C7: when an iteration of the main loop starts at the two characters `==`, `!=`,
`>=` or `<=`, it emits exactly one token, of kind `EQEQ`, `NOTEQ`, `GTEQ` or `LTEQ`
with the two characters as value, and moves the cursor past both characters: the
single-character token of the first character is not emitted.  The text `===` lexes
to `EQEQ`, `ASSIGN`, `EOF_T`. -/
theorem scanToken_two_char_operator :
    (∀ (lx : Lexer) (a b : Char) (r : List Char) (tt : TokenType),
      lx.rest = a :: b :: r →
      (a, b, tt) ∈ [('=', '=', TokenType.EQEQ), ('!', '=', TokenType.NOTEQ),
        ('>', '=', TokenType.GTEQ), ('<', '=', TokenType.LTEQ)] →
      scanToken lx = .ok (⟨lx.text, lx.pos + 2, lx.line, lx.col + 2⟩,
        some ⟨tt, [a, b], lx.line, lx.col⟩)) ∧
    tokenize "===".toList =
      .ok [⟨.EQEQ, ['=', '='], 1, 1⟩, ⟨.ASSIGN, ['='], 1, 3⟩, ⟨.EOF_T, [], 1, 4⟩] := by
  refine ⟨?_, by decide⟩
  intro lx a b r tt hr hop
  rw [scanToken_two hr hop]
  have hmv : lx.move [a, b] = ⟨lx.text, lx.pos + 2, lx.line, lx.col + 2⟩ := by
    simp only [List.mem_cons, Prod.mk.injEq, List.mem_singleton, List.not_mem_nil, or_false]
      at hop
    rcases hop with ⟨rfl, rfl, -⟩ | ⟨rfl, rfl, -⟩ | ⟨rfl, rfl, -⟩ | ⟨rfl, rfl, -⟩ <;> rfl
  rw [hmv]

/-- Witness of C7: the lexer at offset 2 of `a >= b`. -/
theorem scanToken_two_char_operator_witness :
    (⟨"a >= b".toList, 2, 1, 3⟩ : Lexer).rest = '>' :: '=' :: " b".toList ∧
    scanToken ⟨"a >= b".toList, 2, 1, 3⟩ =
      .ok (⟨"a >= b".toList, 4, 1, 5⟩, some ⟨.GTEQ, ['>', '='], 1, 3⟩) :=
  ⟨by decide, scanToken_two_char_operator.1 ⟨"a >= b".toList, 2, 1, 3⟩ '>' '=' " b".toList
    .GTEQ (by decide) (by decide)⟩

/-! ## Parser: lemmas and theorems -/

theorem lt_of_current_type_ne {tokens : List Token} {i : Nat}
    (h : (current tokens i).type ≠ .EOF_T) : i < tokens.length := by
  by_contra hn
  apply h
  unfold current
  rw [dif_neg hn]

theorem advance_of_ne_eof {tokens : List Token} {i : Nat}
    (h : (current tokens i).type ≠ .EOF_T) : advance tokens i = (current tokens i, i + 1) := by
  have hlt := lt_of_current_type_ne h
  unfold advance current
  rw [dif_pos hlt, dif_pos hlt]

theorem match_ok {tokens : List Token} {types : List TokenType} {i : Nat}
    (h : (current tokens i).type ∈ types) (hne : (current tokens i).type ≠ .EOF_T) :
    match_ tokens types i = .ok (current tokens i, i + 1) := by
  unfold match_
  rw [if_pos h, advance_of_ne_eof hne]

theorem match_ok_of_lt {tokens : List Token} {types : List TokenType} {i : Nat}
    (h : (current tokens i).type ∈ types) (hlt : i < tokens.length) :
    match_ tokens types i = .ok (current tokens i, i + 1) := by
  unfold match_
  rw [if_pos h]
  unfold advance current
  rw [dif_pos hlt, dif_pos hlt]

theorem match_error {tokens : List Token} {types : List TokenType} {i : Nat}
    (h : (current tokens i).type ∉ types) :
    match_ tokens types i =
      .error (.expectedTokens (current tokens i).line (current tokens i).col, i) := by
  unfold match_
  rw [if_neg h]

/-- An expression that starts at a token which begins no primary and is not a minus
sign is rejected at that token. -/
theorem expr_unexpected (tokens : List Token) (i n : Nat)
    (h : (current tokens i).type ∉ [TokenType.MINUS, .NUMBER, .STRING, .BOOL, .IDENT, .LPAREN]) :
    expr tokens (n + 7) i =
      .error (.unexpectedTokenInExpression (current tokens i).line (current tokens i).col,
        i) := by
  simp only [List.mem_cons, List.mem_singleton, List.not_mem_nil, or_false, not_or] at h
  obtain ⟨h1, h2, h3, h4, h5, h6⟩ := h
  rw [expr, equality, comparison, term, factor, unary, if_neg h1, primary]
  simp only [h2, h3, h4, h5, h6, if_false]
  rfl

theorem var_decl_missing_initializer (tokens : List Token) (i n : Nat)
    (h0 : (current tokens i).type ∈ [TokenType.NUM, .TEXT, .FLAG])
    (h1 : (current tokens (i + 1)).type = .IDENT)
    (h2 : (current tokens (i + 2)).type = .ASSIGN)
    (h3 : (current tokens (i + 3)).type = .END) :
    var_decl tokens (n + 8) i =
      .error (.unexpectedTokenInExpression (current tokens (i + 3)).line
        (current tokens (i + 3)).col, i + 3) := by
  have hne0 : (current tokens i).type ≠ .EOF_T := by
    intro h; rw [h] at h0; revert h0; decide
  rw [var_decl]
  simp only [Outcome.bind_eq]
  rw [match_ok h0 hne0, Outcome.bind_ok]
  simp only []
  rw [match_ok (by rw [h1]; decide) (by rw [h1]; decide), Outcome.bind_ok]
  simp only []
  rw [match_ok (by rw [h2]; decide) (by rw [h2]; decide), Outcome.bind_ok]
  simp only []
  rw [expr_unexpected tokens (i + 3) n (by rw [h3]; decide)]
  rfl

theorem statement_missing_initializer (tokens : List Token) (i n : Nat)
    (h0 : (current tokens i).type ∈ [TokenType.NUM, .TEXT, .FLAG])
    (h1 : (current tokens (i + 1)).type = .IDENT)
    (h2 : (current tokens (i + 2)).type = .ASSIGN)
    (h3 : (current tokens (i + 3)).type = .END) :
    statement tokens (n + 9) i =
      .error (.unexpectedTokenInExpression (current tokens (i + 3)).line
        (current tokens (i + 3)).col, i + 3) := by
  have hd : (current tokens i).type = .NUM ∨ (current tokens i).type = .TEXT ∨
      (current tokens i).type = .FLAG := by simpa using h0
  rw [statement]
  simp only []
  rw [if_pos hd]
  exact var_decl_missing_initializer tokens i n h0 h1 h2 h3

theorem parse_missing_initializer_tokens (st ty x eq en : Token) (rest : List Token)
    (hst : st.type = .START) (hty : ty.type ∈ [TokenType.NUM, .TEXT, .FLAG])
    (hx : x.type = .IDENT) (heq : eq.type = .ASSIGN) (hen : en.type = .END) :
    parse (st :: ty :: x :: eq :: en :: rest) =
      .error (.unexpectedTokenInExpression en.line en.col) := by
  have hne : ty.type ≠ .END ∧ ty.type ≠ .RBRACE ∧ ty.type ≠ .EOF_T := by
    refine ⟨?_, ?_, ?_⟩ <;> (intro h; rw [h] at hty; revert hty; decide)
  obtain ⟨m, hm⟩ : ∃ m, parseFuel (st :: ty :: x :: eq :: en :: rest) = m + 10 :=
    ⟨16 * (st :: ty :: x :: eq :: en :: rest).length + 6, by unfold parseFuel; omega⟩
  have hc0 : current (st :: ty :: x :: eq :: en :: rest) 0 = st := rfl
  have hc1 : current (st :: ty :: x :: eq :: en :: rest) 1 = ty := rfl
  have hc2 : current (st :: ty :: x :: eq :: en :: rest) (1 + 1) = x := rfl
  have hc3 : current (st :: ty :: x :: eq :: en :: rest) (1 + 2) = eq := rfl
  have hc4 : current (st :: ty :: x :: eq :: en :: rest) (1 + 3) = en := by
    simp [current]
  have hs := statement_missing_initializer (st :: ty :: x :: eq :: en :: rest) 1 m
    (by rw [hc1]; exact hty) (by rw [hc2]; exact hx) (by rw [hc3]; exact heq)
    (by rw [hc4]; exact hen)
  rw [hc4] at hs
  unfold parse parseAt
  rw [if_neg (by simp), hm]
  simp only [Outcome.bind_eq]
  rw [match_ok (by rw [hc0, hst]; decide) (by rw [hc0, hst]; decide), Outcome.bind_ok]
  simp only []
  rw [statements, if_pos (by rw [hc1]; exact hne)]
  simp only [Zero.zero, Nat.zero_add, Outcome.bind_eq]
  rw [hs]
  rfl

/-- An expression made of one number token, followed by a token that is no binary
operator, is the number literal. -/
theorem expr_number (tokens : List Token) (i n : Nat)
    (h : (current tokens i).type = .NUMBER)
    (hnext : (current tokens (i + 1)).type ∉ [TokenType.STAR, .SLASH, .PLUS, .MINUS, .GT,
      .LT, .GTEQ, .LTEQ, .EQEQ, .NOTEQ]) :
    expr tokens (n + 7) i =
      .ok (.Literal (current tokens i).value "num".toList, i + 1) := by
  simp only [List.mem_cons, List.mem_singleton, List.not_mem_nil, or_false, not_or] at hnext
  obtain ⟨h1, h2, h3, h4, h5, h6, h7, h8, h9, h10⟩ := hnext
  have hne : (current tokens i).type ≠ .EOF_T := by rw [h]; decide
  have hu : unary tokens (n + 2) i =
      .ok (.Literal (current tokens i).value "num".toList, i + 1) := by
    rw [unary, if_neg (by rw [h]; decide), primary]
    simp only [h, if_true, advance_of_ne_eof hne]
  have hf : factor tokens (n + 3) i =
      .ok (.Literal (current tokens i).value "num".toList, i + 1) := by
    rw [factor]
    simp only [Outcome.bind_eq, hu, Outcome.bind_ok]
    rw [factorLoop, if_neg (by simp [h1, h2])]
  have ht : term tokens (n + 4) i =
      .ok (.Literal (current tokens i).value "num".toList, i + 1) := by
    rw [term]
    simp only [Outcome.bind_eq, hf, Outcome.bind_ok]
    rw [termLoop, if_neg (by simp [h3, h4])]
  have hc : comparison tokens (n + 5) i =
      .ok (.Literal (current tokens i).value "num".toList, i + 1) := by
    rw [comparison]
    simp only [Outcome.bind_eq, ht, Outcome.bind_ok]
    rw [comparisonLoop, if_neg (by simp [h5, h6, h7, h8])]
  rw [expr, equality]
  simp only [Outcome.bind_eq, hc, Outcome.bind_ok]
  rw [equalityLoop, if_neg (by simp [h9, h10])]

theorem parse_var_decl_tokens (st ty x eq num en eof : Token)
    (hst : st.type = .START) (hty : ty.type ∈ [TokenType.NUM, .TEXT, .FLAG])
    (hx : x.type = .IDENT) (heq : eq.type = .ASSIGN) (hnum : num.type = .NUMBER)
    (hen : en.type = .END) (heof : eof.type = .EOF_T) :
    parseAt [st, ty, x, eq, num, en, eof] =
      .ok (.Program [.VarDecl ty.value x.value (.Literal num.value "num".toList)], 7) := by
  have hne : ty.type ≠ .END ∧ ty.type ≠ .RBRACE ∧ ty.type ≠ .EOF_T := by
    refine ⟨?_, ?_, ?_⟩ <;> (intro h; rw [h] at hty; revert hty; decide)
  have hd : ty.type = .NUM ∨ ty.type = .TEXT ∨ ty.type = .FLAG := by simpa using hty
  have hc0 : current [st, ty, x, eq, num, en, eof] 0 = st := rfl
  have hc1 : current [st, ty, x, eq, num, en, eof] 1 = ty := rfl
  have hc2 : current [st, ty, x, eq, num, en, eof] 2 = x := rfl
  have hc3 : current [st, ty, x, eq, num, en, eof] 3 = eq := rfl
  have hc4 : current [st, ty, x, eq, num, en, eof] 4 = num := rfl
  have hc5 : current [st, ty, x, eq, num, en, eof] 5 = en := rfl
  have hc6 : current [st, ty, x, eq, num, en, eof] 6 = eof := rfl
  have hex := expr_number [st, ty, x, eq, num, en, eof] 4 (parseFuel [st, ty, x, eq, num, en, eof] - 10)
    (by rw [hc4]; exact hnum) (by rw [hc5, hen]; decide)
  rw [hc4] at hex
  have hfuel : parseFuel [st, ty, x, eq, num, en, eof] = 128 := rfl
  rw [hfuel] at hex
  have hvd : var_decl [st, ty, x, eq, num, en, eof] 126 1 =
      .ok (.VarDecl ty.value x.value (.Literal num.value "num".toList), 5) := by
    rw [var_decl]
    simp only [Outcome.bind_eq]
    rw [match_ok (by rw [hc1]; exact hty) (by rw [hc1]; exact hne.2.2), Outcome.bind_ok]
    simp only []
    rw [match_ok (by rw [hc2, hx]; decide) (by rw [hc2, hx]; decide), Outcome.bind_ok]
    simp only []
    rw [match_ok (by rw [hc3, heq]; decide) (by rw [hc3, heq]; decide), Outcome.bind_ok]
    simp only []
    rw [hex, hc1, hc2]
    rfl
  have hstmt : statement [st, ty, x, eq, num, en, eof] 127 1 =
      .ok (.VarDecl ty.value x.value (.Literal num.value "num".toList), 5) := by
    rw [statement]
    simp only [hc1]
    rw [if_pos hd, hvd]
  unfold parseAt
  rw [if_neg (by simp), hfuel]
  simp only [Outcome.bind_eq]
  rw [match_ok (by rw [hc0, hst]; decide) (by rw [hc0, hst]; decide), Outcome.bind_ok]
  simp only []
  rw [statements, if_pos (by rw [hc1]; exact hne)]
  simp only [Outcome.bind_eq, Zero.zero, Nat.zero_add, hstmt, Outcome.bind_ok]
  rw [statements, if_neg (by rw [hc5, hen]; simp)]
  simp only [Outcome.bind_ok]
  rw [match_ok (by rw [hc5, hen]; decide) (by rw [hc5, hen]; decide), Outcome.bind_ok]
  simp only []
  rw [match_ok_of_lt (by rw [hc6, heof]; decide) (by simp)]
  rfl

theorem Reaches.space {text : List Char} {lx : Lexer} {pts : List (Nat × Token)} {c : Char}
    {r : List Char} (h : Reaches text lx pts) (hr : lx.rest = c :: r)
    (hc : c = ' ' ∨ c = '\t' ∨ c = '\r' ∨ c = '\n') : Reaches text (lx.move [c]) pts :=
  Reaches.skip h (Lexer.pos_lt_of_rest_cons hr) (scanToken_space hr hc)

theorem Reaches.word {text : List Char} {lx : Lexer} {pts : List (Nat × Token)} {c : Char}
    {w r : List Char} (h : Reaches text lx pts) (hr : lx.rest = (c :: w) ++ r)
    (hc : c.isAlpha = true ∨ c = '_') (hw : ∀ d ∈ w, d.isAlphanum = true ∨ d = '_')
    (hs : ¬ ((r.headD '\x00').isAlphanum = true ∨ r.headD '\x00' = '_')) :
    Reaches text (lx.move (c :: w))
      (pts ++ [(lx.pos, wordToken (c :: w) lx.line lx.col)]) :=
  Reaches.emit h (Lexer.pos_lt_of_rest_cons (by simpa using hr)) (scanToken_word hr hc hw hs)

theorem Reaches.number {text : List Char} {lx : Lexer} {pts : List (Nat × Token)} {c : Char}
    {w r : List Char} (h : Reaches text lx pts) (hr : lx.rest = (c :: w) ++ r)
    (hw : ∀ d ∈ c :: w, d.isDigit = true) (hs : ¬ ((r.headD '\x00').isDigit = true)) :
    Reaches text (lx.move (c :: w))
      (pts ++ [(lx.pos, ⟨.NUMBER, c :: w, lx.line, lx.col⟩)]) :=
  Reaches.emit h (Lexer.pos_lt_of_rest_cons (by simpa using hr)) (scanToken_number hr hw hs)

theorem Reaches.single {text : List Char} {lx : Lexer} {pts : List (Nat × Token)} {c : Char}
    {r : List Char} {tt : TokenType} (h : Reaches text lx pts) (hr : lx.rest = c :: r)
    (hk : singleCharKind c = some tt) (h2 : lx.noTwoCharOp) :
    Reaches text (lx.move [c]) (pts ++ [(lx.pos, ⟨tt, [c], lx.line, lx.col⟩)]) :=
  Reaches.emit h (Lexer.pos_lt_of_rest_cons hr) (scanToken_single hr hk h2)

/-- The three type keywords are words, and lex to their own token kinds. -/
theorem type_keyword_word {T : List Char}
    (hT : T ∈ ["num".toList, "text".toList, "flag".toList]) :
    ∃ c cs tt, T = c :: cs ∧ (c.isAlpha = true ∨ c = '_') ∧
      (∀ d ∈ cs, d.isAlphanum = true ∨ d = '_') ∧
      tt ∈ [TokenType.NUM, .TEXT, .FLAG] ∧
      ∀ l k, wordToken T l k = ⟨tt, T, l, k⟩ := by
  simp only [List.mem_cons, List.mem_singleton, List.not_mem_nil, or_false] at hT
  rcases hT with rfl | rfl | rfl
  · exact ⟨'n', "um".toList, .NUM, rfl, by decide, by decide, by decide, fun _ _ => rfl⟩
  · exact ⟨'t', "ext".toList, .TEXT, rfl, by decide, by decide, by decide, fun _ _ => rfl⟩
  · exact ⟨'f', "lag".toList, .FLAG, rfl, by decide, by decide, by decide, fun _ _ => rfl⟩

theorem not_ident_space (r : List Char) :
    ¬ (((' ' :: r).headD '\x00').isAlphanum = true ∨ (' ' :: r).headD '\x00' = '_') := by
  show ¬ (' '.isAlphanum = true ∨ ' ' = '_')
  decide

theorem not_digit_space (r : List Char) : ¬ (((' ' :: r).headD '\x00').isDigit = true) := by
  show ¬ (' '.isDigit = true)
  decide

/-- Lexing of `start T x = n end`: seven tokens of the expected kinds and values. -/
theorem tokenize_varDeclSource (T : List Char) (c : Char) (cs : List Char) (d : Char)
    (ds : List Char) (hT : T ∈ ["num".toList, "text".toList, "flag".toList])
    (hc : c.isAlpha = true ∨ c = '_') (hcs : ∀ e ∈ cs, e.isAlphanum = true ∨ e = '_')
    (hkw : kwFind ((c :: cs).map Char.toLower) kw = none)
    (hds : ∀ e ∈ d :: ds, e.isDigit = true) :
    ∃ st ty x eq num en eof : Token,
      tokenize (varDeclSource T (c :: cs) (d :: ds)) = .ok [st, ty, x, eq, num, en, eof] ∧
      st.type = .START ∧ ty.type ∈ [TokenType.NUM, .TEXT, .FLAG] ∧ ty.value = T ∧
      x.type = .IDENT ∧ x.value = c :: cs ∧ eq.type = .ASSIGN ∧
      num.type = .NUMBER ∧ num.value = d :: ds ∧ en.type = .END ∧ eof.type = .EOF_T := by
  obtain ⟨tc, tcs, tt, rfl, htc, htcs, htt, hword⟩ := type_keyword_word hT
  have htext : varDeclSource (tc :: tcs) (c :: cs) (d :: ds) =
      ('s' :: "tart".toList) ++ ' ' :: ((tc :: tcs) ++ ' ' :: ((c :: cs) ++
        ' ' :: '=' :: ' ' :: ((d :: ds) ++ ' ' :: (('e' :: "nd".toList) ++ [])))) := by
    simp only [varDeclSource, List.append_assoc]
    rfl
  generalize varDeclSource (tc :: tcs) (c :: cs) (d :: ds) = text at htext ⊢
  have r0 : Reaches text (Lexer.new text) [] := Reaches.start
  have e0 : (Lexer.new text).rest = _ := htext
  have r1 := r0.word e0 (by decide) (by decide) (not_ident_space _)
  have e1 := Lexer.rest_move e0
  have r2 := r1.space e1 (Or.inl rfl)
  have e2 := Lexer.rest_advance e1
  have r3 := r2.word e2 htc htcs (not_ident_space _)
  have e3 := Lexer.rest_move e2
  have r4 := r3.space e3 (Or.inl rfl)
  have e4 := Lexer.rest_advance e3
  have r5 := r4.word e4 hc hcs (not_ident_space _)
  have e5 := Lexer.rest_move e4
  have r6 := r5.space e5 (Or.inl rfl)
  have e6 := Lexer.rest_advance e5
  have r7 := r6.single e6 (show singleCharKind '=' = some .ASSIGN by decide)
    ⟨Lexer.startsWith_eq_false e6 (Or.inr (show (' ' :: _).headD '\x00' ≠ '=' by
        show ' ' ≠ '='; decide)),
      Lexer.startsWith_eq_false e6 (Or.inl (by decide)),
      Lexer.startsWith_eq_false e6 (Or.inl (by decide)),
      Lexer.startsWith_eq_false e6 (Or.inl (by decide))⟩
  have e7 := Lexer.rest_advance e6
  have r8 := r7.space e7 (Or.inl rfl)
  have e8 := Lexer.rest_advance e7
  have r9 := r8.number e8 hds (not_digit_space _)
  have e9 := Lexer.rest_move e8
  have r10 := r9.space e9 (Or.inl rfl)
  have e10 := Lexer.rest_advance e9
  have r11 := r10.word e10 (by decide) (by decide) (by decide)
  have e11 := Lexer.rest_move e10
  have hend : ¬ _ < _ := fun h => by
    obtain ⟨r, hr⟩ := Lexer.rest_ne_nil_of_pos_lt h
    rw [e11] at hr
    cases hr
  have hfin := (tokenize_of_reaches_end r11 hend).1
  refine ⟨_, _, _, _, _, _, _, hfin, ?_, ?_, ?_, ?_, ?_, rfl, rfl, rfl, ?_, rfl⟩
  · rfl
  · rw [hword]; exact htt
  · rw [hword]
  · rw [wordToken_ident hkw]
  · rw [wordToken_ident hkw]
  · rfl

/-- C9: for every type keyword `T` among `num`, `text`, `flag`, every identifier `x`
(a word whose lower-cased form is neither a keyword nor `true` nor `false`) and every
non-empty run of digits `n`, lexing and parsing the source `start T x = n end`
succeeds and returns a `Program` whose statement list is exactly one `VarDecl` with
vartype `T`, name `x` and initializer `Literal(n, "num")`. -/
theorem parseSource_var_decl (T : List Char) (c : Char) (cs : List Char) (d : Char)
    (ds : List Char) (hT : T ∈ ["num".toList, "text".toList, "flag".toList])
    (hc : c.isAlpha = true ∨ c = '_') (hcs : ∀ e ∈ cs, e.isAlphanum = true ∨ e = '_')
    (hx1 : ∀ kt ∈ keywordKinds, (c :: cs).map Char.toLower ≠ kt.1)
    (hx2 : (c :: cs).map Char.toLower ≠ "true".toList)
    (hx3 : (c :: cs).map Char.toLower ≠ "false".toList)
    (hds : ∀ e ∈ d :: ds, e.isDigit = true) :
    parseSource ("start ".toList ++ T ++ " ".toList ++ (c :: cs) ++ " = ".toList ++ (d :: ds) ++
        " end".toList) =
      .ok (.Program [.VarDecl T (c :: cs) (.Literal (d :: ds) "num".toList)]) := by
  obtain ⟨st, ty, x, eq, num, en, eof, htok, h1, h2, h3, h4, h5, h6, h7, h8, h9, h10⟩ :=
    tokenize_varDeclSource T c cs d ds hT hc hcs (kwFind_none_of_not_keyword hx1 hx2 hx3) hds
  have hp := parse_var_decl_tokens st ty x eq num en eof h1 h2 h4 h6 h7 h9 h10
  rw [h3, h5, h8] at hp
  unfold varDeclSource at htok
  unfold parseSource parse
  rw [htok]
  simp only []
  rw [hp]

/-- Witness of C9: the source `start num x = 1 end`. -/
theorem parseSource_var_decl_witness :
    parseSource "start num x = 1 end".toList =
      .ok (.Program [.VarDecl "num".toList "x".toList (.Literal "1".toList "num".toList)]) :=
  parseSource_var_decl "num".toList 'x' [] '1' [] (by decide) (by decide) (by decide)
    (by decide) (by decide) (by decide) (by decide)

/-- C10: a variable declaration whose `=` is followed at once by the `end` keyword
makes the parser throw "Unexpected token in expression" with the line and column of
that `end` token: for the statement production at any cursor, and for `parse` on any
token list that starts with `start`, such a declaration.  On `start num x = end` the
position is 1:15, while the end-of-input token is at 1:18. -/
theorem parse_missing_initializer :
    (∀ (tokens : List Token) (i n : Nat),
      (current tokens i).type ∈ [TokenType.NUM, .TEXT, .FLAG] →
      (current tokens (i + 1)).type = .IDENT →
      (current tokens (i + 2)).type = .ASSIGN →
      (current tokens (i + 3)).type = .END →
      statement tokens (n + 9) i =
        .error (.unexpectedTokenInExpression (current tokens (i + 3)).line
          (current tokens (i + 3)).col, i + 3)) ∧
    (∀ (st ty x eq en : Token) (rest : List Token),
      st.type = .START → ty.type ∈ [TokenType.NUM, .TEXT, .FLAG] → x.type = .IDENT →
      eq.type = .ASSIGN → en.type = .END →
      parse (st :: ty :: x :: eq :: en :: rest) =
        .error (.unexpectedTokenInExpression en.line en.col)) ∧
    tokenize "start num x = end".toList =
      .ok [⟨.START, "start".toList, 1, 1⟩, ⟨.NUM, "num".toList, 1, 7⟩,
        ⟨.IDENT, "x".toList, 1, 11⟩, ⟨.ASSIGN, "=".toList, 1, 13⟩,
        ⟨.END, "end".toList, 1, 15⟩, ⟨.EOF_T, [], 1, 18⟩] ∧
    parseSource "start num x = end".toList =
      .error (.parse (.unexpectedTokenInExpression 1 15)) ∧
    (ParserError.unexpectedTokenInExpression 1 15).what =
      "Unexpected token in expression at 1:15".toList := by
  have ht : tokenize "start num x = end".toList =
      .ok [⟨.START, "start".toList, 1, 1⟩, ⟨.NUM, "num".toList, 1, 7⟩,
        ⟨.IDENT, "x".toList, 1, 11⟩, ⟨.ASSIGN, "=".toList, 1, 13⟩,
        ⟨.END, "end".toList, 1, 15⟩, ⟨.EOF_T, [], 1, 18⟩] := by decide
  refine ⟨statement_missing_initializer, parse_missing_initializer_tokens, ht, ?_, by decide⟩
  unfold parseSource
  rw [ht]
  simp only []
  rw [parse_missing_initializer_tokens _ _ _ _ _ _ rfl (by decide) rfl rfl rfl]

/-- Witness of C10: the tokens of `start flag b = end`, first with the cursor on the
declaration, then as a whole. -/
theorem parse_missing_initializer_witness :
    statement [⟨.START, "start".toList, 1, 1⟩, ⟨.FLAG, "flag".toList, 1, 7⟩,
        ⟨.IDENT, "b".toList, 1, 12⟩, ⟨.ASSIGN, "=".toList, 1, 14⟩,
        ⟨.END, "end".toList, 1, 16⟩, ⟨.EOF_T, [], 1, 19⟩] (0 + 9) 1 =
      .error (.unexpectedTokenInExpression 1 16, 4) ∧
    parse [⟨.START, "start".toList, 1, 1⟩, ⟨.FLAG, "flag".toList, 1, 7⟩,
        ⟨.IDENT, "b".toList, 1, 12⟩, ⟨.ASSIGN, "=".toList, 1, 14⟩,
        ⟨.END, "end".toList, 1, 16⟩, ⟨.EOF_T, [], 1, 19⟩] =
      .error (.unexpectedTokenInExpression 1 16) :=
  ⟨parse_missing_initializer.1 _ 1 0 (by decide) (by decide) (by decide) (by decide),
    parse_missing_initializer.2.1 _ _ _ _ _ _ rfl (by decide) rfl rfl rfl⟩

/-! ## Parser: cursor, errors and precedence -/

theorem Outcome.bind_eq_ok {ε α β : Type} {x : Outcome ε α} {f : α → Outcome ε β} {b : β} :
    x.bind f = .ok b ↔ ∃ a, x = .ok a ∧ f a = .ok b := by
  cases x <;> simp [Outcome.bind]

theorem Outcome.bind_eq_error {ε α β : Type} {x : Outcome ε α} {f : α → Outcome ε β} {e : ε} :
    x.bind f = .error e ↔ x = .error e ∨ ∃ a, x = .ok a ∧ f a = .error e := by
  cases x <;> simp [Outcome.bind]

theorem current_of_lt {tokens : List Token} {i : Nat} (h : i < tokens.length) :
    current tokens i = tokens[i] := by
  unfold current
  rw [dif_pos h]

theorem current_type_of_le {tokens : List Token} {i : Nat} (h : tokens.length ≤ i) :
    (current tokens i).type = .EOF_T := by
  unfold current
  rw [dif_neg (by omega)]

theorem match_eq_ok {tokens : List Token} {types : List TokenType} {i : Nat}
    {r : Token × Nat} (h : match_ tokens types i = .ok r) :
    (current tokens i).type ∈ types ∧ r = advance tokens i := by
  unfold match_ at h
  by_cases hc : (current tokens i).type ∈ types
  · rw [if_pos hc] at h
    exact ⟨hc, (Outcome.ok.inj h).symm⟩
  · rw [if_neg hc] at h
    cases h

/-- A successful `match` on kinds other than `EOF_T` returns the token under the
cursor and moves the cursor by one. -/
theorem match_eq_ok_step {tokens : List Token} {types : List TokenType} {i : Nat}
    {r : Token × Nat} (h : match_ tokens types i = .ok r) (hne : TokenType.EOF_T ∉ types) :
    i < tokens.length ∧ (current tokens i).type ∈ types ∧ r = (current tokens i, i + 1) := by
  obtain ⟨hc, hr⟩ := match_eq_ok h
  have hn : (current tokens i).type ≠ .EOF_T := fun he => hne (he ▸ hc)
  exact ⟨lt_of_current_type_ne hn, hc, by rw [hr, advance_of_ne_eof hn]⟩

theorem Outcome.bind_assoc {ε α β γ : Type} (x : Outcome ε α) (f : α → Outcome ε β)
    (g : β → Outcome ε γ) : (x.bind f).bind g = x.bind fun a => (f a).bind g := by
  cases x <;> rfl

theorem Outcome.ite_bind {ε α β : Type} (c : Prop) [Decidable c] (x y : Outcome ε α)
    (f : α → Outcome ε β) :
    (if c then x else y).bind f = if c then x.bind f else y.bind f := by
  split <;> rfl

/-- `Parser::func_def` is its header followed by the body loop, `match(BACK)`, the
result expression and `match(RBRACE)`. -/
theorem func_def_eq (tokens : List Token) (n i : Nat) :
    func_def tokens (n + 1) i =
      (funcHeader tokens i).bind fun h =>
        (funcBodyLoop tokens n h.2.2 []).bind fun b =>
          (match_ tokens [.BACK] b.2).bind fun k =>
            (expr tokens n k.2).bind fun e =>
              (match_ tokens [.RBRACE] e.2).bind fun r =>
                .ok (.FuncDef h.1 h.2.1 b.1 e.1, r.2) := by
  rw [func_def]
  simp only [funcHeader, Outcome.bind_eq, Outcome.pure_eq, Outcome.bind_assoc, Outcome.bind_ok,
    Outcome.ite_bind]

/-- The body loop of `func_def` fails with the missing-`back` error as soon as the
cursor is at a closing brace, whatever statements it has collected. -/
theorem funcBodyLoop_rbrace (tokens : List Token) (n i : Nat) (body : List ASTNode)
    (h : (current tokens i).type = .RBRACE) :
    funcBodyLoop tokens (n + 1) i body = .error (.missingBack, i) := by
  rw [funcBodyLoop, if_pos (by rw [h]; decide), if_pos h]

/-- The body loop of `func_def` only returns at a `back` token, with the statements it
was given followed by the statements it has parsed. -/
theorem funcBodyLoop_ok (tokens : List Token) :
    ∀ (n i : Nat) (body b : List ASTNode) (j : Nat),
      funcBodyLoop tokens n i body = .ok (b, j) →
        (current tokens j).type = .BACK ∧ ∃ more, b = body ++ more := by
  intro n
  induction n with
  | zero =>
    intro i body b j h
    rw [funcBodyLoop] at h
    cases h
  | succ n ih =>
    intro i body b j h
    rw [funcBodyLoop] at h
    by_cases hb : (current tokens i).type = .BACK
    · rw [if_neg (not_not.2 hb)] at h
      simp only [Outcome.ok.injEq, Prod.mk.injEq] at h
      obtain ⟨rfl, rfl⟩ := h
      exact ⟨hb, [], by simp⟩
    · rw [if_pos hb] at h
      by_cases hr : (current tokens i).type = .RBRACE
      · rw [if_pos hr] at h
        cases h
      · rw [if_neg hr] at h
        simp only [Outcome.bind_eq] at h
        obtain ⟨⟨s, i1⟩, _, h⟩ := Outcome.bind_eq_ok.1 h
        obtain ⟨hj, more, hm⟩ := ih _ _ _ _ h
        exact ⟨hj, s :: more, by rw [hm]; simp⟩

/-- C13: after the header `func name(params) {` of a function definition, for every
recursion bound: reaching the closing brace before a `back` token makes the body loop,
and with it `func_def`, fail with "Function must contain a 'back' statement" (so does
the empty body); the body loop returns only at a `back` token; when the token after
the result expression is not the closing brace `func_def` fails with "Expected
token(s)" at that token, and when it is, `func_def` returns the `FuncDef` node with
the body statements and that one result expression; every node `func_def` returns is
built this way. -/
theorem func_def_back (tokens : List Token) (n i i6 : Nat) (name : List Char)
    (params : List (List Char)) (hh : funcHeader tokens i = .ok (name, params, i6)) :
    (∀ k body, (current tokens k).type = .RBRACE →
        funcBodyLoop tokens (n + 1) k body = .error (.missingBack, k)) ∧
      ((current tokens i6).type = .RBRACE →
        func_def tokens (n + 2) i = .error (.missingBack, i6)) ∧
      (∀ e, funcBodyLoop tokens n i6 [] = .error e → func_def tokens (n + 1) i = .error e) ∧
      (∀ body k, funcBodyLoop tokens n i6 [] = .ok (body, k) →
        (current tokens k).type = .BACK ∧
        ∀ back_expr i9, expr tokens n (k + 1) = .ok (back_expr, i9) →
          ((current tokens i9).type ≠ .RBRACE →
            func_def tokens (n + 1) i =
              .error (.expectedTokens (current tokens i9).line (current tokens i9).col, i9)) ∧
          ((current tokens i9).type = .RBRACE →
            func_def tokens (n + 1) i =
              .ok (.FuncDef name params body back_expr, i9 + 1))) ∧
      (∀ node j, func_def tokens (n + 1) i = .ok (node, j) →
        ∃ body k back_expr i9, node = .FuncDef name params body back_expr ∧
          funcBodyLoop tokens n i6 [] = .ok (body, k) ∧ (current tokens k).type = .BACK ∧
          expr tokens n (k + 1) = .ok (back_expr, i9) ∧
          (current tokens i9).type = .RBRACE ∧ j = i9 + 1) := by
  have hback : ∀ body k, funcBodyLoop tokens n i6 [] = .ok (body, k) →
      (current tokens k).type = .BACK ∧
        match_ tokens [.BACK] k = .ok (current tokens k, k + 1) := by
    intro body k hk
    have hb := (funcBodyLoop_ok tokens n i6 [] body k hk).1
    exact ⟨hb, match_ok (by rw [hb]; decide) (by rw [hb]; decide)⟩
  refine ⟨fun k body hk => funcBodyLoop_rbrace tokens n k body hk, ?_, ?_, ?_, ?_⟩
  · intro hr
    rw [func_def_eq, hh, Outcome.bind_ok]
    dsimp only
    rw [funcBodyLoop_rbrace tokens n i6 [] hr, Outcome.bind_error]
  · intro e he
    rw [func_def_eq, hh, Outcome.bind_ok]
    dsimp only
    rw [he, Outcome.bind_error]
  · intro body k hk
    obtain ⟨hb, hm⟩ := hback body k hk
    refine ⟨hb, ?_⟩
    intro back_expr i9 he
    constructor
    · intro hr
      rw [func_def_eq, hh, Outcome.bind_ok]
      dsimp only
      rw [hk, Outcome.bind_ok]
      dsimp only
      rw [hm, Outcome.bind_ok]
      dsimp only
      rw [he, Outcome.bind_ok]
      dsimp only
      rw [match_error (by simpa using hr), Outcome.bind_error]
    · intro hr
      rw [func_def_eq, hh, Outcome.bind_ok]
      dsimp only
      rw [hk, Outcome.bind_ok]
      dsimp only
      rw [hm, Outcome.bind_ok]
      dsimp only
      rw [he, Outcome.bind_ok]
      dsimp only
      rw [match_ok (by rw [hr]; decide) (by rw [hr]; decide), Outcome.bind_ok]
  · intro node j h
    rw [func_def_eq, hh, Outcome.bind_ok] at h
    dsimp only at h
    obtain ⟨⟨body, k⟩, hk, h⟩ := Outcome.bind_eq_ok.1 h
    obtain ⟨hb, hm⟩ := hback body k hk
    dsimp only at h
    rw [hm, Outcome.bind_ok] at h
    dsimp only at h
    obtain ⟨⟨back_expr, i9⟩, he, h⟩ := Outcome.bind_eq_ok.1 h
    obtain ⟨⟨r, j2⟩, hr, h⟩ := Outcome.bind_eq_ok.1 h
    obtain ⟨_, hrt, hre⟩ := match_eq_ok_step hr (by decide)
    simp only [Outcome.ok.injEq, Prod.mk.injEq] at h hre
    obtain ⟨hnode, hj⟩ := h
    dsimp only at hrt hre
    refine ⟨body, k, back_expr, i9, hnode.symm, hk, hb, he, by simpa using hrt, ?_⟩
    rw [← hj, hre.2]

/-- Witness of C13: the tokens of `start func f() { } end`, whose function header ends
at cursor 6, on the closing brace; and two whole sources, one with an empty function
body, one with a statement between the result expression and the closing brace. -/
theorem func_def_back_witness :
    funcHeader [⟨.START, "start".toList, 1, 1⟩, ⟨.FUNC, "func".toList, 1, 7⟩,
        ⟨.IDENT, "f".toList, 1, 12⟩, ⟨.LPAREN, "(".toList, 1, 13⟩, ⟨.RPAREN, ")".toList, 1, 14⟩,
        ⟨.LBRACE, "\x7b".toList, 1, 16⟩, ⟨.RBRACE, "\x7d".toList, 1, 18⟩, ⟨.END, "end".toList, 1, 20⟩,
        ⟨.EOF_T, [], 1, 23⟩] 1 = .ok ("f".toList, [], 6) ∧
      func_def [⟨.START, "start".toList, 1, 1⟩, ⟨.FUNC, "func".toList, 1, 7⟩,
        ⟨.IDENT, "f".toList, 1, 12⟩, ⟨.LPAREN, "(".toList, 1, 13⟩, ⟨.RPAREN, ")".toList, 1, 14⟩,
        ⟨.LBRACE, "\x7b".toList, 1, 16⟩, ⟨.RBRACE, "\x7d".toList, 1, 18⟩, ⟨.END, "end".toList, 1, 20⟩,
        ⟨.EOF_T, [], 1, 23⟩] (0 + 2) 1 = .error (.missingBack, 6) ∧
      parseSource "start func f() { } end".toList = .error (.parse .missingBack) ∧
      parseSource "start func f() { back 1 show 2 } end".toList =
        .error (.parse (.expectedTokens 1 25)) :=
  ⟨by decide,
    (func_def_back [⟨.START, "start".toList, 1, 1⟩, ⟨.FUNC, "func".toList, 1, 7⟩,
        ⟨.IDENT, "f".toList, 1, 12⟩, ⟨.LPAREN, "(".toList, 1, 13⟩, ⟨.RPAREN, ")".toList, 1, 14⟩,
        ⟨.LBRACE, "\x7b".toList, 1, 16⟩, ⟨.RBRACE, "\x7d".toList, 1, 18⟩, ⟨.END, "end".toList, 1, 20⟩,
        ⟨.EOF_T, [], 1, 23⟩] 0 1 6 "f".toList [] (by decide)).2.1 (by decide),
    by decide, by decide!⟩

theorem Outcome.Sat.bind {ε α β : Type} {x : Outcome ε α} {f : α → Outcome ε β}
    {Q2 : α → Prop} {Q : β → Prop} {P : ε → Prop}
    (hx : x.Sat Q2 P) (hf : ∀ a, Q2 a → (f a).Sat Q P) : (x.bind f).Sat Q P := by
  cases x with
  | ok a => exact hf a hx
  | error e => exact hx
  | outOfFuel => trivial

theorem Outcome.Sat.mono {ε α : Type} {x : Outcome ε α} {Q2 Q : α → Prop} {P : ε → Prop}
    (hx : x.Sat Q2 P) (hq : ∀ a, Q2 a → Q a) : x.Sat Q P := by
  cases x with
  | ok a => exact hq a hx
  | error e => exact hx
  | outOfFuel => trivial

theorem goodError_of_atCursor {tokens : List Token} {e : ParserError} {j : Nat}
    (h : e.position = some ((current tokens j).line, (current tokens j).col)) :
    goodError tokens (e, j) := Or.inr (Or.inl h)

/-- `Parser::match` moves the cursor forwards; its exception carries the position of
the token under the cursor. -/
theorem match_sat (tokens : List Token) (types : List TokenType) (i : Nat) :
    (match_ tokens types i).Sat (fun r => i ≤ r.2) (goodError tokens) := by
  unfold match_
  split
  · show i ≤ (advance tokens i).2
    unfold advance
    split <;> simp
  · exact goodError_of_atCursor rfl

/-- `Parser::match` on kinds other than `EOF_T` returns the token under the cursor
and moves the cursor by one. -/
theorem match_sat_step (tokens : List Token) (types : List TokenType) (i : Nat)
    (hne : TokenType.EOF_T ∉ types) :
    (match_ tokens types i).Sat
      (fun r => r = (current tokens i, i + 1) ∧ (current tokens i).type ∈ types)
      (goodError tokens) := by
  by_cases hc : (current tokens i).type ∈ types
  · rw [match_ok hc (fun he => hne (he ▸ hc))]
    exact ⟨rfl, hc⟩
  · rw [match_error hc]
    exact goodError_of_atCursor rfl

theorem parserInv_zero (tokens : List Token) : ParserInv tokens 0 := by
  constructor <;> intros <;> trivial

theorem advance_le (tokens : List Token) (i : Nat) : i ≤ (advance tokens i).2 := by
  unfold advance
  split <;> simp

theorem advance_lt (tokens : List Token) (i : Nat) (h : (current tokens i).type ≠ .EOF_T) :
    i < (advance tokens i).2 := by
  rw [advance_of_ne_eof h]
  exact Nat.lt_succ_self i

/-- `Parser::match` on kinds other than `EOF_T` moves the cursor forwards. -/
theorem match_sat_lt (tokens : List Token) (types : List TokenType) (i : Nat)
    (hne : TokenType.EOF_T ∉ types) :
    (match_ tokens types i).Sat (fun r => i < r.2) (goodError tokens) :=
  (match_sat_step tokens types i hne).mono fun a ha => by
    rw [ha.1]
    exact Nat.lt_succ_self i

theorem take_stmt_sat (tokens : List Token) (i : Nat) :
    (take_stmt tokens i).Sat (fun r => i < r.2) (goodError tokens) := by
  unfold take_stmt
  simp only [Outcome.bind_eq, Outcome.pure_eq]
  refine (match_sat_lt tokens _ i (by decide)).bind fun r1 h1 => ?_
  refine (match_sat tokens _ _).bind fun r2 h2 => ?_
  exact Nat.lt_of_lt_of_le h1 h2

theorem paramsLoop_sat (tokens : List Token) :
    ∀ (n i : Nat) (params : List (List Char)),
      (paramsLoop tokens n i params).Sat (fun r => i ≤ r.2) (goodError tokens) := by
  intro n
  induction n with
  | zero => intros; trivial
  | succ n ih =>
    intro i params
    rw [paramsLoop]
    split
    · simp only [Outcome.bind_eq]
      refine (match_sat tokens _ i).bind fun r1 h1 => ?_
      refine (match_sat tokens _ _).bind fun r2 h2 => ?_
      exact (ih _ _).mono fun a ha => by omega
    · exact Nat.le_refl i

theorem keywordBefore_of_type {tokens : List Token} {i j : Nat} {types : List TokenType}
    (ht : (current tokens i).type ∈ types)
    (hs : ∀ t ∈ types, t ∈ [TokenType.WHEN, .ELSEWHEN, .ELSE, .LOOP]) (hij : i < j) :
    keywordBefore tokens (current tokens i) j :=
  ⟨i, hij, rfl, hs _ ht⟩

theorem parserInv_succ (tokens : List Token) (n : Nat) (ih : ParserInv tokens n) :
    ParserInv tokens (n + 1) := by
  constructor
  · -- statements
    intro i stmts
    rw [statements]
    split
    · refine (ih.statement i).bind fun r hr => ?_
      exact (ih.statements r.2 _).mono fun a ha => Nat.le_trans (Nat.le_of_lt hr) ha
    · exact Nat.le_refl i
  · -- statement
    intro i
    rw [statement]
    dsimp only
    split_ifs
    · exact ih.var_decl i
    · exact ih.assign_or_func_call i
    · exact ih.show_stmt i
    · exact take_stmt_sat tokens i
    · exact ih.when_stmt i
    · exact ih.loop_stmt i
    · exact (match_sat_lt tokens _ i (by decide)).bind fun r hr => hr
    · exact ih.func_def i
    · exact goodError_of_atCursor rfl
  · -- var_decl
    intro i
    rw [var_decl]
    simp only [Outcome.bind_eq, Outcome.pure_eq]
    refine (match_sat_lt tokens _ i (by decide)).bind fun r1 h1 => ?_
    refine (match_sat tokens _ _).bind fun r2 h2 => ?_
    refine (match_sat tokens _ _).bind fun r3 h3 => ?_
    refine (ih.expr _).bind fun r4 h4 => ?_
    show i < r4.2
    omega
  · -- call_args
    intro i
    rw [call_args]
    split
    · refine (ih.expr i).bind fun r hr => ?_
      exact (ih.argsLoop r.2 _).mono fun a ha => Nat.le_trans (Nat.le_of_lt hr) ha
    · exact Nat.le_refl i
  · -- argsLoop
    intro i args
    rw [argsLoop]
    split
    · simp only [Outcome.bind_eq]
      refine (match_sat tokens _ i).bind fun r1 h1 => ?_
      refine (ih.expr _).bind fun r2 h2 => ?_
      exact (ih.argsLoop _ _).mono fun a ha => by omega
    · exact Nat.le_refl i
  · -- assign_or_func_call
    intro i
    rw [assign_or_func_call]
    simp only [Outcome.bind_eq, Outcome.pure_eq]
    refine (match_sat_lt tokens _ i (by decide)).bind fun r1 h1 => ?_
    split_ifs
    · refine (match_sat tokens _ _).bind fun r2 h2 => ?_
      refine (ih.expr _).bind fun r3 h3 => ?_
      show i < r3.2
      omega
    · refine (match_sat tokens _ _).bind fun r2 h2 => ?_
      refine (ih.call_args _).bind fun r3 h3 => ?_
      refine (match_sat tokens _ _).bind fun r4 h4 => ?_
      show i < r4.2
      omega
    · exact goodError_of_atCursor rfl
  · -- show_stmt
    intro i
    rw [show_stmt]
    simp only [Outcome.bind_eq, Outcome.pure_eq]
    refine (match_sat_lt tokens _ i (by decide)).bind fun r1 h1 => ?_
    refine (ih.expr _).bind fun r2 h2 => ?_
    show i < r2.2
    omega
  · -- when_stmt
    intro i
    rw [when_stmt]
    simp only [Outcome.bind_eq, Outcome.pure_eq]
    refine (match_sat_step tokens _ i (by decide)).bind fun r1 h1 => ?_
    obtain ⟨rfl, ht⟩ := h1
    dsimp only
    refine (ih.expr _).bind fun r2 h2 => ?_
    refine (ih.block _ _
      (keywordBefore_of_type ht (by decide) (by omega))).bind fun r3 h3 => ?_
    obtain ⟨node, i3⟩ := r3
    obtain ⟨h3, body, rfl⟩ := h3
    dsimp only at h3 ⊢
    refine (ih.elsewhenLoop _ _).bind fun r4 h4 => ?_
    split
    · refine (match_sat_step tokens _ _ (by decide)).bind fun r5 h5 => ?_
      obtain ⟨rfl, ht5⟩ := h5
      dsimp only
      refine (ih.block _ _
        (keywordBefore_of_type ht5 (by decide) (Nat.lt_succ_self _))).bind fun r6 h6 => ?_
      obtain ⟨node6, i6⟩ := r6
      obtain ⟨h6, eb, rfl⟩ := h6
      dsimp only at h6 ⊢
      show i < i6
      omega
    · show i < r4.2
      omega
  · -- elsewhenLoop
    intro i cases
    rw [elsewhenLoop]
    split
    · simp only [Outcome.bind_eq]
      refine (match_sat_step tokens _ i (by decide)).bind fun r1 h1 => ?_
      obtain ⟨rfl, ht⟩ := h1
      dsimp only
      refine (ih.expr _).bind fun r2 h2 => ?_
      refine (ih.block _ _
        (keywordBefore_of_type ht (by decide) (by omega))).bind fun r3 h3 => ?_
      obtain ⟨node, i3⟩ := r3
      obtain ⟨h3, body, rfl⟩ := h3
      dsimp only at h3 ⊢
      exact (ih.elsewhenLoop _ _).mono fun a ha => by omega
    · exact Nat.le_refl i
  · -- loop_stmt
    intro i
    rw [loop_stmt]
    simp only [Outcome.bind_eq, Outcome.pure_eq]
    refine (match_sat_step tokens _ i (by decide)).bind fun r1 h1 => ?_
    obtain ⟨rfl, ht⟩ := h1
    dsimp only
    refine (match_sat tokens _ _).bind fun r2 h2 => ?_
    refine (match_sat tokens _ _).bind fun r3 h3 => ?_
    refine (ih.expr _).bind fun r4 h4 => ?_
    refine (match_sat tokens _ _).bind fun r5 h5 => ?_
    refine (ih.expr _).bind fun r6 h6 => ?_
    refine (ih.block _ _
      (keywordBefore_of_type ht (by decide) (by omega))).bind fun r7 h7 => ?_
    obtain ⟨node, i7⟩ := r7
    obtain ⟨h7, body, rfl⟩ := h7
    dsimp only at h7 ⊢
    show i < i7
    omega
  · -- func_def
    intro i
    rw [func_def_eq]
    unfold funcHeader
    simp only [Outcome.bind_eq, Outcome.pure_eq, Outcome.bind_assoc, Outcome.bind_ok,
      Outcome.ite_bind]
    refine (match_sat_lt tokens _ i (by decide)).bind fun r1 h1 => ?_
    refine (match_sat tokens _ _).bind fun r2 h2 => ?_
    refine (match_sat tokens _ _).bind fun r3 h3 => ?_
    split
    · refine (match_sat tokens _ _).bind fun r4 h4 => ?_
      refine (paramsLoop_sat tokens _ _ _).bind fun r5 h5 => ?_
      refine (match_sat tokens _ _).bind fun r6 h6 => ?_
      refine (match_sat tokens _ _).bind fun r7 h7 => ?_
      refine (ih.funcBodyLoop _ _).bind fun r8 h8 => ?_
      refine (match_sat tokens _ _).bind fun r9 h9 => ?_
      refine (ih.expr _).bind fun r10 h10 => ?_
      refine (match_sat tokens _ _).bind fun r11 h11 => ?_
      show i < r11.2
      omega
    · refine (match_sat tokens _ _).bind fun r6 h6 => ?_
      refine (match_sat tokens _ _).bind fun r7 h7 => ?_
      refine (ih.funcBodyLoop _ _).bind fun r8 h8 => ?_
      refine (match_sat tokens _ _).bind fun r9 h9 => ?_
      refine (ih.expr _).bind fun r10 h10 => ?_
      refine (match_sat tokens _ _).bind fun r11 h11 => ?_
      show i < r11.2
      omega
  · -- funcBodyLoop
    intro i body
    rw [funcBodyLoop]
    split_ifs
    · exact Or.inl rfl
    · refine (ih.statement i).bind fun r hr => ?_
      exact (ih.funcBodyLoop _ _).mono fun a ha => Nat.le_trans (Nat.le_of_lt hr) ha
    · exact Nat.le_refl i
  · -- block
    intro ctx i hk
    rw [block]
    split
    · exact Or.inr (Or.inr ⟨ctx, hk, rfl⟩)
    · simp only [Outcome.bind_eq, Outcome.pure_eq]
      refine (match_sat_lt tokens _ i (by decide)).bind fun r1 h1 => ?_
      refine (ih.statements _ _).bind fun r2 h2 => ?_
      refine (match_sat tokens _ _).bind fun r3 h3 => ?_
      exact ⟨by show i < r3.2; omega, _, rfl⟩
  · -- expr
    intro i
    rw [expr]
    exact ih.equality i
  · -- equality
    intro i
    rw [equality]
    refine (ih.comparison i).bind fun r hr => ?_
    exact (ih.equalityLoop _ _).mono fun a ha => Nat.lt_of_lt_of_le hr ha
  · -- equalityLoop
    intro node i
    rw [equalityLoop]
    split
    · refine (ih.comparison _).bind fun r hr => ?_
      exact (ih.equalityLoop _ _).mono fun a ha =>
        Nat.le_trans (Nat.le_trans (advance_le tokens i) (Nat.le_of_lt hr)) ha
    · exact Nat.le_refl i
  · -- comparison
    intro i
    rw [comparison]
    refine (ih.term i).bind fun r hr => ?_
    exact (ih.comparisonLoop _ _).mono fun a ha => Nat.lt_of_lt_of_le hr ha
  · -- comparisonLoop
    intro node i
    rw [comparisonLoop]
    split
    · refine (ih.term _).bind fun r hr => ?_
      exact (ih.comparisonLoop _ _).mono fun a ha =>
        Nat.le_trans (Nat.le_trans (advance_le tokens i) (Nat.le_of_lt hr)) ha
    · exact Nat.le_refl i
  · -- term
    intro i
    rw [term]
    refine (ih.factor i).bind fun r hr => ?_
    exact (ih.termLoop _ _).mono fun a ha => Nat.lt_of_lt_of_le hr ha
  · -- termLoop
    intro node i
    rw [termLoop]
    split
    · refine (ih.factor _).bind fun r hr => ?_
      exact (ih.termLoop _ _).mono fun a ha =>
        Nat.le_trans (Nat.le_trans (advance_le tokens i) (Nat.le_of_lt hr)) ha
    · exact Nat.le_refl i
  · -- factor
    intro i
    rw [factor]
    refine (ih.unary i).bind fun r hr => ?_
    exact (ih.factorLoop _ _).mono fun a ha => Nat.lt_of_lt_of_le hr ha
  · -- factorLoop
    intro node i
    rw [factorLoop]
    split
    · refine (ih.unary _).bind fun r hr => ?_
      exact (ih.factorLoop _ _).mono fun a ha =>
        Nat.le_trans (Nat.le_trans (advance_le tokens i) (Nat.le_of_lt hr)) ha
    · exact Nat.le_refl i
  · -- unary
    intro i
    rw [unary]
    split
    · refine (ih.unary _).bind fun r hr => ?_
      exact Nat.lt_of_le_of_lt (advance_le tokens i) hr
    · exact ih.primary i
  · -- primary
    intro i
    rw [primary]
    dsimp only
    split_ifs
    · rename_i h1
      exact advance_lt tokens i (by rw [h1]; decide)
    · rename_i h1
      exact advance_lt tokens i (by rw [h1]; decide)
    · rename_i h1
      exact advance_lt tokens i (by rw [h1]; decide)
    · rename_i h1 _
      simp only [Outcome.bind_eq, Outcome.pure_eq]
      refine (match_sat tokens _ _).bind fun r2 h2 => ?_
      refine (ih.call_args _).bind fun r3 h3 => ?_
      refine (match_sat tokens _ _).bind fun r4 h4 => ?_
      have := advance_lt tokens i (by rw [h1]; decide)
      show i < r4.2
      omega
    · rename_i h1 _
      exact advance_lt tokens i (by rw [h1]; decide)
    · simp only [Outcome.bind_eq, Outcome.pure_eq]
      refine (match_sat_lt tokens _ _ (by decide)).bind fun r1 h1 => ?_
      refine (ih.expr _).bind fun r2 h2 => ?_
      refine (match_sat tokens _ _).bind fun r3 h3 => ?_
      show i < r3.2
      omega
    · exact goodError_of_atCursor rfl

theorem parserInv (tokens : List Token) : ∀ n, ParserInv tokens n
  | 0 => parserInv_zero tokens
  | n + 1 => parserInv_succ tokens n (parserInv tokens n)

theorem binPrec_le (t : TokenType) : binPrec t ≤ 4 := by
  cases t <;> decide

theorem binPrec_ne_eof {t : TokenType} (h : binPrec t ≠ 0) : t ≠ .EOF_T := by
  intro he
  rw [he] at h
  exact h rfl

/-- A production of precedence class `k` calls the next one, then its loop. -/
theorem levelFn_succ (tokens : List Token) (k n i : Nat) (h1 : 1 ≤ k) (h4 : k ≤ 4) :
    levelFn tokens k (n + 1) i =
      (levelFn tokens (k + 1) n i).bind fun r => loopFn tokens k n r.1 r.2 := by
  have hk : k = 1 ∨ k = 2 ∨ k = 3 ∨ k = 4 := by omega
  rcases hk with rfl | rfl | rfl | rfl
  · show equality tokens (n + 1) i = _
    rw [equality]; rfl
  · show comparison tokens (n + 1) i = _
    rw [comparison]; rfl
  · show term tokens (n + 1) i = _
    rw [term]; rfl
  · show factor tokens (n + 1) i = _
    rw [factor]; rfl

/-- The loop of class `k` stops at a token that is not an operator of class `k`. -/
theorem loopFn_stop (tokens : List Token) (k n i : Nat) (node : ASTNode) (h1 : 1 ≤ k)
    (h4 : k ≤ 4) (hp : binPrec (current tokens i).type ≠ k) :
    loopFn tokens k (n + 1) node i = .ok (node, i) := by
  have hk : k = 1 ∨ k = 2 ∨ k = 3 ∨ k = 4 := by omega
  rcases hk with rfl | rfl | rfl | rfl
  · show equalityLoop tokens (n + 1) node i = _
    rw [equalityLoop, if_neg]
    rintro (h | h) <;> (rw [h] at hp; exact hp rfl)
  · show comparisonLoop tokens (n + 1) node i = _
    rw [comparisonLoop, if_neg]
    rintro (h | h | h | h) <;> (rw [h] at hp; exact hp rfl)
  · show termLoop tokens (n + 1) node i = _
    rw [termLoop, if_neg]
    rintro (h | h) <;> (rw [h] at hp; exact hp rfl)
  · show factorLoop tokens (n + 1) node i = _
    rw [factorLoop, if_neg]
    rintro (h | h) <;> (rw [h] at hp; exact hp rfl)

/-- The loop of class `k` at an operator of class `k` parses the right operand with
the next production, builds the `BinOp` node and goes on. -/
theorem loopFn_step (tokens : List Token) (k n i : Nat) (node : ASTNode) (h1 : 1 ≤ k)
    (hp : binPrec (current tokens i).type = k) :
    loopFn tokens k (n + 1) node i =
      (levelFn tokens (k + 1) n (i + 1)).bind fun r =>
        loopFn tokens k n (binOpNode node (current tokens i) r.1) r.2 := by
  have hne : (current tokens i).type ≠ .EOF_T := binPrec_ne_eof (by omega)
  have hadv := advance_of_ne_eof hne
  have h4 := binPrec_le (current tokens i).type
  have hk : k = 1 ∨ k = 2 ∨ k = 3 ∨ k = 4 := by omega
  rcases hk with rfl | rfl | rfl | rfl
  · show equalityLoop tokens (n + 1) node i = _
    rw [equalityLoop, if_pos, hadv]
    · rfl
    · revert hp
      cases (current tokens i).type <;> simp [binPrec]
  · show comparisonLoop tokens (n + 1) node i = _
    rw [comparisonLoop, if_pos, hadv]
    · rfl
    · revert hp
      cases (current tokens i).type <;> simp [binPrec]
  · show termLoop tokens (n + 1) node i = _
    rw [termLoop, if_pos, hadv]
    · rfl
    · revert hp
      cases (current tokens i).type <;> simp [binPrec]
  · show factorLoop tokens (n + 1) node i = _
    rw [factorLoop, if_pos, hadv]
    · rfl
    · revert hp
      cases (current tokens i).type <;> simp [binPrec]

/-- An operand of the next class followed by a token that is no operator of class `k`
is an expression of class `k`. -/
theorem parsesTo_lift_one (tokens : List Token) (k i j : Nat) (A : ASTNode) (h1 : 1 ≤ k)
    (h4 : k ≤ 4) (hA : parsesTo (levelFn tokens (k + 1)) i A j)
    (hp : binPrec (current tokens j).type ≠ k) : parsesTo (levelFn tokens k) i A j := by
  obtain ⟨N, hN⟩ := hA
  refine ⟨N + 2, fun m hm => ?_⟩
  obtain ⟨m, rfl⟩ : ∃ m2, m = m2 + 2 := ⟨m - 2, by omega⟩
  rw [levelFn_succ tokens k _ i h1 h4, hN (m + 1) (by omega), Outcome.bind_ok]
  exact loopFn_stop tokens k m j A h1 h4 hp

/-- An operand of class `a` is an expression of every looser class `b`, when the token
that follows is no operator of the classes from `b` up to `a`. -/
theorem parsesTo_lift (tokens : List Token) (i j : Nat) (A : ASTNode) :
    ∀ (d a b : Nat), a = b + d → 1 ≤ b → a ≤ 5 → parsesTo (levelFn tokens a) i A j →
      (∀ k, b ≤ k → k < a → binPrec (current tokens j).type ≠ k) →
      parsesTo (levelFn tokens b) i A j := by
  intro d
  induction d with
  | zero =>
    intro a b hab _ _ hA _
    have : a = b := by omega
    rw [← this]
    exact hA
  | succ d ih =>
    intro a b hab hb ha hA hp
    have h := ih a (b + 1) (by omega) (by omega) ha hA (fun k hk1 hk2 => hp k (by omega) hk2)
    exact parsesTo_lift_one tokens b i j A hb (by omega) h (hp b (Nat.le_refl b) (by omega))

/-- Two operands of the next class around one operator of class `k`. -/
theorem parsesTo_two (tokens : List Token) (k i i1 i2 : Nat) (A B : ASTNode) (h1 : 1 ≤ k)
    (hA : parsesTo (levelFn tokens (k + 1)) i A i1)
    (hop : binPrec (current tokens i1).type = k)
    (hB : parsesTo (levelFn tokens (k + 1)) (i1 + 1) B i2)
    (hp : binPrec (current tokens i2).type ≠ k) :
    parsesTo (levelFn tokens k) i (binOpNode A (current tokens i1) B) i2 := by
  have h4 : k ≤ 4 := hop ▸ binPrec_le _
  obtain ⟨N, hN⟩ := hA
  obtain ⟨M, hM⟩ := hB
  refine ⟨N + M + 3, fun m hm => ?_⟩
  obtain ⟨m, rfl⟩ : ∃ m2, m = m2 + 3 := ⟨m - 3, by omega⟩
  rw [levelFn_succ tokens k _ i h1 h4, hN (m + 2) (by omega), Outcome.bind_ok]
  dsimp only
  rw [loopFn_step tokens k _ i1 A h1 hop, hM (m + 1) (by omega), Outcome.bind_ok]
  exact loopFn_stop tokens k m i2 _ h1 h4 hp

/-- Three operands of the next class around two operators of class `k`: the loop
groups them to the left. -/
theorem parsesTo_three (tokens : List Token) (k i i1 i2 i3 : Nat) (A B C : ASTNode)
    (h1 : 1 ≤ k) (hA : parsesTo (levelFn tokens (k + 1)) i A i1)
    (hop1 : binPrec (current tokens i1).type = k)
    (hB : parsesTo (levelFn tokens (k + 1)) (i1 + 1) B i2)
    (hop2 : binPrec (current tokens i2).type = k)
    (hC : parsesTo (levelFn tokens (k + 1)) (i2 + 1) C i3)
    (hp : binPrec (current tokens i3).type ≠ k) :
    parsesTo (levelFn tokens k) i
      (binOpNode (binOpNode A (current tokens i1) B) (current tokens i2) C) i3 := by
  have h4 : k ≤ 4 := hop1 ▸ binPrec_le _
  obtain ⟨N, hN⟩ := hA
  obtain ⟨M, hM⟩ := hB
  obtain ⟨L, hL⟩ := hC
  refine ⟨N + M + L + 4, fun m hm => ?_⟩
  obtain ⟨m, rfl⟩ : ∃ m2, m = m2 + 4 := ⟨m - 4, by omega⟩
  rw [levelFn_succ tokens k _ i h1 h4, hN (m + 3) (by omega), Outcome.bind_ok]
  dsimp only
  rw [loopFn_step tokens k _ i1 A h1 hop1, hM (m + 2) (by omega), Outcome.bind_ok]
  dsimp only
  rw [loopFn_step tokens k _ i2 _ h1 hop2, hL (m + 1) (by omega), Outcome.bind_ok]
  exact loopFn_stop tokens k m i3 _ h1 h4 hp

/-- A primary is a unary expression: `primary` rejects a minus sign. -/
theorem parsesTo_unary_of_primary (tokens : List Token) (i j : Nat) (A : ASTNode)
    (hA : parsesTo (primary tokens) i A j) : parsesTo (levelFn tokens 5) i A j := by
  obtain ⟨N, hN⟩ := hA
  have hm : (current tokens i).type ≠ .MINUS := by
    intro hm
    have h := hN (N + 1) (by omega)
    rw [primary] at h
    simp [hm] at h
  refine ⟨N + 1, fun m hmN => ?_⟩
  obtain ⟨m, rfl⟩ : ∃ m2, m = m2 + 1 := ⟨m - 1, by omega⟩
  show unary tokens (m + 1) i = _
  rw [unary, if_neg hm]
  exact hN m (by omega)

/-- A minus sign followed by a unary expression is a unary expression. -/
theorem parsesTo_unary_minus (tokens : List Token) (i j : Nat) (A : ASTNode)
    (hm : (current tokens i).type = .MINUS) (hA : parsesTo (levelFn tokens 5) (i + 1) A j) :
    parsesTo (levelFn tokens 5) i
      (.UnaryOp (current tokens i).type (current tokens i).value A) j := by
  obtain ⟨N, hN⟩ := hA
  refine ⟨N + 1, fun m hmN => ?_⟩
  obtain ⟨m, rfl⟩ : ∃ m2, m = m2 + 1 := ⟨m - 1, by omega⟩
  show unary tokens (m + 1) i = _
  rw [unary, if_pos hm, advance_of_ne_eof (by rw [hm]; decide)]
  have h := hN m (by omega)
  change unary tokens m (i + 1) = _ at h
  simp only [Outcome.bind_eq, Outcome.pure_eq]
  rw [h, Outcome.bind_ok]

theorem parsesTo_expr (tokens : List Token) (i j : Nat) (A : ASTNode)
    (hA : parsesTo (levelFn tokens 1) i A j) : parsesTo (expr tokens) i A j := by
  obtain ⟨N, hN⟩ := hA
  refine ⟨N + 1, fun m hmN => ?_⟩
  obtain ⟨m, rfl⟩ : ∃ m2, m = m2 + 1 := ⟨m - 1, by omega⟩
  rw [expr]
  exact hN m (by omega)

/-- Two operands of the tightest class around one binary operator, followed by a
token that is no binary operator. -/
theorem parsesTo_binary (tokens : List Token) (i i1 i2 : Nat) (A B : ASTNode)
    (hA : parsesTo (levelFn tokens 5) i A i1) (h1 : 1 ≤ binPrec (current tokens i1).type)
    (hB : parsesTo (levelFn tokens 5) (i1 + 1) B i2)
    (hs : binPrec (current tokens i2).type = 0) :
    parsesTo (levelFn tokens 1) i (binOpNode A (current tokens i1) B) i2 := by
  have hle := binPrec_le (current tokens i1).type
  have hA2 := parsesTo_lift tokens i i1 A _ 5 (binPrec (current tokens i1).type + 1)
    (Nat.sub_add_cancel (by omega) |>.symm.trans (Nat.add_comm _ _)) (by omega)
    (Nat.le_refl 5) hA (fun k hk1 hk2 => by omega)
  have hB2 := parsesTo_lift tokens (i1 + 1) i2 B _ 5 (binPrec (current tokens i1).type + 1)
    (Nat.sub_add_cancel (by omega) |>.symm.trans (Nat.add_comm _ _)) (by omega)
    (Nat.le_refl 5) hB (fun k hk1 hk2 => by omega)
  have h2 := parsesTo_two tokens _ i i1 i2 A B h1 hA2 rfl hB2 (by omega)
  exact parsesTo_lift tokens i i2 _ _ (binPrec (current tokens i1).type) 1
    (Nat.sub_add_cancel h1 |>.symm.trans (Nat.add_comm _ _)) (Nat.le_refl 1) (by omega) h2
    (fun k hk1 hk2 => by omega)

/-- A `NUMBER` token is a primary: the literal of type `num` with the token's text. -/
theorem parsesTo_primary_number (tokens : List Token) (i : Nat)
    (h : (current tokens i).type = .NUMBER) :
    parsesTo (primary tokens) i (.Literal (current tokens i).value "num".toList) (i + 1) := by
  refine ⟨1, fun m hm => ?_⟩
  obtain ⟨m, rfl⟩ : ∃ m2, m = m2 + 1 := ⟨m - 1, by omega⟩
  rw [primary]
  dsimp only
  rw [if_pos h, advance_of_ne_eof (by rw [h]; decide)]

/-- C12: expressions are parsed by left-associative precedence climbing.  For primaries
`A`, `B`, `C` (whatever `Parser::primary` returns), binary operator tokens at the
cursors `i1` and `i2` and a token that is no binary operator after `C`, the tokens of
`A op1 B op2 C` parse, with every large enough recursion bound, to
`BinOp(A, op1, BinOp(B, op2, C))` when the class of `op2` is strictly tighter than the
class of `op1` in the order `== !=` < `> < >= <=` < `+ -` < `* /`, and to
`BinOp(BinOp(A, op1, B), op2, C)` otherwise; and the tokens of `- A op B` parse to
`BinOp(UnaryOp(-, A), op, B)` for every binary operator `op`. -/
theorem expr_precedence (tokens : List Token) :
    (∀ (i i1 i2 i3 : Nat) (A B C : ASTNode),
      parsesTo (primary tokens) i A i1 → 1 ≤ binPrec (current tokens i1).type →
      parsesTo (primary tokens) (i1 + 1) B i2 → 1 ≤ binPrec (current tokens i2).type →
      parsesTo (primary tokens) (i2 + 1) C i3 → binPrec (current tokens i3).type = 0 →
      parsesTo (expr tokens) i
        (if binPrec (current tokens i1).type < binPrec (current tokens i2).type then
          binOpNode A (current tokens i1) (binOpNode B (current tokens i2) C)
        else binOpNode (binOpNode A (current tokens i1) B) (current tokens i2) C) i3) ∧
    (∀ (i i1 i2 : Nat) (A B : ASTNode),
      (current tokens i).type = .MINUS → parsesTo (primary tokens) (i + 1) A i1 →
      1 ≤ binPrec (current tokens i1).type →
      parsesTo (primary tokens) (i1 + 1) B i2 → binPrec (current tokens i2).type = 0 →
      parsesTo (expr tokens) i
        (binOpNode (.UnaryOp .MINUS (current tokens i).value A) (current tokens i1) B) i2) := by
  constructor
  · intro i i1 i2 i3 A B C hA h1 hB h2 hC hs
    have hA5 := parsesTo_unary_of_primary tokens _ _ _ hA
    have hB5 := parsesTo_unary_of_primary tokens _ _ _ hB
    have hC5 := parsesTo_unary_of_primary tokens _ _ _ hC
    have hle1 := binPrec_le (current tokens i1).type
    have hle2 := binPrec_le (current tokens i2).type
    apply parsesTo_expr
    generalize hp1 : binPrec (current tokens i1).type = p1 at h1 hle1 ⊢
    generalize hp2 : binPrec (current tokens i2).type = p2 at h2 hle2 ⊢
    have lift : ∀ (x y : Nat) (X : ASTNode) (a b : Nat), b ≤ a → 1 ≤ b → a ≤ 5 →
        parsesTo (levelFn tokens a) x X y →
        (∀ k, b ≤ k → k < a → binPrec (current tokens y).type ≠ k) →
        parsesTo (levelFn tokens b) x X y := fun x y X a b hba hb ha hX hk =>
      parsesTo_lift tokens x y X (a - b) a b (by omega) hb ha hX hk
    by_cases hlt : p1 < p2
    · rw [if_pos hlt]
      have hB2 := lift _ _ B 5 (p2 + 1) (by omega) (by omega) (by omega) hB5
        (fun k hk1 hk2 => by omega)
      have hC2 := lift _ _ C 5 (p2 + 1) (by omega) (by omega) (by omega) hC5
        (fun k hk1 hk2 => by omega)
      have hT := parsesTo_two tokens p2 _ _ _ B C h2 hB2 hp2 hC2 (by omega)
      have hT1 := lift _ _ _ p2 (p1 + 1) (by omega) (by omega) (by omega) hT
        (fun k hk1 hk2 => by omega)
      have hA1 := lift _ _ A 5 (p1 + 1) (by omega) (by omega) (by omega) hA5
        (fun k hk1 hk2 => by omega)
      have hR := parsesTo_two tokens p1 _ _ _ A _ h1 hA1 hp1 hT1 (by omega)
      exact lift _ _ _ p1 1 h1 (Nat.le_refl 1) (by omega) hR (fun k hk1 hk2 => by omega)
    · rw [if_neg hlt]
      by_cases heq : p1 = p2
      · subst heq
        have hA2 := lift _ _ A 5 (p1 + 1) (by omega) (by omega) (by omega) hA5
          (fun k hk1 hk2 => by omega)
        have hB2 := lift _ _ B 5 (p1 + 1) (by omega) (by omega) (by omega) hB5
          (fun k hk1 hk2 => by omega)
        have hC2 := lift _ _ C 5 (p1 + 1) (by omega) (by omega) (by omega) hC5
          (fun k hk1 hk2 => by omega)
        have hR := parsesTo_three tokens p1 _ _ _ _ A B C h1 hA2 hp1 hB2 hp2 hC2 (by omega)
        exact lift _ _ _ p1 1 h1 (Nat.le_refl 1) (by omega) hR (fun k hk1 hk2 => by omega)
      · have hA2 := lift _ _ A 5 (p1 + 1) (by omega) (by omega) (by omega) hA5
          (fun k hk1 hk2 => by omega)
        have hB2 := lift _ _ B 5 (p1 + 1) (by omega) (by omega) (by omega) hB5
          (fun k hk1 hk2 => by omega)
        have hT := parsesTo_two tokens p1 _ _ _ A B h1 hA2 hp1 hB2 (by omega)
        have hT1 := lift _ _ _ p1 (p2 + 1) (by omega) (by omega) (by omega) hT
          (fun k hk1 hk2 => by omega)
        have hC2 := lift _ _ C 5 (p2 + 1) (by omega) (by omega) (by omega) hC5
          (fun k hk1 hk2 => by omega)
        have hR := parsesTo_two tokens p2 _ _ _ _ C h2 hT1 hp2 hC2 (by omega)
        exact lift _ _ _ p2 1 h2 (Nat.le_refl 1) (by omega) hR (fun k hk1 hk2 => by omega)
  · intro i i1 i2 A B hm hA h1 hB hs
    have hA5 := parsesTo_unary_minus tokens i i1 A hm (parsesTo_unary_of_primary tokens _ _ _ hA)
    have hB5 := parsesTo_unary_of_primary tokens _ _ _ hB
    rw [hm] at hA5
    exact parsesTo_expr tokens _ _ _ (parsesTo_binary tokens i i1 i2 _ B hA5 h1 hB5 hs)


/-- Witness of C12: the tokens of `1 + 2 * 3` parse to `1 + (2 * 3)`, the tokens of
`1 * 2 + 3` to `(1 * 2) + 3`, and the tokens of `- 1 * 2` to `(- 1) * 2`. -/
theorem expr_precedence_witness :
    parsesTo (expr [⟨.NUMBER, "1".toList, 1, 1⟩, ⟨.PLUS, "+".toList, 1, 3⟩,
        ⟨.NUMBER, "2".toList, 1, 5⟩, ⟨.STAR, "*".toList, 1, 7⟩, ⟨.NUMBER, "3".toList, 1, 9⟩,
        ⟨.EOF_T, [], 1, 10⟩]) 0
      (.BinOp (.Literal "1".toList "num".toList) .PLUS "+".toList
        (.BinOp (.Literal "2".toList "num".toList) .STAR "*".toList
          (.Literal "3".toList "num".toList))) 5 ∧
    parsesTo (expr [⟨.NUMBER, "1".toList, 1, 1⟩, ⟨.STAR, "*".toList, 1, 3⟩,
        ⟨.NUMBER, "2".toList, 1, 5⟩, ⟨.PLUS, "+".toList, 1, 7⟩, ⟨.NUMBER, "3".toList, 1, 9⟩,
        ⟨.EOF_T, [], 1, 10⟩]) 0
      (.BinOp (.BinOp (.Literal "1".toList "num".toList) .STAR "*".toList
          (.Literal "2".toList "num".toList)) .PLUS "+".toList
        (.Literal "3".toList "num".toList)) 5 ∧
    parsesTo (expr [⟨.MINUS, "-".toList, 1, 1⟩, ⟨.NUMBER, "1".toList, 1, 3⟩,
        ⟨.STAR, "*".toList, 1, 5⟩, ⟨.NUMBER, "2".toList, 1, 7⟩, ⟨.EOF_T, [], 1, 8⟩]) 0
      (.BinOp (.UnaryOp .MINUS "-".toList (.Literal "1".toList "num".toList)) .STAR
        "*".toList (.Literal "2".toList "num".toList)) 4 :=
  ⟨(expr_precedence _).1 0 1 3 5 _ _ _ (parsesTo_primary_number _ 0 (by decide)) (by decide)
      (parsesTo_primary_number _ 2 (by decide)) (by decide)
      (parsesTo_primary_number _ 4 (by decide)) (by decide),
    (expr_precedence _).1 0 1 3 5 _ _ _ (parsesTo_primary_number _ 0 (by decide)) (by decide)
      (parsesTo_primary_number _ 2 (by decide)) (by decide)
      (parsesTo_primary_number _ 4 (by decide)) (by decide),
    (expr_precedence _).2 0 2 4 _ _ (by decide) (parsesTo_primary_number _ 1 (by decide))
      (by decide) (parsesTo_primary_number _ 3 (by decide)) (by decide)⟩

/-! ## Parser: the nodes of expressions -/

theorem Outcome.Sat.of_ok {ε α : Type} {x : Outcome ε α} {Q : α → Prop} {P : ε → Prop}
    {a : α} (hx : x.Sat Q P) (h : x = .ok a) : Q a := by
  rw [h] at hx
  exact hx

theorem Outcome.Sat.any {ε α : Type} (x : Outcome ε α) :
    x.Sat (fun _ => True) (fun _ => True) := by
  cases x <;> trivial

theorem allExpr_append (args : List ASTNode) (a : ASTNode) (h1 : allExpr args = true)
    (h2 : isExpr a = true) : allExpr (args ++ [a]) = true := by
  induction args with
  | nil => simp [allExpr, h2]
  | cons x xs ih =>
    rw [allExpr, Bool.and_eq_true] at h1
    rw [List.cons_append, allExpr, Bool.and_eq_true]
    exact ⟨h1.1, ih h1.2⟩

theorem isExpr_binOp {l r : ASTNode} (t : TokenType) (v : List Char) (h1 : isExpr l = true)
    (h2 : isExpr r = true) : isExpr (.BinOp l t v r) = true := by
  rw [isExpr, h1, h2]
  rfl

theorem exprInv_zero (tokens : List Token) : ExprInv tokens 0 := by
  constructor <;> intros <;> trivial

theorem exprInv_succ (tokens : List Token) (n : Nat) (ih : ExprInv tokens n) :
    ExprInv tokens (n + 1) := by
  constructor
  · intro i
    rw [expr]
    exact ih.equality i
  · intro i
    rw [equality]
    exact (ih.comparison i).bind fun r hr => ih.equalityLoop _ _ hr
  · intro node i hn
    rw [equalityLoop]
    split
    · refine (ih.comparison _).bind fun r hr => ?_
      exact ih.equalityLoop _ _ (isExpr_binOp _ _ hn hr)
    · exact hn
  · intro i
    rw [comparison]
    exact (ih.term i).bind fun r hr => ih.comparisonLoop _ _ hr
  · intro node i hn
    rw [comparisonLoop]
    split
    · refine (ih.term _).bind fun r hr => ?_
      exact ih.comparisonLoop _ _ (isExpr_binOp _ _ hn hr)
    · exact hn
  · intro i
    rw [term]
    exact (ih.factor i).bind fun r hr => ih.termLoop _ _ hr
  · intro node i hn
    rw [termLoop]
    split
    · refine (ih.factor _).bind fun r hr => ?_
      exact ih.termLoop _ _ (isExpr_binOp _ _ hn hr)
    · exact hn
  · intro i
    rw [factor]
    exact (ih.unary i).bind fun r hr => ih.factorLoop _ _ hr
  · intro node i hn
    rw [factorLoop]
    split
    · refine (ih.unary _).bind fun r hr => ?_
      exact ih.factorLoop _ _ (isExpr_binOp _ _ hn hr)
    · exact hn
  · intro i
    rw [unary]
    split
    · refine (ih.unary _).bind fun r hr => ?_
      show isExpr (.UnaryOp _ _ r.1) = true
      rw [isExpr]
      exact hr
    · exact ih.primary i
  · intro i
    rw [primary]
    dsimp only
    split_ifs
    · rfl
    · rfl
    · rfl
    · simp only [Outcome.bind_eq, Outcome.pure_eq]
      refine (Outcome.Sat.any (match_ tokens _ _)).bind fun r2 _ => ?_
      refine (ih.call_args _).bind fun r3 h3 => ?_
      refine (Outcome.Sat.any (match_ tokens _ _)).bind fun r4 _ => ?_
      show isExpr (.FuncCall _ r3.1) = true
      rw [isExpr]
      exact h3
    · rfl
    · simp only [Outcome.bind_eq, Outcome.pure_eq]
      refine (Outcome.Sat.any (match_ tokens _ _)).bind fun r1 _ => ?_
      refine (ih.expr _).bind fun r2 h2 => ?_
      refine (Outcome.Sat.any (match_ tokens _ _)).bind fun r3 _ => ?_
      exact h2
    · trivial
  · intro i
    rw [call_args]
    split
    · refine (ih.expr i).bind fun r hr => ?_
      exact ih.argsLoop _ _ (by rw [allExpr, hr]; rfl)
    · rfl
  · intro i args ha
    rw [argsLoop]
    split
    · simp only [Outcome.bind_eq]
      refine (Outcome.Sat.any (match_ tokens _ _)).bind fun r1 _ => ?_
      refine (ih.expr _).bind fun r2 h2 => ?_
      exact ih.argsLoop _ _ (allExpr_append _ _ ha h2)
    · exact ha

theorem exprInv (tokens : List Token) : ∀ n, ExprInv tokens n
  | 0 => exprInv_zero tokens
  | n + 1 => exprInv_succ tokens n (exprInv tokens n)

/-- Every node `Parser::expr` returns is an expression node. -/
theorem expr_isExpr {tokens : List Token} {n i j : Nat} {node : ASTNode}
    (h : expr tokens n i = .ok (node, j)) : isExpr node = true :=
  ((exprInv tokens n).expr i).of_ok h

/-- The conditions that the `elsewhen` loop adds are expression nodes. -/
theorem elsewhenLoop_conditions (tokens : List Token) :
    ∀ (n i : Nat) (cases res : List (ASTNode × List ASTNode)) (j : Nat),
      (∀ c ∈ cases, isExpr c.1 = true) → elsewhenLoop tokens n i cases = .ok (res, j) →
        ∀ c ∈ res, isExpr c.1 = true := by
  intro n
  induction n with
  | zero =>
    intro i cases res j _ h
    rw [elsewhenLoop] at h
    cases h
  | succ n ih =>
    intro i cases res j hc h
    rw [elsewhenLoop] at h
    split at h
    · simp only [Outcome.bind_eq] at h
      obtain ⟨r1, _, h2⟩ := Outcome.bind_eq_ok.1 h
      obtain ⟨⟨cond2, i2⟩, he, h3⟩ := Outcome.bind_eq_ok.1 h2
      obtain ⟨⟨node, i3⟩, _, h4⟩ := Outcome.bind_eq_ok.1 h3
      dsimp only at h4
      split at h4
      · refine ih _ _ _ _ ?_ h4
        intro c hcm
        rcases List.mem_append.1 hcm with hm | hm
        · exact hc c hm
        · rw [List.mem_singleton] at hm
          rw [hm]
          exact expr_isExpr he
      · cases h4
    · cases h
      exact hc

/-- Every node `Parser::when_stmt` returns is a `When` whose conditions are expression
nodes. -/
theorem when_stmt_conditions {tokens : List Token} {n i j : Nat} {node : ASTNode}
    (h : when_stmt tokens n i = .ok (node, j)) :
    ∃ cases else_block, node = .When cases else_block ∧ ∀ c ∈ cases, isExpr c.1 = true := by
  cases n with
  | zero =>
    rw [when_stmt] at h
    cases h
  | succ n =>
    rw [when_stmt] at h
    simp only [Outcome.bind_eq, Outcome.pure_eq] at h
    obtain ⟨r1, _, h2⟩ := Outcome.bind_eq_ok.1 h
    obtain ⟨⟨cond, i2⟩, he, h3⟩ := Outcome.bind_eq_ok.1 h2
    obtain ⟨⟨bn, i3⟩, _, h4⟩ := Outcome.bind_eq_ok.1 h3
    dsimp only at h4
    split at h4
    · obtain ⟨⟨cases, i4⟩, hl, h5⟩ := Outcome.bind_eq_ok.1 h4
      have hcs := elsewhenLoop_conditions tokens _ _ _ _ _
        (fun c hm => by
          rw [List.mem_singleton] at hm
          rw [hm]
          exact expr_isExpr he) hl
      dsimp only at h5
      split at h5
      · obtain ⟨r5, _, h6⟩ := Outcome.bind_eq_ok.1 h5
        obtain ⟨⟨en, i6⟩, _, h7⟩ := Outcome.bind_eq_ok.1 h6
        dsimp only at h7
        split at h7
        · cases h7
          exact ⟨cases, _, rfl, hcs⟩
        · cases h7
      · cases h5
        exact ⟨cases, [], rfl, hcs⟩
    · cases h4

/-- Every node `Parser::var_decl` returns is a `VarDecl` whose initializer is an
expression node. -/
theorem var_decl_initializer {tokens : List Token} {n i j : Nat} {node : ASTNode}
    (h : var_decl tokens n i = .ok (node, j)) :
    ∃ vartype name e, node = .VarDecl vartype name e ∧ isExpr e = true := by
  cases n with
  | zero =>
    rw [var_decl] at h
    cases h
  | succ n =>
    rw [var_decl] at h
    simp only [Outcome.bind_eq, Outcome.pure_eq] at h
    obtain ⟨r1, _, h2⟩ := Outcome.bind_eq_ok.1 h
    obtain ⟨r2, _, h3⟩ := Outcome.bind_eq_ok.1 h2
    obtain ⟨r3, _, h4⟩ := Outcome.bind_eq_ok.1 h3
    obtain ⟨⟨e, i4⟩, he, h5⟩ := Outcome.bind_eq_ok.1 h4
    cases h5
    exact ⟨_, _, e, rfl, expr_isExpr he⟩

/-! ## Parser: the recursion bound of `parse` is never reached -/

theorem Outcome.bind_ne_outOfFuel {ε α β : Type} {x : Outcome ε α} {f : α → Outcome ε β}
    (hx : x ≠ .outOfFuel) (hf : ∀ a, x = .ok a → f a ≠ .outOfFuel) :
    x.bind f ≠ .outOfFuel := by
  cases x with
  | ok a => exact hf a rfl
  | error e => simp [Outcome.bind]
  | outOfFuel => exact absurd rfl hx

theorem match_ne_outOfFuel (tokens : List Token) (types : List TokenType) (i : Nat) :
    match_ tokens types i ≠ .outOfFuel := by
  unfold match_
  split <;> simp

/-- A successful `match` never moves the cursor backwards. -/
theorem match_le {tokens : List Token} {types : List TokenType} {i : Nat} {r : Token × Nat}
    (h : match_ tokens types i = .ok r) : i ≤ r.2 :=
  (match_sat tokens types i).of_ok h

/-- A successful `match` on kinds other than `EOF_T` is at a token of the list and
moves the cursor by one. -/
theorem match_lt {tokens : List Token} {types : List TokenType} {i : Nat} {r : Token × Nat}
    (h : match_ tokens types i = .ok r) (hne : TokenType.EOF_T ∉ types) :
    i < tokens.length ∧ r.2 = i + 1 := by
  obtain ⟨hl, _, e⟩ := match_eq_ok_step h hne
  exact ⟨hl, by rw [e]⟩

theorem take_stmt_ne_outOfFuel (tokens : List Token) (i : Nat) :
    take_stmt tokens i ≠ .outOfFuel := by
  unfold take_stmt
  simp only [Outcome.bind_eq, Outcome.pure_eq]
  refine Outcome.bind_ne_outOfFuel (match_ne_outOfFuel _ _ _) fun r1 _ => ?_
  refine Outcome.bind_ne_outOfFuel (match_ne_outOfFuel _ _ _) fun r2 _ => ?_
  simp

/-- The parameter loop of `func_def` ends within its own bound. -/
theorem paramsLoop_ne_outOfFuel (tokens : List Token) :
    ∀ (n i : Nat) (params : List (List Char)), tokens.length - i < n →
      paramsLoop tokens n i params ≠ .outOfFuel := by
  intro n
  induction n with
  | zero => intro i params h; omega
  | succ n ih =>
    intro i params h
    rw [paramsLoop]
    split
    · simp only [Outcome.bind_eq]
      refine Outcome.bind_ne_outOfFuel (match_ne_outOfFuel _ _ _) fun r1 h1 => ?_
      refine Outcome.bind_ne_outOfFuel (match_ne_outOfFuel _ _ _) fun r2 h2 => ?_
      obtain ⟨hl, e1⟩ := match_lt h1 (by decide)
      have := match_le h2
      exact ih _ _ (by omega)
    · simp

/-- A successful `block` never moves the cursor backwards. -/
theorem block_le {tokens : List Token} {n i : Nat} {ctx : Token} {r : ASTNode × Nat}
    (h : block tokens n ctx i = .ok r) : i ≤ r.2 := by
  cases n with
  | zero =>
    rw [block] at h
    cases h
  | succ n =>
    rw [block] at h
    split at h
    · cases h
    · simp only [Outcome.bind_eq, Outcome.pure_eq] at h
      obtain ⟨r1, h1, h2⟩ := Outcome.bind_eq_ok.1 h
      obtain ⟨r2, h3, h4⟩ := Outcome.bind_eq_ok.1 h2
      obtain ⟨r3, h5, h6⟩ := Outcome.bind_eq_ok.1 h4
      cases h6
      have := match_le h1
      have := ((parserInv tokens n).statements _ _).of_ok h3
      have := match_le h5
      show i ≤ r3.2
      omega

theorem parserTotal_zero (tokens : List Token) : ParserTotal tokens 0 := by
  constructor <;> intros <;> omega

theorem parserTotal_succ (tokens : List Token) (n : Nat) (ih : ParserTotal tokens n) :
    ParserTotal tokens (n + 1) := by
  have inv := parserInv tokens n
  constructor
  · -- statements
    intro i stmts hn
    rw [statements]
    split
    · rename_i hc
      have hl : i < tokens.length := lt_of_current_type_ne hc.2.2
      refine Outcome.bind_ne_outOfFuel (ih.statement i (by omega)) fun r hr => ?_
      have := (inv.statement i).of_ok hr
      exact ih.statements _ _ (by omega)
    · simp
  · -- statement
    intro i hn
    rw [statement]
    dsimp only
    split_ifs
    · exact ih.var_decl i (by omega)
    · exact ih.assign_or_func_call i (by omega)
    · exact ih.show_stmt i (by omega)
    · exact take_stmt_ne_outOfFuel tokens i
    · exact ih.when_stmt i (by omega)
    · exact ih.loop_stmt i (by omega)
    · simp only [Outcome.bind_eq, Outcome.pure_eq]
      refine Outcome.bind_ne_outOfFuel (match_ne_outOfFuel _ _ _) fun r1 _ => ?_
      simp
    · exact ih.func_def i (by omega)
    · simp
  · -- var_decl
    intro i hn
    rw [var_decl]
    simp only [Outcome.bind_eq, Outcome.pure_eq]
    refine Outcome.bind_ne_outOfFuel (match_ne_outOfFuel _ _ _) fun r1 h1 => ?_
    refine Outcome.bind_ne_outOfFuel (match_ne_outOfFuel _ _ _) fun r2 h2 => ?_
    refine Outcome.bind_ne_outOfFuel (match_ne_outOfFuel _ _ _) fun r3 h3 => ?_
    obtain ⟨hl, e1⟩ := match_lt h1 (by decide)
    have := match_le h2
    have := match_le h3
    refine Outcome.bind_ne_outOfFuel (ih.expr _ (by omega)) fun r4 _ => ?_
    simp
  · -- call_args
    intro i hn
    rw [call_args]
    split
    · refine Outcome.bind_ne_outOfFuel (ih.expr i (by omega)) fun r hr => ?_
      have := (inv.expr i).of_ok hr
      exact ih.argsLoop _ _ (by omega)
    · simp
  · -- argsLoop
    intro i args hn
    rw [argsLoop]
    split
    · simp only [Outcome.bind_eq]
      refine Outcome.bind_ne_outOfFuel (match_ne_outOfFuel _ _ _) fun r1 h1 => ?_
      obtain ⟨hl, e1⟩ := match_lt h1 (by decide)
      refine Outcome.bind_ne_outOfFuel (ih.expr _ (by omega)) fun r2 h2 => ?_
      have := (inv.expr _).of_ok h2
      exact ih.argsLoop _ _ (by omega)
    · simp
  · -- assign_or_func_call
    intro i hn
    rw [assign_or_func_call]
    simp only [Outcome.bind_eq, Outcome.pure_eq]
    refine Outcome.bind_ne_outOfFuel (match_ne_outOfFuel _ _ _) fun r1 h1 => ?_
    obtain ⟨hl, e1⟩ := match_lt h1 (by decide)
    split_ifs
    · refine Outcome.bind_ne_outOfFuel (match_ne_outOfFuel _ _ _) fun r2 h2 => ?_
      have := match_le h2
      refine Outcome.bind_ne_outOfFuel (ih.expr _ (by omega)) fun r3 _ => ?_
      simp
    · refine Outcome.bind_ne_outOfFuel (match_ne_outOfFuel _ _ _) fun r2 h2 => ?_
      obtain ⟨hl2, e2⟩ := match_lt h2 (by decide)
      refine Outcome.bind_ne_outOfFuel (ih.call_args _ (by omega)) fun r3 _ => ?_
      refine Outcome.bind_ne_outOfFuel (match_ne_outOfFuel _ _ _) fun r4 _ => ?_
      simp
    · simp
  · -- show_stmt
    intro i hn
    rw [show_stmt]
    simp only [Outcome.bind_eq, Outcome.pure_eq]
    refine Outcome.bind_ne_outOfFuel (match_ne_outOfFuel _ _ _) fun r1 h1 => ?_
    obtain ⟨hl, e1⟩ := match_lt h1 (by decide)
    refine Outcome.bind_ne_outOfFuel (ih.expr _ (by omega)) fun r2 _ => ?_
    simp
  · -- when_stmt
    intro i hn
    rw [when_stmt]
    simp only [Outcome.bind_eq, Outcome.pure_eq]
    refine Outcome.bind_ne_outOfFuel (match_ne_outOfFuel _ _ _) fun r1 h1 => ?_
    obtain ⟨hl, e1⟩ := match_lt h1 (by decide)
    refine Outcome.bind_ne_outOfFuel (ih.expr _ (by omega)) fun r2 h2 => ?_
    have p2 := (inv.expr _).of_ok h2
    refine Outcome.bind_ne_outOfFuel (ih.block _ _ (by omega)) fun r3 h3 => ?_
    have p3 := block_le h3
    obtain ⟨node, i3⟩ := r3
    dsimp only at p3 ⊢
    split
    · refine Outcome.bind_ne_outOfFuel (ih.elsewhenLoop _ _ (by omega)) fun r4 h4 => ?_
      have p4 := (inv.elsewhenLoop _ _).of_ok h4
      split
      · refine Outcome.bind_ne_outOfFuel (match_ne_outOfFuel _ _ _) fun r5 h5 => ?_
        obtain ⟨hl5, e5⟩ := match_lt h5 (by decide)
        refine Outcome.bind_ne_outOfFuel (ih.block _ _ (by omega)) fun r6 _ => ?_
        split <;> simp
      · simp
    · simp
  · -- elsewhenLoop
    intro i cases hn
    rw [elsewhenLoop]
    split
    · simp only [Outcome.bind_eq]
      refine Outcome.bind_ne_outOfFuel (match_ne_outOfFuel _ _ _) fun r1 h1 => ?_
      obtain ⟨hl, e1⟩ := match_lt h1 (by decide)
      refine Outcome.bind_ne_outOfFuel (ih.expr _ (by omega)) fun r2 h2 => ?_
      have p2 := (inv.expr _).of_ok h2
      refine Outcome.bind_ne_outOfFuel (ih.block _ _ (by omega)) fun r3 h3 => ?_
      have p3 := block_le h3
      obtain ⟨node, i3⟩ := r3
      dsimp only at p3 ⊢
      split
      · exact ih.elsewhenLoop _ _ (by omega)
      · simp
    · simp
  · -- loop_stmt
    intro i hn
    rw [loop_stmt]
    simp only [Outcome.bind_eq, Outcome.pure_eq]
    refine Outcome.bind_ne_outOfFuel (match_ne_outOfFuel _ _ _) fun r1 h1 => ?_
    obtain ⟨hl, e1⟩ := match_lt h1 (by decide)
    refine Outcome.bind_ne_outOfFuel (match_ne_outOfFuel _ _ _) fun r2 h2 => ?_
    have := match_le h2
    refine Outcome.bind_ne_outOfFuel (match_ne_outOfFuel _ _ _) fun r3 h3 => ?_
    have := match_le h3
    refine Outcome.bind_ne_outOfFuel (ih.expr _ (by omega)) fun r4 h4 => ?_
    have p4 := (inv.expr _).of_ok h4
    refine Outcome.bind_ne_outOfFuel (match_ne_outOfFuel _ _ _) fun r5 h5 => ?_
    have := match_le h5
    refine Outcome.bind_ne_outOfFuel (ih.expr _ (by omega)) fun r6 h6 => ?_
    have p6 := (inv.expr _).of_ok h6
    refine Outcome.bind_ne_outOfFuel (ih.block _ _ (by omega)) fun r7 _ => ?_
    split <;> simp
  · -- func_def
    intro i hn
    rw [func_def_eq]
    unfold funcHeader
    simp only [Outcome.bind_eq, Outcome.pure_eq, Outcome.bind_assoc, Outcome.bind_ok,
      Outcome.ite_bind]
    refine Outcome.bind_ne_outOfFuel (match_ne_outOfFuel _ _ _) fun r1 h1 => ?_
    obtain ⟨hl, e1⟩ := match_lt h1 (by decide)
    refine Outcome.bind_ne_outOfFuel (match_ne_outOfFuel _ _ _) fun r2 h2 => ?_
    have := match_le h2
    refine Outcome.bind_ne_outOfFuel (match_ne_outOfFuel _ _ _) fun r3 h3 => ?_
    have := match_le h3
    split
    · refine Outcome.bind_ne_outOfFuel (match_ne_outOfFuel _ _ _) fun r4 h4 => ?_
      have := match_le h4
      refine Outcome.bind_ne_outOfFuel
        (paramsLoop_ne_outOfFuel tokens _ _ _ (by omega)) fun r5 h5 => ?_
      have := (paramsLoop_sat tokens _ _ _).of_ok h5
      refine Outcome.bind_ne_outOfFuel (match_ne_outOfFuel _ _ _) fun r6 h6 => ?_
      have := match_le h6
      refine Outcome.bind_ne_outOfFuel (match_ne_outOfFuel _ _ _) fun r7 h7 => ?_
      have := match_le h7
      refine Outcome.bind_ne_outOfFuel (ih.funcBodyLoop _ _ (by omega)) fun r8 h8 => ?_
      have := (inv.funcBodyLoop _ _).of_ok h8
      refine Outcome.bind_ne_outOfFuel (match_ne_outOfFuel _ _ _) fun r9 h9 => ?_
      have := match_le h9
      refine Outcome.bind_ne_outOfFuel (ih.expr _ (by omega)) fun r10 _ => ?_
      refine Outcome.bind_ne_outOfFuel (match_ne_outOfFuel _ _ _) fun r11 _ => ?_
      simp
    · refine Outcome.bind_ne_outOfFuel (match_ne_outOfFuel _ _ _) fun r6 h6 => ?_
      have := match_le h6
      refine Outcome.bind_ne_outOfFuel (match_ne_outOfFuel _ _ _) fun r7 h7 => ?_
      have := match_le h7
      refine Outcome.bind_ne_outOfFuel (ih.funcBodyLoop _ _ (by omega)) fun r8 h8 => ?_
      have := (inv.funcBodyLoop _ _).of_ok h8
      refine Outcome.bind_ne_outOfFuel (match_ne_outOfFuel _ _ _) fun r9 h9 => ?_
      have := match_le h9
      refine Outcome.bind_ne_outOfFuel (ih.expr _ (by omega)) fun r10 _ => ?_
      refine Outcome.bind_ne_outOfFuel (match_ne_outOfFuel _ _ _) fun r11 _ => ?_
      simp
  · -- funcBodyLoop
    intro i body hn
    rw [funcBodyLoop]
    split_ifs
    · simp
    · refine Outcome.bind_ne_outOfFuel (ih.statement i (by omega)) fun r hr2 => ?_
      have hl : i < tokens.length := by
        apply lt_of_current_type_ne
        intro he
        obtain ⟨m, rfl⟩ : ∃ m, n = m + 1 := ⟨n - 1, by omega⟩
        rw [statement] at hr2
        simp [he] at hr2
      have := (inv.statement i).of_ok hr2
      exact ih.funcBodyLoop _ _ (by omega)
    · simp
  · -- block
    intro ctx i hn
    rw [block]
    split
    · simp
    · simp only [Outcome.bind_eq, Outcome.pure_eq]
      refine Outcome.bind_ne_outOfFuel (match_ne_outOfFuel _ _ _) fun r1 h1 => ?_
      obtain ⟨hl, e1⟩ := match_lt h1 (by decide)
      refine Outcome.bind_ne_outOfFuel (ih.statements _ _ (by omega)) fun r2 _ => ?_
      refine Outcome.bind_ne_outOfFuel (match_ne_outOfFuel _ _ _) fun r3 _ => ?_
      simp
  · -- expr
    intro i hn
    rw [expr]
    exact ih.equality i (by omega)
  · -- equality
    intro i hn
    rw [equality]
    refine Outcome.bind_ne_outOfFuel (ih.comparison i (by omega)) fun r hr => ?_
    have := (inv.comparison i).of_ok hr
    exact ih.equalityLoop _ _ (by omega)
  · -- equalityLoop
    intro node i hn
    rw [equalityLoop]
    split
    · rename_i hc
      have hne : (current tokens i).type ≠ .EOF_T := by
        rcases hc with h | h <;> (rw [h]; decide)
      have hl := lt_of_current_type_ne hne
      rw [advance_of_ne_eof hne]
      refine Outcome.bind_ne_outOfFuel (ih.comparison _ (by omega)) fun r hr => ?_
      have := (inv.comparison _).of_ok hr
      exact ih.equalityLoop _ _ (by omega)
    · simp
  · -- comparison
    intro i hn
    rw [comparison]
    refine Outcome.bind_ne_outOfFuel (ih.term i (by omega)) fun r hr => ?_
    have := (inv.term i).of_ok hr
    exact ih.comparisonLoop _ _ (by omega)
  · -- comparisonLoop
    intro node i hn
    rw [comparisonLoop]
    split
    · rename_i hc
      have hne : (current tokens i).type ≠ .EOF_T := by
        rcases hc with h | h | h | h <;> (rw [h]; decide)
      have hl := lt_of_current_type_ne hne
      rw [advance_of_ne_eof hne]
      refine Outcome.bind_ne_outOfFuel (ih.term _ (by omega)) fun r hr => ?_
      have := (inv.term _).of_ok hr
      exact ih.comparisonLoop _ _ (by omega)
    · simp
  · -- term
    intro i hn
    rw [term]
    refine Outcome.bind_ne_outOfFuel (ih.factor i (by omega)) fun r hr => ?_
    have := (inv.factor i).of_ok hr
    exact ih.termLoop _ _ (by omega)
  · -- termLoop
    intro node i hn
    rw [termLoop]
    split
    · rename_i hc
      have hne : (current tokens i).type ≠ .EOF_T := by
        rcases hc with h | h <;> (rw [h]; decide)
      have hl := lt_of_current_type_ne hne
      rw [advance_of_ne_eof hne]
      refine Outcome.bind_ne_outOfFuel (ih.factor _ (by omega)) fun r hr => ?_
      have := (inv.factor _).of_ok hr
      exact ih.termLoop _ _ (by omega)
    · simp
  · -- factor
    intro i hn
    rw [factor]
    refine Outcome.bind_ne_outOfFuel (ih.unary i (by omega)) fun r hr => ?_
    have := (inv.unary i).of_ok hr
    exact ih.factorLoop _ _ (by omega)
  · -- factorLoop
    intro node i hn
    rw [factorLoop]
    split
    · rename_i hc
      have hne : (current tokens i).type ≠ .EOF_T := by
        rcases hc with h | h <;> (rw [h]; decide)
      have hl := lt_of_current_type_ne hne
      rw [advance_of_ne_eof hne]
      refine Outcome.bind_ne_outOfFuel (ih.unary _ (by omega)) fun r hr => ?_
      have := (inv.unary _).of_ok hr
      exact ih.factorLoop _ _ (by omega)
    · simp
  · -- unary
    intro i hn
    rw [unary]
    split
    · rename_i hc
      have hne : (current tokens i).type ≠ .EOF_T := by rw [hc]; decide
      have hl := lt_of_current_type_ne hne
      rw [advance_of_ne_eof hne]
      simp only [Outcome.bind_eq, Outcome.pure_eq]
      refine Outcome.bind_ne_outOfFuel (ih.unary _ (by omega)) fun r _ => ?_
      simp
    · exact ih.primary i (by omega)
  · -- primary
    intro i hn
    rw [primary]
    dsimp only
    split_ifs
    · simp
    · simp
    · simp
    · rename_i h1 _
      have hne : (current tokens i).type ≠ .EOF_T := by rw [h1]; decide
      have hl := lt_of_current_type_ne hne
      rw [advance_of_ne_eof hne]
      simp only [Outcome.bind_eq, Outcome.pure_eq]
      refine Outcome.bind_ne_outOfFuel (match_ne_outOfFuel _ _ _) fun r2 h2 => ?_
      obtain ⟨hl2, e2⟩ := match_lt h2 (by decide)
      refine Outcome.bind_ne_outOfFuel (ih.call_args _ (by omega)) fun r3 _ => ?_
      refine Outcome.bind_ne_outOfFuel (match_ne_outOfFuel _ _ _) fun r4 _ => ?_
      simp
    · simp
    · simp only [Outcome.bind_eq, Outcome.pure_eq]
      refine Outcome.bind_ne_outOfFuel (match_ne_outOfFuel _ _ _) fun r1 h1 => ?_
      obtain ⟨hl, e1⟩ := match_lt h1 (by decide)
      refine Outcome.bind_ne_outOfFuel (ih.expr _ (by omega)) fun r2 _ => ?_
      refine Outcome.bind_ne_outOfFuel (match_ne_outOfFuel _ _ _) fun r3 _ => ?_
      simp
    · simp

theorem parserTotal (tokens : List Token) : ∀ n, ParserTotal tokens n
  | 0 => parserTotal_zero tokens
  | n + 1 => parserTotal_succ tokens n (parserTotal tokens n)

/-- `Parser::parse` always returns or throws: the recursion bound `parseFuel` is never
reached. -/
theorem parseAt_total (tokens : List Token) : parseAt tokens ≠ .outOfFuel := by
  unfold parseAt
  split
  · simp
  · simp only [Outcome.bind_eq, Outcome.pure_eq]
    refine Outcome.bind_ne_outOfFuel (match_ne_outOfFuel _ _ _) fun r1 h1 => ?_
    obtain ⟨hl, e1⟩ := match_lt h1 (by decide)
    refine Outcome.bind_ne_outOfFuel
      ((parserTotal tokens _).statements _ _ (by unfold parseFuel; omega)) fun r2 _ => ?_
    refine Outcome.bind_ne_outOfFuel (match_ne_outOfFuel _ _ _) fun r3 _ => ?_
    refine Outcome.bind_ne_outOfFuel (match_ne_outOfFuel _ _ _) fun r4 _ => ?_
    simp

theorem parse_total (tokens : List Token) : parse tokens ≠ .outOfFuel := by
  unfold parse
  have := parseAt_total tokens
  split <;> simp_all

/-- The first two stages of `main` always return or throw. -/
theorem parseSource_total (source : List Char) : parseSource source ≠ .outOfFuel := by
  unfold parseSource
  have h1 := tokenize_total source
  split
  · have := parse_total ‹List Token›
    split <;> simp_all
  · simp
  · simp_all

/-! ## Semantic analyzer: lemmas and theorems -/

theorem sameFrame.refl (a : SemanticAnalyzer) : sameFrame a a := ⟨rfl, rfl, rfl, rfl⟩

theorem sameFrame.trans {a b c : SemanticAnalyzer} (h1 : sameFrame a b) (h2 : sameFrame b c) :
    sameFrame a c :=
  ⟨h2.1.trans h1.1, h2.2.1.trans h1.2.1, h2.2.2.1.trans h1.2.2.1, h2.2.2.2.trans h1.2.2.2⟩

theorem declare_var_ok {a b : SemanticAnalyzer} {name type : List Char}
    (h : declare_var a name type = .ok b) :
    ∃ top rest, a.scopes = top :: rest ∧ mapFind name top = none ∧
      b = { a with scopes := (top ++ [(name, ⟨name, type⟩)]) :: rest } := by
  unfold declare_var at h
  split at h
  · cases h
  · rename_i top rest hs
    split at h
    · cases h
    · rename_i hf
      refine ⟨top, rest, hs, ?_, (Outcome.ok.inj h).symm⟩
      cases hm : mapFind name top with
      | none => rfl
      | some s => rw [hm] at hf; exact absurd rfl hf

theorem declare_var_frame {a b : SemanticAnalyzer} {name type : List Char}
    (h : declare_var a name type = .ok b) : sameFrame a b := by
  obtain ⟨top, rest, hs, _, rfl⟩ := declare_var_ok h
  exact ⟨by simp [hs], by simp [hs], rfl, rfl⟩

theorem declareParams_frame :
    ∀ (params : List (List Char)) (a b : SemanticAnalyzer),
      declareParams a params = .ok b → sameFrame a b ∧ b.functions = a.functions
  | [], a, b, h => by
    rw [declareParams] at h
    cases h
    exact ⟨sameFrame.refl a, rfl⟩
  | p :: rest, a, b, h => by
    rw [declareParams] at h
    obtain ⟨a1, h1, h2⟩ := Outcome.bind_eq_ok.1 h
    obtain ⟨top, rest2, hs, _, e⟩ := declare_var_ok h1
    have ih := declareParams_frame rest a1 b h2
    refine ⟨(declare_var_frame h1).trans ih.1, ?_⟩
    rw [ih.2, e]

mutual

/-- A completed visit leaves the outer scopes, the number of scopes and the depth
counters as they were. -/
theorem visit_frame : ∀ (n : ASTNode) (a : SemanticAnalyzer) (t : List Char)
    (b : SemanticAnalyzer), visit a n = .ok (t, b) → sameFrame a b
  | .Program statements, a, t, b, h => by
    rw [visit] at h
    simp only [Outcome.bind_eq, Outcome.pure_eq] at h
    obtain ⟨a1, h1, h2⟩ := Outcome.bind_eq_ok.1 h
    cases h2
    exact visitAll_frame statements a _ h1
  | .VarDecl vartype name expr, a, t, b, h => by
    rw [visit] at h
    simp only [Outcome.bind_eq, Outcome.pure_eq] at h
    obtain ⟨⟨t1, a1⟩, h1, h⟩ := Outcome.bind_eq_ok.1 h
    obtain ⟨_, _, h⟩ := Outcome.bind_eq_ok.1 h
    obtain ⟨a2, h2, h⟩ := Outcome.bind_eq_ok.1 h
    cases h
    exact (visit_frame expr a t1 a1 h1).trans (declare_var_frame h2)
  | .Assign name expr, a, t, b, h => by
    rw [visit] at h
    simp only [Outcome.bind_eq, Outcome.pure_eq] at h
    obtain ⟨s, _, h⟩ := Outcome.bind_eq_ok.1 h
    obtain ⟨⟨t1, a1⟩, h1, h⟩ := Outcome.bind_eq_ok.1 h
    obtain ⟨_, _, h⟩ := Outcome.bind_eq_ok.1 h
    cases h
    exact visit_frame expr a t1 _ h1
  | .Show expr, a, t, b, h => by
    rw [visit] at h
    exact visit_frame expr a t b h
  | .Take name, a, t, b, h => by
    rw [visit] at h
    simp only [Outcome.bind_eq, Outcome.pure_eq] at h
    obtain ⟨s, _, h⟩ := Outcome.bind_eq_ok.1 h
    cases h
    exact sameFrame.refl a
  | .When cases else_block, a, t, b, h => by
    rw [visit] at h
    simp only [Outcome.bind_eq, Outcome.pure_eq] at h
    obtain ⟨a1, h1, h⟩ := Outcome.bind_eq_ok.1 h
    have f1 := visitCases_frame cases a a1 h1
    split at h
    · obtain ⟨a2, h2, h⟩ := Outcome.bind_eq_ok.1 h
      cases h
      have f2 := visitAll_frame else_block _ a2 h2
      refine f1.trans ?_
      obtain ⟨g1, g2, g3, g4⟩ := f2
      simp only [enter_scope, List.tail_cons, List.length_cons] at g1 g2 g3 g4
      refine ⟨by simp only [exit_scope]; rw [g1], ?_, g3, g4⟩
      simp only [exit_scope, List.length_tail]
      omega
    · cases h
      exact f1
  | .Loop var start_expr end_expr body, a, t, b, h => by
    rw [visit] at h
    simp only [Outcome.bind_eq, Outcome.pure_eq] at h
    obtain ⟨⟨s1, a1⟩, h1, h⟩ := Outcome.bind_eq_ok.1 h
    obtain ⟨⟨s2, a2⟩, h2, h⟩ := Outcome.bind_eq_ok.1 h
    dsimp only at h
    split at h
    · cases h
    · obtain ⟨a3, h3, h⟩ := Outcome.bind_eq_ok.1 h
      obtain ⟨a4, h4, h⟩ := Outcome.bind_eq_ok.1 h
      cases h
      have f1 := visit_frame start_expr a s1 a1 h1
      have f2 := visit_frame end_expr a1 s2 a2 h2
      have f3 := declare_var_frame h3
      have f4 := visitAll_frame body _ a4 h4
      refine f1.trans (f2.trans ?_)
      obtain ⟨g1, g2, g3, g4⟩ := f3
      obtain ⟨k1, k2, k3, k4⟩ := f4
      simp only [enter_scope, List.tail_cons, List.length_cons] at g1 g2 g3 g4
      dsimp only at k1 k2 k3 k4
      refine ⟨?_, ?_, ?_, ?_⟩
      · simp only [exit_scope]
        rw [k1, g1]
      · simp only [exit_scope, List.length_tail]
        omega
      · simp only [exit_scope]
        omega
      · simp only [exit_scope]
        rw [k4, g4]
  | .Break, a, t, b, h => by
    rw [visit] at h
    split at h
    · cases h
    · cases h
      exact sameFrame.refl a
  | .FuncDef name params body back_expr, a, t, b, h => by
    rw [visit] at h
    simp only [Outcome.bind_eq, Outcome.pure_eq] at h
    split at h
    · cases h
    · obtain ⟨a1, h1, h⟩ := Outcome.bind_eq_ok.1 h
      obtain ⟨a2, h2, h⟩ := Outcome.bind_eq_ok.1 h
      obtain ⟨⟨t3, a3⟩, h3, h⟩ := Outcome.bind_eq_ok.1 h
      cases h
      obtain ⟨⟨g1, g2, g3, g4⟩, _⟩ := declareParams_frame params _ a1 h1
      obtain ⟨k1, k2, k3, k4⟩ := visitAll_frame body _ a2 h2
      obtain ⟨m1, m2, m3, m4⟩ := visit_frame back_expr a2 t3 a3 h3
      simp only [enter_scope, List.tail_cons, List.length_cons] at g1 g2 g3 g4
      dsimp only at k1 k2 k3 k4
      refine ⟨?_, ?_, ?_, ?_⟩
      · simp only [exit_scope]
        rw [m1, k1, g1]
      · simp only [exit_scope, List.length_tail]
        omega
      · simp only [exit_scope]
        rw [m3, k3, g3]
      · simp only [exit_scope]
        omega
  | .FuncCall name args, a, t, b, h => by
    rw [visit] at h
    split at h
    · cases h
    · split at h
      · cases h
      · simp only [Outcome.bind_eq, Outcome.pure_eq] at h
        obtain ⟨a1, h1, h⟩ := Outcome.bind_eq_ok.1 h
        cases h
        exact visitAll_frame args a _ h1
  | .BinOp left op_type op_value right, a, t, b, h => by
    rw [visit] at h
    simp only [Outcome.bind_eq, Outcome.pure_eq] at h
    obtain ⟨⟨lt, a1⟩, h1, h⟩ := Outcome.bind_eq_ok.1 h
    obtain ⟨⟨rt, a2⟩, h2, h⟩ := Outcome.bind_eq_ok.1 h
    obtain ⟨_, _, h⟩ := Outcome.bind_eq_ok.1 h
    cases h
    exact (visit_frame left a lt a1 h1).trans (visit_frame right a1 rt _ h2)
  | .UnaryOp op_type op_value expr, a, t, b, h => by
    rw [visit] at h
    simp only [Outcome.bind_eq, Outcome.pure_eq] at h
    obtain ⟨⟨et, a1⟩, h1, h⟩ := Outcome.bind_eq_ok.1 h
    obtain ⟨_, _, h⟩ := Outcome.bind_eq_ok.1 h
    cases h
    exact visit_frame expr a et _ h1
  | .Literal value lit_type, a, t, b, h => by
    rw [visit] at h
    cases h
    exact sameFrame.refl a
  | .Identifier name, a, t, b, h => by
    rw [visit] at h
    simp only [Outcome.bind_eq, Outcome.pure_eq] at h
    obtain ⟨s, _, h⟩ := Outcome.bind_eq_ok.1 h
    cases h
    exact sameFrame.refl a

theorem visitAll_frame : ∀ (l : List ASTNode) (a b : SemanticAnalyzer),
    visitAll a l = .ok b → sameFrame a b
  | [], a, b, h => by
    rw [visitAll] at h
    cases h
    exact sameFrame.refl a
  | s :: rest, a, b, h => by
    rw [visitAll] at h
    simp only [Outcome.bind_eq] at h
    obtain ⟨⟨t1, a1⟩, h1, h⟩ := Outcome.bind_eq_ok.1 h
    exact (visit_frame s a t1 a1 h1).trans (visitAll_frame rest a1 b h)

theorem visitCases_frame : ∀ (l : List (ASTNode × List ASTNode)) (a b : SemanticAnalyzer),
    visitCases a l = .ok b → sameFrame a b
  | [], a, b, h => by
    rw [visitCases] at h
    cases h
    exact sameFrame.refl a
  | (cond, body) :: rest, a, b, h => by
    rw [visitCases] at h
    simp only [Outcome.bind_eq] at h
    obtain ⟨⟨ct, a1⟩, h1, h⟩ := Outcome.bind_eq_ok.1 h
    dsimp only at h
    split at h
    · cases h
    · obtain ⟨a2, h2, h⟩ := Outcome.bind_eq_ok.1 h
      have f1 := visit_frame cond a ct a1 h1
      obtain ⟨g1, g2, g3, g4⟩ := visitAll_frame body _ a2 h2
      have f3 := visitCases_frame rest _ b h
      simp only [enter_scope, List.tail_cons, List.length_cons] at g1 g2 g3 g4
      refine f1.trans (sameFrame.trans ?_ f3)
      refine ⟨by simp only [exit_scope]; rw [g1], ?_, g3, g4⟩
      simp only [exit_scope, List.length_tail]
      omega

end

mutual

/-- Visiting an expression changes nothing in the analyzer. -/
theorem visit_expr_state : ∀ (n : ASTNode) (a : SemanticAnalyzer) (t : List Char)
    (b : SemanticAnalyzer), isExpr n = true → visit a n = .ok (t, b) → b = a
  | .BinOp left op_type op_value right, a, t, b, hx, h => by
    rw [isExpr, Bool.and_eq_true] at hx
    rw [visit] at h
    simp only [Outcome.bind_eq, Outcome.pure_eq] at h
    obtain ⟨⟨lt, a1⟩, h1, h3⟩ := Outcome.bind_eq_ok.1 h
    obtain ⟨⟨rt, a2⟩, h2, h4⟩ := Outcome.bind_eq_ok.1 h3
    obtain ⟨_, _, h5⟩ := Outcome.bind_eq_ok.1 h4
    cases h5
    have e1 := visit_expr_state left a lt a1 hx.1 h1
    rw [e1] at h2
    exact visit_expr_state right _ rt _ hx.2 h2
  | .UnaryOp op_type op_value expr, a, t, b, hx, h => by
    rw [isExpr] at hx
    rw [visit] at h
    simp only [Outcome.bind_eq, Outcome.pure_eq] at h
    obtain ⟨⟨et, a1⟩, h1, h⟩ := Outcome.bind_eq_ok.1 h
    obtain ⟨_, _, h⟩ := Outcome.bind_eq_ok.1 h
    cases h
    exact visit_expr_state expr a et _ hx h1
  | .Literal value lit_type, a, t, b, _, h => by
    rw [visit] at h
    cases h
    rfl
  | .Identifier name, a, t, b, _, h => by
    rw [visit] at h
    simp only [Outcome.bind_eq, Outcome.pure_eq] at h
    obtain ⟨s, _, h⟩ := Outcome.bind_eq_ok.1 h
    cases h
    rfl
  | .FuncCall name args, a, t, b, hx, h => by
    rw [isExpr] at hx
    rw [visit] at h
    split at h
    · cases h
    · split at h
      · cases h
      · simp only [Outcome.bind_eq, Outcome.pure_eq] at h
        obtain ⟨a1, h1, h⟩ := Outcome.bind_eq_ok.1 h
        cases h
        exact visitAll_expr_state args a _ hx h1
  | .Program _, _, _, _, hx, _ => by simp [isExpr] at hx
  | .VarDecl _ _ _, _, _, _, hx, _ => by simp [isExpr] at hx
  | .Assign _ _, _, _, _, hx, _ => by simp [isExpr] at hx
  | .Show _, _, _, _, hx, _ => by simp [isExpr] at hx
  | .Take _, _, _, _, hx, _ => by simp [isExpr] at hx
  | .When _ _, _, _, _, hx, _ => by simp [isExpr] at hx
  | .Loop _ _ _ _, _, _, _, hx, _ => by simp [isExpr] at hx
  | .Break, _, _, _, hx, _ => by simp [isExpr] at hx
  | .FuncDef _ _ _ _, _, _, _, hx, _ => by simp [isExpr] at hx

theorem visitAll_expr_state : ∀ (l : List ASTNode) (a b : SemanticAnalyzer),
    allExpr l = true → visitAll a l = .ok b → b = a
  | [], a, b, _, h => by
    rw [visitAll] at h
    cases h
    rfl
  | s :: rest, a, b, hx, h => by
    rw [allExpr, Bool.and_eq_true] at hx
    rw [visitAll] at h
    simp only [Outcome.bind_eq] at h
    obtain ⟨⟨t1, a1⟩, h1, h2⟩ := Outcome.bind_eq_ok.1 h
    have e1 := visit_expr_state s a t1 a1 hx.1 h1
    rw [e1] at h2
    exact visitAll_expr_state rest _ b hx.2 h2

end

/-- The branches of a `When` whose conditions are expressions leave the scope stack as
it was. -/
theorem visitCases_scopes : ∀ (l : List (ASTNode × List ASTNode)) (a b : SemanticAnalyzer),
    (∀ c ∈ l, isExpr c.1 = true) → visitCases a l = .ok b → b.scopes = a.scopes
  | [], a, b, _, h => by
    rw [visitCases] at h
    cases h
    rfl
  | (cond, body) :: rest, a, b, hx, h => by
    rw [visitCases] at h
    simp only [Outcome.bind_eq] at h
    obtain ⟨⟨ct, a1⟩, h1, h3⟩ := Outcome.bind_eq_ok.1 h
    dsimp only at h3
    split at h3
    · cases h3
    · obtain ⟨a2, h2, h4⟩ := Outcome.bind_eq_ok.1 h3
      have e1 := visit_expr_state cond a ct a1 (hx _ (List.mem_cons_self _ _)) h1
      rw [e1] at h2
      have f2 := (visitAll_frame body _ a2 h2).1
      have ih := visitCases_scopes rest _ b
        (fun c hc => hx c (List.mem_cons_of_mem _ hc)) h4
      rw [ih]
      simp only [exit_scope, enter_scope, List.tail_cons] at f2 ⊢
      exact f2

/-- C15: a `When` statement whose conditions are expression nodes (every `When` that
`Parser::when_stmt` returns is one, `when_stmt_conditions`) leaves the scope stack
exactly as it was, so that, for a name `y` that no enclosing scope binds, whatever its
branches declare, a following `Take y`, `Assign y` or `Identifier y` raises "Use of
undeclared variable 'y'". -/
theorem when_scope_isolation (a b : SemanticAnalyzer) (cases : List (ASTNode × List ASTNode))
    (else_block : List ASTNode) (y t : List Char)
    (hc : ∀ c ∈ cases, isExpr c.1 = true) (hy : lookupScopes y a.scopes = none)
    (hv : visit a (.When cases else_block) = .ok (t, b)) :
    b.scopes = a.scopes ∧
      visit b (.Take y) = .error (.undeclaredVariable y) ∧
      (∀ e, visit b (.Assign y e) = .error (.undeclaredVariable y)) ∧
      visit b (.Identifier y) = .error (.undeclaredVariable y) ∧
      (∀ rest, visitAll a (.When cases else_block :: .Take y :: rest) =
        .error (.undeclaredVariable y)) := by
  have hs : b.scopes = a.scopes := by
    rw [visit] at hv
    simp only [Outcome.bind_eq, Outcome.pure_eq] at hv
    obtain ⟨a1, h1, h⟩ := Outcome.bind_eq_ok.1 hv
    have e1 := visitCases_scopes cases a a1 hc h1
    split at h
    · obtain ⟨a2, h2, h⟩ := Outcome.bind_eq_ok.1 h
      cases h
      have f2 := (visitAll_frame else_block _ a2 h2).1
      simp only [exit_scope, enter_scope, List.tail_cons] at f2 ⊢
      rw [f2, e1]
    · cases h
      exact e1
  have hl : lookup_var b y = .error (.undeclaredVariable y) := by
    unfold lookup_var
    rw [hs, hy]
  have hT : visit b (.Take y) = .error (.undeclaredVariable y) := by
    rw [visit]
    simp only [Outcome.bind_eq, hl, Outcome.bind_error]
  refine ⟨hs, hT, ?_, ?_, ?_⟩
  · intro e
    rw [visit]
    simp only [Outcome.bind_eq, hl, Outcome.bind_error]
  · rw [visit]
    simp only [Outcome.bind_eq, hl, Outcome.bind_error]
  · intro rest
    rw [visitAll]
    simp only [Outcome.bind_eq, hv, Outcome.bind_ok]
    rw [visitAll]
    simp only [Outcome.bind_eq, hT, Outcome.bind_error]

/-- Witness of C15: the `When` of `start when true { num y = 1 } take y end`, visited
by a fresh analyzer, and the analysis of that source. -/
theorem when_scope_isolation_witness :
    visit SemanticAnalyzer.new
        (.When [(.Literal "true".toList "bool".toList,
          [.VarDecl "num".toList "y".toList (.Literal "1".toList "num".toList)])] []) =
        .ok ([], SemanticAnalyzer.new) ∧
      visit SemanticAnalyzer.new (.Take "y".toList) =
        .error (.undeclaredVariable "y".toList) ∧
      analyzeSource "start when true { num y = 1 } take y end".toList =
        .error (.semantic (.undeclaredVariable "y".toList)) :=
  ⟨by decide,
    (when_scope_isolation SemanticAnalyzer.new SemanticAnalyzer.new
      [(.Literal "true".toList "bool".toList,
        [.VarDecl "num".toList "y".toList (.Literal "1".toList "num".toList)])] []
      "y".toList [] (by decide) (by decide) (by decide)).2.1,
    by decide!⟩

theorem mapFind_append_new {β : Type} (name : List Char) (v : β) :
    ∀ (m : List (List Char × β)), mapFind name m = none →
      mapFind name (m ++ [(name, v)]) = some v
  | [], _ => by simp [mapFind]
  | (k, w) :: rest, h => by
    rw [mapFind] at h
    split at h
    · cases h
    · rename_i hk
      rw [List.cons_append, mapFind, if_neg hk]
      exact mapFind_append_new name v rest h

theorem checkDeclared_ok {declared t : List Char} (h : initializerMatches declared t) :
    checkDeclared declared t = .ok () := by
  unfold checkDeclared
  rcases h with ⟨rfl, rfl⟩ | ⟨rfl, rfl⟩ | ⟨rfl, rfl⟩ <;> decide

theorem checkDeclared_error {declared t : List Char}
    (hv : declared ∈ ["num".toList, "text".toList, "flag".toList])
    (h : ¬ initializerMatches declared t) :
    checkDeclared declared t = .error (.typeMismatchExpected declared) := by
  unfold initializerMatches at h
  simp only [not_or, not_and] at h
  obtain ⟨h1, h2, h3⟩ := h
  unfold checkDeclared
  simp only [List.mem_cons, List.mem_singleton, List.not_mem_nil, or_false] at hv
  rcases hv with rfl | rfl | rfl
  · rw [if_pos ⟨rfl, h1 rfl⟩]
  · rw [if_neg (fun h => absurd h.1 (by decide)), if_pos ⟨rfl, h2 rfl⟩]
  · rw [if_neg (fun h => absurd h.1 (by decide)), if_neg (fun h => absurd h.1 (by decide)),
      if_pos ⟨rfl, h3 rfl⟩]

/-- C16: for a declaration whose declared type is `num`, `text` or `flag`, whose
initializer is an expression node (every initializer that `Parser::var_decl` returns is
one, `var_decl_initializer`) to which the analyzer gives the type `t`, and whose name
is not bound in the innermost scope: when `t` matches the declared type (`num` with
`num`, `text` with `text`, `flag` with the boolean type `bool`) the visit succeeds and
binds the name to the declared type at the end of the innermost scope, where a lookup
finds it; when `t` does not match, the visit raises "Type mismatch: expected" followed
by the declared type. -/
theorem var_decl_typing (a a1 : SemanticAnalyzer) (vartype name : List Char) (expr : ASTNode)
    (t : List Char) (top : List (List Char × Symbol)) (rest : List (List (List Char × Symbol)))
    (hv : vartype ∈ ["num".toList, "text".toList, "flag".toList])
    (hx : isExpr expr = true) (he : visit a expr = .ok (t, a1))
    (hs : a.scopes = top :: rest) (hf : mapFind name top = none) :
    (initializerMatches vartype t →
      visit a (.VarDecl vartype name expr) =
          .ok (vartype, { a with scopes := (top ++ [(name, ⟨name, vartype⟩)]) :: rest }) ∧
        lookup_var { a with scopes := (top ++ [(name, ⟨name, vartype⟩)]) :: rest } name =
          .ok ⟨name, vartype⟩) ∧
      (¬ initializerMatches vartype t →
        visit a (.VarDecl vartype name expr) = .error (.typeMismatchExpected vartype)) := by
  have e1 := visit_expr_state expr a t a1 hx he
  rw [e1] at he
  constructor
  · intro hm
    constructor
    · rw [visit]
      simp only [Outcome.bind_eq, Outcome.pure_eq, he, Outcome.bind_ok, checkDeclared_ok hm]
      unfold declare_var
      simp only [hs, hf, Option.isSome_none, Bool.false_eq_true, if_false, Outcome.bind_ok]
    · unfold lookup_var lookupScopes
      simp only [mapFind_append_new name _ top hf]
  · intro hm
    rw [visit]
    simp only [Outcome.bind_eq, Outcome.pure_eq, he, Outcome.bind_ok,
      checkDeclared_error hv hm, Outcome.bind_error]

/-- Witness of C16: the declaration of `start text s = "a" + "b" end` visited by a
fresh analyzer, and the analysis of that source and of `start num x = "a" end`. -/
theorem var_decl_typing_witness :
    visit SemanticAnalyzer.new (.VarDecl "text".toList "s".toList
        (.BinOp (.Literal "a".toList "text".toList) .PLUS "+".toList
          (.Literal "b".toList "text".toList))) =
        .ok ("text".toList,
          { SemanticAnalyzer.new with
            scopes := ([] ++ [("s".toList, ⟨"s".toList, "text".toList⟩)]) :: [] }) ∧
      analyzeSource "start text s = \"a\" + \"b\" end".toList =
        .ok ⟨[[("s".toList, ⟨"s".toList, "text".toList⟩)]], [], 0, 0⟩ ∧
      analyzeSource "start num x = \"a\" end".toList =
        .error (.semantic (.typeMismatchExpected "num".toList)) :=
  ⟨((var_decl_typing SemanticAnalyzer.new SemanticAnalyzer.new "text".toList "s".toList
      (.BinOp (.Literal "a".toList "text".toList) .PLUS "+".toList
        (.Literal "b".toList "text".toList)) "text".toList [] [] (by decide) (by decide)
      (by decide) rfl rfl).1 (Or.inr (Or.inl ⟨rfl, rfl⟩))).1,
    by decide!, by decide!⟩

/-- C17 fails on the code: the type the analyzer gives to an identifier bound to a
`flag` variable is the string `flag`, while the checks of `visit_VarDecl` and
`visit_Assign` compare the type of the expression with the string `bool`; so
`flag b = a` and `a = a` are rejected for every visible `flag` variable `a`, and the
analysis of `start flag a = true flag b = a end` raises "Type mismatch: expected
flag". -/
theorem flag_identifier_rejected :
    (∀ (a : SemanticAnalyzer) (x b : List Char) (s : Symbol),
      lookup_var a x = .ok s → s.type = "flag".toList →
        visit a (.Identifier x) = .ok ("flag".toList, a) ∧
        visit a (.VarDecl "flag".toList b (.Identifier x)) =
          .error (.typeMismatchExpected "flag".toList) ∧
        visit a (.Assign x (.Identifier x)) =
          .error (.typeMismatchAssignment "flag".toList)) ∧
      analyzeSource "start flag a = true flag b = a end".toList =
        .error (.semantic (.typeMismatchExpected "flag".toList)) ∧
      analyzeSource "start flag a = true a = a end".toList =
        .error (.semantic (.typeMismatchAssignment "flag".toList)) ∧
      analyzeSource "start flag a = true flag b = true end".toList =
        .ok ⟨[[("a".toList, ⟨"a".toList, "flag".toList⟩),
          ("b".toList, ⟨"b".toList, "flag".toList⟩)]], [], 0, 0⟩ := by
  refine ⟨?_, by decide!, by decide!, by decide!⟩
  intro a x b s hl ht
  have hi : visit a (.Identifier x) = .ok ("flag".toList, a) := by
    rw [visit]
    simp only [Outcome.bind_eq, Outcome.pure_eq, hl, Outcome.bind_ok, ht]
  refine ⟨hi, ?_, ?_⟩
  · rw [visit]
    simp only [Outcome.bind_eq, Outcome.pure_eq, hi, Outcome.bind_ok]
    rfl
  · rw [visit]
    simp only [Outcome.bind_eq, Outcome.pure_eq, hl, hi, Outcome.bind_ok, ht]
    rfl

/-- C18 fails on the code: `visit_When` accepts a condition only when the analyzer
gives it the type string `bool`, and an identifier bound to a `flag` variable has the
type string `flag`; so a condition of type `num` or `text` is rejected, a boolean
literal is accepted, and a `flag` variable used as a condition is rejected too: the
analysis of `start flag a = true when a { } end` raises "When condition must be
boolean". -/
theorem when_flag_condition_rejected :
    (∀ (a a1 : SemanticAnalyzer) (cond : ASTNode) (ct : List Char) (body : List ASTNode)
        (rest : List (ASTNode × List ASTNode)) (else_block : List ASTNode),
      visit a cond = .ok (ct, a1) → ct ≠ "bool".toList →
        visit a (.When ((cond, body) :: rest) else_block) = .error .whenCondition) ∧
      (∀ (a : SemanticAnalyzer) (x : List Char) (s : Symbol) (body : List ASTNode)
        (rest : List (ASTNode × List ASTNode)) (else_block : List ASTNode),
      lookup_var a x = .ok s → s.type = "flag".toList →
        visit a (.When ((.Identifier x, body) :: rest) else_block) = .error .whenCondition) ∧
      analyzeSource "start flag a = true when a { } end".toList =
        .error (.semantic .whenCondition) ∧
      analyzeSource "start flag a = true when true { } end".toList =
        .ok ⟨[[("a".toList, ⟨"a".toList, "flag".toList⟩)]], [], 0, 0⟩ ∧
      analyzeSource "start flag a = true when 1 < 2 { } end".toList =
        .ok ⟨[[("a".toList, ⟨"a".toList, "flag".toList⟩)]], [], 0, 0⟩ := by
  have hgen : ∀ (a a1 : SemanticAnalyzer) (cond : ASTNode) (ct : List Char)
      (body : List ASTNode) (rest : List (ASTNode × List ASTNode)) (else_block : List ASTNode),
      visit a cond = .ok (ct, a1) → ct ≠ "bool".toList →
        visit a (.When ((cond, body) :: rest) else_block) = .error .whenCondition := by
    intro a a1 cond ct body rest else_block hc hne
    rw [visit, visitCases]
    simp only [Outcome.bind_eq, hc, Outcome.bind_ok, if_pos hne, Outcome.bind_error]
  refine ⟨hgen, ?_, by decide!, by decide!, by decide!⟩
  intro a x s body rest else_block hl ht
  refine hgen a a (.Identifier x) "flag".toList body rest else_block ?_ (by decide)
  rw [visit]
  simp only [Outcome.bind_eq, Outcome.pure_eq, hl, Outcome.bind_ok, ht]

theorem binOpType_ref (op : TokenType) (l r : List Char)
    (hop : op ∈ arithmeticOps ∨ op ∈ comparisonOps) :
    binOpType op l r =
      match refBinOpType op l r with
      | some t => .ok t
      | none => .error (if op ∈ arithmeticOps then .invalidOperands else .comparisonMismatch) := by
  unfold binOpType refBinOpType
  rcases hop with h | h
  · have h2 : op = .PLUS ∨ op = .MINUS ∨ op = .STAR ∨ op = .SLASH := by
      simpa [arithmeticOps] using h
    rw [if_pos h2, if_pos h]
    split_ifs <;> rfl
  · have h2 : op = .GT ∨ op = .LT ∨ op = .GTEQ ∨ op = .LTEQ ∨ op = .EQEQ ∨ op = .NOTEQ := by
      simpa [comparisonOps] using h
    have h3 : ¬ (op = .PLUS ∨ op = .MINUS ∨ op = .STAR ∨ op = .SLASH) := by
      rcases h2 with rfl | rfl | rfl | rfl | rfl | rfl <;> decide
    have h4 : op ∉ arithmeticOps := by
      rcases h2 with rfl | rfl | rfl | rfl | rfl | rfl <;> decide
    rw [if_neg h3, if_pos h2, if_neg h4]
    split_ifs <;> rfl

/-- C19: for a `BinOp` with one of the ten operator tags whose operands the analyzer
gives the types `l` and `r`, the visit returns the type of the reference
`refBinOpType` when there is one (for `+ - * /`: `num` on two `num`, `text` for `+` on
two `text`; for `> < >= <= == !=`: `bool` on two operands of the same type) and raises
a semantic error otherwise, "Invalid operands for arithmetic" for an arithmetic
operator and "Type mismatch in comparison" for a comparison.  The types are the type
strings of the analyzer: `num`, `text`, `bool` for a literal or a comparison, `flag`
for an identifier bound to a `flag` variable. -/
theorem bin_op_typing (a a1 a2 : SemanticAnalyzer) (left right : ASTNode) (op : TokenType)
    (op_value l r : List Char) (hop : op ∈ arithmeticOps ∨ op ∈ comparisonOps)
    (hl : visit a left = .ok (l, a1)) (hr : visit a1 right = .ok (r, a2)) :
    visit a (.BinOp left op op_value right) =
      match refBinOpType op l r with
      | some t => .ok (t, a2)
      | none => .error (if op ∈ arithmeticOps then .invalidOperands else .comparisonMismatch) := by
  rw [visit]
  simp only [Outcome.bind_eq, Outcome.pure_eq, hl, hr, Outcome.bind_ok, binOpType_ref op l r hop]
  cases refBinOpType op l r <;> rfl

/-- Witness of C19: `"a" + "b"` has type `text`, `1 < 2` has type `bool`, `"a" - "b"`
and `1 == "a"` are rejected; two `flag` variables compare, a `flag` variable and a
boolean literal are operands of different type strings. -/
theorem bin_op_typing_witness :
    visit SemanticAnalyzer.new (.BinOp (.Literal "a".toList "text".toList) .PLUS "+".toList
        (.Literal "b".toList "text".toList)) = .ok ("text".toList, SemanticAnalyzer.new) ∧
      visit SemanticAnalyzer.new (.BinOp (.Literal "1".toList "num".toList) .LT "<".toList
        (.Literal "2".toList "num".toList)) = .ok ("bool".toList, SemanticAnalyzer.new) ∧
      visit SemanticAnalyzer.new (.BinOp (.Literal "a".toList "text".toList) .MINUS "-".toList
        (.Literal "b".toList "text".toList)) = .error .invalidOperands ∧
      visit SemanticAnalyzer.new (.BinOp (.Literal "1".toList "num".toList) .EQEQ "==".toList
        (.Literal "a".toList "text".toList)) = .error .comparisonMismatch ∧
      analyzeSource "start flag a = true flag b = false show a == b end".toList =
        .ok ⟨[[("a".toList, ⟨"a".toList, "flag".toList⟩),
          ("b".toList, ⟨"b".toList, "flag".toList⟩)]], [], 0, 0⟩ ∧
      analyzeSource "start flag a = true show a == true end".toList =
        .error (.semantic .comparisonMismatch) :=
  ⟨bin_op_typing SemanticAnalyzer.new SemanticAnalyzer.new SemanticAnalyzer.new
      (.Literal "a".toList "text".toList) (.Literal "b".toList "text".toList) .PLUS "+".toList
      "text".toList "text".toList (by decide) (by decide) (by decide),
    bin_op_typing SemanticAnalyzer.new SemanticAnalyzer.new SemanticAnalyzer.new
      (.Literal "1".toList "num".toList) (.Literal "2".toList "num".toList) .LT "<".toList
      "num".toList "num".toList (by decide) (by decide) (by decide),
    bin_op_typing SemanticAnalyzer.new SemanticAnalyzer.new SemanticAnalyzer.new
      (.Literal "a".toList "text".toList) (.Literal "b".toList "text".toList) .MINUS "-".toList
      "text".toList "text".toList (by decide) (by decide) (by decide),
    bin_op_typing SemanticAnalyzer.new SemanticAnalyzer.new SemanticAnalyzer.new
      (.Literal "1".toList "num".toList) (.Literal "a".toList "text".toList) .EQEQ "==".toList
      "num".toList "text".toList (by decide) (by decide) (by decide),
    by decide!, by decide!⟩

theorem lookup_var_not_break (a : SemanticAnalyzer) (x : List Char) :
    lookup_var a x ≠ .error .breakOutsideLoop := by
  unfold lookup_var
  split <;> simp

theorem declare_var_not_break (a : SemanticAnalyzer) (x t : List Char) :
    declare_var a x t ≠ .error .breakOutsideLoop := by
  unfold declare_var
  split
  · simp
  · split <;> simp

theorem declareParams_not_break :
    ∀ (params : List (List Char)) (a : SemanticAnalyzer),
      declareParams a params ≠ .error .breakOutsideLoop
  | [], a => by rw [declareParams]; simp
  | p :: rest, a => by
    rw [declareParams]
    intro h
    rcases Outcome.bind_eq_error.1 h with h1 | ⟨a1, _, h2⟩
    · exact declare_var_not_break a p _ h1
    · exact declareParams_not_break rest a1 h2

theorem checkDeclared_not_break (d t : List Char) :
    checkDeclared d t ≠ .error .breakOutsideLoop := by
  unfold checkDeclared
  split_ifs <;> simp

theorem checkAssigned_not_break (d t : List Char) :
    checkAssigned d t ≠ .error .breakOutsideLoop := by
  unfold checkAssigned
  split_ifs <;> simp

theorem binOpType_not_break (op : TokenType) (l r : List Char) :
    binOpType op l r ≠ .error .breakOutsideLoop := by
  unfold binOpType
  split_ifs <;> simp

theorem unaryOpType_not_break (op : TokenType) (t : List Char) :
    unaryOpType op t ≠ .error .breakOutsideLoop := by
  unfold unaryOpType
  split_ifs <;> simp

mutual

/-- In an analyzer whose loop depth is not negative, a visit that raises "break outside
loop" runs at loop depth 0 on a node with a `Break` outside the bodies of its loops. -/
theorem visit_break_error : ∀ (n : ASTNode) (a : SemanticAnalyzer), 0 ≤ a.in_loop →
    visit a n = .error .breakOutsideLoop → a.in_loop = 0 ∧ hasBareBreak n = true
  | .Program statements, a, h0, h => by
    rw [visit] at h
    simp only [Outcome.bind_eq, Outcome.pure_eq] at h
    rw [hasBareBreak]
    rcases Outcome.bind_eq_error.1 h with h1 | ⟨a1, _, h2⟩
    · exact visitAll_break_error statements a h0 h1
    · cases h2
  | .VarDecl vartype name expr, a, h0, h => by
    rw [visit] at h
    simp only [Outcome.bind_eq, Outcome.pure_eq] at h
    rw [hasBareBreak]
    rcases Outcome.bind_eq_error.1 h with h1 | ⟨r1, _, h2⟩
    · exact visit_break_error expr a h0 h1
    · rcases Outcome.bind_eq_error.1 h2 with h3 | ⟨_, _, h4⟩
      · exact absurd h3 (checkDeclared_not_break _ _)
      · rcases Outcome.bind_eq_error.1 h4 with h5 | ⟨_, _, h6⟩
        · exact absurd h5 (declare_var_not_break _ _ _)
        · cases h6
  | .Assign name expr, a, h0, h => by
    rw [visit] at h
    simp only [Outcome.bind_eq, Outcome.pure_eq] at h
    rw [hasBareBreak]
    rcases Outcome.bind_eq_error.1 h with h1 | ⟨s, _, h2⟩
    · exact absurd h1 (lookup_var_not_break _ _)
    · rcases Outcome.bind_eq_error.1 h2 with h3 | ⟨_, _, h4⟩
      · exact visit_break_error expr a h0 h3
      · rcases Outcome.bind_eq_error.1 h4 with h5 | ⟨_, _, h6⟩
        · exact absurd h5 (checkAssigned_not_break _ _)
        · cases h6
  | .Show expr, a, h0, h => by
    rw [visit] at h
    rw [hasBareBreak]
    exact visit_break_error expr a h0 h
  | .Take name, a, h0, h => by
    rw [visit] at h
    simp only [Outcome.bind_eq, Outcome.pure_eq] at h
    rcases Outcome.bind_eq_error.1 h with h1 | ⟨s, _, h2⟩
    · exact absurd h1 (lookup_var_not_break _ _)
    · cases h2
  | .When cases else_block, a, h0, h => by
    rw [visit] at h
    simp only [Outcome.bind_eq, Outcome.pure_eq] at h
    rw [hasBareBreak, Bool.or_eq_true]
    rcases Outcome.bind_eq_error.1 h with h1 | ⟨a1, h1, h2⟩
    · have := visitCases_break_error cases a h0 h1
      exact ⟨this.1, Or.inl this.2⟩
    · have f1 := (visitCases_frame cases a a1 h1).2.2.1
      split at h2
      · rcases Outcome.bind_eq_error.1 h2 with h3 | ⟨_, _, h4⟩
        · have := visitAll_break_error else_block (enter_scope a1)
            (by show 0 ≤ a1.in_loop; omega) h3
          exact ⟨by have := this.1; change a1.in_loop = 0 at this; omega, Or.inr this.2⟩
        · cases h4
      · cases h2
  | .Loop var start_expr end_expr body, a, h0, h => by
    rw [visit] at h
    simp only [Outcome.bind_eq, Outcome.pure_eq] at h
    rw [hasBareBreak, Bool.or_eq_true]
    rcases Outcome.bind_eq_error.1 h with h1 | ⟨⟨s1, a1⟩, h1, h2⟩
    · have := visit_break_error start_expr a h0 h1
      exact ⟨this.1, Or.inl this.2⟩
    · have f1 := (visit_frame start_expr a s1 a1 h1).2.2.1
      rcases Outcome.bind_eq_error.1 h2 with h3 | ⟨⟨s2, a2⟩, h3, h4⟩
      · have := visit_break_error end_expr a1 (by omega) h3
        exact ⟨by omega, Or.inr this.2⟩
      · have f2 := (visit_frame end_expr a1 s2 a2 h3).2.2.1
        dsimp only at h4
        split at h4
        · cases h4
        · rcases Outcome.bind_eq_error.1 h4 with h5 | ⟨a3, h5, h6⟩
          · exact absurd h5 (declare_var_not_break _ _ _)
          · have f3 := (declare_var_frame h5).2.2.1
            change a3.in_loop = a2.in_loop at f3
            rcases Outcome.bind_eq_error.1 h6 with h7 | ⟨_, _, h8⟩
            · have := (visitAll_break_error body _ (by show 0 ≤ a3.in_loop + 1; omega) h7).1
              change a3.in_loop + 1 = 0 at this
              omega
            · cases h8
  | .Break, a, h0, h => by
    rw [visit] at h
    split at h
    · rename_i hz
      exact ⟨hz, rfl⟩
    · cases h
  | .FuncDef name params body back_expr, a, h0, h => by
    rw [visit] at h
    simp only [Outcome.bind_eq, Outcome.pure_eq] at h
    rw [hasBareBreak, Bool.or_eq_true]
    split at h
    · cases h
    · rcases Outcome.bind_eq_error.1 h with h1 | ⟨a1, h1, h2⟩
      · exact absurd h1 (declareParams_not_break _ _)
      · have f1 := (declareParams_frame params _ a1 h1).1.2.2.1
        change a1.in_loop = a.in_loop at f1
        rcases Outcome.bind_eq_error.1 h2 with h3 | ⟨a2, h3, h4⟩
        · have := visitAll_break_error body _ (by show 0 ≤ a1.in_loop; omega) h3
          exact ⟨by have := this.1; change a1.in_loop = 0 at this; omega, Or.inl this.2⟩
        · have f2 := (visitAll_frame body _ a2 h3).2.2.1
          change a2.in_loop = a1.in_loop at f2
          rcases Outcome.bind_eq_error.1 h4 with h5 | ⟨_, _, h6⟩
          · have := visit_break_error back_expr a2 (by omega) h5
            exact ⟨by omega, Or.inr this.2⟩
          · cases h6
  | .FuncCall name args, a, h0, h => by
    rw [visit] at h
    rw [hasBareBreak]
    split at h
    · cases h
    · split at h
      · cases h
      · simp only [Outcome.bind_eq, Outcome.pure_eq] at h
        rcases Outcome.bind_eq_error.1 h with h1 | ⟨_, _, h2⟩
        · exact visitAll_break_error args a h0 h1
        · cases h2
  | .BinOp left op_type op_value right, a, h0, h => by
    rw [visit] at h
    simp only [Outcome.bind_eq, Outcome.pure_eq] at h
    rw [hasBareBreak, Bool.or_eq_true]
    rcases Outcome.bind_eq_error.1 h with h1 | ⟨⟨lt, a1⟩, h1, h2⟩
    · have := visit_break_error left a h0 h1
      exact ⟨this.1, Or.inl this.2⟩
    · have f1 := (visit_frame left a lt a1 h1).2.2.1
      rcases Outcome.bind_eq_error.1 h2 with h3 | ⟨_, _, h4⟩
      · have := visit_break_error right a1 (by omega) h3
        exact ⟨by omega, Or.inr this.2⟩
      · rcases Outcome.bind_eq_error.1 h4 with h5 | ⟨_, _, h6⟩
        · exact absurd h5 (binOpType_not_break _ _ _)
        · cases h6
  | .UnaryOp op_type op_value expr, a, h0, h => by
    rw [visit] at h
    simp only [Outcome.bind_eq, Outcome.pure_eq] at h
    rw [hasBareBreak]
    rcases Outcome.bind_eq_error.1 h with h1 | ⟨_, _, h2⟩
    · exact visit_break_error expr a h0 h1
    · rcases Outcome.bind_eq_error.1 h2 with h3 | ⟨_, _, h4⟩
      · exact absurd h3 (unaryOpType_not_break _ _)
      · cases h4
  | .Literal value lit_type, a, h0, h => by
    rw [visit] at h
    cases h
  | .Identifier name, a, h0, h => by
    rw [visit] at h
    simp only [Outcome.bind_eq, Outcome.pure_eq] at h
    rcases Outcome.bind_eq_error.1 h with h1 | ⟨s, _, h2⟩
    · exact absurd h1 (lookup_var_not_break _ _)
    · cases h2

theorem visitAll_break_error : ∀ (l : List ASTNode) (a : SemanticAnalyzer), 0 ≤ a.in_loop →
    visitAll a l = .error .breakOutsideLoop → a.in_loop = 0 ∧ anyBareBreak l = true
  | [], a, h0, h => by
    rw [visitAll] at h
    cases h
  | s :: rest, a, h0, h => by
    rw [visitAll] at h
    simp only [Outcome.bind_eq] at h
    rw [anyBareBreak, Bool.or_eq_true]
    rcases Outcome.bind_eq_error.1 h with h1 | ⟨⟨t1, a1⟩, h1, h2⟩
    · have := visit_break_error s a h0 h1
      exact ⟨this.1, Or.inl this.2⟩
    · have f1 := (visit_frame s a t1 a1 h1).2.2.1
      have := visitAll_break_error rest a1 (by omega) h2
      exact ⟨by omega, Or.inr this.2⟩

theorem visitCases_break_error : ∀ (l : List (ASTNode × List ASTNode)) (a : SemanticAnalyzer),
    0 ≤ a.in_loop →
    visitCases a l = .error .breakOutsideLoop → a.in_loop = 0 ∧ casesBareBreak l = true
  | [], a, h0, h => by
    rw [visitCases] at h
    cases h
  | (cond, body) :: rest, a, h0, h => by
    rw [visitCases] at h
    simp only [Outcome.bind_eq] at h
    rw [casesBareBreak, Bool.or_eq_true, Bool.or_eq_true]
    rcases Outcome.bind_eq_error.1 h with h1 | ⟨⟨ct, a1⟩, h1, h2⟩
    · have := visit_break_error cond a h0 h1
      exact ⟨this.1, Or.inl (Or.inl this.2)⟩
    · have f1 := (visit_frame cond a ct a1 h1).2.2.1
      dsimp only at h2
      split at h2
      · cases h2
      · rcases Outcome.bind_eq_error.1 h2 with h3 | ⟨a2, h3, h4⟩
        · have := visitAll_break_error body (enter_scope a1)
            (by show 0 ≤ a1.in_loop; omega) h3
          exact ⟨by have := this.1; change a1.in_loop = 0 at this; omega,
            Or.inl (Or.inr this.2)⟩
        · have f2 := (visitAll_frame body _ a2 h3).2.2.1
          change a2.in_loop = a1.in_loop at f2
          have := visitCases_break_error rest (exit_scope a2)
            (by show 0 ≤ a2.in_loop; omega) h4
          exact ⟨by have := this.1; change a2.in_loop = 0 at this; omega, Or.inr this.2⟩

end

/-- C20: a `Break` visited at loop depth 0 raises "break outside loop", and at any
other depth is accepted; the body of a `Loop` is visited at one more than the depth of
the `Loop`, the branches of a `When` at the depth of the `When`; so, when the depth is
0 at the start, a visit raises "break outside loop" only on a node with a `Break` that
is outside the bodies of all its loops: a `Break` in a `Loop` body, directly or inside
a `When` branch of that body, never raises the error. -/
theorem break_validity (a : SemanticAnalyzer) (h0 : a.in_loop = 0) :
    visit a .Break = .error .breakOutsideLoop ∧
      (∀ b : SemanticAnalyzer, visit b .Break =
        if b.in_loop = 0 then .error .breakOutsideLoop else .ok ([], b)) ∧
      (∀ n, visit a n = .error .breakOutsideLoop → hasBareBreak n = true) ∧
      (∀ var start_expr end_expr body,
        visit a (.Loop var start_expr end_expr body) = .error .breakOutsideLoop →
          hasBareBreak start_expr = true ∨ hasBareBreak end_expr = true) ∧
      (∀ rest, visitAll a (.Break :: rest) = .error .breakOutsideLoop) := by
  have hb : visit a .Break = .error .breakOutsideLoop := by
    rw [visit, if_pos h0]
  refine ⟨hb, fun b => by rw [visit], ?_, ?_, ?_⟩
  · intro n h
    exact (visit_break_error n a (by omega) h).2
  · intro var start_expr end_expr body h
    have := (visit_break_error _ a (by omega) h).2
    rw [hasBareBreak, Bool.or_eq_true] at this
    exact this
  · intro rest
    rw [visitAll]
    simp only [Outcome.bind_eq, hb, Outcome.bind_error]

/-- Witness of C20: a fresh analyzer on `Break`, and the analysis of `start break end`,
of `start loop i = 1 to 3 { break } end` and of a `break` inside a `when` inside a
`loop`. -/
theorem break_validity_witness :
    SemanticAnalyzer.new.in_loop = 0 ∧
      visit SemanticAnalyzer.new .Break = .error .breakOutsideLoop ∧
      analyzeSource "start break end".toList = .error (.semantic .breakOutsideLoop) ∧
      analyzeSource "start loop i = 1 to 3 { break } end".toList =
        .ok SemanticAnalyzer.new ∧
      analyzeSource "start loop i = 1 to 3 { when true { break } } end".toList =
        .ok SemanticAnalyzer.new ∧
      analyzeSource "start loop i = 1 to 3 { } when true { break } end".toList =
        .error (.semantic .breakOutsideLoop) :=
  ⟨rfl, (break_validity SemanticAnalyzer.new rfl).1, by decide!, by decide!, by decide!,
    by decide!⟩

/-! ## Semantic analyzer: every visit returns or throws -/

theorem lookup_var_ne_outOfFuel (a : SemanticAnalyzer) (x : List Char) :
    lookup_var a x ≠ .outOfFuel := by
  unfold lookup_var
  split <;> simp

theorem declare_var_ne_outOfFuel (a : SemanticAnalyzer) (x t : List Char)
    (h : a.scopes ≠ []) : declare_var a x t ≠ .outOfFuel := by
  unfold declare_var
  split
  · rename_i hs
    exact absurd hs h
  · split <;> simp

theorem scopes_ne_nil_of_frame {a b : SemanticAnalyzer} (h : sameFrame a b)
    (ha : a.scopes ≠ []) : b.scopes ≠ [] := by
  intro hb
  have := h.2.1
  rw [hb] at this
  exact ha (List.length_eq_zero.1 this.symm)

theorem declareParams_ne_outOfFuel :
    ∀ (params : List (List Char)) (a : SemanticAnalyzer), a.scopes ≠ [] →
      declareParams a params ≠ .outOfFuel
  | [], a, _ => by rw [declareParams]; simp
  | p :: rest, a, h => by
    rw [declareParams]
    refine Outcome.bind_ne_outOfFuel (declare_var_ne_outOfFuel a p _ h) fun a1 h1 => ?_
    exact declareParams_ne_outOfFuel rest a1 (scopes_ne_nil_of_frame (declare_var_frame h1) h)

theorem checkDeclared_ne_outOfFuel (d t : List Char) : checkDeclared d t ≠ .outOfFuel := by
  unfold checkDeclared
  split_ifs <;> simp

theorem checkAssigned_ne_outOfFuel (d t : List Char) : checkAssigned d t ≠ .outOfFuel := by
  unfold checkAssigned
  split_ifs <;> simp

theorem binOpType_ne_outOfFuel (op : TokenType) (l r : List Char) :
    binOpType op l r ≠ .outOfFuel := by
  unfold binOpType
  split_ifs <;> simp

theorem unaryOpType_ne_outOfFuel (op : TokenType) (t : List Char) :
    unaryOpType op t ≠ .outOfFuel := by
  unfold unaryOpType
  split_ifs <;> simp

theorem enter_scope_ne_nil (a : SemanticAnalyzer) : (enter_scope a).scopes ≠ [] := by
  simp [enter_scope]

mutual

/-- On an analyzer with at least one scope, as the constructor leaves it, a visit
returns or throws: `declare_var` is never called on an empty scope stack. -/
theorem visit_ne_outOfFuel : ∀ (n : ASTNode) (a : SemanticAnalyzer), a.scopes ≠ [] →
    visit a n ≠ .outOfFuel
  | .Program statements, a, h => by
    rw [visit]
    simp only [Outcome.bind_eq, Outcome.pure_eq]
    refine Outcome.bind_ne_outOfFuel (visitAll_ne_outOfFuel statements a h) fun _ _ => ?_
    simp
  | .VarDecl vartype name expr, a, h => by
    rw [visit]
    simp only [Outcome.bind_eq, Outcome.pure_eq]
    refine Outcome.bind_ne_outOfFuel (visit_ne_outOfFuel expr a h) fun r hr => ?_
    refine Outcome.bind_ne_outOfFuel (checkDeclared_ne_outOfFuel _ _) fun _ _ => ?_
    refine Outcome.bind_ne_outOfFuel (declare_var_ne_outOfFuel _ _ _
      (scopes_ne_nil_of_frame (visit_frame expr a r.1 r.2 hr) h)) fun _ _ => ?_
    simp
  | .Assign name expr, a, h => by
    rw [visit]
    simp only [Outcome.bind_eq, Outcome.pure_eq]
    refine Outcome.bind_ne_outOfFuel (lookup_var_ne_outOfFuel _ _) fun _ _ => ?_
    refine Outcome.bind_ne_outOfFuel (visit_ne_outOfFuel expr a h) fun r hr => ?_
    refine Outcome.bind_ne_outOfFuel (checkAssigned_ne_outOfFuel _ _) fun _ _ => ?_
    simp
  | .Show expr, a, h => by
    rw [visit]
    exact visit_ne_outOfFuel expr a h
  | .Take name, a, h => by
    rw [visit]
    simp only [Outcome.bind_eq, Outcome.pure_eq]
    refine Outcome.bind_ne_outOfFuel (lookup_var_ne_outOfFuel _ _) fun _ _ => ?_
    simp
  | .When cases else_block, a, h => by
    rw [visit]
    simp only [Outcome.bind_eq, Outcome.pure_eq]
    refine Outcome.bind_ne_outOfFuel (visitCases_ne_outOfFuel cases a h) fun a1 _ => ?_
    split
    · refine Outcome.bind_ne_outOfFuel
        (visitAll_ne_outOfFuel else_block _ (enter_scope_ne_nil a1)) fun _ _ => ?_
      simp
    · simp
  | .Loop var start_expr end_expr body, a, h => by
    rw [visit]
    simp only [Outcome.bind_eq, Outcome.pure_eq]
    refine Outcome.bind_ne_outOfFuel (visit_ne_outOfFuel start_expr a h) fun r1 h1 => ?_
    have f1 := scopes_ne_nil_of_frame (visit_frame start_expr a r1.1 r1.2 h1) h
    refine Outcome.bind_ne_outOfFuel (visit_ne_outOfFuel end_expr r1.2 f1) fun r2 h2 => ?_
    split
    · simp
    · refine Outcome.bind_ne_outOfFuel
        (declare_var_ne_outOfFuel _ _ _ (enter_scope_ne_nil r2.2)) fun a3 h3 => ?_
      have f3 := scopes_ne_nil_of_frame (declare_var_frame h3) (enter_scope_ne_nil r2.2)
      refine Outcome.bind_ne_outOfFuel (visitAll_ne_outOfFuel body _ f3) fun _ _ => ?_
      simp
  | .Break, a, h => by
    rw [visit]
    split <;> simp
  | .FuncDef name params body back_expr, a, h => by
    rw [visit]
    simp only [Outcome.bind_eq, Outcome.pure_eq]
    split
    · simp
    · refine Outcome.bind_ne_outOfFuel
        (declareParams_ne_outOfFuel params _ (enter_scope_ne_nil _)) fun a1 h1 => ?_
      have f1 := scopes_ne_nil_of_frame (declareParams_frame params _ a1 h1).1
        (enter_scope_ne_nil _)
      refine Outcome.bind_ne_outOfFuel (visitAll_ne_outOfFuel body _ f1) fun a2 h2 => ?_
      have f2 := scopes_ne_nil_of_frame (visitAll_frame body _ a2 h2) f1
      refine Outcome.bind_ne_outOfFuel (visit_ne_outOfFuel back_expr a2 f2) fun _ _ => ?_
      simp
  | .FuncCall name args, a, h => by
    rw [visit]
    split
    · simp
    · split
      · simp
      · simp only [Outcome.bind_eq, Outcome.pure_eq]
        refine Outcome.bind_ne_outOfFuel (visitAll_ne_outOfFuel args a h) fun _ _ => ?_
        simp
  | .BinOp left op_type op_value right, a, h => by
    rw [visit]
    simp only [Outcome.bind_eq, Outcome.pure_eq]
    refine Outcome.bind_ne_outOfFuel (visit_ne_outOfFuel left a h) fun r1 h1 => ?_
    have f1 := scopes_ne_nil_of_frame (visit_frame left a r1.1 r1.2 h1) h
    refine Outcome.bind_ne_outOfFuel (visit_ne_outOfFuel right r1.2 f1) fun _ _ => ?_
    refine Outcome.bind_ne_outOfFuel (binOpType_ne_outOfFuel _ _ _) fun _ _ => ?_
    simp
  | .UnaryOp op_type op_value expr, a, h => by
    rw [visit]
    simp only [Outcome.bind_eq, Outcome.pure_eq]
    refine Outcome.bind_ne_outOfFuel (visit_ne_outOfFuel expr a h) fun _ _ => ?_
    refine Outcome.bind_ne_outOfFuel (unaryOpType_ne_outOfFuel _ _) fun _ _ => ?_
    simp
  | .Literal value lit_type, a, h => by
    rw [visit]
    simp
  | .Identifier name, a, h => by
    rw [visit]
    simp only [Outcome.bind_eq, Outcome.pure_eq]
    refine Outcome.bind_ne_outOfFuel (lookup_var_ne_outOfFuel _ _) fun _ _ => ?_
    simp

theorem visitAll_ne_outOfFuel : ∀ (l : List ASTNode) (a : SemanticAnalyzer), a.scopes ≠ [] →
    visitAll a l ≠ .outOfFuel
  | [], a, h => by
    rw [visitAll]
    simp
  | s :: rest, a, h => by
    rw [visitAll]
    simp only [Outcome.bind_eq]
    refine Outcome.bind_ne_outOfFuel (visit_ne_outOfFuel s a h) fun r hr => ?_
    exact visitAll_ne_outOfFuel rest r.2
      (scopes_ne_nil_of_frame (visit_frame s a r.1 r.2 hr) h)

theorem visitCases_ne_outOfFuel : ∀ (l : List (ASTNode × List ASTNode))
    (a : SemanticAnalyzer), a.scopes ≠ [] → visitCases a l ≠ .outOfFuel
  | [], a, h => by
    rw [visitCases]
    simp
  | (cond, body) :: rest, a, h => by
    rw [visitCases]
    simp only [Outcome.bind_eq]
    refine Outcome.bind_ne_outOfFuel (visit_ne_outOfFuel cond a h) fun r hr => ?_
    have f1 := scopes_ne_nil_of_frame (visit_frame cond a r.1 r.2 hr) h
    split
    · simp
    · refine Outcome.bind_ne_outOfFuel
        (visitAll_ne_outOfFuel body _ (enter_scope_ne_nil r.2)) fun a2 h2 => ?_
      have f2 := (visitAll_frame body _ a2 h2).2.1
      refine visitCases_ne_outOfFuel rest _ ?_
      intro hn
      simp only [exit_scope, enter_scope, List.length_cons] at f2 hn
      have hl : a2.scopes.tail.length = r.2.scopes.length := by
        rw [List.length_tail, f2]
        rfl
      rw [hn] at hl
      exact f1 (List.length_eq_zero.1 hl.symm)

end

/-- The whole `try` block of `main` returns or throws on every source text. -/
theorem analyzeSource_total (source : List Char) : analyzeSource source ≠ .outOfFuel := by
  unfold analyzeSource
  have h1 := parseSource_total source
  split
  · rename_i ast _
    have h2 : analyze SemanticAnalyzer.new ast ≠ .outOfFuel := by
      unfold analyze
      refine Outcome.bind_ne_outOfFuel
        (visit_ne_outOfFuel ast _ (by decide)) fun _ _ => ?_
      simp
    split <;> simp_all
  · simp
  · simp_all

/-! ## Semantic analyzer: functions, redeclaration, reuse -/

theorem grows.reflexive (a : SemanticAnalyzer) : grows a a :=
  ⟨⟨[], by simp⟩, fun top rest h => ⟨[], by simp [h]⟩⟩

theorem grows.chain {a b c : SemanticAnalyzer} (h1 : grows a b) (h2 : grows b c) :
    grows a c := by
  obtain ⟨⟨f1, e1⟩, s1⟩ := h1
  obtain ⟨⟨f2, e2⟩, s2⟩ := h2
  refine ⟨⟨f1 ++ f2, by rw [e2, e1, List.append_assoc]⟩, ?_⟩
  intro top rest h
  obtain ⟨m1, hm1⟩ := s1 top rest h
  obtain ⟨m2, hm2⟩ := s2 _ rest hm1
  exact ⟨m1 ++ m2, by rw [hm2, List.append_assoc]⟩

theorem declare_var_grows {a b : SemanticAnalyzer} {name type : List Char}
    (h : declare_var a name type = .ok b) : grows a b := by
  obtain ⟨top, rest, hs, _, rfl⟩ := declare_var_ok h
  refine ⟨⟨[], by simp⟩, ?_⟩
  intro top2 rest2 h2
  rw [hs] at h2
  cases h2
  exact ⟨_, rfl⟩

theorem declareParams_grows :
    ∀ (params : List (List Char)) (a b : SemanticAnalyzer),
      declareParams a params = .ok b → grows a b
  | [], a, b, h => by
    rw [declareParams] at h
    cases h
    exact grows.reflexive a
  | p :: rest, a, b, h => by
    rw [declareParams] at h
    obtain ⟨a1, h1, h2⟩ := Outcome.bind_eq_ok.1 h
    exact (declare_var_grows h1).chain (declareParams_grows rest a1 b h2)

/-- A block visited between `enter_scope` and `exit_scope` leaves the scopes as they
were and can only add to the function table. -/
theorem grows_of_scoped {a b : SemanticAnalyzer} (h : grows (enter_scope a) b) :
    grows a (exit_scope b) := by
  obtain ⟨⟨f, hf⟩, hs⟩ := h
  obtain ⟨more, hm⟩ := hs [] a.scopes rfl
  refine ⟨⟨f, hf⟩, ?_⟩
  intro top rest h2
  refine ⟨[], ?_⟩
  simp only [exit_scope, hm, List.tail_cons, h2, List.append_nil]

mutual

/-- A completed visit only adds entries at the end of the function table and bindings
at the end of the innermost scope. -/
theorem visit_grows : ∀ (n : ASTNode) (a : SemanticAnalyzer) (t : List Char)
    (b : SemanticAnalyzer), visit a n = .ok (t, b) → grows a b
  | .Program statements, a, t, b, h => by
    rw [visit] at h
    simp only [Outcome.bind_eq, Outcome.pure_eq] at h
    obtain ⟨a1, h1, h2⟩ := Outcome.bind_eq_ok.1 h
    cases h2
    exact visitAll_grows statements a _ h1
  | .VarDecl vartype name expr, a, t, b, h => by
    rw [visit] at h
    simp only [Outcome.bind_eq, Outcome.pure_eq] at h
    obtain ⟨⟨t1, a1⟩, h1, h3⟩ := Outcome.bind_eq_ok.1 h
    obtain ⟨_, _, h4⟩ := Outcome.bind_eq_ok.1 h3
    obtain ⟨a2, h2, h5⟩ := Outcome.bind_eq_ok.1 h4
    cases h5
    exact (visit_grows expr a t1 a1 h1).chain (declare_var_grows h2)
  | .Assign name expr, a, t, b, h => by
    rw [visit] at h
    simp only [Outcome.bind_eq, Outcome.pure_eq] at h
    obtain ⟨s, _, h3⟩ := Outcome.bind_eq_ok.1 h
    obtain ⟨⟨t1, a1⟩, h1, h4⟩ := Outcome.bind_eq_ok.1 h3
    obtain ⟨_, _, h5⟩ := Outcome.bind_eq_ok.1 h4
    cases h5
    exact visit_grows expr a t1 _ h1
  | .Show expr, a, t, b, h => by
    rw [visit] at h
    exact visit_grows expr a t b h
  | .Take name, a, t, b, h => by
    rw [visit] at h
    simp only [Outcome.bind_eq, Outcome.pure_eq] at h
    obtain ⟨s, _, h3⟩ := Outcome.bind_eq_ok.1 h
    cases h3
    exact grows.reflexive a
  | .When cases else_block, a, t, b, h => by
    rw [visit] at h
    simp only [Outcome.bind_eq, Outcome.pure_eq] at h
    obtain ⟨a1, h1, h3⟩ := Outcome.bind_eq_ok.1 h
    have f1 := visitCases_grows cases a a1 h1
    split at h3
    · obtain ⟨a2, h2, h4⟩ := Outcome.bind_eq_ok.1 h3
      cases h4
      exact f1.chain (grows_of_scoped (visitAll_grows else_block _ a2 h2))
    · cases h3
      exact f1
  | .Loop var start_expr end_expr body, a, t, b, h => by
    rw [visit] at h
    simp only [Outcome.bind_eq, Outcome.pure_eq] at h
    obtain ⟨⟨s1, a1⟩, h1, h3⟩ := Outcome.bind_eq_ok.1 h
    obtain ⟨⟨s2, a2⟩, h2, h4⟩ := Outcome.bind_eq_ok.1 h3
    dsimp only at h4
    split at h4
    · cases h4
    · obtain ⟨a3, h5, h6⟩ := Outcome.bind_eq_ok.1 h4
      obtain ⟨a4, h7, h8⟩ := Outcome.bind_eq_ok.1 h6
      cases h8
      have f1 := visit_grows start_expr a s1 a1 h1
      have f2 := visit_grows end_expr a1 s2 a2 h2
      have f3 := declare_var_grows h5
      have f4 := visitAll_grows body _ a4 h7
      have f5 : grows (enter_scope a2) a4 := f3.chain f4
      exact f1.chain (f2.chain (grows_of_scoped (b := { a4 with in_loop := a4.in_loop - 1 }) f5))
  | .Break, a, t, b, h => by
    rw [visit] at h
    split at h
    · cases h
    · cases h
      exact grows.reflexive a
  | .FuncDef name params body back_expr, a, t, b, h => by
    rw [visit] at h
    simp only [Outcome.bind_eq, Outcome.pure_eq] at h
    split at h
    · cases h
    · obtain ⟨a1, h1, h3⟩ := Outcome.bind_eq_ok.1 h
      obtain ⟨a2, h2, h4⟩ := Outcome.bind_eq_ok.1 h3
      obtain ⟨⟨t3, a3⟩, h5, h6⟩ := Outcome.bind_eq_ok.1 h4
      cases h6
      have f1 := declareParams_grows params _ a1 h1
      have f2 := visitAll_grows body _ a2 h2
      have f3 := visit_grows back_expr a2 t3 a3 h5
      have f4 : grows (enter_scope { a with functions := a.functions ++ [(name, ⟨name, params⟩)] })
          a3 := f1.chain (f2.chain f3)
      have f5 := grows_of_scoped (b := { a3 with in_func := a3.in_func - 1 }) f4
      refine grows.chain ⟨⟨[(name, ⟨name, params⟩)], rfl⟩, fun top rest hs => ⟨[], ?_⟩⟩ f5
      simp [hs]
  | .FuncCall name args, a, t, b, h => by
    rw [visit] at h
    split at h
    · cases h
    · split at h
      · cases h
      · simp only [Outcome.bind_eq, Outcome.pure_eq] at h
        obtain ⟨a1, h1, h3⟩ := Outcome.bind_eq_ok.1 h
        cases h3
        exact visitAll_grows args a _ h1
  | .BinOp left op_type op_value right, a, t, b, h => by
    rw [visit] at h
    simp only [Outcome.bind_eq, Outcome.pure_eq] at h
    obtain ⟨⟨lt, a1⟩, h1, h3⟩ := Outcome.bind_eq_ok.1 h
    obtain ⟨⟨rt, a2⟩, h2, h4⟩ := Outcome.bind_eq_ok.1 h3
    obtain ⟨_, _, h5⟩ := Outcome.bind_eq_ok.1 h4
    cases h5
    exact (visit_grows left a lt a1 h1).chain (visit_grows right a1 rt _ h2)
  | .UnaryOp op_type op_value expr, a, t, b, h => by
    rw [visit] at h
    simp only [Outcome.bind_eq, Outcome.pure_eq] at h
    obtain ⟨⟨et, a1⟩, h1, h3⟩ := Outcome.bind_eq_ok.1 h
    obtain ⟨_, _, h5⟩ := Outcome.bind_eq_ok.1 h3
    cases h5
    exact visit_grows expr a et _ h1
  | .Literal value lit_type, a, t, b, h => by
    rw [visit] at h
    cases h
    exact grows.reflexive a
  | .Identifier name, a, t, b, h => by
    rw [visit] at h
    simp only [Outcome.bind_eq, Outcome.pure_eq] at h
    obtain ⟨s, _, h3⟩ := Outcome.bind_eq_ok.1 h
    cases h3
    exact grows.reflexive a

theorem visitAll_grows : ∀ (l : List ASTNode) (a b : SemanticAnalyzer),
    visitAll a l = .ok b → grows a b
  | [], a, b, h => by
    rw [visitAll] at h
    cases h
    exact grows.reflexive a
  | s :: rest, a, b, h => by
    rw [visitAll] at h
    simp only [Outcome.bind_eq] at h
    obtain ⟨⟨t1, a1⟩, h1, h2⟩ := Outcome.bind_eq_ok.1 h
    exact (visit_grows s a t1 a1 h1).chain (visitAll_grows rest a1 b h2)

theorem visitCases_grows : ∀ (l : List (ASTNode × List ASTNode)) (a b : SemanticAnalyzer),
    visitCases a l = .ok b → grows a b
  | [], a, b, h => by
    rw [visitCases] at h
    cases h
    exact grows.reflexive a
  | (cond, body) :: rest, a, b, h => by
    rw [visitCases] at h
    simp only [Outcome.bind_eq] at h
    obtain ⟨⟨ct, a1⟩, h1, h3⟩ := Outcome.bind_eq_ok.1 h
    dsimp only at h3
    split at h3
    · cases h3
    · obtain ⟨a2, h2, h4⟩ := Outcome.bind_eq_ok.1 h3
      have f1 := visit_grows cond a ct a1 h1
      have f2 := grows_of_scoped (visitAll_grows body _ a2 h2)
      exact f1.chain (f2.chain (visitCases_grows rest _ b h4))

end

theorem mapFind_append_some {β : Type} (name : List Char) (v : β) (m2 : List (List Char × β)) :
    ∀ (m : List (List Char × β)), mapFind name m = some v → mapFind name (m ++ m2) = some v
  | [], h => by rw [mapFind] at h; cases h
  | (k, w) :: rest, h => by
    rw [mapFind] at h
    rw [List.cons_append, mapFind]
    split
    · rename_i hk
      rw [if_pos hk] at h
      exact h
    · rename_i hk
      rw [if_neg hk] at h
      exact mapFind_append_some name v m2 rest h

/-- A function entry stays in the table through every completed visit. -/
theorem functions_kept {a b : SemanticAnalyzer} (h : grows a b) {x : List Char}
    {fs : FunctionSymbol} (hf : mapFind x a.functions = some fs) :
    mapFind x b.functions = some fs := by
  obtain ⟨⟨f, e⟩, _⟩ := h
  rw [e]
  exact mapFind_append_some x fs f _ hf

/-- A binding of the innermost scope stays visible through every completed visit. -/
theorem binding_kept {a b : SemanticAnalyzer} (h : grows a b) {x : List Char} {s : Symbol}
    {top : List (List Char × Symbol)} {rest : List (List (List Char × Symbol))}
    (hs : a.scopes = top :: rest) (hf : mapFind x top = some s) :
    lookup_var b x = .ok s := by
  obtain ⟨_, g⟩ := h
  obtain ⟨more, hm⟩ := g top rest hs
  unfold lookup_var lookupScopes
  rw [hm]
  simp only [mapFind_append_some x s more top hf]
theorem visitAll_append (l2 : List ASTNode) : ∀ (l1 : List ASTNode) (a : SemanticAnalyzer),
    visitAll a (l1 ++ l2) = (visitAll a l1).bind fun a1 => visitAll a1 l2
  | [], a => by rw [List.nil_append, visitAll, Outcome.bind_ok]
  | s :: rest, a => by
    rw [List.cons_append, visitAll, visitAll]
    simp only [Outcome.bind_eq]
    cases h : visit a s with
    | ok r => simp only [Outcome.bind_ok]; exact visitAll_append l2 rest r.2
    | error e => simp only [Outcome.bind_error]
    | outOfFuel => simp only [Outcome.bind_outOfFuel]

/-- What `visit_FuncDef` leaves in the function table when it completes: the entry of
the defined function, with the parameters of the definition. -/
theorem func_def_registers {a b : SemanticAnalyzer} {name : List Char}
    {params : List (List Char)} {body : List ASTNode} {back_expr : ASTNode} {t : List Char}
    (h : visit a (.FuncDef name params body back_expr) = .ok (t, b)) :
    mapFind name b.functions = some ⟨name, params⟩ := by
  rw [visit] at h
  simp only [Outcome.bind_eq, Outcome.pure_eq] at h
  split at h
  · cases h
  · rename_i hn
    obtain ⟨a1, h1, h3⟩ := Outcome.bind_eq_ok.1 h
    obtain ⟨a2, h2, h4⟩ := Outcome.bind_eq_ok.1 h3
    obtain ⟨⟨t3, a3⟩, h5, h6⟩ := Outcome.bind_eq_ok.1 h4
    cases h6
    have g : grows (enter_scope { a with functions := a.functions ++ [(name, ⟨name, params⟩)] })
        a3 :=
      (declareParams_grows params _ a1 h1).chain
        ((visitAll_grows body _ a2 h2).chain (visit_grows back_expr a2 t3 a3 h5))
    have hnone : mapFind name a.functions = none := by
      cases hm : mapFind name a.functions with
      | none => rfl
      | some s => rw [hm] at hn; exact absurd rfl hn
    exact functions_kept (b := a3) g (mapFind_append_new name _ a.functions hnone)

/-- The outcome of `visit_FuncCall` on a name of the function table whose arguments are
visited without error. -/
theorem func_call_eq {a a1 : SemanticAnalyzer} {name : List Char} {args : List ASTNode}
    {fs : FunctionSymbol} (hf : mapFind name a.functions = some fs)
    (ha : visitAll a args = .ok a1) :
    visit a (.FuncCall name args) =
      if args.length = fs.params.length then .ok ("num".toList, a1)
      else .error (.wrongArgumentCount name) := by
  rw [visit]
  simp only [hf]
  by_cases hk : args.length = fs.params.length
  · rw [if_neg (fun h => h hk.symm), if_pos hk]
    simp only [Outcome.bind_eq, Outcome.pure_eq, ha, Outcome.bind_ok]
  · rw [if_pos (fun h => hk h.symm), if_neg hk]

/-- C21: after a completed visit of the definition of a function `name` with the
parameter list `params`, and after any statements visited without error since, a call
of `name` whose arguments are visited without error succeeds, with the type `num`, when
the number of arguments is the number of parameters, and raises "Function 'name' called
with incorrect number of arguments" when it is not; so the call succeeds if and only if
the two numbers are equal.  A call of a name that is not in the function table raises
"Call to undeclared function 'name'". -/
theorem func_call_arity (a b c a1 : SemanticAnalyzer) (name : List Char)
    (params : List (List Char)) (body : List ASTNode) (back_expr : ASTNode) (t : List Char)
    (between args : List ASTNode)
    (hd : visit a (.FuncDef name params body back_expr) = .ok (t, b))
    (hb : visitAll b between = .ok c)
    (ha : visitAll c args = .ok a1) :
    (visit c (.FuncCall name args) =
        if args.length = params.length then .ok ("num".toList, a1)
        else .error (.wrongArgumentCount name)) ∧
      ((∃ r, visit c (.FuncCall name args) = .ok r) ↔ args.length = params.length) ∧
      ∀ (other : List Char) (args2 : List ASTNode), mapFind other c.functions = none →
        visit c (.FuncCall other args2) = .error (.undeclaredFunction other) := by
  have hf : mapFind name c.functions = some ⟨name, params⟩ :=
    functions_kept (visitAll_grows between b c hb) (func_def_registers hd)
  have e := func_call_eq hf ha
  dsimp only at e
  refine ⟨e, ?_, ?_⟩
  · rw [e]
    by_cases hk : args.length = params.length
    · simp only [hk, if_true, iff_true]
      exact ⟨_, rfl⟩
    · simp only [hk, if_false, iff_false]
      rintro ⟨r, hr⟩
      cases hr
  · intro other args2 ho
    rw [visit]
    simp only [ho]

/-- Witness of C21: the definition `func f(a,b){ back a }` visited by a fresh analyzer,
then the calls `f(1)` and `f(1,2)`; and the analysis of the two sources and of a call of
an undefined function. -/
theorem func_call_arity_witness :
    (visit ⟨[[]], [("f".toList, ⟨"f".toList, ["a".toList, "b".toList]⟩)], 0, 0⟩
        (.FuncCall "f".toList [.Literal "1".toList "num".toList]) =
        .error (.wrongArgumentCount "f".toList)) ∧
      (visit ⟨[[]], [("f".toList, ⟨"f".toList, ["a".toList, "b".toList]⟩)], 0, 0⟩
        (.FuncCall "f".toList
          [.Literal "1".toList "num".toList, .Literal "2".toList "num".toList]) =
        .ok ("num".toList,
          ⟨[[]], [("f".toList, ⟨"f".toList, ["a".toList, "b".toList]⟩)], 0, 0⟩)) ∧
      analyzeSource "start func f(a,b){ back a } f(1) end".toList =
        .error (.semantic (.wrongArgumentCount "f".toList)) ∧
      analyzeSource "start func f(a,b){ back a } f(1,2) end".toList =
        .ok ⟨[[]], [("f".toList, ⟨"f".toList, ["a".toList, "b".toList]⟩)], 0, 0⟩ ∧
      analyzeSource "start g(1) end".toList =
        .error (.semantic (.undeclaredFunction "g".toList)) :=
  ⟨(func_call_arity SemanticAnalyzer.new
      ⟨[[]], [("f".toList, ⟨"f".toList, ["a".toList, "b".toList]⟩)], 0, 0⟩
      ⟨[[]], [("f".toList, ⟨"f".toList, ["a".toList, "b".toList]⟩)], 0, 0⟩
      ⟨[[]], [("f".toList, ⟨"f".toList, ["a".toList, "b".toList]⟩)], 0, 0⟩
      "f".toList ["a".toList, "b".toList] [] (.Identifier "a".toList) [] []
      [.Literal "1".toList "num".toList] (by decide) (by decide) (by decide)).1,
    (func_call_arity SemanticAnalyzer.new
      ⟨[[]], [("f".toList, ⟨"f".toList, ["a".toList, "b".toList]⟩)], 0, 0⟩
      ⟨[[]], [("f".toList, ⟨"f".toList, ["a".toList, "b".toList]⟩)], 0, 0⟩
      ⟨[[]], [("f".toList, ⟨"f".toList, ["a".toList, "b".toList]⟩)], 0, 0⟩
      "f".toList ["a".toList, "b".toList] [] (.Identifier "a".toList) [] []
      [.Literal "1".toList "num".toList, .Literal "2".toList "num".toList]
      (by decide) (by decide) (by decide)).1,
    by decide!, by decide!, by decide!⟩
/-- C22: for a declaration of `name` whose initializer is an expression node to which
the analyzer gives a type that matches the declared type, visited with `top` as the
innermost scope and `rest` as the scopes around it: the visit raises "Redeclaration of
variable 'name'" if and only if `name` is bound in `top`, whatever `rest` binds.  When
`name` is not bound in `top` the visit succeeds and adds the binding to `top`; after any
statements visited without error since, a lookup of `name` finds the new binding, not
one of `rest`; and once the innermost scope is left, a lookup of `name` gives what the
scopes `rest` give. -/
theorem var_decl_redeclaration (a a1 : SemanticAnalyzer) (vartype name : List Char)
    (expr : ASTNode) (t : List Char) (top : List (List Char × Symbol))
    (rest : List (List (List Char × Symbol)))
    (hx : isExpr expr = true) (he : visit a expr = .ok (t, a1))
    (hm : initializerMatches vartype t) (hs : a.scopes = top :: rest) :
    (visit a (.VarDecl vartype name expr) = .error (.redeclaredVariable name) ↔
        (mapFind name top).isSome = true) ∧
      (mapFind name top = none →
        visit a (.VarDecl vartype name expr) =
            .ok (vartype, { a with scopes := (top ++ [(name, ⟨name, vartype⟩)]) :: rest }) ∧
          ∀ (later : List ASTNode) (c : SemanticAnalyzer),
            visitAll { a with scopes := (top ++ [(name, ⟨name, vartype⟩)]) :: rest } later =
                .ok c →
              lookup_var c name = .ok ⟨name, vartype⟩ ∧
                lookup_var (exit_scope c) name = lookup_var { a with scopes := rest } name) := by
  have e1 := visit_expr_state expr a t a1 hx he
  rw [e1] at he
  have hv : visit a (.VarDecl vartype name expr) =
      (declare_var a name vartype).bind fun a2 => .ok (vartype, a2) := by
    rw [visit]
    simp only [Outcome.bind_eq, Outcome.pure_eq, he, Outcome.bind_ok, checkDeclared_ok hm]
  constructor
  · rw [hv]
    unfold declare_var
    simp only [hs]
    by_cases hb : (mapFind name top).isSome = true
    · simp only [hb, if_true, Outcome.bind_error]
    · simp only [hb, Bool.false_eq_true, if_false, Outcome.bind_ok, iff_false]
      intro h
      cases h
  · intro hf
    constructor
    · rw [hv]
      unfold declare_var
      simp only [hs, hf, Option.isSome_none, Bool.false_eq_true, if_false, Outcome.bind_ok]
    · intro later c hc
      have g := visitAll_grows later _ c hc
      constructor
      · exact binding_kept g rfl (mapFind_append_new name _ top hf)
      · obtain ⟨more, hmore⟩ := g.2 _ rest rfl
        unfold lookup_var exit_scope
        simp only [hmore, List.tail_cons]

/-- Witness of C22: `text x = "a"` visited in an empty innermost scope inside a scope
that binds `x` to `num`, followed by `x = "b"`; and the analysis of the two sources of
the claim. -/
theorem var_decl_redeclaration_witness :
    (visit ⟨[[], [("x".toList, ⟨"x".toList, "num".toList⟩)]], [], 0, 0⟩
          (.VarDecl "text".toList "x".toList (.Literal "a".toList "text".toList)) =
        .ok ("text".toList,
          ⟨[[("x".toList, ⟨"x".toList, "text".toList⟩)],
            [("x".toList, ⟨"x".toList, "num".toList⟩)]], [], 0, 0⟩)) ∧
      analyzeSource "start num x = 1 num x = 2 end".toList =
        .error (.semantic (.redeclaredVariable "x".toList)) ∧
      analyzeSource "start num x = 1 when true \x7b text x = \"a\" x = \"b\" \x7d end".toList =
        .ok ⟨[[("x".toList, ⟨"x".toList, "num".toList⟩)]], [], 0, 0⟩ :=
  ⟨((var_decl_redeclaration ⟨[[], [("x".toList, ⟨"x".toList, "num".toList⟩)]], [], 0, 0⟩
      ⟨[[], [("x".toList, ⟨"x".toList, "num".toList⟩)]], [], 0, 0⟩
      "text".toList "x".toList (.Literal "a".toList "text".toList) "text".toList []
      [[("x".toList, ⟨"x".toList, "num".toList⟩)]] (by decide) (by decide)
      (Or.inr (Or.inl ⟨rfl, rfl⟩)) rfl).2 rfl).1,
    by decide!, by decide!⟩

/-- C23: a call of a function of the table with as many arguments as the function has
parameters, whose arguments are visited without error, succeeds and has the type `num`:
neither the types of the arguments nor the type of the `back` expression of the
function, which the table does not hold, are looked at.  And whenever the visit of a
call succeeds, the type it returns is `num`. -/
theorem func_call_type (a a1 : SemanticAnalyzer) (name : List Char) (args : List ASTNode)
    (fs : FunctionSymbol) (hf : mapFind name a.functions = some fs)
    (hn : args.length = fs.params.length) (ha : visitAll a args = .ok a1) :
    visit a (.FuncCall name args) = .ok ("num".toList, a1) ∧
      ∀ (a0 b : SemanticAnalyzer) (other : List Char) (args2 : List ASTNode) (t : List Char),
        visit a0 (.FuncCall other args2) = .ok (t, b) → t = "num".toList := by
  constructor
  · rw [func_call_eq hf ha, if_pos hn]
  · intro a0 b other args2 t h
    rw [visit] at h
    split at h
    · cases h
    · split at h
      · cases h
      · simp only [Outcome.bind_eq, Outcome.pure_eq] at h
        obtain ⟨a2, _, h3⟩ := Outcome.bind_eq_ok.1 h
        cases h3
        rfl

/-- Witness of C23: the call `g("a", true)` of a function of two parameters, and the
analysis of the sources of the claim. -/
theorem func_call_type_witness :
    (visit ⟨[[]], [("g".toList, ⟨"g".toList, ["a".toList, "b".toList]⟩)], 0, 0⟩
          (.FuncCall "g".toList
            [.Literal "a".toList "text".toList, .Literal "true".toList "bool".toList]) =
        .ok ("num".toList,
          ⟨[[]], [("g".toList, ⟨"g".toList, ["a".toList, "b".toList]⟩)], 0, 0⟩)) ∧
      analyzeSource "start func f() \x7b back \"a\" \x7d num n = f() end".toList =
        .ok ⟨[[("n".toList, ⟨"n".toList, "num".toList⟩)]],
          [("f".toList, ⟨"f".toList, []⟩)], 0, 0⟩ ∧
      analyzeSource "start func f() \x7b back \"a\" \x7d text s = f() end".toList =
        .error (.semantic (.typeMismatchExpected "text".toList)) ∧
      analyzeSource "start func g(a,b) \x7b back a \x7d show g(\"a\", true) end".toList =
        .ok ⟨[[]], [("g".toList, ⟨"g".toList, ["a".toList, "b".toList]⟩)], 0, 0⟩ :=
  ⟨(func_call_type ⟨[[]], [("g".toList, ⟨"g".toList, ["a".toList, "b".toList]⟩)], 0, 0⟩
      ⟨[[]], [("g".toList, ⟨"g".toList, ["a".toList, "b".toList]⟩)], 0, 0⟩
      "g".toList [.Literal "a".toList "text".toList, .Literal "true".toList "bool".toList]
      ⟨"g".toList, ["a".toList, "b".toList]⟩ (by decide) (by decide) (by decide)).1,
    by decide!, by decide!, by decide!⟩

/-- C24 fails on the code: the scopes and the function table are data members of the
analyzer, `analyze` only calls `visit`, and `visit_Program` opens no scope.  After the
analysis of `num x = 1` by a fresh analyzer, the same analyzer rejects the same program
as a redeclaration, which a fresh analyzer accepts, and accepts `show x`, which a fresh
analyzer rejects. -/
theorem analyze_reuse_counterexample :
    analyze SemanticAnalyzer.new
          (.Program [.VarDecl "num".toList "x".toList (.Literal "1".toList "num".toList)]) =
        .ok ⟨[[("x".toList, ⟨"x".toList, "num".toList⟩)]], [], 0, 0⟩ ∧
      analyze ⟨[[("x".toList, ⟨"x".toList, "num".toList⟩)]], [], 0, 0⟩
          (.Program [.VarDecl "num".toList "x".toList (.Literal "1".toList "num".toList)]) =
        .error (.redeclaredVariable "x".toList) ∧
      analyze ⟨[[("x".toList, ⟨"x".toList, "num".toList⟩)]], [], 0, 0⟩
          (.Program [.Show (.Identifier "x".toList)]) =
        .ok ⟨[[("x".toList, ⟨"x".toList, "num".toList⟩)]], [], 0, 0⟩ ∧
      analyze SemanticAnalyzer.new (.Program [.Show (.Identifier "x".toList)]) =
        .error (.undeclaredVariable "x".toList) := by
  decide

/-- C24, amended: an analyzer on which `analyze` has completed for the program `P`
keeps the global scope and the function table that `P` left, with one scope and both
depth counters at zero as in a fresh analyzer; calling `analyze` on the program `Q`
with it gives the outcome that a fresh analyzer gives on the program made of the
statements of `P` followed by those of `Q`. -/
theorem analyze_reuse (ps qs : List ASTNode) (b : SemanticAnalyzer)
    (hp : analyze SemanticAnalyzer.new (.Program ps) = .ok b) :
    analyze b (.Program qs) = analyze SemanticAnalyzer.new (.Program (ps ++ qs)) ∧
      b.scopes.length = 1 ∧ b.in_loop = 0 ∧ b.in_func = 0 := by
  unfold analyze at hp
  obtain ⟨⟨t, b1⟩, h1, h2⟩ := Outcome.bind_eq_ok.1 hp
  cases h2
  have hf := visit_frame _ _ _ _ h1
  rw [visit] at h1
  simp only [Outcome.bind_eq, Outcome.pure_eq] at h1
  obtain ⟨b2, h3, h4⟩ := Outcome.bind_eq_ok.1 h1
  cases h4
  refine ⟨?_, hf.2.1, hf.2.2.1, hf.2.2.2⟩
  unfold analyze
  rw [visit, visit]
  simp only [Outcome.bind_eq, Outcome.pure_eq, visitAll_append, h3, Outcome.bind_ok]

/-- Witness of C24, amended: `num x = 1` followed by `show x` on the same analyzer. -/
theorem analyze_reuse_witness :
    analyze ⟨[[("x".toList, ⟨"x".toList, "num".toList⟩)]], [], 0, 0⟩
        (.Program [.Show (.Identifier "x".toList)]) =
      analyze SemanticAnalyzer.new
        (.Program ([.VarDecl "num".toList "x".toList (.Literal "1".toList "num".toList)] ++
          [.Show (.Identifier "x".toList)])) :=
  (analyze_reuse [.VarDecl "num".toList "x".toList (.Literal "1".toList "num".toList)]
    [.Show (.Identifier "x".toList)]
    ⟨[[("x".toList, ⟨"x".toList, "num".toList⟩)]], [], 0, 0⟩ (by decide)).1

/-- C25 fails on the code for the operator tags other than MINUS: `visit_UnaryOp` tests
only `op_type == TokenType::MINUS` and no `throw` follows that test, where its sibling
`visit_BinOp` ends with `throw SemanticError("Unknown binary op")`; so a `UnaryOp` node
with any other tag whose operand is visited without error raises no error and gets the
type of its operand, as the node tagged PLUS over a `text` literal does, while a
`BinOp` node tagged ASSIGN is rejected.  For the tag MINUS the code does what the claim
says: `num` on a `num` operand, "Unary minus on non-num" on any other operand. -/
theorem unary_op_non_minus_accepted :
    (∀ (a a1 : SemanticAnalyzer) (value : List Char) (expr : ASTNode) (et : List Char),
      visit a expr = .ok (et, a1) →
        (et = "num".toList →
          visit a (.UnaryOp .MINUS value expr) = .ok ("num".toList, a1)) ∧
        (et ≠ "num".toList →
          visit a (.UnaryOp .MINUS value expr) = .error .unaryMinusNonNum)) ∧
      (∀ (a a1 : SemanticAnalyzer) (op : TokenType) (value : List Char) (expr : ASTNode)
          (et : List Char), op ≠ .MINUS → visit a expr = .ok (et, a1) →
        visit a (.UnaryOp op value expr) = .ok (et, a1)) ∧
      visit SemanticAnalyzer.new
          (.UnaryOp .PLUS "+".toList (.Literal "a".toList "text".toList)) =
        .ok ("text".toList, SemanticAnalyzer.new) ∧
      visit SemanticAnalyzer.new (.BinOp (.Literal "1".toList "num".toList) .ASSIGN
          "=".toList (.Literal "2".toList "num".toList)) = .error .unknownBinaryOp ∧
      analyzeSource "start show -\"a\" end".toList = .error (.semantic .unaryMinusNonNum) := by
  have hv : ∀ (a a1 : SemanticAnalyzer) (op : TokenType) (value : List Char) (expr : ASTNode)
      (et : List Char), visit a expr = .ok (et, a1) →
      visit a (.UnaryOp op value expr) = (unaryOpType op et).bind fun t => .ok (t, a1) := by
    intro a a1 op value expr et he
    rw [visit]
    simp only [Outcome.bind_eq, Outcome.pure_eq, he, Outcome.bind_ok]
  refine ⟨?_, ?_, by decide, by decide, by decide!⟩
  · intro a a1 value expr et he
    rw [hv a a1 .MINUS value expr et he]
    unfold unaryOpType
    constructor
    · intro h2
      rw [if_pos rfl, if_pos h2, Outcome.bind_ok]
    · intro h2
      rw [if_pos rfl, if_neg h2, Outcome.bind_error]
  · intro a a1 op value expr et h1 he
    rw [hv a a1 op value expr et he]
    unfold unaryOpType
    rw [if_neg h1, Outcome.bind_ok]

/-! ## Lexer: blank texts and termination -/

theorem isBlankFrom_comment : ∀ (cs : List Char), isBlankFrom true cs = true →
    isBlankFrom false (cs.dropWhile fun c => decide (c ≠ '\n')) = true
  | [], _ => rfl
  | c :: cs, h => by
    rw [isBlankFrom] at h
    by_cases hc : c = '\n'
    · rw [if_pos hc] at h
      rw [List.dropWhile_cons_of_neg (by simpa using hc), isBlankFrom,
        if_pos (Or.inr (Or.inr (Or.inr hc)))]
      exact h
    · rw [if_neg hc] at h
      rw [List.dropWhile_cons_of_pos (by simpa using hc)]
      exact isBlankFrom_comment cs h

theorem dropWhile_newline : ∀ (cs : List Char),
    (cs.dropWhile fun c => decide (c ≠ '\n')) = [] ∨
      ∃ r, (cs.dropWhile fun c => decide (c ≠ '\n')) = '\n' :: r
  | [] => Or.inl rfl
  | c :: cs => by
    by_cases hc : c = '\n'
    · rw [List.dropWhile_cons_of_neg (by simpa using hc)]
      exact Or.inr ⟨cs, by rw [hc]⟩
    · rw [List.dropWhile_cons_of_pos (by simpa using hc)]
      exact dropWhile_newline cs

theorem mem_of_mem_parts (cs : List Char) (d : Char) :
    (d ∈ cs.takeWhile (fun c => decide (c ≠ '\n')) → d ∈ cs) ∧
      (d ∈ cs.dropWhile (fun c => decide (c ≠ '\n')) → d ∈ cs) := by
  have h := List.takeWhile_append_dropWhile (fun c => decide (c ≠ '\n')) cs
  constructor
  · intro hd
    rw [← h]
    exact List.mem_append_left _ hd
  · intro hd
    rw [← h]
    exact List.mem_append_right _ hd

/-- From a state that the main loop reaches without having emitted a token, with a
blank rest that holds no NUL, `tokenize` returns the end-of-input token alone. -/
theorem tokenize_blank_from (text : List Char) : ∀ (n : Nat) (lx : Lexer),
    lx.rest.length ≤ n → Reaches text lx [] → isBlankFrom false lx.rest = true →
    '\x00' ∉ lx.rest →
    tokenize text = .ok [⟨.EOF_T, [], (endPos (1, 1) text).1, (endPos (1, 1) text).2⟩] := by
  intro n
  induction n with
  | zero =>
    intro lx hn hre _ _
    have hr : lx.rest = [] := List.length_eq_zero.1 (Nat.le_zero.1 hn)
    have hpos : ¬ lx.pos < lx.text.length := by
      intro hp
      obtain ⟨r, e⟩ := Lexer.rest_ne_nil_of_pos_lt hp
      rw [hr] at e
      cases e
    have he := (reaches_inv hre).1.at_end hpos
    rw [(tokenize_of_reaches_end hre hpos).1, ← he]
    rfl
  | succ n ih =>
    intro lx hn hre hb h0
    cases hr : lx.rest with
    | nil =>
      have hpos : ¬ lx.pos < lx.text.length := by
        intro hp
        obtain ⟨r, e⟩ := Lexer.rest_ne_nil_of_pos_lt hp
        rw [hr] at e
        cases e
      have he := (reaches_inv hre).1.at_end hpos
      rw [(tokenize_of_reaches_end hre hpos).1, ← he]
      rfl
    | cons c cs =>
      rw [hr] at hb h0 hn
      have hpos := Lexer.pos_lt_of_rest_cons hr
      rw [isBlankFrom] at hb
      by_cases hw : c = ' ' ∨ c = '\t' ∨ c = '\r' ∨ c = '\n'
      · rw [if_pos hw] at hb
        have hst := scanToken_space hr hw
        have hrest : (lx.move [c]).rest = cs := Lexer.rest_advance hr
        apply ih (lx.move [c]) _ (Reaches.skip hre hpos hst)
        · rw [hrest]; exact hb
        · rw [hrest]; exact fun h => h0 (List.mem_cons_of_mem _ h)
        · rw [hrest]; simp at hn; omega
      · rw [if_neg hw] at hb
        by_cases hc : c = '#'
        · rw [if_pos hc] at hb
          subst hc
          have hsplit : lx.rest = '#' :: (cs.takeWhile (fun c => decide (c ≠ '\n')) ++
              cs.dropWhile (fun c => decide (c ≠ '\n'))) := by
            rw [List.takeWhile_append_dropWhile]; exact hr
          have hw1 : ∀ d ∈ cs.takeWhile (fun c => decide (c ≠ '\n')),
              d ≠ '\n' ∧ d ≠ '\x00' := by
            intro d hd
            constructor
            · simpa using List.mem_takeWhile_imp hd
            · rintro rfl
              exact h0 (List.mem_cons_of_mem _ ((mem_of_mem_parts cs _).1 hd))
          have hstop : ¬ ((cs.dropWhile (fun c => decide (c ≠ '\n'))).headD '\x00' ≠ '\n' ∧
              (cs.dropWhile (fun c => decide (c ≠ '\n'))).headD '\x00' ≠ '\x00') := by
            intro hh
            rcases dropWhile_newline cs with e | ⟨r, e⟩
            · rw [e] at hh
              exact hh.2 rfl
            · rw [e] at hh
              exact hh.1 rfl
          have hst := scanToken_comment hsplit hw1 hstop
          have hrest : (lx.move ('#' :: cs.takeWhile (fun c => decide (c ≠ '\n')))).rest =
              cs.dropWhile (fun c => decide (c ≠ '\n')) :=
            Lexer.rest_move (by rw [hsplit]; rfl)
          apply ih _ _ (Reaches.skip hre hpos hst)
          · rw [hrest]; exact isBlankFrom_comment cs hb
          · rw [hrest]
            exact fun h => h0 (List.mem_cons_of_mem _ ((mem_of_mem_parts cs _).2 h))
          · rw [hrest]
            have h1 := congrArg List.length
              (List.takeWhile_append_dropWhile (fun c => decide (c ≠ '\n')) cs)
            rw [List.length_append] at h1
            simp at hn
            omega
        · rw [if_neg hc] at hb
          cases hb

/-- C26 fails on the code: the comment loop stops at a NUL character, which
`Lexer::peek` also returns at the end of the text, and the main loop then has no rule
for the NUL.  The text made of `#` and a NUL is one line comment, and `tokenize`
rejects it. -/
theorem tokenize_blank_counterexample :
    isBlank ['#', '\x00'] = true ∧
      tokenize ['#', '\x00'] = .error (.unexpectedCharacter '\x00') := by
  decide

/-- C26, amended: for a text made only of spaces, tabs, carriage returns, newlines and
line comments, in which no NUL character occurs, `tokenize` succeeds and returns
exactly one token, the end-of-input token, at the line and column reached at the end
of the text. -/
theorem tokenize_blank (text : List Char) (hb : isBlank text = true)
    (h0 : '\x00' ∉ text) :
    tokenize text = .ok [⟨.EOF_T, [], (endPos (1, 1) text).1, (endPos (1, 1) text).2⟩] :=
  tokenize_blank_from text text.length (Lexer.new text) (by rw [Lexer.rest_new])
    Reaches.start (by rw [Lexer.rest_new]; exact hb) (by rw [Lexer.rest_new]; exact h0)

/-- Witness of C26, amended: two lines, each with a comment. -/
theorem tokenize_blank_witness :
    tokenize " # a \"b\n\t#@ \r\n".toList = .ok [⟨.EOF_T, [], 3, 1⟩] :=
  tokenize_blank " # a \"b\n\t#@ \r\n".toList (by decide) (by decide)

/-- C27: `tokenize` terminates on every text: the main loop, which the model runs at
most `text.size() + 1` times, never runs out of iterations.  Every iteration entered
with `pos < text.size()` either raises a lexical error or ends, the inner loops
included, with `pos` strictly greater than before and at most the length of the text,
which it leaves as it is.  When a NUL follows the characters of a comment, the
iteration of the comment ends with the cursor on the NUL, which it does not consume,
and the iteration that follows raises "Unexpected character". -/
theorem tokenize_terminates (text : List Char) :
    tokenize text ≠ .outOfFuel ∧
      (∀ lx : Lexer, lx.pos < lx.text.length →
        (∃ e, scanToken lx = .error e) ∨
          ∃ lx1 t, scanToken lx = .ok (lx1, t) ∧ lx.pos < lx1.pos ∧
            lx1.pos ≤ lx1.text.length ∧ lx1.text = lx.text) ∧
      ∀ (lx : Lexer) (w r : List Char), lx.rest = '#' :: (w ++ '\x00' :: r) →
        (∀ c ∈ w, c ≠ '\n' ∧ c ≠ '\x00') →
        scanToken lx = .ok (lx.move ('#' :: w), none) ∧
          (lx.move ('#' :: w)).rest = '\x00' :: r ∧
          (lx.move ('#' :: w)).pos < (lx.move ('#' :: w)).text.length ∧
          scanToken (lx.move ('#' :: w)) = .error (.unexpectedCharacter '\x00') := by
  refine ⟨tokenize_total text, ?_, ?_⟩
  · intro lx hpos
    rcases scanToken_shape lx hpos with he | ⟨w, r, t, hw, hr, hs, -⟩
    · exact Or.inl he
    · refine Or.inr ⟨lx.move w, t, hs, ?_, ?_, rfl⟩
      · have := List.length_pos.2 hw
        simp only [Lexer.move_pos]
        omega
      · have h1 := congrArg List.length hr
        unfold Lexer.rest at h1
        rw [List.length_drop, List.length_append] at h1
        simp only [Lexer.move_pos, Lexer.move_text]
        omega
  · intro lx w r hr hw
    have hst := scanToken_comment (r := '\x00' :: r) hr hw (by simp)
    have hrest : (lx.move ('#' :: w)).rest = '\x00' :: r :=
      Lexer.rest_move (by rw [hr]; rfl)
    refine ⟨hst, hrest, Lexer.pos_lt_of_rest_cons hrest, ?_⟩
    exact scanToken_unexpected hrest (by unfold unexpectedChar; decide)
      ⟨Lexer.startsWith_eq_false hrest (Or.inl (by decide)),
        Lexer.startsWith_eq_false hrest (Or.inl (by decide)),
        Lexer.startsWith_eq_false hrest (Or.inl (by decide)),
        Lexer.startsWith_eq_false hrest (Or.inl (by decide))⟩

/-- Witness of C27: the text `#a`, a NUL and `b`.  The first iteration moves the cursor
from 0 to 2, onto the NUL, and the second raises. -/
theorem tokenize_terminates_witness :
    scanToken (Lexer.new ['#', 'a', '\x00', 'b']) =
        .ok ((Lexer.new ['#', 'a', '\x00', 'b']).move ['#', 'a'], none) ∧
      ((Lexer.new ['#', 'a', '\x00', 'b']).move ['#', 'a']).pos = 2 ∧
      scanToken ((Lexer.new ['#', 'a', '\x00', 'b']).move ['#', 'a']) =
        .error (.unexpectedCharacter '\x00') ∧
      tokenize ['#', 'a', '\x00', 'b'] = .error (.unexpectedCharacter '\x00') :=
  ⟨((tokenize_terminates ['#', 'a', '\x00', 'b']).2.2 (Lexer.new ['#', 'a', '\x00', 'b'])
      ['a'] ['b'] rfl (by decide)).1,
    rfl,
    ((tokenize_terminates ['#', 'a', '\x00', 'b']).2.2 (Lexer.new ['#', 'a', '\x00', 'b'])
      ['a'] ['b'] rfl (by decide)).2.2.2,
    by decide⟩

/-! ## The shape of the trees that the parser returns -/

theorem kwFind_pair {key : List Char} {tt : TokenType} :
    ∀ {tbl : List (List Char × TokenType)}, kwFind key tbl = some tt → (key, tt) ∈ tbl := by
  intro tbl
  induction tbl with
  | nil => intro h; cases h
  | cons kt rest ih =>
    obtain ⟨k, t⟩ := kt
    intro h
    rw [kwFind] at h
    split at h
    · rename_i hk
      cases h
      rw [hk]
      exact List.mem_cons_self _ _
    · exact List.mem_cons_of_mem _ (ih h)

theorem wordToken_typeWord (id : List Char) (l c : Nat) : typeWordOk (wordToken id l c) := by
  cases h : kwFind (id.map Char.toLower) kw with
  | none =>
    have e : wordToken id l c = ⟨.IDENT, id, l, c⟩ := by
      unfold wordToken
      simp only [h]
    rw [e]
    intro ht
    simp at ht
  | some tt =>
    have hm := kwFind_pair h
    have key : tt = .NUM ∨ tt = .TEXT ∨ tt = .FLAG → id.map Char.toLower ∈ typeNames := by
      intro ht
      simp only [kw, List.mem_cons, Prod.mk.injEq, List.mem_singleton, List.not_mem_nil,
        or_false] at hm
      rcases hm with hm | hm | hm | hm | hm | hm | hm | hm | hm | hm | hm | hm | hm | hm |
        hm | hm | hm <;> obtain ⟨e1, e2⟩ := hm <;> subst e2 <;>
        first
          | (rw [e1]; decide)
          | (exfalso; revert ht; decide)
    by_cases hb : tt = .BOOL
    · have e : wordToken id l c = ⟨.BOOL, id.map Char.toLower, l, c⟩ := by
        unfold wordToken
        simp only [h, hb, if_true]
      rw [e]
      intro ht
      simp at ht
    · have e : wordToken id l c = ⟨tt, id.map Char.toLower, l, c⟩ := by
        unfold wordToken
        simp only [h, hb, if_false]
      rw [e]
      exact key

theorem scanToken_typeWord {lx lx1 : Lexer} {t : Token}
    (h : scanToken lx = .ok (lx1, some t)) : typeWordOk t := by
  unfold scanToken at h
  dsimp only at h
  by_cases c1 : lx.peek = ' ' ∨ lx.peek = '\t' ∨ lx.peek = '\r'
  · rw [if_pos c1] at h
    cases h
  rw [if_neg c1] at h
  by_cases c2 : lx.peek = '\n'
  · rw [if_pos c2] at h
    cases h
  rw [if_neg c2] at h
  by_cases c3 : lx.peek = '#'
  · rw [if_pos c3] at h
    obtain ⟨x, _, h2⟩ := Outcome.bind_eq_ok.1 h
    cases h2
  rw [if_neg c3] at h
  by_cases c4 : lx.peek.isDigit = true
  · rw [if_pos c4] at h
    obtain ⟨x, _, h2⟩ := Outcome.bind_eq_ok.1 h
    cases h2
    intro ht
    simp at ht
  rw [if_neg c4] at h
  by_cases c5 : lx.peek.isAlpha = true ∨ lx.peek = '_'
  · rw [if_pos c5] at h
    obtain ⟨x, _, h2⟩ := Outcome.bind_eq_ok.1 h
    cases h2
    exact wordToken_typeWord _ _ _
  rw [if_neg c5] at h
  by_cases c6 : lx.peek = '"'
  · rw [if_pos c6] at h
    obtain ⟨x, _, h2⟩ := Outcome.bind_eq_ok.1 h
    by_cases c7 : x.1.peek ≠ '"'
    · rw [if_pos c7] at h2
      cases h2
    · rw [if_neg c7] at h2
      cases h2
      intro ht
      simp at ht
  rw [if_neg c6] at h
  by_cases d1 : lx.startsWith ['=', '='] = true
  · rw [if_pos d1] at h
    cases h
    intro ht
    simp at ht
  rw [if_neg d1] at h
  by_cases d2 : lx.startsWith ['!', '='] = true
  · rw [if_pos d2] at h
    cases h
    intro ht
    simp at ht
  rw [if_neg d2] at h
  by_cases d3 : lx.startsWith ['>', '='] = true
  · rw [if_pos d3] at h
    cases h
    intro ht
    simp at ht
  rw [if_neg d3] at h
  by_cases d4 : lx.startsWith ['<', '='] = true
  · rw [if_pos d4] at h
    cases h
    intro ht
    simp at ht
  rw [if_neg d4] at h
  cases hk : singleCharKind lx.peek with
  | none => rw [hk] at h; cases h
  | some tt =>
    rw [hk] at h
    cases h
    have hm := singleCharKind_some hk
    intro ht
    exfalso
    simp only [List.mem_cons, Prod.mk.injEq, List.mem_singleton, List.not_mem_nil,
      or_false] at hm
    rcases hm with hm | hm | hm | hm | hm | hm | hm | hm | hm | hm | hm | hm <;>
      (obtain ⟨_, e2⟩ := hm; subst e2; simp at ht)

theorem reaches_typeWord {text : List Char} {lx : Lexer} {pts : List (Nat × Token)}
    (h : Reaches text lx pts) : ∀ pt ∈ pts, typeWordOk pt.2 := by
  induction h with
  | start => intro pt hpt; cases hpt
  | skip _ _ _ ih => exact ih
  | emit _ _ hs ih =>
    intro pt hpt
    rcases List.mem_append.1 hpt with hm | hm
    · exact ih pt hm
    · rw [List.mem_singleton] at hm
      rw [hm]
      exact scanToken_typeWord hs

/-- In every token list that `tokenize` returns, the tokens of kind `NUM`, `TEXT` and
`FLAG` have the name of their type as value. -/
theorem tokenize_typeWord {text : List Char} {toks : List Token}
    (h : tokenize text = .ok toks) : ∀ t ∈ toks, typeWordOk t := by
  obtain ⟨lx, pts, hre, hpos, rfl⟩ := reaches_of_tokenize h
  intro t ht
  rcases List.mem_append.1 ht with hm | hm
  · obtain ⟨pt, hpt, rfl⟩ := List.mem_map.1 hm
    exact reaches_typeWord hre pt hpt
  · rw [List.mem_singleton] at hm
    rw [hm]
    intro hh
    simp at hh

theorem allWellFormed_append (l : List ASTNode) (a : ASTNode) (h1 : allWellFormed l = true)
    (h2 : wellFormed a = true) : allWellFormed (l ++ [a]) = true := by
  induction l with
  | nil => simp [allWellFormed, h2]
  | cons x xs ih =>
    rw [allWellFormed, Bool.and_eq_true] at h1
    rw [List.cons_append, allWellFormed, Bool.and_eq_true]
    exact ⟨h1.1, ih h1.2⟩

theorem casesWellFormed_append (l : List (ASTNode × List ASTNode)) (c : ASTNode)
    (b : List ASTNode) (h1 : casesWellFormed l = true) (h2 : wellFormed c = true)
    (h3 : allWellFormed b = true) : casesWellFormed (l ++ [(c, b)]) = true := by
  induction l with
  | nil => simp [casesWellFormed, h2, h3]
  | cons x xs ih =>
    obtain ⟨c1, b1⟩ := x
    rw [casesWellFormed, Bool.and_eq_true] at h1
    rw [List.cons_append, casesWellFormed, Bool.and_eq_true]
    exact ⟨h1.1, ih h1.2⟩

theorem advance_type (tokens : List Token) (i : Nat) :
    (advance tokens i).1.type = (current tokens i).type := by
  unfold advance current
  split <;> rfl

theorem wellFormed_binOp {l r : ASTNode} {t : TokenType} (v : List Char)
    (ht : t ∈ binaryOps) (h1 : wellFormed l = true) (h2 : wellFormed r = true) :
    wellFormed (.BinOp l t v r) = true := by
  rw [wellFormed, h1, h2]
  simp [ht]

/-- On tokens whose type words are spelled out, `match` on the three type kinds returns
a token whose value is a type name. -/
theorem match_typeWord_sat (tokens : List Token) (htok : ∀ t ∈ tokens, typeWordOk t) (i : Nat) :
    (match_ tokens [.NUM, .TEXT, .FLAG] i).Sat (fun r => r.1.value ∈ typeNames)
      (fun _ => True) := by
  cases h : match_ tokens [.NUM, .TEXT, .FLAG] i with
  | ok r =>
    obtain ⟨hlt, hc, rfl⟩ := match_eq_ok_step h (by decide)
    show (current tokens i).value ∈ typeNames
    have hm : current tokens i ∈ tokens := by
      rw [current_of_lt hlt]
      exact List.getElem_mem _
    apply htok _ hm
    simpa using hc
  | error e => trivial
  | outOfFuel => trivial

theorem wfInv_zero (tokens : List Token) : WfInv tokens 0 := by
  constructor <;> intros <;> trivial

theorem wfInv_succ (tokens : List Token) (htok : ∀ t ∈ tokens, typeWordOk t) (n : Nat)
    (ih : WfInv tokens n) : WfInv tokens (n + 1) := by
  constructor
  · -- statements
    intro i stmts hs
    rw [statements]
    split
    · refine (ih.statement i).bind fun r hr => ?_
      exact ih.statements _ _ (allWellFormed_append _ _ hs hr)
    · exact hs
  · -- statement
    intro i
    rw [statement]
    dsimp only
    split_ifs
    · exact ih.var_decl i
    · exact ih.assign_or_func_call i
    · exact ih.show_stmt i
    · rw [take_stmt]
      simp only [Outcome.bind_eq, Outcome.pure_eq]
      refine (Outcome.Sat.any (match_ tokens _ _)).bind fun r1 _ => ?_
      refine (Outcome.Sat.any (match_ tokens _ _)).bind fun r2 _ => ?_
      rfl
    · exact ih.when_stmt i
    · exact ih.loop_stmt i
    · exact (Outcome.Sat.any (match_ tokens _ _)).bind fun r _ => rfl
    · exact ih.func_def i
    · trivial
  · -- var_decl
    intro i
    rw [var_decl]
    simp only [Outcome.bind_eq, Outcome.pure_eq]
    refine (match_typeWord_sat tokens htok i).bind fun r1 h1 => ?_
    refine (Outcome.Sat.any (match_ tokens _ _)).bind fun r2 _ => ?_
    refine (Outcome.Sat.any (match_ tokens _ _)).bind fun r3 _ => ?_
    refine (ih.expr _).bind fun r4 h4 => ?_
    show wellFormed (.VarDecl _ _ r4.1) = true
    rw [wellFormed, h4]
    simpa using h1
  · -- call_args
    intro i
    rw [call_args]
    split
    · refine (ih.expr i).bind fun r hr => ?_
      exact ih.argsLoop _ _ (by rw [allWellFormed, hr]; rfl)
    · rfl
  · -- argsLoop
    intro i args ha
    rw [argsLoop]
    split
    · simp only [Outcome.bind_eq]
      refine (Outcome.Sat.any (match_ tokens _ _)).bind fun r1 _ => ?_
      refine (ih.expr _).bind fun r2 h2 => ?_
      exact ih.argsLoop _ _ (allWellFormed_append _ _ ha h2)
    · exact ha
  · -- assign_or_func_call
    intro i
    rw [assign_or_func_call]
    simp only [Outcome.bind_eq, Outcome.pure_eq]
    refine (Outcome.Sat.any (match_ tokens _ _)).bind fun r1 _ => ?_
    split_ifs
    · refine (Outcome.Sat.any (match_ tokens _ _)).bind fun r2 _ => ?_
      refine (ih.expr _).bind fun r3 h3 => ?_
      show wellFormed (.Assign _ r3.1) = true
      rw [wellFormed]
      exact h3
    · refine (Outcome.Sat.any (match_ tokens _ _)).bind fun r2 _ => ?_
      refine (ih.call_args _).bind fun r3 h3 => ?_
      refine (Outcome.Sat.any (match_ tokens _ _)).bind fun r4 _ => ?_
      show wellFormed (.FuncCall _ r3.1) = true
      rw [wellFormed]
      exact h3
    · trivial
  · -- show_stmt
    intro i
    rw [show_stmt]
    simp only [Outcome.bind_eq, Outcome.pure_eq]
    refine (Outcome.Sat.any (match_ tokens _ _)).bind fun r1 _ => ?_
    refine (ih.expr _).bind fun r2 h2 => ?_
    show wellFormed (.Show r2.1) = true
    rw [wellFormed]
    exact h2
  · -- when_stmt
    intro i
    rw [when_stmt]
    simp only [Outcome.bind_eq, Outcome.pure_eq]
    refine (Outcome.Sat.any (match_ tokens _ _)).bind fun r1 _ => ?_
    refine (ih.expr _).bind fun r2 h2 => ?_
    refine (ih.block _ _).bind fun r3 h3 => ?_
    obtain ⟨node, i3⟩ := r3
    dsimp only at h3 ⊢
    split
    · rename_i body
      rw [wellFormed] at h3
      refine (ih.elsewhenLoop _ _
        (by rw [casesWellFormed, h2, h3]; rfl)).bind fun r4 h4 => ?_
      split
      · refine (Outcome.Sat.any (match_ tokens _ _)).bind fun r5 _ => ?_
        refine (ih.block _ _).bind fun r6 h6 => ?_
        obtain ⟨node6, i6⟩ := r6
        dsimp only at h6 ⊢
        split
        · rename_i eb
          rw [wellFormed] at h6
          show wellFormed (.When r4.1 eb) = true
          rw [wellFormed, h4, h6]
          rfl
        · trivial
      · show wellFormed (.When r4.1 []) = true
        rw [wellFormed, h4]
        rfl
    · trivial
  · -- elsewhenLoop
    intro i cases hc
    rw [elsewhenLoop]
    split
    · simp only [Outcome.bind_eq]
      refine (Outcome.Sat.any (match_ tokens _ _)).bind fun r1 _ => ?_
      refine (ih.expr _).bind fun r2 h2 => ?_
      refine (ih.block _ _).bind fun r3 h3 => ?_
      obtain ⟨node, i3⟩ := r3
      dsimp only at h3 ⊢
      split
      · rename_i b2
        rw [wellFormed] at h3
        exact ih.elsewhenLoop _ _ (casesWellFormed_append _ _ _ hc h2 h3)
      · trivial
    · exact hc
  · -- loop_stmt
    intro i
    rw [loop_stmt]
    simp only [Outcome.bind_eq, Outcome.pure_eq]
    refine (Outcome.Sat.any (match_ tokens _ _)).bind fun r1 _ => ?_
    refine (Outcome.Sat.any (match_ tokens _ _)).bind fun r2 _ => ?_
    refine (Outcome.Sat.any (match_ tokens _ _)).bind fun r3 _ => ?_
    refine (ih.expr _).bind fun r4 h4 => ?_
    refine (Outcome.Sat.any (match_ tokens _ _)).bind fun r5 _ => ?_
    refine (ih.expr _).bind fun r6 h6 => ?_
    refine (ih.block _ _).bind fun r7 h7 => ?_
    obtain ⟨node, i7⟩ := r7
    dsimp only at h7 ⊢
    split
    · rename_i body
      rw [wellFormed] at h7
      show wellFormed (.Loop _ r4.1 r6.1 body) = true
      rw [wellFormed, h4, h6, h7]
      rfl
    · trivial
  · -- func_def
    intro i
    rw [func_def_eq]
    unfold funcHeader
    simp only [Outcome.bind_eq, Outcome.pure_eq, Outcome.bind_assoc, Outcome.bind_ok,
      Outcome.ite_bind]
    refine (Outcome.Sat.any (match_ tokens _ _)).bind fun r1 _ => ?_
    refine (Outcome.Sat.any (match_ tokens _ _)).bind fun r2 _ => ?_
    refine (Outcome.Sat.any (match_ tokens _ _)).bind fun r3 _ => ?_
    split
    · refine (Outcome.Sat.any (match_ tokens _ _)).bind fun r4 _ => ?_
      refine (Outcome.Sat.any (paramsLoop tokens _ _ _)).bind fun r5 _ => ?_
      refine (Outcome.Sat.any (match_ tokens _ _)).bind fun r6 _ => ?_
      refine (Outcome.Sat.any (match_ tokens _ _)).bind fun r7 _ => ?_
      refine (ih.funcBodyLoop _ [] rfl).bind fun r8 h8 => ?_
      refine (Outcome.Sat.any (match_ tokens _ _)).bind fun r9 _ => ?_
      refine (ih.expr _).bind fun r10 h10 => ?_
      refine (Outcome.Sat.any (match_ tokens _ _)).bind fun r11 _ => ?_
      show wellFormed (.FuncDef _ _ r8.1 r10.1) = true
      rw [wellFormed, h8, h10]
      rfl
    · refine (Outcome.Sat.any (match_ tokens _ _)).bind fun r6 _ => ?_
      refine (Outcome.Sat.any (match_ tokens _ _)).bind fun r7 _ => ?_
      refine (ih.funcBodyLoop _ [] rfl).bind fun r8 h8 => ?_
      refine (Outcome.Sat.any (match_ tokens _ _)).bind fun r9 _ => ?_
      refine (ih.expr _).bind fun r10 h10 => ?_
      refine (Outcome.Sat.any (match_ tokens _ _)).bind fun r11 _ => ?_
      show wellFormed (.FuncDef _ _ r8.1 r10.1) = true
      rw [wellFormed, h8, h10]
      rfl
  · -- funcBodyLoop
    intro i body hb
    rw [funcBodyLoop]
    split_ifs
    · trivial
    · refine (ih.statement i).bind fun r hr => ?_
      exact ih.funcBodyLoop _ _ (allWellFormed_append _ _ hb hr)
    · exact hb
  · -- block
    intro ctx i
    rw [block]
    split
    · trivial
    · simp only [Outcome.bind_eq, Outcome.pure_eq]
      refine (Outcome.Sat.any (match_ tokens _ _)).bind fun r1 _ => ?_
      refine (ih.statements _ [] rfl).bind fun r2 h2 => ?_
      refine (Outcome.Sat.any (match_ tokens _ _)).bind fun r3 _ => ?_
      show wellFormed (.Program r2.1) = true
      rw [wellFormed]
      exact h2
  · -- expr
    intro i
    rw [expr]
    exact ih.equality i
  · -- equality
    intro i
    rw [equality]
    exact (ih.comparison i).bind fun r hr => ih.equalityLoop _ _ hr
  · -- equalityLoop
    intro node i hn
    rw [equalityLoop]
    split
    · rename_i hc
      refine (ih.comparison _).bind fun r hr => ?_
      refine ih.equalityLoop _ _ (wellFormed_binOp _ ?_ hn hr)
      show (advance tokens i).1.type ∈ binaryOps
      rw [advance_type]
      rcases hc with hc | hc <;> rw [hc] <;> decide
    · exact hn
  · -- comparison
    intro i
    rw [comparison]
    exact (ih.term i).bind fun r hr => ih.comparisonLoop _ _ hr
  · -- comparisonLoop
    intro node i hn
    rw [comparisonLoop]
    split
    · rename_i hc
      refine (ih.term _).bind fun r hr => ?_
      refine ih.comparisonLoop _ _ (wellFormed_binOp _ ?_ hn hr)
      show (advance tokens i).1.type ∈ binaryOps
      rw [advance_type]
      rcases hc with hc | hc | hc | hc <;> rw [hc] <;> decide
    · exact hn
  · -- term
    intro i
    rw [term]
    exact (ih.factor i).bind fun r hr => ih.termLoop _ _ hr
  · -- termLoop
    intro node i hn
    rw [termLoop]
    split
    · rename_i hc
      refine (ih.factor _).bind fun r hr => ?_
      refine ih.termLoop _ _ (wellFormed_binOp _ ?_ hn hr)
      show (advance tokens i).1.type ∈ binaryOps
      rw [advance_type]
      rcases hc with hc | hc <;> rw [hc] <;> decide
    · exact hn
  · -- factor
    intro i
    rw [factor]
    exact (ih.unary i).bind fun r hr => ih.factorLoop _ _ hr
  · -- factorLoop
    intro node i hn
    rw [factorLoop]
    split
    · rename_i hc
      refine (ih.unary _).bind fun r hr => ?_
      refine ih.factorLoop _ _ (wellFormed_binOp _ ?_ hn hr)
      show (advance tokens i).1.type ∈ binaryOps
      rw [advance_type]
      rcases hc with hc | hc <;> rw [hc] <;> decide
    · exact hn
  · -- unary
    intro i
    rw [unary]
    split
    · rename_i hc
      refine (ih.unary _).bind fun r hr => ?_
      show wellFormed (.UnaryOp (advance tokens i).1.type _ r.1) = true
      rw [wellFormed, hr, advance_type, hc]
      rfl
    · exact ih.primary i
  · -- primary
    intro i
    rw [primary]
    dsimp only
    split_ifs
    · rfl
    · rfl
    · rfl
    · simp only [Outcome.bind_eq, Outcome.pure_eq]
      refine (Outcome.Sat.any (match_ tokens _ _)).bind fun r2 _ => ?_
      refine (ih.call_args _).bind fun r3 h3 => ?_
      refine (Outcome.Sat.any (match_ tokens _ _)).bind fun r4 _ => ?_
      show wellFormed (.FuncCall _ r3.1) = true
      rw [wellFormed]
      exact h3
    · rfl
    · simp only [Outcome.bind_eq, Outcome.pure_eq]
      refine (Outcome.Sat.any (match_ tokens _ _)).bind fun r1 _ => ?_
      refine (ih.expr _).bind fun r2 h2 => ?_
      refine (Outcome.Sat.any (match_ tokens _ _)).bind fun r3 _ => ?_
      exact h2
    · trivial

theorem wfInv (tokens : List Token) (htok : ∀ t ∈ tokens, typeWordOk t) :
    ∀ n, WfInv tokens n
  | 0 => wfInv_zero tokens
  | n + 1 => wfInv_succ tokens htok n (wfInv tokens htok n)

/-- The tree that `parse` returns on tokens whose type words are spelled out is well
formed. -/
theorem parse_wellFormed {tokens : List Token} (htok : ∀ t ∈ tokens, typeWordOk t)
    {ast : ASTNode} (h : parse tokens = .ok ast) : wellFormed ast = true := by
  unfold parse at h
  cases hp : parseAt tokens with
  | ok r =>
    rw [hp] at h
    cases h
    unfold parseAt at hp
    split at hp
    · cases hp
    · simp only [Outcome.bind_eq, Outcome.pure_eq] at hp
      obtain ⟨r1, _, h2⟩ := Outcome.bind_eq_ok.1 hp
      obtain ⟨r2, hs, h3⟩ := Outcome.bind_eq_ok.1 h2
      obtain ⟨r3, _, h4⟩ := Outcome.bind_eq_ok.1 h3
      obtain ⟨r4, _, h5⟩ := Outcome.bind_eq_ok.1 h4
      cases h5
      have hw := ((wfInv tokens htok _).statements _ [] rfl).of_ok hs
      rw [wellFormed]
      exact hw
  | error e => rw [hp] at h; cases h
  | outOfFuel => rw [hp] at h; cases h

/-- The tree that the first two stages of `main` return is well formed. -/
theorem parseSource_wellFormed {source : List Char} {ast : ASTNode}
    (h : parseSource source = .ok ast) : wellFormed ast = true := by
  unfold parseSource at h
  cases ht : tokenize source with
  | ok tokens =>
    rw [ht] at h
    dsimp only at h
    cases hp : parse tokens with
    | ok a =>
      rw [hp] at h
      cases h
      exact parse_wellFormed (tokenize_typeWord ht) hp
    | error e => rw [hp] at h; cases h
    | outOfFuel => rw [hp] at h; cases h
  | error e => rw [ht] at h; cases h
  | outOfFuel => rw [ht] at h; cases h

/-! ## The analyzer on well-formed trees -/

theorem lookup_var_errors (a : SemanticAnalyzer) (x : List Char) :
    (lookup_var a x).Sat (fun _ => True) (fun e => ¬ internalError e) := by
  unfold lookup_var
  split
  · trivial
  · rintro (h | h) <;> cases h

theorem declare_var_errors (a : SemanticAnalyzer) (x t : List Char) :
    (declare_var a x t).Sat (fun _ => True) (fun e => ¬ internalError e) := by
  unfold declare_var
  split
  · trivial
  · split
    · rintro (h | h) <;> cases h
    · trivial

theorem declareParams_errors : ∀ (params : List (List Char)) (a : SemanticAnalyzer),
    (declareParams a params).Sat (fun _ => True) (fun e => ¬ internalError e)
  | [], a => by rw [declareParams]; trivial
  | p :: rest, a => by
    rw [declareParams]
    exact (declare_var_errors a p _).bind fun a1 _ => declareParams_errors rest a1

theorem checkDeclared_errors (d t : List Char) :
    (checkDeclared d t).Sat (fun _ => True) (fun e => ¬ internalError e) := by
  unfold checkDeclared
  split_ifs
  · rintro (h | h) <;> cases h
  · rintro (h | h) <;> cases h
  · rintro (h | h) <;> cases h
  · trivial

theorem checkAssigned_errors (d t : List Char) :
    (checkAssigned d t).Sat (fun _ => True) (fun e => ¬ internalError e) := by
  unfold checkAssigned
  split_ifs
  · rintro (h | h) <;> cases h
  · rintro (h | h) <;> cases h
  · rintro (h | h) <;> cases h
  · trivial

/-- On one of the ten operator tags `visit_BinOp` does not reach its last line, and the
type it returns is `num`, `text` or `bool`. -/
theorem binOpType_sat {op : TokenType} (h : op ∈ binaryOps) (l r : List Char) :
    (binOpType op l r).Sat (fun t => t ∈ literalTypes) (fun e => ¬ internalError e) := by
  unfold binOpType
  split_ifs with h1 h2 h3 h4 h5
  · show "num".toList ∈ literalTypes
    decide
  · show "text".toList ∈ literalTypes
    decide
  · rintro (h | h) <;> cases h
  · show "bool".toList ∈ literalTypes
    decide
  · rintro (h | h) <;> cases h
  · exfalso
    simp only [binaryOps, arithmeticOps, comparisonOps, List.cons_append, List.nil_append,
      List.mem_cons, List.mem_singleton, List.not_mem_nil, or_false] at h
    rcases h with h | h | h | h | h | h | h | h | h | h
    · exact h1 (Or.inl h)
    · exact h1 (Or.inr (Or.inl h))
    · exact h1 (Or.inr (Or.inr (Or.inl h)))
    · exact h1 (Or.inr (Or.inr (Or.inr h)))
    · exact h4 (Or.inl h)
    · exact h4 (Or.inr (Or.inl h))
    · exact h4 (Or.inr (Or.inr (Or.inl h)))
    · exact h4 (Or.inr (Or.inr (Or.inr (Or.inl h))))
    · exact h4 (Or.inr (Or.inr (Or.inr (Or.inr (Or.inl h)))))
    · exact h4 (Or.inr (Or.inr (Or.inr (Or.inr (Or.inr h)))))

theorem unaryOpType_sat (et : List Char) :
    (unaryOpType .MINUS et).Sat (fun t => t = "num".toList) (fun e => ¬ internalError e) := by
  unfold unaryOpType
  rw [if_pos rfl]
  split
  · rfl
  · rintro (h | h) <;> cases h

mutual

/-- The visit of a well-formed node raises neither "Unknown binary op" nor "Unhandled
AST node in semantic analyzer". -/
theorem visit_errors : ∀ (n : ASTNode) (a : SemanticAnalyzer), wellFormed n = true →
    (visit a n).Sat (fun _ => True) (fun e => ¬ internalError e)
  | .Program statements, a, hw => by
    rw [wellFormed] at hw
    rw [visit]
    simp only [Outcome.bind_eq, Outcome.pure_eq]
    exact (visitAll_errors statements a hw).bind fun _ _ => trivial
  | .VarDecl vartype name expr, a, hw => by
    rw [wellFormed, Bool.and_eq_true] at hw
    rw [visit]
    simp only [Outcome.bind_eq, Outcome.pure_eq]
    refine (visit_errors expr a hw.2).bind fun r _ => ?_
    refine (checkDeclared_errors _ _).bind fun _ _ => ?_
    exact (declare_var_errors _ _ _).bind fun _ _ => trivial
  | .Assign name expr, a, hw => by
    rw [wellFormed] at hw
    rw [visit]
    simp only [Outcome.bind_eq, Outcome.pure_eq]
    refine (lookup_var_errors _ _).bind fun s _ => ?_
    refine (visit_errors expr a hw).bind fun r _ => ?_
    exact (checkAssigned_errors _ _).bind fun _ _ => trivial
  | .Show expr, a, hw => by
    rw [wellFormed] at hw
    rw [visit]
    exact visit_errors expr a hw
  | .Take name, a, _ => by
    rw [visit]
    simp only [Outcome.bind_eq, Outcome.pure_eq]
    exact (lookup_var_errors _ _).bind fun s _ => trivial
  | .When cases else_block, a, hw => by
    rw [wellFormed, Bool.and_eq_true] at hw
    rw [visit]
    simp only [Outcome.bind_eq, Outcome.pure_eq]
    refine (visitCases_errors cases a hw.1).bind fun a1 _ => ?_
    split
    · exact (visitAll_errors else_block _ hw.2).bind fun _ _ => trivial
    · trivial
  | .Loop var start_expr end_expr body, a, hw => by
    rw [wellFormed, Bool.and_eq_true, Bool.and_eq_true] at hw
    rw [visit]
    simp only [Outcome.bind_eq, Outcome.pure_eq]
    refine (visit_errors start_expr a hw.1.1).bind fun r1 _ => ?_
    refine (visit_errors end_expr _ hw.1.2).bind fun r2 _ => ?_
    split
    · rintro (h | h) <;> cases h
    · refine (declare_var_errors _ _ _).bind fun a3 _ => ?_
      exact (visitAll_errors body _ hw.2).bind fun _ _ => trivial
  | .Break, a, _ => by
    rw [visit]
    split
    · rintro (h | h) <;> cases h
    · trivial
  | .FuncDef name params body back_expr, a, hw => by
    rw [wellFormed, Bool.and_eq_true] at hw
    rw [visit]
    simp only [Outcome.bind_eq, Outcome.pure_eq]
    split
    · rintro (h | h) <;> cases h
    · refine (declareParams_errors _ _).bind fun a1 _ => ?_
      refine (visitAll_errors body _ hw.1).bind fun a2 _ => ?_
      exact (visit_errors back_expr _ hw.2).bind fun _ _ => trivial
  | .FuncCall name args, a, hw => by
    rw [wellFormed] at hw
    rw [visit]
    split
    · rintro (h | h) <;> cases h
    · split
      · rintro (h | h) <;> cases h
      · simp only [Outcome.bind_eq, Outcome.pure_eq]
        exact (visitAll_errors args a hw).bind fun _ _ => trivial
  | .BinOp left op_type op_value right, a, hw => by
    rw [wellFormed, Bool.and_eq_true, Bool.and_eq_true, decide_eq_true_eq] at hw
    rw [visit]
    simp only [Outcome.bind_eq, Outcome.pure_eq]
    refine (visit_errors left a hw.1.2).bind fun r1 _ => ?_
    refine (visit_errors right _ hw.2).bind fun r2 _ => ?_
    exact (binOpType_sat hw.1.1 _ _).bind fun _ _ => trivial
  | .UnaryOp op_type op_value expr, a, hw => by
    rw [wellFormed, Bool.and_eq_true, decide_eq_true_eq] at hw
    rw [visit]
    simp only [Outcome.bind_eq, Outcome.pure_eq]
    refine (visit_errors expr a hw.2).bind fun r1 _ => ?_
    rw [hw.1]
    exact (unaryOpType_sat _).bind fun _ _ => trivial
  | .Literal value lit_type, a, _ => by
    rw [visit]
    trivial
  | .Identifier name, a, _ => by
    rw [visit]
    simp only [Outcome.bind_eq, Outcome.pure_eq]
    exact (lookup_var_errors _ _).bind fun s _ => trivial

theorem visitAll_errors : ∀ (l : List ASTNode) (a : SemanticAnalyzer),
    allWellFormed l = true → (visitAll a l).Sat (fun _ => True) (fun e => ¬ internalError e)
  | [], a, _ => by
    rw [visitAll]
    trivial
  | s :: rest, a, hw => by
    rw [allWellFormed, Bool.and_eq_true] at hw
    rw [visitAll]
    simp only [Outcome.bind_eq]
    exact (visit_errors s a hw.1).bind fun r _ => visitAll_errors rest _ hw.2

theorem visitCases_errors : ∀ (l : List (ASTNode × List ASTNode)) (a : SemanticAnalyzer),
    casesWellFormed l = true →
      (visitCases a l).Sat (fun _ => True) (fun e => ¬ internalError e)
  | [], a, _ => by
    rw [visitCases]
    trivial
  | (cond, body) :: rest, a, hw => by
    rw [casesWellFormed, Bool.and_eq_true, Bool.and_eq_true] at hw
    rw [visitCases]
    simp only [Outcome.bind_eq]
    refine (visit_errors cond a hw.1.1).bind fun r _ => ?_
    split
    · rintro (h | h) <;> cases h
    · refine (visitAll_errors body _ hw.1.2).bind fun a2 _ => ?_
      exact visitCases_errors rest _ hw.2

end

theorem goodScopes_new : goodScopes SemanticAnalyzer.new := by
  intro scope hs p hp
  simp only [SemanticAnalyzer.new, List.mem_singleton] at hs
  rw [hs] at hp
  cases hp

theorem goodScopes_of_scopes {a b : SemanticAnalyzer} (h : b.scopes = a.scopes)
    (ha : goodScopes a) : goodScopes b := by
  unfold goodScopes at *
  rw [h]
  exact ha

theorem goodScopes_in_loop {a : SemanticAnalyzer} (k : Int) (ha : goodScopes a) :
    goodScopes { a with in_loop := k } := ha

theorem goodScopes_in_func {a : SemanticAnalyzer} (k : Int) (ha : goodScopes a) :
    goodScopes { a with in_func := k } := ha

theorem goodScopes_functions {a : SemanticAnalyzer} (f : List (List Char × FunctionSymbol))
    (ha : goodScopes a) : goodScopes { a with functions := f } := ha

theorem goodScopes_enter {a : SemanticAnalyzer} (ha : goodScopes a) :
    goodScopes (enter_scope a) := by
  intro scope hs p hp
  rcases List.mem_cons.1 hs with h | h
  · rw [h] at hp
    cases hp
  · exact ha scope h p hp

theorem goodScopes_exit {a : SemanticAnalyzer} (ha : goodScopes a) :
    goodScopes (exit_scope a) := by
  intro scope hs p hp
  exact ha scope (List.mem_of_mem_tail hs) p hp

theorem declare_var_good {a b : SemanticAnalyzer} {name type : List Char}
    (ht : type ∈ typeNames) (ha : goodScopes a) (h : declare_var a name type = .ok b) :
    goodScopes b := by
  obtain ⟨top, rest, hs, _, rfl⟩ := declare_var_ok h
  intro scope hsc p hp
  rcases List.mem_cons.1 hsc with e | e
  · rw [e] at hp
    rcases List.mem_append.1 hp with hm | hm
    · exact ha top (by rw [hs]; exact List.mem_cons_self _ _) p hm
    · rw [List.mem_singleton] at hm
      rw [hm]
      exact ht
  · exact ha scope (by rw [hs]; exact List.mem_cons_of_mem _ e) p hp

theorem declareParams_good : ∀ (params : List (List Char)) (a b : SemanticAnalyzer),
    goodScopes a → declareParams a params = .ok b → goodScopes b
  | [], a, b, ha, h => by
    rw [declareParams] at h
    cases h
    exact ha
  | p :: rest, a, b, ha, h => by
    rw [declareParams] at h
    obtain ⟨a1, h1, h2⟩ := Outcome.bind_eq_ok.1 h
    exact declareParams_good rest a1 b (declare_var_good (by decide) ha h1) h2

theorem mapFind_mem {β : Type} {name : List Char} {v : β} :
    ∀ {m : List (List Char × β)}, mapFind name m = some v → ∃ k, (k, v) ∈ m
  | [], h => by rw [mapFind] at h; cases h
  | (k, w) :: rest, h => by
    rw [mapFind] at h
    split at h
    · cases h
      exact ⟨k, List.mem_cons_self _ _⟩
    · obtain ⟨k2, hk⟩ := mapFind_mem h
      exact ⟨k2, List.mem_cons_of_mem _ hk⟩

theorem lookupScopes_good {name : List Char} {s : Symbol} :
    ∀ {scopes : List (List (List Char × Symbol))},
      (∀ scope ∈ scopes, ∀ p ∈ scope, p.2.type ∈ typeNames) →
      lookupScopes name scopes = some s → s.type ∈ typeNames
  | [], _, h => by rw [lookupScopes] at h; cases h
  | scope :: rest, hg, h => by
    rw [lookupScopes] at h
    cases hm : mapFind name scope with
    | some s1 =>
      rw [hm] at h
      cases h
      obtain ⟨k, hk⟩ := mapFind_mem hm
      exact hg scope (List.mem_cons_self _ _) (k, s) hk
    | none =>
      rw [hm] at h
      exact lookupScopes_good (fun sc hsc => hg sc (List.mem_cons_of_mem _ hsc)) h

/-- In a state whose variables are bound to type names, a lookup that succeeds gives a
symbol whose type is a type name. -/
theorem lookup_var_good {a : SemanticAnalyzer} {name : List Char} {s : Symbol}
    (ha : goodScopes a) (h : lookup_var a name = .ok s) : s.type ∈ typeNames := by
  unfold lookup_var at h
  cases hl : lookupScopes name a.scopes with
  | some s1 =>
    rw [hl] at h
    cases h
    exact lookupScopes_good ha hl
  | none =>
    rw [hl] at h
    cases h

theorem exprTypes_of_typeNames {t : List Char} (h : t ∈ typeNames) : t ∈ exprTypes := by
  simp only [typeNames, List.mem_cons, List.mem_singleton, List.not_mem_nil, or_false] at h
  rcases h with rfl | rfl | rfl <;> decide

theorem exprTypes_of_literalTypes {t : List Char} (h : t ∈ literalTypes) :
    t ∈ exprTypes := by
  simp only [literalTypes, List.mem_cons, List.mem_singleton, List.not_mem_nil, or_false] at h
  rcases h with rfl | rfl | rfl <;> decide

mutual

/-- The visit of a well-formed node in a state whose variables are bound to type names
ends in such a state, and the type it returns for an expression node is one of `num`,
`text`, `bool` and `flag`. -/
theorem visit_good : ∀ (n : ASTNode) (a : SemanticAnalyzer) (t : List Char)
    (b : SemanticAnalyzer), wellFormed n = true → goodScopes a → visit a n = .ok (t, b) →
      goodScopes b ∧ (isExprNode n = true → t ∈ exprTypes)
  | .Program statements, a, t, b, hw, ha, h => by
    rw [wellFormed] at hw
    rw [visit] at h
    simp only [Outcome.bind_eq, Outcome.pure_eq] at h
    obtain ⟨a1, h1, h2⟩ := Outcome.bind_eq_ok.1 h
    cases h2
    exact ⟨visitAll_good statements a _ hw ha h1, fun hx => by cases hx⟩
  | .VarDecl vartype name expr, a, t, b, hw, ha, h => by
    rw [wellFormed, Bool.and_eq_true, decide_eq_true_eq] at hw
    rw [visit] at h
    simp only [Outcome.bind_eq, Outcome.pure_eq] at h
    obtain ⟨⟨t1, a1⟩, h1, h3⟩ := Outcome.bind_eq_ok.1 h
    obtain ⟨_, _, h4⟩ := Outcome.bind_eq_ok.1 h3
    obtain ⟨a2, h2, h5⟩ := Outcome.bind_eq_ok.1 h4
    cases h5
    exact ⟨declare_var_good hw.1 (visit_good expr a t1 a1 hw.2 ha h1).1 h2,
      fun hx => by cases hx⟩
  | .Assign name expr, a, t, b, hw, ha, h => by
    rw [wellFormed] at hw
    rw [visit] at h
    simp only [Outcome.bind_eq, Outcome.pure_eq] at h
    obtain ⟨s, _, h3⟩ := Outcome.bind_eq_ok.1 h
    obtain ⟨⟨t1, a1⟩, h1, h4⟩ := Outcome.bind_eq_ok.1 h3
    obtain ⟨_, _, h5⟩ := Outcome.bind_eq_ok.1 h4
    cases h5
    exact ⟨(visit_good expr a t1 _ hw ha h1).1, fun hx => by cases hx⟩
  | .Show expr, a, t, b, hw, ha, h => by
    rw [wellFormed] at hw
    rw [visit] at h
    exact ⟨(visit_good expr a t b hw ha h).1, fun hx => by cases hx⟩
  | .Take name, a, t, b, _, ha, h => by
    rw [visit] at h
    simp only [Outcome.bind_eq, Outcome.pure_eq] at h
    obtain ⟨s, _, h3⟩ := Outcome.bind_eq_ok.1 h
    cases h3
    exact ⟨ha, fun hx => by cases hx⟩
  | .When cases else_block, a, t, b, hw, ha, h => by
    rw [wellFormed, Bool.and_eq_true] at hw
    rw [visit] at h
    simp only [Outcome.bind_eq, Outcome.pure_eq] at h
    obtain ⟨a1, h1, h3⟩ := Outcome.bind_eq_ok.1 h
    have g1 := visitCases_good cases a a1 hw.1 ha h1
    split at h3
    · obtain ⟨a2, h2, h4⟩ := Outcome.bind_eq_ok.1 h3
      cases h4
      exact ⟨goodScopes_exit (visitAll_good else_block _ a2 hw.2 (goodScopes_enter g1) h2),
        fun hx => by cases hx⟩
    · cases h3
      exact ⟨g1, fun hx => by cases hx⟩
  | .Loop var start_expr end_expr body, a, t, b, hw, ha, h => by
    rw [wellFormed, Bool.and_eq_true, Bool.and_eq_true] at hw
    rw [visit] at h
    simp only [Outcome.bind_eq, Outcome.pure_eq] at h
    obtain ⟨⟨s1, a1⟩, h1, h3⟩ := Outcome.bind_eq_ok.1 h
    obtain ⟨⟨s2, a2⟩, h2, h4⟩ := Outcome.bind_eq_ok.1 h3
    dsimp only at h4
    split at h4
    · cases h4
    · obtain ⟨a3, h5, h6⟩ := Outcome.bind_eq_ok.1 h4
      obtain ⟨a4, h7, h8⟩ := Outcome.bind_eq_ok.1 h6
      cases h8
      have g1 := (visit_good start_expr a s1 a1 hw.1.1 ha h1).1
      have g2 := (visit_good end_expr a1 s2 a2 hw.1.2 g1 h2).1
      have g3 := declare_var_good (by decide) (goodScopes_enter g2) h5
      have g4 := visitAll_good body _ a4 hw.2 (goodScopes_in_loop _ g3) h7
      exact ⟨goodScopes_exit (goodScopes_in_loop _ g4), fun hx => by cases hx⟩
  | .Break, a, t, b, _, ha, h => by
    rw [visit] at h
    split at h
    · cases h
    · cases h
      exact ⟨ha, fun hx => by cases hx⟩
  | .FuncDef name params body back_expr, a, t, b, hw, ha, h => by
    rw [wellFormed, Bool.and_eq_true] at hw
    rw [visit] at h
    simp only [Outcome.bind_eq, Outcome.pure_eq] at h
    split at h
    · cases h
    · obtain ⟨a1, h1, h3⟩ := Outcome.bind_eq_ok.1 h
      obtain ⟨a2, h2, h4⟩ := Outcome.bind_eq_ok.1 h3
      obtain ⟨⟨t3, a3⟩, h5, h6⟩ := Outcome.bind_eq_ok.1 h4
      cases h6
      have g1 := declareParams_good params _ a1
        (goodScopes_enter (goodScopes_functions _ ha)) h1
      have g2 := visitAll_good body _ a2 hw.1 (goodScopes_in_func _ g1) h2
      have g3 := (visit_good back_expr a2 t3 a3 hw.2 g2 h5).1
      exact ⟨goodScopes_exit (goodScopes_in_func _ g3), fun hx => by cases hx⟩
  | .FuncCall name args, a, t, b, hw, ha, h => by
    rw [wellFormed] at hw
    rw [visit] at h
    split at h
    · cases h
    · split at h
      · cases h
      · simp only [Outcome.bind_eq, Outcome.pure_eq] at h
        obtain ⟨a1, h1, h3⟩ := Outcome.bind_eq_ok.1 h
        cases h3
        exact ⟨visitAll_good args a _ hw ha h1, fun _ => by decide⟩
  | .BinOp left op_type op_value right, a, t, b, hw, ha, h => by
    rw [wellFormed, Bool.and_eq_true, Bool.and_eq_true, decide_eq_true_eq] at hw
    rw [visit] at h
    simp only [Outcome.bind_eq, Outcome.pure_eq] at h
    obtain ⟨⟨lt, a1⟩, h1, h3⟩ := Outcome.bind_eq_ok.1 h
    obtain ⟨⟨rt, a2⟩, h2, h4⟩ := Outcome.bind_eq_ok.1 h3
    obtain ⟨t2, ht, h5⟩ := Outcome.bind_eq_ok.1 h4
    cases h5
    have g1 := (visit_good left a lt a1 hw.1.2 ha h1).1
    exact ⟨(visit_good right a1 rt _ hw.2 g1 h2).1,
      fun _ => exprTypes_of_literalTypes ((binOpType_sat hw.1.1 lt rt).of_ok ht)⟩
  | .UnaryOp op_type op_value expr, a, t, b, hw, ha, h => by
    rw [wellFormed, Bool.and_eq_true, decide_eq_true_eq] at hw
    rw [visit] at h
    simp only [Outcome.bind_eq, Outcome.pure_eq] at h
    obtain ⟨⟨et, a1⟩, h1, h3⟩ := Outcome.bind_eq_ok.1 h
    obtain ⟨t2, ht, h5⟩ := Outcome.bind_eq_ok.1 h3
    cases h5
    rw [hw.1] at ht
    refine ⟨(visit_good expr a et _ hw.2 ha h1).1, fun _ => ?_⟩
    rw [(unaryOpType_sat et).of_ok ht]
    decide
  | .Literal value lit_type, a, t, b, hw, ha, h => by
    rw [wellFormed, decide_eq_true_eq] at hw
    rw [visit] at h
    cases h
    exact ⟨ha, fun _ => exprTypes_of_literalTypes hw⟩
  | .Identifier name, a, t, b, _, ha, h => by
    rw [visit] at h
    simp only [Outcome.bind_eq, Outcome.pure_eq] at h
    obtain ⟨s, hl, h3⟩ := Outcome.bind_eq_ok.1 h
    cases h3
    exact ⟨ha, fun _ => exprTypes_of_typeNames (lookup_var_good ha hl)⟩

theorem visitAll_good : ∀ (l : List ASTNode) (a b : SemanticAnalyzer),
    allWellFormed l = true → goodScopes a → visitAll a l = .ok b → goodScopes b
  | [], a, b, _, ha, h => by
    rw [visitAll] at h
    cases h
    exact ha
  | s :: rest, a, b, hw, ha, h => by
    rw [allWellFormed, Bool.and_eq_true] at hw
    rw [visitAll] at h
    simp only [Outcome.bind_eq] at h
    obtain ⟨⟨t1, a1⟩, h1, h2⟩ := Outcome.bind_eq_ok.1 h
    exact visitAll_good rest a1 b hw.2 (visit_good s a t1 a1 hw.1 ha h1).1 h2

theorem visitCases_good : ∀ (l : List (ASTNode × List ASTNode)) (a b : SemanticAnalyzer),
    casesWellFormed l = true → goodScopes a → visitCases a l = .ok b → goodScopes b
  | [], a, b, _, ha, h => by
    rw [visitCases] at h
    cases h
    exact ha
  | (cond, body) :: rest, a, b, hw, ha, h => by
    rw [casesWellFormed, Bool.and_eq_true, Bool.and_eq_true] at hw
    rw [visitCases] at h
    simp only [Outcome.bind_eq] at h
    obtain ⟨⟨ct, a1⟩, h1, h3⟩ := Outcome.bind_eq_ok.1 h
    dsimp only at h3
    split at h3
    · cases h3
    · obtain ⟨a2, h2, h4⟩ := Outcome.bind_eq_ok.1 h3
      have g1 := (visit_good cond a ct a1 hw.1.1 ha h1).1
      have g2 := visitAll_good body _ a2 hw.1.2 (goodScopes_enter g1) h2
      exact visitCases_good rest _ b hw.2 (goodScopes_exit g2) h4

end

theorem allWellFormed_split (pre post : List ASTNode) (s : ASTNode)
    (h : allWellFormed (pre ++ s :: post) = true) :
    allWellFormed pre = true ∧ wellFormed s = true := by
  induction pre with
  | nil =>
    rw [List.nil_append, allWellFormed, Bool.and_eq_true] at h
    exact ⟨rfl, h.1⟩
  | cons x xs ih =>
    rw [List.cons_append, allWellFormed, Bool.and_eq_true] at h
    obtain ⟨h1, h2⟩ := ih h.2
    exact ⟨by rw [allWellFormed, h.1, h1]; rfl, h2⟩

theorem casesWellFormed_split (pre post : List (ASTNode × List ASTNode)) (c : ASTNode)
    (body : List ASTNode) (h : casesWellFormed (pre ++ (c, body) :: post) = true) :
    casesWellFormed pre = true ∧ wellFormed c = true ∧ allWellFormed body = true := by
  induction pre with
  | nil =>
    rw [List.nil_append, casesWellFormed, Bool.and_eq_true, Bool.and_eq_true] at h
    exact ⟨rfl, h.1.1, h.1.2⟩
  | cons x xs ih =>
    obtain ⟨c1, b1⟩ := x
    rw [List.cons_append, casesWellFormed, Bool.and_eq_true] at h
    obtain ⟨h1, h2, h3⟩ := ih h.2
    exact ⟨by rw [casesWellFormed, h.1, h1]; rfl, h2, h3⟩

theorem listChild_good {a a1 : SemanticAnalyzer} {l : List ASTNode} {s : ASTNode}
    (h : ListChild a l a1 s) (hw : allWellFormed l = true) (ha : goodScopes a) :
    wellFormed s = true ∧ goodScopes a1 := by
  cases h with
  | mk hv =>
    obtain ⟨h1, h2⟩ := allWellFormed_split _ _ _ hw
    exact ⟨h2, visitAll_good _ a a1 h1 ha hv⟩

/-- A child of a well-formed node is well formed, and it is visited in a state whose
variables are bound to type names when the visit of the node starts in such a state. -/
theorem child_good {a a1 : SemanticAnalyzer} {n c : ASTNode} (h : Child a n a1 c)
    (hw : wellFormed n = true) (ha : goodScopes a) : wellFormed c = true ∧ goodScopes a1 := by
  cases h with
  | program hl =>
    rw [wellFormed] at hw
    exact listChild_good hl hw ha
  | varDecl =>
    rw [wellFormed, Bool.and_eq_true] at hw
    exact ⟨hw.2, ha⟩
  | assign _ =>
    rw [wellFormed] at hw
    exact ⟨hw, ha⟩
  | show_ =>
    rw [wellFormed] at hw
    exact ⟨hw, ha⟩
  | whenCond hv =>
    rw [wellFormed, Bool.and_eq_true] at hw
    obtain ⟨h1, h2, _⟩ := casesWellFormed_split _ _ _ _ hw.1
    exact ⟨h2, visitCases_good _ _ _ h1 ha hv⟩
  | whenBody hv hc _ hl =>
    rw [wellFormed, Bool.and_eq_true] at hw
    obtain ⟨h1, h2, h3⟩ := casesWellFormed_split _ _ _ _ hw.1
    have g1 := visitCases_good _ _ _ h1 ha hv
    have g2 := (visit_good _ _ _ _ h2 g1 hc).1
    exact listChild_good hl h3 (goodScopes_enter g2)
  | whenElse hv hl =>
    rw [wellFormed, Bool.and_eq_true] at hw
    exact listChild_good hl hw.2 (goodScopes_enter (visitCases_good _ _ _ hw.1 ha hv))
  | loopStart =>
    rw [wellFormed, Bool.and_eq_true, Bool.and_eq_true] at hw
    exact ⟨hw.1.1, ha⟩
  | loopEnd hs =>
    rw [wellFormed, Bool.and_eq_true, Bool.and_eq_true] at hw
    exact ⟨hw.1.2, (visit_good _ _ _ _ hw.1.1 ha hs).1⟩
  | loopBody hs he _ _ hd hl =>
    rw [wellFormed, Bool.and_eq_true, Bool.and_eq_true] at hw
    have g1 := (visit_good _ _ _ _ hw.1.1 ha hs).1
    have g2 := (visit_good _ _ _ _ hw.1.2 g1 he).1
    have g3 := declare_var_good (by decide) (goodScopes_enter g2) hd
    exact listChild_good hl hw.2 (goodScopes_in_loop _ g3)
  | funcBody _ hd hl =>
    rw [wellFormed, Bool.and_eq_true] at hw
    have g1 := declareParams_good _ _ _ (goodScopes_enter (goodScopes_functions _ ha)) hd
    exact listChild_good hl hw.1 (goodScopes_in_func _ g1)
  | funcBack _ hd hv =>
    rw [wellFormed, Bool.and_eq_true] at hw
    have g1 := declareParams_good _ _ _ (goodScopes_enter (goodScopes_functions _ ha)) hd
    exact ⟨hw.2, visitAll_good _ _ _ hw.1 (goodScopes_in_func _ g1) hv⟩
  | callArg _ _ hl =>
    rw [wellFormed] at hw
    exact listChild_good hl hw ha
  | binLeft =>
    rw [wellFormed, Bool.and_eq_true, Bool.and_eq_true] at hw
    exact ⟨hw.1.2, ha⟩
  | binRight hl =>
    rw [wellFormed, Bool.and_eq_true, Bool.and_eq_true] at hw
    exact ⟨hw.2, (visit_good _ _ _ _ hw.1.2 ha hl).1⟩
  | unary =>
    rw [wellFormed, Bool.and_eq_true] at hw
    exact ⟨hw.2, ha⟩

/-- Every call of `visit` made while a well-formed node is visited, from a state whose
variables are bound to type names, is on a well-formed node in such a state. -/
theorem visited_good {a0 a : SemanticAnalyzer} {root n : ASTNode}
    (h : Visited a0 root a n) (hw : wellFormed root = true) (ha : goodScopes a0) :
    wellFormed n = true ∧ goodScopes a := by
  induction h with
  | root => exact ⟨hw, ha⟩
  | step _ hc ih => exact child_good hc ih.1 ih.2

/-- C28: the tree that `Parser::parse` returns on the tokens that `tokenize` returns is
well formed: every `VarDecl` has `num`, `text` or `flag` as `vartype`, every `BinOp` one
of the ten operator tags, every `UnaryOp` the tag `MINUS`, every `Literal` the type
`num`, `text` or `bool` (a child is a node by the type of the tree).  The visit of such
a tree, from any analyzer state, raises neither "Unknown binary op" nor "Unhandled AST
node in semantic analyzer", and neither does the analysis of the source.  Every call of
`visit` made on an expression node while the tree is visited, from a state whose
variables are bound to the three type names, as the state of a fresh analyzer is,
returns one of the types `num`, `text`, `bool` and `flag` when it returns, never the
empty type. -/
theorem parsed_tree_consistent (source : List Char) (ast : ASTNode)
    (h : parseSource source = .ok ast) :
    wellFormed ast = true ∧
      (∀ (a : SemanticAnalyzer) (e : SemanticError), visit a ast = .error e →
        e ≠ .unknownBinaryOp ∧ e ≠ .unhandledNode) ∧
      analyzeSource source ≠ .error (.semantic .unknownBinaryOp) ∧
      analyzeSource source ≠ .error (.semantic .unhandledNode) ∧
      goodScopes SemanticAnalyzer.new ∧
      ∀ (a0 a b : SemanticAnalyzer) (n : ASTNode) (t : List Char), goodScopes a0 →
        Visited a0 ast a n → isExprNode n = true → visit a n = .ok (t, b) →
          t ∈ exprTypes ∧ t ≠ [] := by
  have hw := parseSource_wellFormed h
  have herr : ∀ (a : SemanticAnalyzer) (e : SemanticError), visit a ast = .error e →
      e ≠ .unknownBinaryOp ∧ e ≠ .unhandledNode := by
    intro a e he
    have hs := visit_errors ast a hw
    rw [he] at hs
    exact ⟨fun h1 => hs (Or.inl h1), fun h2 => hs (Or.inr h2)⟩
  have han : ∀ e, analyzeSource source = .error (.semantic e) →
      e ≠ .unknownBinaryOp ∧ e ≠ .unhandledNode := by
    intro e he
    unfold analyzeSource at he
    rw [h] at he
    dsimp only at he
    unfold analyze at he
    cases hv : visit SemanticAnalyzer.new ast with
    | ok r => rw [hv] at he; cases he
    | error e1 =>
      rw [hv] at he
      cases he
      exact herr _ _ hv
    | outOfFuel => rw [hv] at he; cases he
  refine ⟨hw, herr, fun he => (han _ he).1 rfl, fun he => (han _ he).2 rfl, goodScopes_new, ?_⟩
  intro a0 a b n t ha0 hvis hx hv
  obtain ⟨hwn, hga⟩ := visited_good hvis hw ha0
  have ht := (visit_good n a t b hwn hga hv).2 hx
  refine ⟨ht, ?_⟩
  rintro rfl
  revert ht
  decide

/-- Witness of C28: the tree of `start num x=-1+2 end`; and a tree that `parse` does not
build, a `BinOp` tagged `ASSIGN`, on which the analyzer raises "Unknown binary op". -/
theorem parsed_tree_consistent_witness :
    wellFormed (.Program [.VarDecl "num".toList "x".toList
        (.BinOp (.UnaryOp .MINUS "-".toList (.Literal "1".toList "num".toList)) .PLUS
          "+".toList (.Literal "2".toList "num".toList))]) = true ∧
      analyzeSource "start num x=-1+2 end".toList ≠ .error (.semantic .unknownBinaryOp) ∧
      visit SemanticAnalyzer.new (.BinOp (.Literal "1".toList "num".toList) .ASSIGN
        "=".toList (.Literal "2".toList "num".toList)) = .error .unknownBinaryOp :=
  ⟨(parsed_tree_consistent "start num x=-1+2 end".toList
      (.Program [.VarDecl "num".toList "x".toList
        (.BinOp (.UnaryOp .MINUS "-".toList (.Literal "1".toList "num".toList)) .PLUS
          "+".toList (.Literal "2".toList "num".toList))]) rfl).1,
    (parsed_tree_consistent "start num x=-1+2 end".toList
      (.Program [.VarDecl "num".toList "x".toList
        (.BinOp (.UnaryOp .MINUS "-".toList (.Literal "1".toList "num".toList)) .PLUS
          "+".toList (.Literal "2".toList "num".toList))]) rfl).2.2.1,
    by decide⟩

end NovaLang
